import Mathlib

/-!
# QuadVtx: vertex finding from pairwise line intersections

A shallow embedding of `larreco/QuadVtx/QuadVtx_module.cc`.

Conventions of the embedding.

* `float` and `double` values are rational numbers and the arithmetic is exact (no rounding,
  no overflow).  The only way a value stops being finite is a division by zero; such a value
  is `none` in `FP`.  Statements proved with these definitions hold in exact arithmetic.
* The section "Floating-point values" models the rounding of `float` and `double` (`Fl`,
  `round32`, `round64`); the definitions with the suffix `32` compute as the source does, and
  the statements about them show where the source departs from exact arithmetic.
* `sqrt` comes from the C library; the functions that use it take it as a parameter.
* `larreco/QuadVtx/HeatMap.h` is not among the sources.  The bin conversions of a `HeatMap`
  are fields of the structure, and its constructor is a parameter of `FindVtx`.
* `std::vector` is `List`; loop counters and sizes are natural numbers, which agrees with the
  `unsigned int` counters and the `size_t` sizes of the source as long as the vectors have fewer
  than `2^31` elements.  The conversion of a `size_t` to `int stride` in `LinesFromPoints` is
  modelled with its wrap-around.
* `std::sort` is an insertion sort on the slope; the C++ standard leaves the relative order of
  lines with equal slope open, and this is one of the permitted outcomes.
-/

namespace quad

/-- The template `sqr` of the anonymous namespace. -/
def sqr (x : ℚ) : ℚ := x * x

/-- The struct `Pt2D`. -/
structure Pt2D where
  x : ℚ
  z : ℚ
  view : Int
  energy : ℚ
deriving DecidableEq

/-- A `float` or `double` in exact arithmetic: `some q` is the finite value `q`, and `none` is a
value that is not finite (an infinity or a NaN). -/
abbrev FP := Option ℚ

/-- Division of two finite values; dividing by zero gives an infinity or a NaN. -/
def FP.div (a b : ℚ) : FP := if b = 0 then none else some (a / b)

/-- Product with a finite value; a value that is not finite stays so. -/
def FP.mul (m : FP) (b : ℚ) : FP := m.map (fun q => q * b)

/-- Subtraction from a finite value; a value that is not finite stays so. -/
def FP.rsub (a : ℚ) (m : FP) : FP := m.map (fun q => a - q)

/-- The members of `Line2D` as the constructor computes them, before the `isinf`/`isnan` test. -/
structure RawLine2D where
  m : FP
  c : FP
  minz : ℚ
  maxz : ℚ
deriving DecidableEq

/-- The struct `Line2D` with finite members: every line stored in a vector of lines that
`LinesFromPoints` filled has passed the `isinf`/`isnan` test. -/
structure Line2D where
  m : ℚ
  c : ℚ
  minz : ℚ
  maxz : ℚ
deriving DecidableEq

/-- The constructor `Line2D(a, b)`: `m((b.x-a.x)/(b.z-a.z)), c(b.x-m*b.z)`,
`minz(min(a.z, b.z)), maxz(max(a.z, b.z))`, in exact arithmetic; `Line2D.ctor32` is the
constructor with the rounding of `double` and `float`. -/
def Line2D.ctor (a b : Pt2D) : RawLine2D :=
  let m := FP.div (b.x - a.x) (b.z - a.z)
  { m := m, c := FP.rsub b.x (FP.mul m b.z), minz := min a.z b.z, maxz := max a.z b.z }

/-- The test `if(isinf(l.m) || isnan(l.m) || isinf(l.c) || isnan(l.c)) continue;`:
`none` when the line is skipped, the line with its finite members otherwise. -/
def RawLine2D.checked (l : RawLine2D) : Option Line2D :=
  match l.m, l.c with
  | some m, some c => some { m := m, c := c, minz := l.minz, maxz := l.maxz }
  | _, _ => none

/-- The function `IntersectsCircle`: `none` for `return false`, and `some (z1, z2)` for
`return true` with the two output parameters. -/
def IntersectsCircle (sqrt : ℚ → ℚ) (m c z0 x0 R : ℚ) : Option (ℚ × ℚ) :=
  let c := c + (m * z0 - x0)
  let A := 1 + sqr m
  let B := 2 * m * c
  let C := sqr c - sqr R
  let desc := sqr B - 4 * A * C
  if desc < 0 then none
  else
    let desc := sqrt desc
    let z1 := (-B - desc) / (2 * A)
    let z2 := (-B + desc) / (2 * A)
    some (z1 + z0, z2 + z0)

/-- The constant `kMaxLines` of `LinesFromPoints`. -/
def kMaxLines : Nat := 10 * 1000 * 1000

/-- Conversion of an unsigned value to `int` (two's complement, 32 bits). -/
def toInt32 (n : Nat) : Int :=
  if n % 2 ^ 32 < 2 ^ 31 then ((n % 2 ^ 32 : Nat) : Int) else ((n % 2 ^ 32 : Nat) : Int) - 2 ^ 32

/-- The value `(pts.size()*(pts.size()-1))/2`.  For an empty vector `pts.size()-1` wraps around
in `size_t`, and the product with `pts.size() = 0` is zero, as it is here with the truncated
subtraction; otherwise the value is exact as long as it fits 64 bits. -/
def pairProduct (N : Nat) : Nat := (N * (N - 1)) / 2

/-- The values of `j` in `for(j = start; j < bound; j += stride)`, for `stride ≥ 1`. -/
def strideRange (start bound stride : Nat) : List Nat :=
  (List.range ((bound - start + stride - 1) / stride)).map (fun k => start + k * stride)

/-- The index pairs `(i, j)` in the order in which the three nested loops of `LinesFromPoints`
visit them. -/
def pairOrder (N : Nat) (stride : Int) : List (Nat × Nat) :=
  (List.range stride.toNat).flatMap fun offset =>
    (List.range N).flatMap fun i =>
      (strideRange (i + offset + 1) N stride.toNat).map fun j => (i, j)

/-- The body of the innermost loop of `LinesFromPoints` up to the `push_back`: `none` when one
of the `continue` statements is taken, `some l` when `l` is pushed. -/
def lineCandidate (sqrt : ℚ → ℚ) (z0 x0 R : ℚ) (a b : Pt2D) : Option Line2D :=
  match (Line2D.ctor a b).checked with
  | none => none
  | some l =>
    if R > 0 then
      match IntersectsCircle sqrt l.m l.c z0 x0 (5 / 2) with
      | none => none
      | some (z1, z2) =>
        if l.minz < z1 ∧ l.minz < z2 ∧ l.maxz > z1 ∧ l.maxz > z2 then none else some l
    else some l

/-- The three nested loops of `LinesFromPoints` run over the remaining index pairs; reaching
`lines.size() == kMaxLines` after a `push_back` leaves all three loops (`goto end`). -/
def pushLines (sqrt : ℚ → ℚ) (z0 x0 R : ℚ) (pts : List Pt2D) :
    List (Nat × Nat) → List Line2D → List Line2D
  | [], lines => lines
  | (i, j) :: rest, lines =>
    match pts[i]?, pts[j]? with
    | some a, some b =>
      match lineCandidate sqrt z0 x0 R a b with
      | none => pushLines sqrt z0 x0 R pts rest lines
      | some l =>
        if (lines ++ [l]).length = kMaxLines then lines ++ [l]
        else pushLines sqrt z0 x0 R pts rest (lines ++ [l])
    | _, _ => pushLines sqrt z0 x0 R pts rest lines

/-- The order `operator<` of `Line2D` compares slopes; `≤` on slopes is total. -/
instance slopeLeTotal : IsTotal Line2D (fun a b => a.m ≤ b.m) :=
  ⟨fun a b => le_total a.m b.m⟩

/-- The order on slopes is transitive. -/
instance slopeLeTrans : IsTrans Line2D (fun a b => a.m ≤ b.m) :=
  ⟨fun _ _ _ hab hbc => le_trans hab hbc⟩

/-- The function `LinesFromPoints(pts, lines, z0, x0, R)`; `lines` is the vector on entry and the
result is the vector on exit.  The default arguments are `z0 = 0, x0 = 0, R = -1`. -/
def LinesFromPoints (sqrt : ℚ → ℚ) (pts : List Pt2D) (lines : List Line2D) (z0 x0 R : ℚ) :
    List Line2D :=
  let product := pairProduct pts.length
  let stride := toInt32 (product / kMaxLines + 1)
  List.insertionSort (fun a b => a.m ≤ b.m)
    (pushLines sqrt z0 x0 R pts (pairOrder pts.length stride) lines)

/-- Modelled from the spec: the class `HeatMap` of `larreco/QuadVtx/HeatMap.h`, which is not among
the sources.  It is "a dense 2D array of accumulated weight over `Nz × Nx` bins" with "bin-index /
bin-center conversions"; the entry of bin `(iz, ix)` is `map[iz*Nx + ix]`, as `MapFromLines` and
`FindPeak3D` address it.  The four conversions are fields, so every statement about a `HeatMap`
holds for whatever conversions the header defines. -/
structure HeatMap where
  Nz : Nat
  Nx : Nat
  map : List ℚ
  ZToBin : ℚ → Int
  XToBin : ℚ → Int
  ZBinCenter : Nat → ℚ
  XBinCenter : Nat → ℚ

/-- The constant `cosCrit = cos(10*3.14159/180.)` as a `float`. -/
def cosCrit : ℚ := 16522333 / 16777216

/-- The function `CloseAngles` in exact arithmetic; `CloseAngles32` is the function with the
rounding of `float`. -/
def CloseAngles (ma mb : ℚ) : Bool :=
  let dot := 1 + ma * mb
  decide (sqr dot > (1 + sqr ma) * (1 + sqr mb) * sqr cosCrit)

/-- The constant `kMaxPts` of `MapFromLines`. -/
def kMaxPts : Nat := 10 * 1000 * 1000

/-- The loop `while(j < lines.size() && p(lines[j])) ++j;`: the value of `j` after it. -/
def advanceWhile (p : Line2D → Bool) (lines : List Line2D) (j : Nat) : Nat :=
  j + ((lines.drop j).takeWhile p).length

/-- The four pointer updates at the head of iteration `i` of either pass of `MapFromLines`, for
`a = lines[i]`: the new values of `j0` and `jmax`. -/
def window (lines : List Line2D) (a : Line2D) (i j0 jmax : Nat) : Nat × Nat :=
  let j0 := advanceWhile (fun b => CloseAngles a.m b.m) lines (max j0 (i + 1))
  let jmax := advanceWhile (fun b => !CloseAngles a.m b.m) lines (max jmax j0)
  (j0, jmax)

/-- One iteration of the first pass of `MapFromLines` on the state `(j0, jmax, npts)`. -/
def countStep (lines : List Line2D) (st : Nat × Nat × Nat) (i : Nat) : Nat × Nat × Nat :=
  match lines[i]? with
  | none => st
  | some a =>
    let w := window lines a i st.1 st.2.1
    (w.1, w.2, st.2.2 + (w.2 - w.1))

/-- The value of `npts` after the first pass of `MapFromLines`. -/
def countPts (lines : List Line2D) : Nat :=
  ((List.range (lines.length - 1)).foldl (countStep lines) (0, 0, 0)).2.2

/-- The body of the innermost loop of `MapFromLines` for the lines `a` and `b`, in exact
arithmetic (`vote32` is the body with the rounding of `float`).  When `a.m - b.m` is zero, `z`
is not finite and no bin is changed. -/
def vote (stride : Nat) (a b : Line2D) (hm : HeatMap) : HeatMap :=
  match FP.div (b.c - a.c) (a.m - b.m) with
  | none => hm
  | some z =>
    let x := a.m * z + a.c
    if (z < a.minz ∨ z > a.maxz) ∧ (z < b.minz ∨ z > b.maxz) then
      let iz := hm.ZToBin z
      let ix := hm.XToBin x
      if iz ≥ 0 ∧ iz < hm.Nz ∧ ix ≥ 0 ∧ ix < hm.Nx then
        { hm with map := hm.map.modify (fun w => w + stride) (iz.toNat * hm.Nx + ix.toNat) }
      else hm
    else hm

/-- The loop `for(j = j0; j < jmax; j += stride)` of `MapFromLines`, over the values of `j`. -/
def voteRow (stride : Nat) (lines : List Line2D) (a : Line2D) (js : List Nat) (hm : HeatMap) :
    HeatMap :=
  js.foldl (fun h j => match lines[j]? with
    | none => h
    | some b => vote stride a b h) hm

/-- One iteration of the second pass of `MapFromLines` on the state `(j0, jmax, hm)`. -/
def voteStep (stride : Nat) (lines : List Line2D) (st : Nat × Nat × HeatMap) (i : Nat) :
    Nat × Nat × HeatMap :=
  match lines[i]? with
  | none => st
  | some a =>
    let w := window lines a i st.1 st.2.1
    (w.1, w.2, voteRow stride lines a (strideRange w.1 w.2 stride) st.2.2)

/-- The function `MapFromLines(lines, hm)`: the heat map on exit. -/
def MapFromLines (lines : List Line2D) (hm : HeatMap) : HeatMap :=
  let npts := countPts lines
  let stride := npts / kMaxPts + 1
  ((List.range (lines.length - 1)).foldl (voteStep stride lines) (0, 0, hm)).2.2

/-- The class `TVector3` of ROOT: three coordinates; the default constructor gives zero. -/
structure TVector3 where
  X : ℚ
  Y : ℚ
  Z : ℚ
deriving DecidableEq

/-- The method `TVector3::Dot`. -/
def TVector3.Dot (a b : TVector3) : ℚ := a.X * b.X + a.Y * b.Y + a.Z * b.Z

/-- A 2x2 `TMatrixD`, row by row. -/
structure Mat2 where
  m00 : ℚ
  m01 : ℚ
  m10 : ℚ
  m11 : ℚ
deriving DecidableEq

/-- The method `TMatrixD::Invert` on a 2x2 matrix, in exact arithmetic. -/
def Mat2.Invert (M : Mat2) : Mat2 :=
  let det := M.m00 * M.m11 - M.m10 * M.m01
  { m00 := M.m11 / det, m01 := -M.m01 / det, m10 := -M.m10 / det, m11 := M.m00 / det }

/-- The value `*std::max_element(&map[Nx*iz], &map[Nx*(iz+1)])`. -/
def rowMax (map : List ℚ) (Nx iz : Nat) : ℚ :=
  match (map.drop (Nx * iz)).take Nx with
  | [] => 0
  | v :: vs => vs.foldl max v

/-- The vector `colMax[view]` of `FindPeak3D`. -/
def colMax (Nx : Nat) (h : HeatMap) : List ℚ :=
  (List.range h.Nz).map (fun iz => rowMax h.map Nx iz)

/-- The entry `h[ix]` of the row pointer `h = &hs.map[Nx*iz]`. -/
def rowAt (h : HeatMap) (Nx iz ix : Nat) : ℚ := h.map.getD (Nx * iz + ix) 0

/-- The value `score` of `FindPeak3D` for the bins `iz`, `iu`, `iv` and the drift bin `ix`
(`bonus` is 1). -/
def score (hs0 hs1 hs2 : HeatMap) (iz iu iv ix : Nat) : ℚ :=
  1 * (rowAt hs0 hs0.Nx iz ix + rowAt hs1 hs0.Nx iu ix + rowAt hs2 hs0.Nx iv ix)

/-- One iteration of the loop over `ix` in `FindPeak3D` on the state `(bestscore, bestix)`;
`bestix = -1` is `none`. -/
def scanStep (sc : Nat → ℚ) (st : ℚ × Option Nat) (ix : Nat) : ℚ × Option Nat :=
  if sc ix > st.1 then (sc ix, some ix) else st

/-- The view-2 coordinate `v` that `FindPeak3D` derives from the bins `iz` and `iu`, together
with `y = r(0)` and `z`. -/
def implied (hs0 hs1 : HeatMap) (Minv : Mat2) (d2 : TVector3) (iz iu : Nat) : ℚ × ℚ × ℚ :=
  let z := hs0.ZBinCenter iz
  let u := hs1.ZBinCenter iu
  let r0 := Minv.m00 * z + Minv.m01 * u
  let r1 := Minv.m10 * z + Minv.m11 * u
  let v := r0 * d2.Y + r1 * d2.Z
  (v, r0, z)

/-- The body of the loop over `iu` in `FindPeak3D` on the state `(bestscore, bestr)`. -/
def peakStep (hs0 hs1 hs2 : HeatMap) (Minv : Mat2) (d2 : TVector3) (iz : Nat)
    (st : ℚ × TVector3) (iu : Nat) : ℚ × TVector3 :=
  let Nx := hs0.Nx
  let p := implied hs0 hs1 Minv d2 iz iu
  let iv := hs2.ZToBin p.1
  if iv < 0 ∨ iv ≥ hs2.Nz then st
  else if (colMax Nx hs0).getD iz 0 + (colMax Nx hs1).getD iu 0
      + (colMax Nx hs2).getD iv.toNat 0 < st.1 then st
  else
    let r := (List.range' 1 (Nx - 2)).foldl (scanStep (score hs0 hs1 hs2 iz iu iv.toNat))
      (st.1, none)
    match r.2 with
    | some bestix => (r.1, { X := hs0.XBinCenter bestix, Y := p.2.1, Z := p.2.2 })
    | none => (r.1, st.2)

/-- The two nested loops of `FindPeak3D` over `iz` and `iu`: the final `(bestscore, bestr)`. -/
def peakSearch (hs0 hs1 hs2 : HeatMap) (Minv : Mat2) (d2 : TVector3) : ℚ × TVector3 :=
  (List.range hs0.Nz).foldl
    (fun st iz => (List.range hs1.Nz).foldl (peakStep hs0 hs1 hs2 Minv d2 iz) st)
    (-1, { X := 0, Y := 0, Z := 0 })

/-- The matrix `M` of `FindPeak3D`: `M(0,0) = dirs[0].Y()`, `M(0,1) = dirs[0].Z()`,
`M(1,0) = dirs[1].Y()`, `M(1,1) = dirs[1].Z()`. -/
def dirMatrix (d0 d1 : TVector3) : Mat2 :=
  { m00 := d0.Y, m01 := d0.Z, m10 := d1.Y, m11 := d1.Z }

/-- The function `FindPeak3D(hs, dirs)` for `hs = {hs0, hs1, hs2}` and `dirs = {d0, d1, d2}`. -/
def FindPeak3D (hs0 hs1 hs2 : HeatMap) (d0 d1 d2 : TVector3) : TVector3 :=
  let M := dirMatrix d0 d1
  if M.m00 * M.m11 - M.m10 * M.m01 = 0 then { X := 0, Y := 0, Z := 0 }
  else (peakSearch hs0 hs1 hs2 M.Invert d2).2

/-- The bin `iv` of view 2 that `FindPeak3D` derives from the bins `iz` and `iu`. -/
def impliedBin (hs0 hs1 hs2 : HeatMap) (Minv : Mat2) (d2 : TVector3) (iz iu : Nat) : Int :=
  hs2.ZToBin (implied hs0 hs1 Minv d2 iz iu).1

/-- The point `TVector3(hs[0].XBinCenter(ix), y, z)` that `FindPeak3D` stores for the bins `iz`,
`iu` and the drift bin `ix`. -/
def peakPoint (hs0 hs1 : HeatMap) (Minv : Mat2) (d2 : TVector3) (iz iu ix : Nat) : TVector3 :=
  { X := hs0.XBinCenter ix, Y := (implied hs0 hs1 Minv d2 iz iu).2.1,
    Z := (implied hs0 hs1 Minv d2 iz iu).2.2 }

/-- The state `(bestscore, bestr)` of `FindPeak3D` is either the initial one or the score and the
point of a combination of bins in range at an interior drift bin. -/
def PeakAttained (hs0 hs1 hs2 : HeatMap) (Minv : Mat2) (d2 : TVector3) (st : ℚ × TVector3) :
    Prop :=
  st = (-1, { X := 0, Y := 0, Z := 0 }) ∨
  ∃ iz iu ix, iz < hs0.Nz ∧ iu < hs1.Nz ∧
    0 ≤ impliedBin hs0 hs1 hs2 Minv d2 iz iu ∧ impliedBin hs0 hs1 hs2 Minv d2 iz iu < hs2.Nz ∧
    1 ≤ ix ∧ ix + 1 < hs0.Nx ∧
    st = (score hs0 hs1 hs2 iz iu (impliedBin hs0 hs1 hs2 Minv d2 iz iu).toNat ix,
      peakPoint hs0 hs1 Minv d2 iz iu ix)

/-- The loop of `FindVtx` that computes `minx`, `maxx`, `minz[view]` and `maxz[view]` for the
points of one view, from the running values `(lo, hi)`. -/
def extentBy (f : Pt2D → ℚ) (pts : List Pt2D) (st : ℚ × ℚ) : ℚ × ℚ :=
  pts.foldl (fun s p => (min s.1 (f p), max s.2 (f p))) st

/-- The value `*mid` after `std::nth_element(zs.begin(), mid, zs.end())`: the element of that
rank in ascending order. -/
def nthElement (zs : List ℚ) (k : Nat) : ℚ :=
  (zs.insertionSort (fun a b => a ≤ b)).getD k 0

/-- The body of the first loop over the views in `FindVtx`: `none` for `return false`, the heat
map of the view otherwise.  `mk` is the constructor of `HeatMap`. -/
def coarseView (sqrt : ℚ → ℚ) (mk : ℚ → ℚ → ℚ → ℚ → ℚ → ℚ → HeatMap) (pts : List Pt2D)
    (minz maxz minx maxx : ℚ) : Option HeatMap :=
  let hm := mk (maxz - minz) minz maxz (maxx - minx) minx maxx
  if pts.isEmpty then none
  else
    let lines := LinesFromPoints sqrt pts [] 0 0 (-1)
    if lines.isEmpty then none
    else some (MapFromLines lines hm)

/-- The body of the second loop over the views in `FindVtx`: `none` for `return false`, the
zoomed heat map of the view otherwise. -/
def zoomView (sqrt : ℚ → ℚ) (mk : ℚ → ℚ → ℚ → ℚ → ℚ → ℚ → HeatMap) (pts : List Pt2D)
    (vtx dir : TVector3) : Option HeatMap :=
  let x0 := vtx.X
  let z0 := vtx.Dot dir
  let lines := LinesFromPoints sqrt pts [] z0 x0 (5 / 2)
  if lines.isEmpty then none
  else
    some (MapFromLines lines (mk 50 (z0 - 5 / 2) (z0 + 5 / 2) 50 (x0 - 5 / 2) (x0 + 5 / 2)))

/-- A loop of `FindVtx` over the three views, each iteration of which either returns false from
`FindVtx` (`none`) or appends a heat map to `hms`: the vector `hms` after the loop, or `none` when
an iteration returned false. -/
def allViews (r0 r1 r2 : Option HeatMap) : Option (HeatMap × HeatMap × HeatMap) :=
  match r0, r1, r2 with
  | some h0, some h1, some h2 => some (h0, h1, h2)
  | _, _, _ => none

/-- The part of `FindVtx` up to the first call of `FindPeak3D`: the bounds of the heat maps and
the first loop over the views. -/
def coarseScan (sqrt : ℚ → ℚ) (mk : ℚ → ℚ → ℚ → ℚ → ℚ → ℚ → HeatMap)
    (pts0 pts1 pts2 : List Pt2D) : Option (HeatMap × HeatMap × HeatMap) :=
  let ex := extentBy (fun p => p.x) pts2 (extentBy (fun p => p.x) pts1
    (extentBy (fun p => p.x) pts0 (1000000000, -1000000000)))
  let ez0 := extentBy (fun p => p.z) pts0 (1000000000, -1000000000)
  let ez1 := extentBy (fun p => p.z) pts1 (1000000000, -1000000000)
  let ez2 := extentBy (fun p => p.z) pts2 (1000000000, -1000000000)
  let minx := ex.1 - 20
  let maxx := ex.2 + 20
  let zs := pts0.map (fun p => p.z)
  let maxz0 := if zs.length / 4 < zs.length then nthElement zs (zs.length / 4) else ez0.2 + 100
  allViews (coarseView sqrt mk pts0 (ez0.1 - 100) maxz0 minx maxx)
    (coarseView sqrt mk pts1 (ez1.1 - 100) (ez1.2 + 100) minx maxx)
    (coarseView sqrt mk pts2 (ez2.1 - 100) (ez2.2 + 100) minx maxx)

/-- The second loop over the views in `FindVtx`, around the vertex `vtx` of the first pass. -/
def zoomScan (sqrt : ℚ → ℚ) (mk : ℚ → ℚ → ℚ → ℚ → ℚ → ℚ → HeatMap)
    (pts0 pts1 pts2 : List Pt2D) (vtx d0 d1 d2 : TVector3) :
    Option (HeatMap × HeatMap × HeatMap) :=
  allViews (zoomView sqrt mk pts0 vtx d0) (zoomView sqrt mk pts1 vtx d1)
    (zoomView sqrt mk pts2 vtx d2)

/-- The method `QuadVtx::FindVtx` as a function of the three lists of points `pts[view]` and the
three directions `dirs[view]` that `GetPts2D` hands over: `none` for `return false`, and
`some vtx` for `return true`.  `mk` is the constructor of `HeatMap`. -/
def FindVtx (sqrt : ℚ → ℚ) (mk : ℚ → ℚ → ℚ → ℚ → ℚ → ℚ → HeatMap)
    (pts0 pts1 pts2 : List Pt2D) (d0 d1 d2 : TVector3) : Option TVector3 :=
  match coarseScan sqrt mk pts0 pts1 pts2 with
  | none => none
  | some hms =>
    let vtx := FindPeak3D hms.1 hms.2.1 hms.2.2 d0 d1 d2
    match zoomScan sqrt mk pts0 pts1 pts2 vtx d0 d1 d2 with
    | none => none
    | some hms => some (FindPeak3D hms.1 hms.2.1 hms.2.2 d0 d1 d2)

/-- The accumulation as the specification words it, without the windowing: "for every admissible
pair of lines, a weighted vote at their intersection point", a pair `i < j` being admissible when
the two lines are not angularly close; the weight is 1. -/
def MapFromLinesNaive (lines : List Line2D) (hm : HeatMap) : HeatMap :=
  (List.range lines.length).foldl (fun h i =>
    (List.range lines.length).foldl (fun h j =>
      if i < j then
        match lines[i]?, lines[j]? with
        | some a, some b => if CloseAngles a.m b.m then h else vote 1 a b h
        | _, _ => h
      else h) h) hm

/-! ## Example inputs -/

/-- Modelled from the spec: a constructor of `HeatMap` (`larreco/QuadVtx/HeatMap.h` is not among
the sources): `Nz × Nx` bins of equal width "covering `[minz,maxz] × [minx,maxx]`", all weights
zero, with a "floor-based bin index" and the bin centres.  It serves as an example only. -/
def uniformMap (Nz minz maxz Nx minx maxx : ℚ) : HeatMap :=
  { Nz := ⌊Nz⌋.toNat
    Nx := ⌊Nx⌋.toNat
    map := List.replicate (⌊Nz⌋.toNat * ⌊Nx⌋.toNat) 0
    ZToBin := fun z => ⌊(z - minz) / (maxz - minz) * ⌊Nz⌋⌋
    XToBin := fun x => ⌊(x - minx) / (maxx - minx) * ⌊Nx⌋⌋
    ZBinCenter := fun iz => minz + (iz + 1 / 2) * (maxz - minz) / ⌊Nz⌋
    XBinCenter := fun ix => minx + (ix + 1 / 2) * (maxx - minx) / ⌊Nx⌋ }

/-- The three points `(x, z) = (0, 0), (5, 1), (0, 2)` of view 0. -/
def ptsTriangle : List Pt2D :=
  [{ x := 0, z := 0, view := 0, energy := 1 }, { x := 5, z := 1, view := 0, energy := 1 },
   { x := 0, z := 2, view := 0, energy := 1 }]

/-- Three lines through the origin with slopes `-60`, `-6` and `12`, each covering
`1 ≤ z ≤ 2`, in ascending order of slope. -/
def linesFan : List Line2D :=
  [{ m := -60, c := 0, minz := 1, maxz := 2 }, { m := -6, c := 0, minz := 1, maxz := 2 },
   { m := 12, c := 0, minz := 1, maxz := 2 }]

/-- A heat map of `2 × 2` bins over `[-1, 1] × [-1, 1]`. -/
def hmSquare : HeatMap := uniformMap 2 (-1) 1 2 (-1) 1

/-- View 0 of the example for `FindPeak3D`: one transverse bin over `[0, 1]`, three drift bins
over `[0, 3]`, and weight 5 in the first drift bin. -/
def hsEdge0 : HeatMap := { uniformMap 1 0 1 3 0 3 with map := [5, 0, 0] }

/-- Views 1 and 2 of the example for `FindPeak3D`: the same binning, all weights zero. -/
def hsEdge1 : HeatMap := uniformMap 1 0 1 3 0 3

/-- The direction of view 0, `dirZ = (0, 0, 1)`. -/
def dirZ : TVector3 := { X := 0, Y := 0, Z := 1 }

/-- A unit direction of view 1. -/
def dirU : TVector3 := { X := 0, Y := 3 / 5, Z := 4 / 5 }

/-- A unit direction of view 2. -/
def dirV : TVector3 := { X := 0, Y := -3 / 5, Z := 4 / 5 }

/-- The largest natural number whose square is at most `n`. -/
def natSqrt (n : Nat) : Nat := ((List.range (n + 1)).filter (fun k => k * k ≤ n)).length - 1

/-- An example of `sqrt`: the exact square root whenever the numerator and the denominator of the
argument are squares. -/
def sqrtQ (q : ℚ) : ℚ := (natSqrt q.num.toNat : ℚ) / (natSqrt q.den : ℚ)

/-- Two points `(x, z) = (0, -1), (0, 1)` of a view. -/
def ptsPair (view : Int) : List Pt2D :=
  [{ x := 0, z := -1, view := view, energy := 1 }, { x := 0, z := 1, view := view, energy := 1 }]

/-- The line `x = m*z + c` meets the circle of radius `R ≥ 0` around `(z0, x0)`: its distance
`|c + m*z0 - x0| / sqrt(1 + m^2)` from the centre is at most `R`. -/
def MeetsCircle (l : Line2D) (z0 x0 R : ℚ) : Prop :=
  (l.c + l.m * z0 - x0) ^ 2 ≤ R ^ 2 * (1 + l.m ^ 2)

instance (l : Line2D) (z0 x0 R : ℚ) : Decidable (MeetsCircle l z0 x0 R) := by
  unfold MeetsCircle
  infer_instance

/-- Two points `(x, z) = (2, 0), (2, 1)` of view 0: the line through them is `x = 2`. -/
def ptsLevel : List Pt2D :=
  [{ x := 2, z := 0, view := 0, energy := 1 }, { x := 2, z := 1, view := 0, energy := 1 }]

/-- The direction `(0, 1, 0)`. -/
def dirY : TVector3 := { X := 0, Y := 1, Z := 0 }

/-- A heat map with the binning of `hsEdge1` moved to the transverse range `[1, 2]`. -/
def hsShift : HeatMap := uniformMap 1 1 2 3 0 3

/-- The body of the innermost loop of `MapFromLines` for the pair of indices `p = (i, j)`. -/
def votePair (stride : Nat) (lines : List Line2D) (h : HeatMap) (p : Nat × Nat) : HeatMap :=
  match lines[p.1]?, lines[p.2]? with
  | some a, some b => vote stride a b h
  | _, _ => h

/-- One iteration of the second pass of `MapFromLines` with the heat map left out: the state is
`(j0, jmax, pairs)`, where `pairs` lists the index pairs `(i, j)` at which the inner loop has
evaluated an intersection so far. -/
def pairStep (stride : Nat) (lines : List Line2D) (st : Nat × Nat × List (Nat × Nat)) (i : Nat) :
    Nat × Nat × List (Nat × Nat) :=
  match lines[i]? with
  | none => st
  | some a =>
    let w := window lines a i st.1 st.2.1
    (w.1, w.2, st.2.2 ++ (strideRange w.1 w.2 stride).map (fun j => (i, j)))

/-- The index pairs `(i, j)` at which the second pass of `MapFromLines` evaluates an
intersection, in the order of evaluation. -/
def evalPairs (lines : List Line2D) : List (Nat × Nat) :=
  ((List.range (lines.length - 1)).foldl
    (pairStep (countPts lines / kMaxPts + 1) lines) (0, 0, [])).2.2

/-- The pointer updates of iteration `i` of either pass of `MapFromLines` on the pair
`(j0, jmax)`; both passes make the same updates. -/
def ptrStep (lines : List Line2D) (p : Nat × Nat) (i : Nat) : Nat × Nat :=
  match lines[i]? with
  | none => p
  | some a => window lines a i p.1 p.2

/-- The pointers `(j0, jmax)` of a pass of `MapFromLines` after the iterations `i = 0, ..., n-1`;
both are 0 before the first iteration. -/
def pointersAfter (lines : List Line2D) (n : Nat) : Nat × Nat :=
  (List.range n).foldl (ptrStep lines) (0, 0)

/-- Three lines through the origin with slopes `-1`, `0` and `1`, each covering `1 ≤ z ≤ 2`, in
ascending order of slope. -/
def linesCross : List Line2D :=
  [{ m := -1, c := 0, minz := 1, maxz := 2 }, { m := 0, c := 0, minz := 1, maxz := 2 },
   { m := 1, c := 0, minz := 1, maxz := 2 }]

/-- The heat map `h'` has the bin counts and the conversions of `h`, as many weights, and no
weight of `h'` is below the weight of `h` in the same place. -/
def HeatMap.Grows (h h' : HeatMap) : Prop :=
  h'.Nz = h.Nz ∧ h'.Nx = h.Nx ∧ h'.ZToBin = h.ZToBin ∧ h'.XToBin = h.XToBin ∧
  h'.ZBinCenter = h.ZBinCenter ∧ h'.XBinCenter = h.XBinCenter ∧
  h'.map.length = h.map.length ∧ ∀ k, h.map.getD k 0 ≤ h'.map.getD k 0

/-- Three points of view 0 with the same `z = 1`. -/
def ptsColumn : List Pt2D :=
  [{ x := 0, z := 1, view := 0, energy := 1 }, { x := 5, z := 1, view := 0, energy := 1 },
   { x := 2, z := 1, view := 0, energy := 1 }]

/-- The body of the loop over `iu` in `FindPeak3D` with the row-maxima test
`if(colMax[0][iz] + colMax[1][iu] + colMax[2][iv] < bestscore) continue;` removed: every
combination whose bin `iv` is in range is scanned over the drift axis. -/
def peakStepNoPrune (hs0 hs1 hs2 : HeatMap) (Minv : Mat2) (d2 : TVector3) (iz : Nat)
    (st : ℚ × TVector3) (iu : Nat) : ℚ × TVector3 :=
  let Nx := hs0.Nx
  let p := implied hs0 hs1 Minv d2 iz iu
  let iv := hs2.ZToBin p.1
  if iv < 0 ∨ iv ≥ hs2.Nz then st
  else
    let r := (List.range' 1 (Nx - 2)).foldl (scanStep (score hs0 hs1 hs2 iz iu iv.toNat))
      (st.1, none)
    match r.2 with
    | some bestix => (r.1, { X := hs0.XBinCenter bestix, Y := p.2.1, Z := p.2.2 })
    | none => (r.1, st.2)

/-- The two nested loops of `FindPeak3D` without the row-maxima test. -/
def peakSearchNoPrune (hs0 hs1 hs2 : HeatMap) (Minv : Mat2) (d2 : TVector3) : ℚ × TVector3 :=
  (List.range hs0.Nz).foldl
    (fun st iz => (List.range hs1.Nz).foldl (peakStepNoPrune hs0 hs1 hs2 Minv d2 iz) st)
    (-1, { X := 0, Y := 0, Z := 0 })

/-- The function `FindPeak3D` without the row-maxima test. -/
def FindPeak3DNoPrune (hs0 hs1 hs2 : HeatMap) (d0 d1 d2 : TVector3) : TVector3 :=
  let M := dirMatrix d0 d1
  if M.m00 * M.m11 - M.m10 * M.m01 = 0 then { X := 0, Y := 0, Z := 0 }
  else (peakSearchNoPrune hs0 hs1 hs2 M.Invert d2).2

/-- The value of `desc` in `IntersectsCircle` before its square root is taken. -/
def circleDesc (m c z0 x0 R : ℚ) : ℚ :=
  sqr (2 * m * (c + (m * z0 - x0)))
    - 4 * (1 + sqr m) * (sqr (c + (m * z0 - x0)) - sqr R)

/-- The point `(x, z) = (0, 0)` of view 0. -/
def ptLow : Pt2D := { x := 0, z := 0, view := 0, energy := 1 }

/-- The point `(x, z) = (5, 1)` of view 0. -/
def ptHigh : Pt2D := { x := 5, z := 1, view := 0, energy := 1 }

/-- The line that the innermost loop of `LinesFromPoints` pushes for the index pair `p = (i, j)`
when no circle is given (`R ≤ 0`), or `none` when the pair is skipped. -/
def pairLine (pts : List Pt2D) (p : Nat × Nat) : Option Line2D :=
  match pts[p.1]?, pts[p.2]? with
  | some a, some b => (Line2D.ctor a b).checked
  | _, _ => none

/-- The index pairs `(i, j)` with `i < j < N`, each listed once. -/
def pairsBelow (N : Nat) : List (Nat × Nat) :=
  (List.range N).flatMap fun j => (List.range j).map fun i => (i, j)

/-- A point of view 0 with `z = 2e9`, beyond the initial value `+1e9` of `minz`. -/
def ptDistant : Pt2D := { x := 0, z := 2000000000, view := 0, energy := 1 }

/-- A line of slope 0 covering `1 ≤ z ≤ 2`. -/
def lineFlat : Line2D := { m := 0, c := 0, minz := 1, maxz := 2 }

/-- A line of slope 1 covering `1 ≤ z ≤ 2`. -/
def lineDiag : Line2D := { m := 1, c := 0, minz := 1, maxz := 2 }

/-- A sorted vector of `a` lines of slope 0 followed by `b` lines of slope 1. -/
def linesBundle (a b : Nat) : List Line2D := List.replicate a lineFlat ++ List.replicate b lineDiag

/-- The combinations `(iz, iu, ix)` that the loops of `FindPeak3D` score when nothing is pruned,
in scan order: `iz` ascending, then `iu` ascending over the bins whose implied bin `iv` of view 2
is in range, then `ix` from 1 to `Nx - 2`. -/
def scanOrder (hs0 hs1 hs2 : HeatMap) (Minv : Mat2) (d2 : TVector3) : List (Nat × Nat × Nat) :=
  (List.range hs0.Nz).flatMap fun iz =>
    (List.range hs1.Nz).flatMap fun iu =>
      if impliedBin hs0 hs1 hs2 Minv d2 iz iu < 0 ∨ impliedBin hs0 hs1 hs2 Minv d2 iz iu ≥ hs2.Nz
      then []
      else (List.range' 1 (hs0.Nx - 2)).map fun ix => (iz, iu, ix)

/-- The value `score` of `FindPeak3D` for the combination `c = (iz, iu, ix)`. -/
def comboScore (hs0 hs1 hs2 : HeatMap) (Minv : Mat2) (d2 : TVector3) (c : Nat × Nat × Nat) : ℚ :=
  score hs0 hs1 hs2 c.1 c.2.1 (impliedBin hs0 hs1 hs2 Minv d2 c.1 c.2.1).toNat c.2.2

/-- The update `if(score > bestscore){bestscore = score; bestr = ...}` of `FindPeak3D` for the
combination `c = (iz, iu, ix)`, on the state `(bestscore, bestr)`. -/
def comboStep (hs0 hs1 hs2 : HeatMap) (Minv : Mat2) (d2 : TVector3) (st : ℚ × TVector3)
    (c : Nat × Nat × Nat) : ℚ × TVector3 :=
  if comboScore hs0 hs1 hs2 Minv d2 c > st.1 then
    (comboScore hs0 hs1 hs2 Minv d2 c, peakPoint hs0 hs1 Minv d2 c.1 c.2.1 c.2.2)
  else st

/-- The index `iz*Nx + ix` of the bin that the innermost loop of `MapFromLines` increments for the
lines `a` and `b`, or `none` when it increments no bin.  It depends on the binning of the heat map
only, not on the weights. -/
def voteBin (a b : Line2D) (hm : HeatMap) : Option Nat :=
  match FP.div (b.c - a.c) (a.m - b.m) with
  | none => none
  | some z =>
    let x := a.m * z + a.c
    if (z < a.minz ∨ z > a.maxz) ∧ (z < b.minz ∨ z > b.maxz) then
      let iz := hm.ZToBin z
      let ix := hm.XToBin x
      if iz ≥ 0 ∧ iz < hm.Nz ∧ ix ≥ 0 ∧ ix < hm.Nx then some (iz.toNat * hm.Nx + ix.toNat)
      else none
    else none

/-- The index `p` does not split a run of lines of equal slope: the lines at `p - 1` and at `p`,
when both exist, have different slopes. -/
def IsBoundary (lines : List Line2D) (p : Nat) : Prop :=
  ∀ b b', 0 < p → lines[p - 1]? = some b → lines[p]? = some b' → b.m ≠ b'.m

/-- The relation between two slopes `x` and `y` that holds when the second pass of `MapFromLines`
pairs some line of slope `x`, as `lines[i]`, with some line of slope `y`, as `lines[j]` for a `j`
in the window `j0 ≤ j < jmax` of iteration `i`. -/
def windowRel (lines : List Line2D) (x y : ℚ) : Bool :=
  (List.range (lines.length - 1)).any fun i =>
    (List.range lines.length).any fun k =>
      decide ((lines[i]?).map (fun l => l.m) = some x ∧ (lines[k]?).map (fun l => l.m) = some y ∧
        (pointersAfter lines (i + 1)).1 ≤ k ∧ k < (pointersAfter lines (i + 1)).2)

/-- The pairs `(a, b)` of lines of `lines` whose slopes are related by `rel`. -/
def windowPairs (lines : List Line2D) (rel : ℚ → ℚ → Bool) : List (Line2D × Line2D) :=
  lines.flatMap fun a => (lines.filter fun b => rel a.m b.m).map fun b => (a, b)

/-- The line that the innermost loop of `LinesFromPoints` pushes for the index pair `p = (i, j)`,
or `none` when one of its `continue` statements is taken. -/
def pairCandidate (sqrt : ℚ → ℚ) (z0 x0 R : ℚ) (pts : List Pt2D) (p : Nat × Nat) :
    Option Line2D :=
  match pts[p.1]?, pts[p.2]? with
  | some a, some b => lineCandidate sqrt z0 x0 R a b
  | _, _ => none

/-- For the points `pts` of a view and the circle `(z0, x0, R)`: the loops of `LinesFromPoints`
do not reach `kMaxLines` lines, and the first pass of `MapFromLines` over its output counts fewer
than `kMaxPts` pairs. -/
def BudgetAt (sqrt : ℚ → ℚ) (pts : List Pt2D) (z0 x0 R : ℚ) : Prop :=
  ((pairsBelow pts.length).filterMap (pairCandidate sqrt z0 x0 R pts)).length < kMaxLines ∧
  countPts (LinesFromPoints sqrt pts [] z0 x0 R) < kMaxPts

/-- Five points of a view: `(x, z) = (0, 0), (1, 1), (2, 2)` on the line `x = z` and
`(4, 0), (3, 1)` on the line `x = 4 - z`, which also passes through `(2, 2)`. -/
def ptsFive : List Pt2D :=
  [{ x := 0, z := 0, view := 0, energy := 1 }, { x := 1, z := 1, view := 0, energy := 1 },
   { x := 2, z := 2, view := 0, energy := 1 }, { x := 4, z := 0, view := 0, energy := 1 },
   { x := 3, z := 1, view := 0, energy := 1 }]

/-- The points of `ptsFive` in another order. -/
def ptsFiveShuffled : List Pt2D :=
  [{ x := 4, z := 0, view := 0, energy := 1 }, { x := 3, z := 1, view := 0, energy := 1 },
   { x := 0, z := 0, view := 0, energy := 1 }, { x := 1, z := 1, view := 0, energy := 1 },
   { x := 2, z := 2, view := 0, energy := 1 }]

/-! ## Floating-point values

The definitions above take `float` and `double` as exact rationals.  The definitions of this
section keep the rounding: they serve to show where the source, which computes in `float`,
departs from exact arithmetic. -/

/-- A value of an IEEE 754 binary type (`float` or `double`): a finite number, an infinity with
its sign (`neg = true` for the negative one), or a NaN.  The sign of a zero is not kept; the zero
divisors that occur in the source are differences of two equal values, which are `+0`. -/
inductive Fl where
  | fin (q : ℚ)
  | inf (neg : Bool)
  | nan
deriving DecidableEq

/-- The power `2^e` for an integer `e`. -/
def pow2 (e : Int) : ℚ :=
  if 0 ≤ e then ((2 ^ e.toNat : Nat) : ℚ) else 1 / ((2 ^ (-e).toNat : Nat) : ℚ)

/-- The test `2^e ≤ |x|`, on the numerator and the denominator of `x`. -/
def pow2Le (e : Int) (x : ℚ) : Bool :=
  if 0 ≤ e then decide (2 ^ e.toNat * x.den ≤ x.num.natAbs)
  else decide (x.den ≤ x.num.natAbs * 2 ^ (-e).toNat)

/-- The exponent of the binade of `x` in a format with exponents `emin .. emax`: the largest `e`
in that range with `2^e ≤ |x|`, and `emin` when there is none (zero and subnormal numbers). -/
def binade (emin emax : Int) (x : ℚ) : Int :=
  match (List.range (emax - emin).toNat).find? (fun (k : Nat) => pow2Le (emax - (k : Int)) x) with
  | some k => emax - (k : Int)
  | none => emin

/-- The integer nearest to `y`, the even one of the two when `y` lies half way. -/
def roundHalfEven (y : ℚ) : Int :=
  if y - ⌊y⌋ < 1 / 2 then ⌊y⌋
  else if 1 / 2 < y - ⌊y⌋ then ⌊y⌋ + 1
  else if ⌊y⌋ % 2 = 0 then ⌊y⌋ else ⌊y⌋ + 1

/-- The spacing `2^(e-p+1)` of the numbers with `p` significant bits in the binade of `x`. -/
def quantum (p : Nat) (emin emax : Int) (x : ℚ) : ℚ :=
  pow2 (binade emin emax x - ((p : Int) - 1))

/-- The multiple of the spacing nearest to `x`, the even multiple when `x` lies half way. -/
def roundVal (p : Nat) (emin emax : Int) (x : ℚ) : ℚ :=
  (roundHalfEven (x / quantum p emin emax x) : ℚ) * quantum p emin emax x

/-- Rounding of the exact value `x` to a binary format with `p` significant bits and exponents
`emin .. emax`, to nearest with ties to even; a rounded magnitude of `2^(emax+1)` or more is an
infinity. -/
def roundBin (p : Nat) (emin emax : Int) (x : ℚ) : Fl :=
  if pow2 (emax + 1) ≤ |roundVal p emin emax x| then Fl.inf (decide (roundVal p emin emax x < 0))
  else Fl.fin (roundVal p emin emax x)

/-- Rounding to `float` (binary32). -/
def round32 (x : ℚ) : Fl := roundBin 24 (-126) 127 x

/-- Rounding to `double` (binary64). -/
def round64 (x : ℚ) : Fl := roundBin 53 (-1022) 1023 x

/-- The sum of two floating-point values, rounded by `rnd`. -/
def Fl.add (rnd : ℚ → Fl) : Fl → Fl → Fl
  | .fin a, .fin b => rnd (a + b)
  | .fin _, .inf t => .inf t
  | .inf s, .fin _ => .inf s
  | .inf s, .inf t => if s = t then .inf s else .nan
  | _, _ => .nan

/-- The negative of a floating-point value. -/
def Fl.neg : Fl → Fl
  | .fin a => .fin (-a)
  | .inf s => .inf (!s)
  | .nan => .nan

/-- The difference of two floating-point values, rounded by `rnd`. -/
def Fl.sub (rnd : ℚ → Fl) (a b : Fl) : Fl := Fl.add rnd a b.neg

/-- The product of two floating-point values, rounded by `rnd`. -/
def Fl.mul (rnd : ℚ → Fl) : Fl → Fl → Fl
  | .fin a, .fin b => rnd (a * b)
  | .fin a, .inf t => if a = 0 then .nan else .inf (decide (a < 0) != t)
  | .inf s, .fin b => if b = 0 then .nan else .inf (s != decide (b < 0))
  | .inf s, .inf t => .inf (s != t)
  | _, _ => .nan

/-- The quotient of two floating-point values, rounded by `rnd`; the zero divisor is `+0`. -/
def Fl.div (rnd : ℚ → Fl) : Fl → Fl → Fl
  | .fin a, .fin b =>
    if b = 0 then (if a = 0 then .nan else .inf (decide (a < 0))) else rnd (a / b)
  | .fin _, .inf _ => .fin 0
  | .inf s, .fin b => .inf (s != decide (b < 0))
  | _, _ => .nan

/-- The comparison `a < b` of two floating-point values; it is false when one is a NaN. -/
def Fl.lt : Fl → Fl → Bool
  | .fin a, .fin b => decide (a < b)
  | .fin _, .inf t => !t
  | .inf s, .fin _ => s
  | .inf s, .inf t => s && !t
  | _, _ => false

/-- The conversion of a floating-point value to the format of `rnd`. -/
def Fl.conv (rnd : ℚ → Fl) : Fl → Fl
  | .fin a => rnd a
  | x => x

/-- The test `!isinf(x) && !isnan(x)`. -/
def Fl.isFinite : Fl → Bool
  | .fin _ => true
  | _ => false

/-- The function `CloseAngles` in `float` arithmetic: every product and sum is rounded to
`float`, and `cosCrit` is the `float` value of `cos(10*3.14159/180.)`. -/
def CloseAngles32 (ma mb : Fl) : Bool :=
  let dot := Fl.add round32 (.fin 1) (Fl.mul round32 ma mb)
  Fl.lt
    (Fl.mul round32
      (Fl.mul round32 (Fl.add round32 (.fin 1) (Fl.mul round32 ma ma))
        (Fl.add round32 (.fin 1) (Fl.mul round32 mb mb)))
      (Fl.mul round32 (.fin cosCrit) (.fin cosCrit)))
    (Fl.mul round32 dot dot)

/-- The members of `Line2D` as the constructor computes them, in the arithmetic of the source:
the points have `double` coordinates, the quotient `(b.x-a.x)/(b.z-a.z)` is a `double` that is
converted to the `float` member `m`, `b.x-m*b.z` is computed in `double` from the `float` `m` and
converted to the `float` member `c`, and `minz`, `maxz` are converted to `float`. -/
structure RawLine32 where
  m : Fl
  c : Fl
  minz : Fl
  maxz : Fl
deriving DecidableEq

/-- The constructor `Line2D(a, b)` with the rounding of `double` and `float`. -/
def Line2D.ctor32 (a b : Pt2D) : RawLine32 :=
  let m := Fl.conv round32
    (Fl.div round64 (Fl.sub round64 (.fin b.x) (.fin a.x)) (Fl.sub round64 (.fin b.z) (.fin a.z)))
  { m := m
    c := Fl.conv round32 (Fl.sub round64 (.fin b.x) (Fl.mul round64 m (.fin b.z)))
    minz := round32 (min a.z b.z)
    maxz := round32 (max a.z b.z) }

/-- The test `if(isinf(l.m) || isnan(l.m) || isinf(l.c) || isnan(l.c)) continue;` on the `float`
members: true when the line is skipped. -/
def RawLine32.skipped (l : RawLine32) : Bool := !(l.m.isFinite && l.c.isFinite)

/-- The body of the innermost loop of `MapFromLines` in `float` arithmetic, for two lines with
finite members and the `float` weights `ws` of the heat map `hm` (the binning is taken from `hm`):
the weights after it.  `z` and `x` are computed in `float`, and `hm.map[...] += stride` stores
the `float` sum of the weight and of `stride` converted to `float`.  When `z` or `x` is not
finite no weight is changed. -/
def vote32 (stride : Nat) (a b : Line2D) (hm : HeatMap) (ws : List Fl) : List Fl :=
  let z := Fl.div round32 (Fl.sub round32 (.fin b.c) (.fin a.c))
    (Fl.sub round32 (.fin a.m) (.fin b.m))
  let x := Fl.add round32 (Fl.mul round32 (.fin a.m) z) (.fin a.c)
  if (Fl.lt z (.fin a.minz) || Fl.lt (.fin a.maxz) z)
      && (Fl.lt z (.fin b.minz) || Fl.lt (.fin b.maxz) z) then
    match z, x with
    | .fin zq, .fin xq =>
      let iz := hm.ZToBin zq
      let ix := hm.XToBin xq
      if iz ≥ 0 ∧ iz < hm.Nz ∧ ix ≥ 0 ∧ ix < hm.Nx then
        ws.modify (fun w => Fl.add round32 w (round32 stride)) (iz.toNat * hm.Nx + ix.toNat)
      else ws
    | _, _ => ws
  else ws

/-- The function `std::min(a, b)` on `float`: `(b < a) ? b : a`. -/
def Fl.min (a b : Fl) : Fl := if Fl.lt b a then b else a

/-- The function `std::max(a, b)` on `float`: `(a < b) ? b : a`. -/
def Fl.max (a b : Fl) : Fl := if Fl.lt a b then b else a

/-- The value `*mid` after `std::nth_element(zs.begin(), mid, zs.end())` on a vector of `float`:
the element of that rank in ascending order. -/
def nthElement32 (zs : List Fl) (k : Nat) : Fl :=
  (zs.insertionSort (fun a b => !Fl.lt b a)).getD k (.fin 0)

/-- The bounds `(minz[0], maxz[0])` of view 0 when `FindVtx` constructs the coarse heat maps, in
the arithmetic of the source: `minz[0]` is the running `std::min` of `+1e9` and the `float(p.z)`,
less 100 in `float`; `maxz[0]` is the running `std::max` of `-1e9` and the `float(p.z)`, plus 100
in `float`, unless `mid != zs.end()`, when it is `*mid` after the `nth_element` on the vector
`zs` of the `float(p.z)`. -/
def view0Bounds32 (pts0 : List Pt2D) : Fl × Fl :=
  let minz := pts0.foldl (fun s p => Fl.min s (round32 p.z)) (.fin 1000000000)
  let maxz := pts0.foldl (fun s p => Fl.max s (round32 p.z)) (.fin (-1000000000))
  let zs := pts0.map (fun p => round32 p.z)
  (Fl.sub round32 minz (.fin 100),
    if zs.length / 4 < zs.length then nthElement32 zs (zs.length / 4)
    else Fl.add round32 maxz (.fin 100))

/-- The finite value of a `float`, and 0 for an infinity or a NaN. -/
def Fl.toRat : Fl → ℚ
  | .fin q => q
  | _ => 0

/-- The function `IntersectsCircle` over an ordered field `K` with the square root `sqrt`: for
`K = ℚ` it is `IntersectsCircle` above, and for the real numbers with the real square root it is
the function in exact arithmetic. -/
def IntersectsCircleOver {K : Type} [LinearOrderedField K] (sqrt : K → K) (m c z0 x0 R : K) :
    Option (K × K) :=
  let c := c + (m * z0 - x0)
  let A := 1 + m * m
  let B := 2 * m * c
  let C := c * c - R * R
  let desc := B * B - 4 * A * C
  if desc < 0 then none
  else
    let desc := sqrt desc
    let z1 := (-B - desc) / (2 * A)
    let z2 := (-B + desc) / (2 * A)
    some (z1 + z0, z2 + z0)

/-- The point `(x, z) = (2^128, 1)` of view 0; both coordinates are `double` values. -/
def ptSteep : Pt2D :=
  { x := 340282366920938463463374607431768211456, z := 1, view := 0, energy := 1 }

/-- A point of view 0 whose `z` is the `double` nearest to `0.1`. -/
def ptTenth : Pt2D :=
  { x := 0, z := 3602879701896397 / 36028797018963968, view := 0, energy := 1 }

/-- The comparison `!(b < a)` of two floating-point values. -/
def Fl.le (a b : Fl) : Bool := !Fl.lt b a

/-- The values that a weight of a `float` heat map takes when `MapFromLines` starts from finite
weights: a `float`, or `+inf` once a sum has overflowed. -/
def Fl.IsWeight : Fl → Prop
  | .fin q => round32 q = .fin q
  | .inf s => s = false
  | .nan => False

/-- The four pointer updates at the head of iteration `i` of either pass of `MapFromLines`, with
the angular test `close` in place of `CloseAngles`. -/
def windowWith (close : ℚ → ℚ → Bool) (lines : List Line2D) (a : Line2D) (i j0 jmax : Nat) :
    Nat × Nat :=
  let j0 := advanceWhile (fun b => close a.m b.m) lines (max j0 (i + 1))
  let jmax := advanceWhile (fun b => !close a.m b.m) lines (max jmax j0)
  (j0, jmax)

/-- One iteration of the first pass of `MapFromLines` with the angular test `close`. -/
def countStepWith (close : ℚ → ℚ → Bool) (lines : List Line2D) (st : Nat × Nat × Nat) (i : Nat) :
    Nat × Nat × Nat :=
  match lines[i]? with
  | none => st
  | some a =>
    let w := windowWith close lines a i st.1 st.2.1
    (w.1, w.2, st.2.2 + (w.2 - w.1))

/-- The value of `npts` after the first pass of `MapFromLines` with the angular test `close`. -/
def countPtsWith (close : ℚ → ℚ → Bool) (lines : List Line2D) : Nat :=
  ((List.range (lines.length - 1)).foldl (countStepWith close lines) (0, 0, 0)).2.2

/-- The loop `for(j = j0; j < jmax; j += stride)` of `MapFromLines` with the loop body `body`,
on a state of type `σ`. -/
def voteRowWith {σ : Type} (body : Line2D → Line2D → σ → σ) (lines : List Line2D) (a : Line2D)
    (js : List Nat) (s : σ) : σ :=
  js.foldl (fun h j => match lines[j]? with
    | none => h
    | some b => body a b h) s

/-- One iteration of the second pass of `MapFromLines` with the angular test `close` and the loop
body `body`. -/
def voteStepWith {σ : Type} (close : ℚ → ℚ → Bool) (body : Line2D → Line2D → σ → σ)
    (stride : Nat) (lines : List Line2D) (st : Nat × Nat × σ) (i : Nat) : Nat × Nat × σ :=
  match lines[i]? with
  | none => st
  | some a =>
    let w := windowWith close lines a i st.1 st.2.1
    (w.1, w.2, voteRowWith body lines a (strideRange w.1 w.2 stride) st.2.2)

/-- The function `MapFromLines` with the arithmetic as a parameter: `close` is the angular test,
`body stride` is the body of the innermost loop, and `s` is the state that the body updates.
With `CloseAngles` and `vote` it is `MapFromLines`. -/
def MapFromLinesWith {σ : Type} (close : ℚ → ℚ → Bool)
    (body : Nat → Line2D → Line2D → σ → σ) (lines : List Line2D) (s : σ) : σ :=
  let npts := countPtsWith close lines
  let stride := npts / kMaxPts + 1
  ((List.range (lines.length - 1)).foldl (voteStepWith close (body stride) stride lines)
    (0, 0, s)).2.2

/-- The function `MapFromLines(lines, hm)` in `float` arithmetic, for lines with finite members:
the weights `hm.map` on exit when they are `ws` on entry (the binning is taken from `hm`). -/
def MapFromLines32 (lines : List Line2D) (hm : HeatMap) (ws : List Fl) : List Fl :=
  MapFromLinesWith (fun ma mb => CloseAngles32 (.fin ma) (.fin mb))
    (fun stride a b w => vote32 stride a b hm w) lines ws

/-- The weights `ws'` have grown from `ws`: there are as many, each is a `float` or `+inf`, and
none is below the weight of `ws` in the same place. -/
def Weights.Grows (ws ws' : List Fl) : Prop :=
  ws'.length = ws.length ∧ (∀ w ∈ ws', w.IsWeight) ∧
  ∀ (k : Nat) (w w' : Fl), ws[k]? = some w → ws'[k]? = some w' → Fl.le w w' = true

/-- The line that the innermost loop of `LinesFromPoints` pushes for the index pair `p = (i, j)`
in the arithmetic of the source when no circle is given (`R ≤ 0`), or `none` when the pair is
skipped. -/
def pairLine32 (pts : List Pt2D) (p : Nat × Nat) : Option RawLine32 :=
  match pts[p.1]?, pts[p.2]? with
  | some a, some b => if (Line2D.ctor32 a b).skipped then none else some (Line2D.ctor32 a b)
  | _, _ => none

/-- The three nested loops of `LinesFromPoints` in the arithmetic of the source when no circle is
given (`R ≤ 0`), run over the remaining index pairs; reaching `lines.size() == kMaxLines` after a
`push_back` leaves all three loops. -/
def pushLines32 (pts : List Pt2D) : List (Nat × Nat) → List RawLine32 → List RawLine32
  | [], lines => lines
  | (i, j) :: rest, lines =>
    match pts[i]?, pts[j]? with
    | some a, some b =>
      if (Line2D.ctor32 a b).skipped then pushLines32 pts rest lines
      else if (lines ++ [Line2D.ctor32 a b]).length = kMaxLines then lines ++ [Line2D.ctor32 a b]
      else pushLines32 pts rest (lines ++ [Line2D.ctor32 a b])
    | _, _ => pushLines32 pts rest lines

/-- The function `LinesFromPoints(pts, lines)` in the arithmetic of the source, with the default
arguments (`R = -1`, no circle); the order `operator<` compares the `float` slopes. -/
def LinesFromPoints32 (pts : List Pt2D) (lines : List RawLine32) : List RawLine32 :=
  let product := pairProduct pts.length
  let stride := toInt32 (product / kMaxLines + 1)
  List.insertionSort (fun a b => (!Fl.lt b.m a.m) = true)
    (pushLines32 pts (pairOrder pts.length stride) lines)

/-! ## The line generator -/

theorem LinesFromPoints_pairwise (sqrt : ℚ → ℚ) (pts : List Pt2D) (lines : List Line2D)
    (z0 x0 R : ℚ) :
    List.Sorted (fun a b => a.m ≤ b.m) (LinesFromPoints sqrt pts lines z0 x0 R) := by
  unfold LinesFromPoints
  exact List.sorted_insertionSort _ _

theorem mem_LinesFromPoints (sqrt : ℚ → ℚ) (pts : List Pt2D) (lines : List Line2D)
    (z0 x0 R : ℚ) (l : Line2D) :
    l ∈ LinesFromPoints sqrt pts lines z0 x0 R ↔
      l ∈ pushLines sqrt z0 x0 R pts
        (pairOrder pts.length (toInt32 (pairProduct pts.length / kMaxLines + 1))) lines := by
  unfold LinesFromPoints
  exact (List.perm_insertionSort _ _).mem_iff

theorem mem_pushLines (sqrt : ℚ → ℚ) (z0 x0 R : ℚ) (pts : List Pt2D) (l : Line2D) :
    ∀ (ps : List (Nat × Nat)) (lines : List Line2D),
      l ∈ pushLines sqrt z0 x0 R pts ps lines →
        l ∈ lines ∨ ∃ a ∈ pts, ∃ b ∈ pts, lineCandidate sqrt z0 x0 R a b = some l := by
  intro ps
  induction ps with
  | nil => intro lines h; exact Or.inl (by simpa [pushLines] using h)
  | cons p rest ih =>
    intro lines h
    obtain ⟨i, j⟩ := p
    unfold pushLines at h
    cases hi : pts[i]? with
    | none => rw [hi] at h; exact ih lines (by simpa using h)
    | some a =>
      cases hj : pts[j]? with
      | none => rw [hi, hj] at h; exact ih lines (by simpa using h)
      | some b =>
        rw [hi, hj] at h
        dsimp only at h
        have ha : a ∈ pts := List.getElem?_mem hi
        have hb : b ∈ pts := List.getElem?_mem hj
        cases hc : lineCandidate sqrt z0 x0 R a b with
        | none => rw [hc] at h; exact ih lines (by simpa using h)
        | some l' =>
          rw [hc] at h
          have key : l ∈ lines ++ [l'] →
              l ∈ lines ∨ ∃ a ∈ pts, ∃ b ∈ pts, lineCandidate sqrt z0 x0 R a b = some l := by
            intro hm
            rcases List.mem_append.mp hm with hm | hm
            · exact Or.inl hm
            · have : l = l' := by simpa using hm
              subst this
              exact Or.inr ⟨a, ha, b, hb, hc⟩
          by_cases hcap : (lines ++ [l']).length = kMaxLines
          · simp only [hcap, if_true] at h
            exact key h
          · simp only [hcap, if_false] at h
            rcases ih _ h with h' | h'
            · exact key h'
            · exact Or.inr h'

theorem lineCandidate_checked (sqrt : ℚ → ℚ) (z0 x0 R : ℚ) (a b : Pt2D) (l : Line2D)
    (h : lineCandidate sqrt z0 x0 R a b = some l) : (Line2D.ctor a b).checked = some l := by
  unfold lineCandidate at h
  cases hc : (Line2D.ctor a b).checked with
  | none => rw [hc] at h; simp at h
  | some l' =>
    rw [hc] at h
    simp only at h
    split at h
    · split at h
      · simp at h
      · split at h
        · simp at h
        · exact h
    · exact h

theorem checked_some (r : RawLine2D) (l : Line2D) (h : r.checked = some l) :
    r.m = some l.m ∧ r.c = some l.c ∧ r.minz = l.minz ∧ r.maxz = l.maxz := by
  unfold RawLine2D.checked at h
  split at h
  · next m c hm hc =>
    simp only [Option.some.injEq] at h
    subst h
    exact ⟨hm, hc, rfl, rfl⟩
  · simp at h

theorem ctor_m_some (a b : Pt2D) (m : ℚ) (h : (Line2D.ctor a b).m = some m) :
    a.z ≠ b.z ∧ m = (b.x - a.x) / (b.z - a.z) := by
  simp only [Line2D.ctor, FP.div] at h
  split at h
  · simp at h
  · next hz =>
    simp only [Option.some.injEq] at h
    refine ⟨fun e => hz (by rw [e]; ring), h.symm⟩

theorem pushLines_length (sqrt : ℚ → ℚ) (z0 x0 R : ℚ) (pts : List Pt2D) :
    ∀ (ps : List (Nat × Nat)) (lines : List Line2D), lines.length < kMaxLines →
      (pushLines sqrt z0 x0 R pts ps lines).length ≤ kMaxLines := by
  intro ps
  induction ps with
  | nil => intro lines h; simpa [pushLines] using h.le
  | cons p rest ih =>
    intro lines h
    obtain ⟨i, j⟩ := p
    unfold pushLines
    cases hi : pts[i]? with
    | none => exact ih lines h
    | some a =>
      cases hj : pts[j]? with
      | none => exact ih lines h
      | some b =>
        dsimp only
        cases hc : lineCandidate sqrt z0 x0 R a b with
        | none => exact ih lines h
        | some l' =>
          dsimp only
          by_cases hcap : (lines ++ [l']).length = kMaxLines
          · rw [if_pos hcap]; exact hcap.le
          · rw [if_neg hcap]
            refine ih _ ?_
            have : (lines ++ [l']).length = lines.length + 1 := by simp
            omega

/-- C1: the sequence `LinesFromPoints` produces is sorted ascending by slope, for every list of
points, every vector on entry and every circle: `lines[i].m ≤ lines[i+1].m` for every adjacent
pair. -/
theorem LinesFromPoints_sorted (sqrt : ℚ → ℚ) (pts : List Pt2D) (lines : List Line2D)
    (z0 x0 R : ℚ) (i : Nat) (h : i + 1 < (LinesFromPoints sqrt pts lines z0 x0 R).length) :
    ((LinesFromPoints sqrt pts lines z0 x0 R)[i]).m
      ≤ ((LinesFromPoints sqrt pts lines z0 x0 R)[i + 1]).m :=
  List.pairwise_iff_getElem.mp (LinesFromPoints_pairwise sqrt pts lines z0 x0 R)
    i (i + 1) (by omega) h (by omega)

theorem LinesFromPoints_sorted_witness :
    (LinesFromPoints (fun _ => 0) ptsTriangle [] 0 0 (-1)).map (fun l => l.m) = [-5, 0, 5] ∧
    ∃ h : 0 + 1 < (LinesFromPoints (fun _ => 0) ptsTriangle [] 0 0 (-1)).length,
      ((LinesFromPoints (fun _ => 0) ptsTriangle [] 0 0 (-1))[0]).m
        ≤ ((LinesFromPoints (fun _ => 0) ptsTriangle [] 0 0 (-1))[0 + 1]).m :=
  ⟨by decide!, by decide!,
    LinesFromPoints_sorted (fun _ => 0) ptsTriangle [] 0 0 (-1) 0 (by decide!)⟩

/-- C4: every line that `LinesFromPoints` emits into an empty vector was pushed for a pair of
points `a`, `b` of the list whose `z` coordinates differ, and the slope and the intercept the
constructor computed for it are finite: the slope is the quotient by the non-zero `b.z - a.z`. -/
theorem LinesFromPoints_finite (sqrt : ℚ → ℚ) (pts : List Pt2D) (z0 x0 R : ℚ) (l : Line2D)
    (h : l ∈ LinesFromPoints sqrt pts [] z0 x0 R) :
    ∃ a ∈ pts, ∃ b ∈ pts, lineCandidate sqrt z0 x0 R a b = some l ∧ a.z ≠ b.z ∧
      (Line2D.ctor a b).m = some l.m ∧ (Line2D.ctor a b).c = some l.c ∧
      l.m = (b.x - a.x) / (b.z - a.z) := by
  rcases mem_pushLines sqrt z0 x0 R pts l _ _ ((mem_LinesFromPoints _ _ _ _ _ _ _).mp h)
    with h' | ⟨a, ha, b, hb, hc⟩
  · simp at h'
  · obtain ⟨hm, hcc, _, _⟩ := checked_some _ _ (lineCandidate_checked _ _ _ _ _ _ _ hc)
    obtain ⟨hz, hq⟩ := ctor_m_some a b l.m hm
    exact ⟨a, ha, b, hb, hc, hz, hm, hcc, hq⟩

theorem LinesFromPoints_finite_witness :
    ({ m := 5, c := 0, minz := 0, maxz := 1 } : Line2D)
        ∈ LinesFromPoints (fun _ => 0) ptsTriangle [] 0 0 (-1) ∧
    ∃ a ∈ ptsTriangle, ∃ b ∈ ptsTriangle,
      lineCandidate (fun _ => 0) 0 0 (-1) a b = some { m := 5, c := 0, minz := 0, maxz := 1 } ∧
      a.z ≠ b.z ∧
      (Line2D.ctor a b).m = some (5 : ℚ) ∧ (Line2D.ctor a b).c = some (0 : ℚ) ∧
      (5 : ℚ) = (b.x - a.x) / (b.z - a.z) :=
  ⟨by decide!,
    LinesFromPoints_finite (fun _ => 0) ptsTriangle 0 0 (-1)
      { m := 5, c := 0, minz := 0, maxz := 1 } (by decide!)⟩

/-- C5: started with an empty vector, `LinesFromPoints` emits at most `kMaxLines` (10,000,000)
lines, for every list of points and every setting of the circle filter. -/
theorem LinesFromPoints_length_le (sqrt : ℚ → ℚ) (pts : List Pt2D) (z0 x0 R : ℚ) :
    (LinesFromPoints sqrt pts [] z0 x0 R).length ≤ kMaxLines ∧ kMaxLines = 10000000 := by
  refine ⟨?_, by decide⟩
  unfold LinesFromPoints
  rw [List.length_insertionSort]
  exact pushLines_length sqrt z0 x0 R pts _ [] (by decide)

/-! ## The intersection accumulator -/

/-- C2 (the code departs from the claim): on the slope-sorted lines `linesFan`, whose pre-counted
pair total is 0, the lines of slope `-6` and `12` are not angularly close and intersect at
`(0, 0)` outside both covered ranges, so the scan over all pairs adds 1 to bin `(1, 1)`; yet
`MapFromLines` adds nothing, because `j0` ran to the end of the vector for the line of
slope `-60`, which is close to both other lines. -/
theorem MapFromLines_skips_admissible_pair :
    List.Sorted (fun a b => a.m ≤ b.m) linesFan ∧ countPts linesFan = 0 ∧
    CloseAngles (-60) (-6) = true ∧ CloseAngles (-60) 12 = true ∧
    CloseAngles (-6) 12 = false ∧
    (MapFromLinesNaive linesFan hmSquare).map = [0, 0, 0, 1] ∧
    (MapFromLines linesFan hmSquare).map = [0, 0, 0, 0] := by
  refine ⟨by decide!, by decide!, by decide!, by decide!, by decide!, by decide!, by decide!⟩

/-! ## The multi-view peak finder -/

theorem foldl_max_ge : ∀ (vs : List ℚ) (v : ℚ),
    v ≤ vs.foldl max v ∧ ∀ x ∈ vs, x ≤ vs.foldl max v := by
  intro vs
  induction vs with
  | nil => intro v; simp
  | cons w ws ih =>
    intro v
    obtain ⟨h1, h2⟩ := ih (max v w)
    refine ⟨le_trans (le_max_left v w) h1, ?_⟩
    intro x hx
    rcases List.mem_cons.mp hx with rfl | hx
    · exact le_trans (le_max_right v x) h1
    · exact h2 x hx

theorem rowAt_le_colMax (h : HeatMap) (Nx iz ix : Nat) (hiz : iz < h.Nz) (hix : ix < Nx)
    (hlen : Nx * h.Nz ≤ h.map.length) : rowAt h Nx iz ix ≤ (colMax Nx h).getD iz 0 := by
  have hidx : Nx * iz + ix < h.map.length := by
    have : Nx * iz + Nx ≤ Nx * h.Nz := by
      have := Nat.mul_le_mul_left Nx (Nat.succ_le_of_lt hiz)
      simpa [Nat.mul_succ] using this
    omega
  have hcol : (colMax Nx h).getD iz 0 = rowMax h.map Nx iz := by
    simp [colMax, List.getD_eq_getElem?_getD, List.getElem?_map, List.getElem?_range hiz]
  have hrow : ((h.map.drop (Nx * iz)).take Nx)[ix]? = some (rowAt h Nx iz ix) := by
    rw [List.getElem?_take_of_lt hix, List.getElem?_drop]
    simp [rowAt, List.getD_eq_getElem?_getD, List.getElem?_eq_getElem hidx]
  have hmem : rowAt h Nx iz ix ∈ (h.map.drop (Nx * iz)).take Nx := List.getElem?_mem hrow
  rw [hcol]
  unfold rowMax
  cases hr : (h.map.drop (Nx * iz)).take Nx with
  | nil => rw [hr] at hmem; simp at hmem
  | cons v vs =>
    rw [hr] at hmem
    dsimp only
    rcases List.mem_cons.mp hmem with e | hm
    · rw [e]; exact (foldl_max_ge vs v).1
    · exact (foldl_max_ge vs v).2 _ hm

theorem foldl_scanStep (sc : Nat → ℚ) : ∀ (L : List Nat) (st : ℚ × Option Nat),
    st.1 ≤ (L.foldl (scanStep sc) st).1 ∧
    (∀ ix ∈ L, sc ix ≤ (L.foldl (scanStep sc) st).1) ∧
    (L.foldl (scanStep sc) st = st ∨ ∃ ix ∈ L, L.foldl (scanStep sc) st = (sc ix, some ix)) := by
  intro L
  induction L with
  | nil => intro st; simp
  | cons j rest ih =>
    intro st
    rw [List.foldl_cons]
    obtain ⟨h1, h2, h3⟩ := ih (scanStep sc st j)
    have hstep : st.1 ≤ (scanStep sc st j).1 ∧ sc j ≤ (scanStep sc st j).1 ∧
        (scanStep sc st j = st ∨ scanStep sc st j = (sc j, some j)) := by
      unfold scanStep
      by_cases hgt : sc j > st.1
      · rw [if_pos hgt]; exact ⟨le_of_lt hgt, le_refl _, Or.inr rfl⟩
      · rw [if_neg hgt]; exact ⟨le_refl _, not_lt.mp hgt, Or.inl rfl⟩
    obtain ⟨s1, s2, s3⟩ := hstep
    refine ⟨le_trans s1 h1, ?_, ?_⟩
    · intro ix hix
      rcases List.mem_cons.mp hix with rfl | hix
      · exact le_trans s2 h1
      · exact h2 ix hix
    · rcases h3 with h3 | ⟨ix, hix, h3⟩
      · rcases s3 with s3 | s3
        · left; rw [h3, s3]
        · right; exact ⟨j, List.mem_cons_self _ _, by rw [h3, s3]⟩
      · right; exact ⟨ix, List.mem_cons_of_mem _ hix, h3⟩

theorem peakStep_spec (hs0 hs1 hs2 : HeatMap) (Minv : Mat2) (d2 : TVector3) (iz iu : Nat)
    (st : ℚ × TVector3) :
    st.1 ≤ (peakStep hs0 hs1 hs2 Minv d2 iz st iu).1 ∧
    (iz < hs0.Nz → iu < hs1.Nz → hs0.Nx * hs0.Nz ≤ hs0.map.length →
      hs0.Nx * hs1.Nz ≤ hs1.map.length → hs0.Nx * hs2.Nz ≤ hs2.map.length →
      0 ≤ impliedBin hs0 hs1 hs2 Minv d2 iz iu → impliedBin hs0 hs1 hs2 Minv d2 iz iu < hs2.Nz →
      ∀ ix, 1 ≤ ix → ix + 1 < hs0.Nx →
        score hs0 hs1 hs2 iz iu (impliedBin hs0 hs1 hs2 Minv d2 iz iu).toNat ix
          ≤ (peakStep hs0 hs1 hs2 Minv d2 iz st iu).1) ∧
    (peakStep hs0 hs1 hs2 Minv d2 iz st iu = st ∨
      (0 ≤ impliedBin hs0 hs1 hs2 Minv d2 iz iu ∧
        impliedBin hs0 hs1 hs2 Minv d2 iz iu < hs2.Nz ∧
        ∃ ix, 1 ≤ ix ∧ ix + 1 < hs0.Nx ∧
          peakStep hs0 hs1 hs2 Minv d2 iz st iu =
            (score hs0 hs1 hs2 iz iu (impliedBin hs0 hs1 hs2 Minv d2 iz iu).toNat ix,
              peakPoint hs0 hs1 Minv d2 iz iu ix))) := by
  unfold peakStep
  simp only
  change _ ∧ _ ∧ _
  by_cases hout : hs2.ZToBin (implied hs0 hs1 Minv d2 iz iu).1 < 0 ∨
      hs2.ZToBin (implied hs0 hs1 Minv d2 iz iu).1 ≥ hs2.Nz
  · rw [if_pos hout]
    refine ⟨le_refl _, ?_, Or.inl rfl⟩
    intro _ _ _ _ _ h0 h1
    unfold impliedBin at h0 h1
    rcases hout with h | h <;> omega
  · rw [if_neg hout]
    have hge : 0 ≤ hs2.ZToBin (implied hs0 hs1 Minv d2 iz iu).1 := by
      by_contra h; exact hout (Or.inl (by omega))
    have hlt : hs2.ZToBin (implied hs0 hs1 Minv d2 iz iu).1 < hs2.Nz := by
      by_contra h; exact hout (Or.inr (by omega))
    by_cases hprune : (colMax hs0.Nx hs0).getD iz 0 + (colMax hs0.Nx hs1).getD iu 0
        + (colMax hs0.Nx hs2).getD (hs2.ZToBin (implied hs0 hs1 Minv d2 iz iu).1).toNat 0 < st.1
    · rw [if_pos hprune]
      refine ⟨le_refl _, ?_, Or.inl rfl⟩
      intro hiz hiu hl0 hl1 hl2 _ _ ix _ hix
      have hiv : (impliedBin hs0 hs1 hs2 Minv d2 iz iu).toNat < hs2.Nz := by
        unfold impliedBin; omega
      have b0 := rowAt_le_colMax hs0 hs0.Nx iz ix hiz (by omega) hl0
      have b1 := rowAt_le_colMax hs1 hs0.Nx iu ix hiu (by omega) hl1
      have b2 := rowAt_le_colMax hs2 hs0.Nx _ ix hiv (by omega) hl2
      unfold impliedBin at b2
      unfold score impliedBin
      linarith
    · rw [if_neg hprune]
      obtain ⟨f1, f2, f3⟩ := foldl_scanStep
        (score hs0 hs1 hs2 iz iu (hs2.ZToBin (implied hs0 hs1 Minv d2 iz iu).1).toNat)
        (List.range' 1 (hs0.Nx - 2)) (st.1, none)
      rcases f3 with f3 | ⟨ix, hix, f3⟩
      · rw [f3]
        refine ⟨le_refl _, ?_, Or.inl rfl⟩
        intro _ _ _ _ _ _ _ ix h1 h2
        have := f2 ix (List.mem_range'_1.mpr ⟨h1, by omega⟩)
        rw [f3] at this
        exact this
      · rw [f3]
        simp only
        have hr := List.mem_range'_1.mp hix
        refine ⟨?_, ?_, Or.inr ⟨hge, hlt, ix, hr.1, by omega, rfl⟩⟩
        · have := f1; rw [f3] at this; exact this
        · intro _ _ _ _ _ _ _ jx h1 h2
          have := f2 jx (List.mem_range'_1.mpr ⟨h1, by omega⟩)
          rw [f3] at this
          exact this

theorem foldl_cover {α σ : Type} (f : σ → α → σ) (val : σ → ℚ) (C : α → ℚ → Prop)
    (hup : ∀ a v w, v ≤ w → C a v → C a w) (hmono : ∀ s a, val s ≤ val (f s a)) :
    ∀ (L : List α), (∀ s, ∀ a ∈ L, C a (val (f s a))) →
      ∀ s, val s ≤ val (L.foldl f s) ∧ ∀ a ∈ L, C a (val (L.foldl f s)) := by
  intro L
  induction L with
  | nil => intro _ s; simp
  | cons b rest ih =>
    intro hcov s
    rw [List.foldl_cons]
    obtain ⟨h1, h2⟩ := ih (fun s a ha => hcov s a (List.mem_cons_of_mem _ ha)) (f s b)
    refine ⟨le_trans (hmono s b) h1, ?_⟩
    intro a ha
    rcases List.mem_cons.mp ha with rfl | ha
    · exact hup a _ _ h1 (hcov s a (List.mem_cons_self _ _))
    · exact h2 a ha

theorem foldl_inv {α σ : Type} (f : σ → α → σ) (I : σ → Prop) :
    ∀ (L : List α), (∀ s, ∀ a ∈ L, I s → I (f s a)) → ∀ s, I s → I (L.foldl f s) := by
  intro L
  induction L with
  | nil => intro _ s hs; simpa using hs
  | cons b rest ih =>
    intro h s hs
    rw [List.foldl_cons]
    exact ih (fun s a ha => h s a (List.mem_cons_of_mem _ ha)) _
      (h s b (List.mem_cons_self _ _) hs)

theorem peakSearch_bound (hs0 hs1 hs2 : HeatMap) (Minv : Mat2) (d2 : TVector3)
    (hl0 : hs0.Nx * hs0.Nz ≤ hs0.map.length) (hl1 : hs0.Nx * hs1.Nz ≤ hs1.map.length)
    (hl2 : hs0.Nx * hs2.Nz ≤ hs2.map.length) (iz iu ix : Nat) (hiz : iz < hs0.Nz)
    (hiu : iu < hs1.Nz) (h0 : 0 ≤ impliedBin hs0 hs1 hs2 Minv d2 iz iu)
    (h1 : impliedBin hs0 hs1 hs2 Minv d2 iz iu < hs2.Nz) (hx1 : 1 ≤ ix) (hx2 : ix + 1 < hs0.Nx) :
    score hs0 hs1 hs2 iz iu (impliedBin hs0 hs1 hs2 Minv d2 iz iu).toNat ix
      ≤ (peakSearch hs0 hs1 hs2 Minv d2).1 := by
  have hmonoIn : ∀ (jz : Nat) (s : ℚ × TVector3),
      s.1 ≤ ((List.range hs1.Nz).foldl (peakStep hs0 hs1 hs2 Minv d2 jz) s).1 := by
    intro jz s
    exact (foldl_cover (peakStep hs0 hs1 hs2 Minv d2 jz) Prod.fst (fun _ _ => True)
      (fun _ _ _ _ _ => trivial) (fun s a => (peakStep_spec hs0 hs1 hs2 Minv d2 jz a s).1)
      (List.range hs1.Nz) (fun _ _ _ => trivial) s).1
  have hcovIn : ∀ (jz : Nat), jz < hs0.Nz → ∀ (s : ℚ × TVector3), ∀ ju, ju < hs1.Nz →
      0 ≤ impliedBin hs0 hs1 hs2 Minv d2 jz ju → impliedBin hs0 hs1 hs2 Minv d2 jz ju < hs2.Nz →
      ∀ jx, 1 ≤ jx → jx + 1 < hs0.Nx →
        score hs0 hs1 hs2 jz ju (impliedBin hs0 hs1 hs2 Minv d2 jz ju).toNat jx
          ≤ ((List.range hs1.Nz).foldl (peakStep hs0 hs1 hs2 Minv d2 jz) s).1 := by
    intro jz hjz s ju hju
    exact (foldl_cover (peakStep hs0 hs1 hs2 Minv d2 jz) Prod.fst
      (fun ju v => 0 ≤ impliedBin hs0 hs1 hs2 Minv d2 jz ju →
        impliedBin hs0 hs1 hs2 Minv d2 jz ju < hs2.Nz → ∀ jx, 1 ≤ jx → jx + 1 < hs0.Nx →
        score hs0 hs1 hs2 jz ju (impliedBin hs0 hs1 hs2 Minv d2 jz ju).toNat jx ≤ v)
      (fun _ v w hvw hC a b jx c d => le_trans (hC a b jx c d) hvw)
      (fun s a => (peakStep_spec hs0 hs1 hs2 Minv d2 jz a s).1)
      (List.range hs1.Nz)
      (fun s a ha => (peakStep_spec hs0 hs1 hs2 Minv d2 jz a s).2.1 hjz
        (List.mem_range.mp ha) hl0 hl1 hl2) s).2 ju (List.mem_range.mpr hju)
  unfold peakSearch
  exact (foldl_cover
    (fun st jz => (List.range hs1.Nz).foldl (peakStep hs0 hs1 hs2 Minv d2 jz) st) Prod.fst
    (fun jz v => ∀ ju, ju < hs1.Nz → 0 ≤ impliedBin hs0 hs1 hs2 Minv d2 jz ju →
        impliedBin hs0 hs1 hs2 Minv d2 jz ju < hs2.Nz → ∀ jx, 1 ≤ jx → jx + 1 < hs0.Nx →
        score hs0 hs1 hs2 jz ju (impliedBin hs0 hs1 hs2 Minv d2 jz ju).toNat jx ≤ v)
    (fun _ v w hvw hC ju a b c jx d e => le_trans (hC ju a b c jx d e) hvw)
    (fun s jz => hmonoIn jz s)
    (List.range hs0.Nz)
    (fun s jz hjz => hcovIn jz (List.mem_range.mp hjz) s) _).2 iz (List.mem_range.mpr hiz)
      iu hiu h0 h1 ix hx1 hx2

theorem peakSearch_attained (hs0 hs1 hs2 : HeatMap) (Minv : Mat2) (d2 : TVector3) :
    PeakAttained hs0 hs1 hs2 Minv d2 (peakSearch hs0 hs1 hs2 Minv d2) := by
  unfold peakSearch
  refine foldl_inv _ (PeakAttained hs0 hs1 hs2 Minv d2) (List.range hs0.Nz) ?_ _ (Or.inl rfl)
  intro s iz hiz hs
  refine foldl_inv _ (PeakAttained hs0 hs1 hs2 Minv d2) (List.range hs1.Nz) ?_ s hs
  intro t iu hiu ht
  rcases (peakStep_spec hs0 hs1 hs2 Minv d2 iz iu t).2.2 with h | ⟨h0, h1, ix, hx1, hx2, h⟩
  · rw [h]; exact ht
  · exact Or.inr ⟨iz, iu, ix, List.mem_range.mp hiz, List.mem_range.mp hiu, h0, h1, hx1, hx2, h⟩

/-- C3 (as amended): for non-singular view directions and three heat maps with the same number
of drift bins, each holding `Nz * Nx` weights, the final `bestscore` of `FindPeak3D` is greater
than or equal to the score `h0[iz,ix] + h1[iu,ix] + h2[iv,ix]` of every combination `(iz, iu)`
whose implied view-2 bin `iv` is in range, at every interior drift bin `1 ≤ ix < Nx - 1`; and
either no combination scored above the initial `-1` and the zero point is returned, or
`bestscore` is the score of a combination in range at an interior drift bin and the point
returned is the point of that combination. -/
theorem FindPeak3D_maximal_interior (hs0 hs1 hs2 : HeatMap) (d0 d1 d2 : TVector3)
    (hdet : d0.Y * d1.Z - d1.Y * d0.Z ≠ 0) (hNx1 : hs1.Nx = hs0.Nx) (hNx2 : hs2.Nx = hs0.Nx)
    (hl0 : hs0.map.length = hs0.Nz * hs0.Nx) (hl1 : hs1.map.length = hs1.Nz * hs1.Nx)
    (hl2 : hs2.map.length = hs2.Nz * hs2.Nx) :
    FindPeak3D hs0 hs1 hs2 d0 d1 d2 = (peakSearch hs0 hs1 hs2 (dirMatrix d0 d1).Invert d2).2 ∧
    (∀ iz iu ix, iz < hs0.Nz → iu < hs1.Nz →
      0 ≤ impliedBin hs0 hs1 hs2 (dirMatrix d0 d1).Invert d2 iz iu →
      impliedBin hs0 hs1 hs2 (dirMatrix d0 d1).Invert d2 iz iu < hs2.Nz →
      1 ≤ ix → ix + 1 < hs0.Nx →
      score hs0 hs1 hs2 iz iu (impliedBin hs0 hs1 hs2 (dirMatrix d0 d1).Invert d2 iz iu).toNat ix
        ≤ (peakSearch hs0 hs1 hs2 (dirMatrix d0 d1).Invert d2).1) ∧
    PeakAttained hs0 hs1 hs2 (dirMatrix d0 d1).Invert d2
      (peakSearch hs0 hs1 hs2 (dirMatrix d0 d1).Invert d2) := by
  refine ⟨?_, ?_, peakSearch_attained _ _ _ _ _⟩
  · unfold FindPeak3D
    simp only [dirMatrix]
    rw [if_neg hdet]
  · intro iz iu ix hiz hiu h0 h1 hx1 hx2
    refine peakSearch_bound hs0 hs1 hs2 _ d2 ?_ ?_ ?_ iz iu ix hiz hiu h0 h1 hx1 hx2
    · rw [hl0, Nat.mul_comm]
    · rw [hl1, hNx1, Nat.mul_comm]
    · rw [hl2, hNx2, Nat.mul_comm]

theorem FindPeak3D_edge_bin_witness :
    (dirZ.Y * dirU.Z - dirU.Y * dirZ.Z ≠ 0 ∧ hsEdge1.Nx = hsEdge0.Nx ∧
      hsEdge0.map.length = hsEdge0.Nz * hsEdge0.Nx ∧
      hsEdge1.map.length = hsEdge1.Nz * hsEdge1.Nx) ∧
    score hsEdge0 hsEdge1 hsEdge1 0 0
        (impliedBin hsEdge0 hsEdge1 hsEdge1 (dirMatrix dirZ dirU).Invert dirV 0 0).toNat 1
      ≤ (peakSearch hsEdge0 hsEdge1 hsEdge1 (dirMatrix dirZ dirU).Invert dirV).1 :=
  ⟨⟨by decide!, by decide!, by decide!, by decide!⟩,
    (FindPeak3D_maximal_interior hsEdge0 hsEdge1 hsEdge1 dirZ dirU dirV (by decide!) (by decide!)
      (by decide!) (by decide!) (by decide!) (by decide!)).2.1 0 0 1 (by decide!) (by decide!)
      (by decide!) (by decide!) (by decide!) (by decide!)⟩

/-- C3 (as stated) fails: with weight 5 in drift bin 0 of view 0 and zero elsewhere, `FindPeak3D`
returns the point of the combination `(iz, iu, ix) = (0, 0, 1)`, whose score is 0, although the
combination `(0, 0)` scores 5 at the drift bin `ix = 0` of the shared axis. -/
theorem FindPeak3D_edge_bin_counterexample :
    dirZ.Y * dirU.Z - dirU.Y * dirZ.Z ≠ 0 ∧ hsEdge1.Nx = hsEdge0.Nx ∧
    impliedBin hsEdge0 hsEdge1 hsEdge1 (dirMatrix dirZ dirU).Invert dirV 0 0 = 0 ∧
    FindPeak3D hsEdge0 hsEdge1 hsEdge1 dirZ dirU dirV
      = peakPoint hsEdge0 hsEdge1 (dirMatrix dirZ dirU).Invert dirV 0 0 1 ∧
    (peakSearch hsEdge0 hsEdge1 hsEdge1 (dirMatrix dirZ dirU).Invert dirV).1
      = score hsEdge0 hsEdge1 hsEdge1 0 0 0 1 ∧
    score hsEdge0 hsEdge1 hsEdge1 0 0 0 1 = 0 ∧
    score hsEdge0 hsEdge1 hsEdge1 0 0 0 0 = 5 ∧
    ¬ (∀ iz iu ix, iz < hsEdge0.Nz → iu < hsEdge1.Nz →
        0 ≤ impliedBin hsEdge0 hsEdge1 hsEdge1 (dirMatrix dirZ dirU).Invert dirV iz iu →
        impliedBin hsEdge0 hsEdge1 hsEdge1 (dirMatrix dirZ dirU).Invert dirV iz iu
          < hsEdge1.Nz →
        ix < hsEdge0.Nx →
        score hsEdge0 hsEdge1 hsEdge1 iz iu
            (impliedBin hsEdge0 hsEdge1 hsEdge1 (dirMatrix dirZ dirU).Invert dirV iz iu).toNat ix
          ≤ (peakSearch hsEdge0 hsEdge1 hsEdge1 (dirMatrix dirZ dirU).Invert dirV).1) := by
  refine ⟨by decide!, by decide!, by decide!, by decide!, by decide!, by decide!, by decide!, ?_⟩
  intro h
  exact absurd (h 0 0 0 (by decide!) (by decide!) (by decide!) (by decide!) (by decide!))
    (by decide!)

theorem FindPeak3D_of_det_zero (hs0 hs1 hs2 : HeatMap) (d0 d1 d2 : TVector3)
    (h : d0.Y * d1.Z - d1.Y * d0.Z = 0) :
    FindPeak3D hs0 hs1 hs2 d0 d1 d2 = { X := 0, Y := 0, Z := 0 } := by
  unfold FindPeak3D
  simp only [dirMatrix]
  rw [if_pos h]

/-- C8: if the determinant `dirs[0].Y*dirs[1].Z - dirs[1].Y*dirs[0].Z` is zero, `FindPeak3D`
returns the zero point `(0, 0, 0)`, for any three heat maps. -/
theorem FindPeak3D_singular (hs0 hs1 hs2 : HeatMap) (d0 d1 d2 : TVector3)
    (h : d0.Y * d1.Z - d1.Y * d0.Z = 0) :
    FindPeak3D hs0 hs1 hs2 d0 d1 d2 = { X := 0, Y := 0, Z := 0 } :=
  FindPeak3D_of_det_zero hs0 hs1 hs2 d0 d1 d2 h

theorem FindPeak3D_singular_witness :
    dirU.Y * dirU.Z - dirU.Y * dirU.Z = 0 ∧
    FindPeak3D hsEdge0 hsEdge1 hsEdge1 dirU dirU dirV = { X := 0, Y := 0, Z := 0 } :=
  ⟨by decide!, FindPeak3D_singular hsEdge0 hsEdge1 hsEdge1 dirU dirU dirV (by decide!)⟩

/-! ## The driver -/

theorem LinesFromPoints_short (sqrt : ℚ → ℚ) (pts : List Pt2D) (z0 x0 R : ℚ)
    (h : pts.length < 2) : LinesFromPoints sqrt pts [] z0 x0 R = [] := by
  have hp : pairOrder pts.length (toInt32 (pairProduct pts.length / kMaxLines + 1)) = [] := by
    have : pts.length = 0 ∨ pts.length = 1 := by omega
    rcases this with e | e <;> rw [e] <;> decide!
  unfold LinesFromPoints
  simp only [hp, pushLines, List.insertionSort]

theorem coarseView_short (sqrt : ℚ → ℚ) (mk : ℚ → ℚ → ℚ → ℚ → ℚ → ℚ → HeatMap)
    (pts : List Pt2D) (minz maxz minx maxx : ℚ) (h : pts.length < 2) :
    coarseView sqrt mk pts minz maxz minx maxx = none := by
  unfold coarseView
  simp only [LinesFromPoints_short sqrt pts 0 0 (-1) h, List.isEmpty_nil, if_true, ite_self]

theorem allViews_eq_none (r0 r1 r2 : Option HeatMap) (h : r0 = none ∨ r1 = none ∨ r2 = none) :
    allViews r0 r1 r2 = none := by
  cases r0 <;> cases r1 <;> cases r2 <;> simp [allViews] at h ⊢

theorem coarseScan_short (sqrt : ℚ → ℚ) (mk : ℚ → ℚ → ℚ → ℚ → ℚ → ℚ → HeatMap)
    (pts0 pts1 pts2 : List Pt2D) (h : pts0.length < 2 ∨ pts1.length < 2 ∨ pts2.length < 2) :
    coarseScan sqrt mk pts0 pts1 pts2 = none := by
  unfold coarseScan
  apply allViews_eq_none
  rcases h with h | h | h
  · exact Or.inl (coarseView_short sqrt mk pts0 _ _ _ _ h)
  · exact Or.inr (Or.inl (coarseView_short sqrt mk pts1 _ _ _ _ h))
  · exact Or.inr (Or.inr (coarseView_short sqrt mk pts2 _ _ _ _ h))

/-- C6: `FindVtx`, as a function of the three lists of points and the three directions, returns
false whenever some view has fewer than two points: such a view yields no lines (none at all for
zero points or for one point), and the coarse scan fails. -/
theorem FindVtx_few_points (sqrt : ℚ → ℚ) (mk : ℚ → ℚ → ℚ → ℚ → ℚ → ℚ → HeatMap)
    (pts0 pts1 pts2 : List Pt2D) (d0 d1 d2 : TVector3)
    (h : pts0.length < 2 ∨ pts1.length < 2 ∨ pts2.length < 2) :
    (∃ pts ∈ [pts0, pts1, pts2], pts.length < 2 ∧ LinesFromPoints sqrt pts [] 0 0 (-1) = []) ∧
    coarseScan sqrt mk pts0 pts1 pts2 = none ∧
    FindVtx sqrt mk pts0 pts1 pts2 d0 d1 d2 = none := by
  refine ⟨?_, coarseScan_short sqrt mk pts0 pts1 pts2 h, ?_⟩
  · rcases h with h | h | h
    · exact ⟨pts0, by simp, h, LinesFromPoints_short sqrt pts0 0 0 (-1) h⟩
    · exact ⟨pts1, by simp, h, LinesFromPoints_short sqrt pts1 0 0 (-1) h⟩
    · exact ⟨pts2, by simp, h, LinesFromPoints_short sqrt pts2 0 0 (-1) h⟩
  · unfold FindVtx
    rw [coarseScan_short sqrt mk pts0 pts1 pts2 h]

theorem FindVtx_few_points_witness :
    ((ptsPair 0).length < 2 ∨ ([] : List Pt2D).length < 2 ∨
      ([{ x := 1, z := 2, view := 2, energy := 1 }] : List Pt2D).length < 2) ∧
    FindVtx sqrtQ uniformMap (ptsPair 0) [] [{ x := 1, z := 2, view := 2, energy := 1 }]
      dirZ dirU dirV = none :=
  ⟨by decide!,
    (FindVtx_few_points sqrtQ uniformMap (ptsPair 0) []
      [{ x := 1, z := 2, view := 2, energy := 1 }] dirZ dirU dirV (by decide!)).2.2⟩

theorem allViews_eq_none_iff (r0 r1 r2 : Option HeatMap) :
    allViews r0 r1 r2 = none ↔ r0 = none ∨ r1 = none ∨ r2 = none := by
  cases r0 <;> cases r1 <;> cases r2 <;> simp [allViews]

theorem coarseView_eq_none_iff (sqrt : ℚ → ℚ) (mk : ℚ → ℚ → ℚ → ℚ → ℚ → ℚ → HeatMap)
    (pts : List Pt2D) (minz maxz minx maxx : ℚ) :
    coarseView sqrt mk pts minz maxz minx maxx = none ↔
      LinesFromPoints sqrt pts [] 0 0 (-1) = [] := by
  unfold coarseView
  cases pts with
  | nil =>
    simp only [List.isEmpty_nil, if_true, true_iff]
    exact LinesFromPoints_short sqrt [] 0 0 (-1) (by simp)
  | cons p ps =>
    cases hl : LinesFromPoints sqrt (p :: ps) [] 0 0 (-1) <;> simp

theorem zoomView_zero_eq_none_iff (sqrt : ℚ → ℚ) (mk : ℚ → ℚ → ℚ → ℚ → ℚ → ℚ → HeatMap)
    (pts : List Pt2D) (dir : TVector3) :
    zoomView sqrt mk pts { X := 0, Y := 0, Z := 0 } dir = none ↔
      LinesFromPoints sqrt pts [] 0 0 (5 / 2) = [] := by
  have hdot : TVector3.Dot { X := 0, Y := 0, Z := 0 } dir = 0 := by simp [TVector3.Dot]
  unfold zoomView
  simp only [hdot]
  cases hl : LinesFromPoints sqrt pts [] 0 0 (5 / 2) <;> simp

theorem FindVtx_of_peak_zero (sqrt : ℚ → ℚ) (mk : ℚ → ℚ → ℚ → ℚ → ℚ → ℚ → HeatMap)
    (pts0 pts1 pts2 : List Pt2D) (d0 d1 d2 : TVector3)
    (hp : ∀ a b c, FindPeak3D a b c d0 d1 d2 = { X := 0, Y := 0, Z := 0 }) :
    FindVtx sqrt mk pts0 pts1 pts2 d0 d1 d2 =
      match coarseScan sqrt mk pts0 pts1 pts2 with
      | none => none
      | some _ =>
        match zoomScan sqrt mk pts0 pts1 pts2 { X := 0, Y := 0, Z := 0 } d0 d1 d2 with
        | none => none
        | some _ => some { X := 0, Y := 0, Z := 0 } := by
  unfold FindVtx
  simp only [hp]

/-- C7: what `FindVtx` does when the 2x2 matrix of the (Y,Z) components of the first two view
directions is singular, where the claim says that it returns false.  `FindPeak3D` then returns
the zero point, its signal for a singular matrix, and `FindVtx` does not test for it: `FindVtx`
never returns another vertex, it returns false only when some view yields no lines, in the coarse
scan or in the zoom scan around the zero point (circle of radius 2.5 centred at `(0, 0)`), and
otherwise it returns true with the vertex `(0, 0, 0)`. -/
theorem FindVtx_singular (sqrt : ℚ → ℚ) (mk : ℚ → ℚ → ℚ → ℚ → ℚ → ℚ → HeatMap)
    (pts0 pts1 pts2 : List Pt2D) (d0 d1 d2 : TVector3)
    (h : d0.Y * d1.Z - d1.Y * d0.Z = 0) :
    (FindVtx sqrt mk pts0 pts1 pts2 d0 d1 d2 = none ∨
      FindVtx sqrt mk pts0 pts1 pts2 d0 d1 d2 = some { X := 0, Y := 0, Z := 0 }) ∧
    (FindVtx sqrt mk pts0 pts1 pts2 d0 d1 d2 = none ↔
      ∃ pts ∈ [pts0, pts1, pts2], LinesFromPoints sqrt pts [] 0 0 (-1) = [] ∨
        LinesFromPoints sqrt pts [] 0 0 (5 / 2) = []) := by
  have hp : ∀ a b c, FindPeak3D a b c d0 d1 d2 = { X := 0, Y := 0, Z := 0 } :=
    fun a b c => FindPeak3D_of_det_zero a b c d0 d1 d2 h
  have hc : coarseScan sqrt mk pts0 pts1 pts2 = none ↔
      LinesFromPoints sqrt pts0 [] 0 0 (-1) = [] ∨ LinesFromPoints sqrt pts1 [] 0 0 (-1) = [] ∨
        LinesFromPoints sqrt pts2 [] 0 0 (-1) = [] := by
    unfold coarseScan
    simp only [allViews_eq_none_iff, coarseView_eq_none_iff]
  have hz : zoomScan sqrt mk pts0 pts1 pts2 { X := 0, Y := 0, Z := 0 } d0 d1 d2 = none ↔
      LinesFromPoints sqrt pts0 [] 0 0 (5 / 2) = [] ∨
        LinesFromPoints sqrt pts1 [] 0 0 (5 / 2) = [] ∨
        LinesFromPoints sqrt pts2 [] 0 0 (5 / 2) = [] := by
    unfold zoomScan
    simp only [allViews_eq_none_iff, zoomView_zero_eq_none_iff]
  have hex : (∃ pts ∈ [pts0, pts1, pts2], LinesFromPoints sqrt pts [] 0 0 (-1) = [] ∨
        LinesFromPoints sqrt pts [] 0 0 (5 / 2) = []) ↔
      (coarseScan sqrt mk pts0 pts1 pts2 = none ∨
        zoomScan sqrt mk pts0 pts1 pts2 { X := 0, Y := 0, Z := 0 } d0 d1 d2 = none) := by
    rw [hc, hz]
    simp only [List.mem_cons, List.mem_singleton, List.not_mem_nil, or_false,
      exists_eq_or_imp, exists_eq_left]
    generalize (LinesFromPoints sqrt pts0 [] 0 0 (-1) = []) = A0
    generalize (LinesFromPoints sqrt pts1 [] 0 0 (-1) = []) = A1
    generalize (LinesFromPoints sqrt pts2 [] 0 0 (-1) = []) = A2
    generalize (LinesFromPoints sqrt pts0 [] 0 0 (5 / 2) = []) = B0
    generalize (LinesFromPoints sqrt pts1 [] 0 0 (5 / 2) = []) = B1
    generalize (LinesFromPoints sqrt pts2 [] 0 0 (5 / 2) = []) = B2
    clear hc hz hp h
    tauto
  rw [hex]
  rw [FindVtx_of_peak_zero sqrt mk pts0 pts1 pts2 d0 d1 d2 hp]
  cases coarseScan sqrt mk pts0 pts1 pts2 with
  | none =>
    dsimp only
    exact ⟨Or.inl rfl, fun _ => Or.inl rfl, fun _ => rfl⟩
  | some hms =>
    dsimp only
    cases zoomScan sqrt mk pts0 pts1 pts2 { X := 0, Y := 0, Z := 0 } d0 d1 d2 with
    | none =>
      dsimp only
      exact ⟨Or.inl rfl, fun _ => Or.inr rfl, fun _ => rfl⟩
    | some kms =>
      dsimp only
      refine ⟨Or.inr rfl, fun e => Option.noConfusion e, fun e => ?_⟩
      rcases e with e | e <;> exact Option.noConfusion e

theorem FindVtx_singular_witness :
    dirZ.Y * dirZ.Z - dirZ.Y * dirZ.Z = 0 ∧
    (FindVtx sqrtQ uniformMap (ptsPair 0) (ptsPair 1) ptsLevel dirZ dirZ dirV = none ↔
      ∃ pts ∈ [ptsPair 0, ptsPair 1, ptsLevel], LinesFromPoints sqrtQ pts [] 0 0 (-1) = [] ∨
        LinesFromPoints sqrtQ pts [] 0 0 (5 / 2) = []) :=
  ⟨by decide!,
    (FindVtx_singular sqrtQ uniformMap (ptsPair 0) (ptsPair 1) ptsLevel dirZ dirZ dirV
      (by decide!)).2⟩

/-- C7 fails on this input: with the first two view directions identical the matrix is
singular, and for two points per view on the line `x = 0` `FindVtx` returns true, with the zero
point as the vertex. -/
theorem FindVtx_singular_counterexample :
    dirZ.Y * dirZ.Z - dirZ.Y * dirZ.Z = 0 ∧
    FindVtx sqrtQ uniformMap (ptsPair 0) (ptsPair 1) (ptsPair 2) dirZ dirZ dirV
      = some { X := 0, Y := 0, Z := 0 } ∧
    FindVtx sqrtQ uniformMap (ptsPair 0) (ptsPair 1) (ptsPair 2) dirZ dirZ dirV ≠ none := by
  refine ⟨by decide!, by decide!, by decide!⟩

/-! ## The votes of the intersection accumulator and the circle filter -/

theorem vote_inside (stride : Nat) (a b : Line2D) (hm : HeatMap) (z : ℚ)
    (hz : FP.div (b.c - a.c) (a.m - b.m) = some z)
    (hin : (a.minz ≤ z ∧ z ≤ a.maxz) ∨ (b.minz ≤ z ∧ z ≤ b.maxz)) :
    vote stride a b hm = hm := by
  unfold vote
  rw [hz]
  dsimp only
  rw [if_neg]
  rintro ⟨ha, hb⟩
  rcases hin with ⟨h1, h2⟩ | ⟨h1, h2⟩
  · rcases ha with ha | ha
    · exact absurd h1 (not_le.mpr ha)
    · exact absurd h2 (not_le.mpr ha)
  · rcases hb with hb | hb
    · exact absurd h1 (not_le.mpr hb)
    · exact absurd h2 (not_le.mpr hb)

theorem vote_changed (stride : Nat) (a b : Line2D) (hm : HeatMap)
    (hne : vote stride a b hm ≠ hm) :
    ∃ z, FP.div (b.c - a.c) (a.m - b.m) = some z ∧
      (z < a.minz ∨ a.maxz < z) ∧ (z < b.minz ∨ b.maxz < z) := by
  cases hz : FP.div (b.c - a.c) (a.m - b.m) with
  | none =>
    exfalso
    apply hne
    unfold vote
    rw [hz]
  | some z =>
    refine ⟨z, rfl, ?_⟩
    by_contra hcon
    apply hne
    apply vote_inside stride a b hm z hz
    by_contra hin
    apply hcon
    constructor
    · by_contra h
      exact hin (Or.inl ⟨not_lt.mp (fun h' => h (Or.inl h')), not_lt.mp (fun h' => h (Or.inr h'))⟩)
    · by_contra h
      exact hin (Or.inr ⟨not_lt.mp (fun h' => h (Or.inl h')), not_lt.mp (fun h' => h (Or.inr h'))⟩)

theorem voteRow_fixed (stride : Nat) (lines : List Line2D) (a : Line2D)
    (hfix : ∀ b ∈ lines, ∀ h : HeatMap, vote stride a b h = h) :
    ∀ (js : List Nat) (hm : HeatMap), voteRow stride lines a js hm = hm := by
  intro js
  induction js with
  | nil => intro hm; rfl
  | cons j rest ih =>
    intro hm
    unfold voteRow
    rw [List.foldl_cons]
    cases hj : lines[j]? with
    | none => exact ih hm
    | some b =>
      dsimp only
      rw [hfix b (List.getElem?_mem hj) hm]
      exact ih hm

theorem voteStep_fixed (stride : Nat) (lines : List Line2D)
    (hfix : ∀ a ∈ lines, ∀ b ∈ lines, ∀ h : HeatMap, vote stride a b h = h) :
    ∀ (is : List Nat) (st : Nat × Nat × HeatMap),
      (is.foldl (voteStep stride lines) st).2.2 = st.2.2 := by
  intro is
  induction is with
  | nil => intro st; rfl
  | cons i rest ih =>
    intro st
    rw [List.foldl_cons, ih]
    unfold voteStep
    cases hi : lines[i]? with
    | none => rfl
    | some a =>
      dsimp only
      exact voteRow_fixed stride lines a (hfix a (List.getElem?_mem hi)) _ _

/-- C9: at every pair of lines `a`, `b` at which `MapFromLines` evaluates an intersection, with
abscissa `z`, no weight is added when `z` lies within `[minz, maxz]` of either line, bounds
included; weight is added only when `z` is strictly outside the covered range of both lines.
Hence `MapFromLines` leaves the heat map as it is when every intersection of two of the lines lies
within the covered range of one of them. -/
theorem MapFromLines_votes_outside :
    (∀ (stride : Nat) (a b : Line2D) (hm : HeatMap) (z : ℚ),
      FP.div (b.c - a.c) (a.m - b.m) = some z →
      (a.minz ≤ z ∧ z ≤ a.maxz) ∨ (b.minz ≤ z ∧ z ≤ b.maxz) → vote stride a b hm = hm) ∧
    (∀ (stride : Nat) (a b : Line2D) (hm : HeatMap), vote stride a b hm ≠ hm →
      ∃ z, FP.div (b.c - a.c) (a.m - b.m) = some z ∧
        (z < a.minz ∨ a.maxz < z) ∧ (z < b.minz ∨ b.maxz < z)) ∧
    (∀ (lines : List Line2D) (hm : HeatMap),
      (∀ a ∈ lines, ∀ b ∈ lines, ∀ z, FP.div (b.c - a.c) (a.m - b.m) = some z →
        (a.minz ≤ z ∧ z ≤ a.maxz) ∨ (b.minz ≤ z ∧ z ≤ b.maxz)) →
      MapFromLines lines hm = hm) := by
  refine ⟨vote_inside, vote_changed, ?_⟩
  intro lines hm hall
  unfold MapFromLines
  refine voteStep_fixed _ lines ?_ _ _
  intro a ha b hb h
  by_contra hne
  obtain ⟨z, hz, hza, hzb⟩ := vote_changed _ a b h hne
  rcases hall a ha b hb z hz with ⟨h1, h2⟩ | ⟨h1, h2⟩
  · rcases hza with hza | hza
    · exact absurd h1 (not_le.mpr hza)
    · exact absurd h2 (not_le.mpr hza)
  · rcases hzb with hzb | hzb
    · exact absurd h1 (not_le.mpr hzb)
    · exact absurd h2 (not_le.mpr hzb)

/-- C10 (the code departs from the claim): called with the circle of radius `R = 1` around
`(0, 0)`, `LinesFromPoints` emits the line `x = 2` through the points `(x, z) = (2, 0), (2, 1)`,
whose distance from the centre is 2: the test is made against the radius 2.5, not against `R`. -/
theorem LinesFromPoints_ignores_R :
    (0 : ℚ) < 1 ∧
    LinesFromPoints sqrtQ ptsLevel [] 0 0 1 = [{ m := 0, c := 2, minz := 0, maxz := 1 }] ∧
    ¬ MeetsCircle { m := 0, c := 2, minz := 0, maxz := 1 } 0 0 1 ∧
    MeetsCircle { m := 0, c := 2, minz := 0, maxz := 1 } 0 0 (5 / 2) ∧
    IntersectsCircle sqrtQ 0 2 0 0 1 = none ∧
    IntersectsCircle sqrtQ 0 2 0 0 (5 / 2) = some (-3 / 2, 3 / 2) := by
  refine ⟨by decide!, by decide!, by decide!, by decide!, by decide!, by decide!⟩

/-! ## The circle filter of the line generator -/

theorem peakPoint_coords (hs0 hs1 : HeatMap) (d1 d2 : TVector3) (iz iu ix : Nat)
    (hdet : (0 : ℚ) * d1.Z - d1.Y * 1 ≠ 0) (h1 : d1.X = 0) :
    (peakPoint hs0 hs1 (dirMatrix { X := 0, Y := 0, Z := 1 } d1).Invert d2 iz iu ix).X
        = hs0.XBinCenter ix ∧
    (peakPoint hs0 hs1 (dirMatrix { X := 0, Y := 0, Z := 1 } d1).Invert d2 iz iu ix).Y
        = (dirMatrix { X := 0, Y := 0, Z := 1 } d1).Invert.m00 * hs0.ZBinCenter iz
          + (dirMatrix { X := 0, Y := 0, Z := 1 } d1).Invert.m01 * hs1.ZBinCenter iu ∧
    (peakPoint hs0 hs1 (dirMatrix { X := 0, Y := 0, Z := 1 } d1).Invert d2 iz iu ix).Z
        = (dirMatrix { X := 0, Y := 0, Z := 1 } d1).Invert.m10 * hs0.ZBinCenter iz
          + (dirMatrix { X := 0, Y := 0, Z := 1 } d1).Invert.m11 * hs1.ZBinCenter iu ∧
    (peakPoint hs0 hs1 (dirMatrix { X := 0, Y := 0, Z := 1 } d1).Invert d2 iz iu ix).Dot
        { X := 0, Y := 0, Z := 1 } = hs0.ZBinCenter iz ∧
    (peakPoint hs0 hs1 (dirMatrix { X := 0, Y := 0, Z := 1 } d1).Invert d2 iz iu ix).Dot d1
        = hs1.ZBinCenter iu := by
  have hy : d1.Y ≠ 0 := by
    intro e
    apply hdet
    rw [e]
    ring
  have hd : (0 : ℚ) * d1.Z - d1.Y * 1 = -d1.Y := by ring
  simp only [peakPoint, implied, dirMatrix, Mat2.Invert, TVector3.Dot, h1, hd]
  refine ⟨trivial, trivial, ?_, ?_, ?_⟩
  · field_simp
  · ring
  · have e : d1.Y * d1.Y⁻¹ = 1 := mul_inv_cancel₀ hy
    calc hs0.XBinCenter ix * 0 + (d1.Z / -d1.Y * hs0.ZBinCenter iz + -1 / -d1.Y * hs1.ZBinCenter iu) * d1.Y
          + hs0.ZBinCenter iz * d1.Z
        = (d1.Y * d1.Y⁻¹) * (hs1.ZBinCenter iu - d1.Z * hs0.ZBinCenter iz)
          + hs0.ZBinCenter iz * d1.Z := by
          rw [div_eq_mul_inv, div_eq_mul_inv, inv_neg]
          ring
      _ = hs1.ZBinCenter iu := by
          rw [e]
          ring

/-- C12 (as amended): for non-singular view directions with `dirs[0] = (0, 0, 1)`, the direction
of view 0 that `GetPts2D` supplies, and `dirs[1].X = 0`, the point `FindPeak3D` returns is the zero
point (no combination scored) or the point of a combination `(iz, iu, ix)` in range; the `X` of
that point is the drift bin centre of `ix`, its `Y` is the first coefficient of `M^-1 (z, u)`,
and its `Z` is `z`, the bin centre of view 0 at `iz`, which is then the second coefficient, so
that `r.dirs[0] = z` and `r.dirs[1] = u`. -/
theorem FindPeak3D_point_coords (hs0 hs1 hs2 : HeatMap) (d0 d1 d2 : TVector3)
    (hdet : d0.Y * d1.Z - d1.Y * d0.Z ≠ 0) (h0 : d0 = { X := 0, Y := 0, Z := 1 })
    (h1 : d1.X = 0) :
    FindPeak3D hs0 hs1 hs2 d0 d1 d2 = (peakSearch hs0 hs1 hs2 (dirMatrix d0 d1).Invert d2).2 ∧
    PeakAttained hs0 hs1 hs2 (dirMatrix d0 d1).Invert d2
      (peakSearch hs0 hs1 hs2 (dirMatrix d0 d1).Invert d2) ∧
    ∀ iz iu ix,
      (peakPoint hs0 hs1 (dirMatrix d0 d1).Invert d2 iz iu ix).X = hs0.XBinCenter ix ∧
      (peakPoint hs0 hs1 (dirMatrix d0 d1).Invert d2 iz iu ix).Y
        = (dirMatrix d0 d1).Invert.m00 * hs0.ZBinCenter iz
          + (dirMatrix d0 d1).Invert.m01 * hs1.ZBinCenter iu ∧
      (peakPoint hs0 hs1 (dirMatrix d0 d1).Invert d2 iz iu ix).Z
        = (dirMatrix d0 d1).Invert.m10 * hs0.ZBinCenter iz
          + (dirMatrix d0 d1).Invert.m11 * hs1.ZBinCenter iu ∧
      (peakPoint hs0 hs1 (dirMatrix d0 d1).Invert d2 iz iu ix).Z = hs0.ZBinCenter iz ∧
      (peakPoint hs0 hs1 (dirMatrix d0 d1).Invert d2 iz iu ix).Dot d0 = hs0.ZBinCenter iz ∧
      (peakPoint hs0 hs1 (dirMatrix d0 d1).Invert d2 iz iu ix).Dot d1 = hs1.ZBinCenter iu := by
  subst h0
  refine ⟨?_, peakSearch_attained _ _ _ _ _, ?_⟩
  · unfold FindPeak3D
    simp only [dirMatrix]
    rw [if_neg hdet]
  · intro iz iu ix
    obtain ⟨a, b, c, d, e⟩ := peakPoint_coords hs0 hs1 d1 d2 iz iu ix hdet h1
    exact ⟨a, b, c, rfl, d, e⟩

theorem FindPeak3D_point_coords_witness :
    (dirZ.Y * dirU.Z - dirU.Y * dirZ.Z ≠ 0 ∧ dirZ = { X := 0, Y := 0, Z := 1 } ∧ dirU.X = 0) ∧
    FindPeak3D hsEdge1 hsShift hsShift dirZ dirU dirU
      = peakPoint hsEdge1 hsShift (dirMatrix dirZ dirU).Invert dirU 0 0 1 ∧
    (peakPoint hsEdge1 hsShift (dirMatrix dirZ dirU).Invert dirU 0 0 1).Dot dirU
      = hsShift.ZBinCenter 0 :=
  ⟨⟨by decide!, by decide!, by decide!⟩, by decide!,
    ((FindPeak3D_point_coords hsEdge1 hsShift hsShift dirZ dirU dirU (by decide!) (by decide!)
      (by decide!)).2.2 0 0 1).2.2.2.2.2⟩

/-- C12 (as stated) fails: for the non-singular directions `dirs[0] = (0, 1, 0)` and
`dirs[1] = (0, 0, 1)` the matrix is the identity and the coefficients of the winning combination
are `(z, u) = (1/2, 3/2)`, yet `FindPeak3D` returns `(3/2, 1/2, 1/2)`: its `Z` is `z`, not the
second coefficient, and `r.dirs[1]` is `1/2`, not `u = 3/2`. -/
theorem FindPeak3D_Z_counterexample :
    dirY.Y * dirZ.Z - dirZ.Y * dirY.Z ≠ 0 ∧
    FindPeak3D hsEdge1 hsShift hsEdge1 dirY dirZ dirY
      = peakPoint hsEdge1 hsShift (dirMatrix dirY dirZ).Invert dirY 0 0 1 ∧
    FindPeak3D hsEdge1 hsShift hsEdge1 dirY dirZ dirY = { X := 3 / 2, Y := 1 / 2, Z := 1 / 2 } ∧
    (dirMatrix dirY dirZ).Invert.m10 * hsEdge1.ZBinCenter 0
      + (dirMatrix dirY dirZ).Invert.m11 * hsShift.ZBinCenter 0 = 3 / 2 ∧
    hsShift.ZBinCenter 0 = 3 / 2 ∧
    (FindPeak3D hsEdge1 hsShift hsEdge1 dirY dirZ dirY).Dot dirZ = 1 / 2 := by
  refine ⟨by decide!, by decide!, by decide!, by decide!, by decide!, by decide!⟩

/-! ## The angular test -/

theorem sqr_cosCrit_lt_one : sqr cosCrit < 1 := by
  unfold sqr cosCrit
  norm_num

theorem sqr_cosCrit_pos : 0 < sqr cosCrit := by
  unfold sqr cosCrit
  norm_num

theorem CloseAngles_refl (m : ℚ) : CloseAngles m m = true := by
  unfold CloseAngles
  simp only [decide_eq_true_eq, gt_iff_lt]
  have hpos : 0 < (1 + sqr m) * (1 + sqr m) := by
    have : 0 < 1 + sqr m := by unfold sqr; nlinarith [mul_self_nonneg m]
    exact mul_pos this this
  have hk := sqr_cosCrit_lt_one
  have e : sqr (1 + m * m) = (1 + sqr m) * (1 + sqr m) := by unfold sqr; ring
  rw [e]
  calc (1 + sqr m) * (1 + sqr m) * sqr cosCrit
      < (1 + sqr m) * (1 + sqr m) * 1 := mul_lt_mul_of_pos_left hk hpos
    _ = (1 + sqr m) * (1 + sqr m) := mul_one _

theorem cos_sq_arctan_sub (x y : ℝ) :
    Real.cos (Real.arctan x - Real.arctan y) ^ 2
      = (1 + x * y) ^ 2 / ((1 + x ^ 2) * (1 + y ^ 2)) := by
  have hx : 0 < 1 + x ^ 2 := by positivity
  have hy : 0 < 1 + y ^ 2 := by positivity
  have sx : Real.sqrt (1 + x ^ 2) ^ 2 = 1 + x ^ 2 := Real.sq_sqrt hx.le
  have sy : Real.sqrt (1 + y ^ 2) ^ 2 = 1 + y ^ 2 := Real.sq_sqrt hy.le
  have px : 0 < Real.sqrt (1 + x ^ 2) := Real.sqrt_pos.mpr hx
  have py : 0 < Real.sqrt (1 + y ^ 2) := Real.sqrt_pos.mpr hy
  rw [Real.cos_sub, Real.cos_arctan, Real.sin_arctan, Real.cos_arctan, Real.sin_arctan]
  have e : 1 / Real.sqrt (1 + x ^ 2) * (1 / Real.sqrt (1 + y ^ 2))
      + x / Real.sqrt (1 + x ^ 2) * (y / Real.sqrt (1 + y ^ 2))
      = (1 + x * y) / (Real.sqrt (1 + x ^ 2) * Real.sqrt (1 + y ^ 2)) := by
    field_simp
  rw [e, div_pow, mul_pow, sx, sy]

theorem CloseAngles_iff_real (ma mb : ℚ) :
    CloseAngles ma mb = true ↔
      (cosCrit : ℝ) ^ 2 * ((1 + (ma : ℝ) ^ 2) * (1 + (mb : ℝ) ^ 2))
        < (1 + (ma : ℝ) * (mb : ℝ)) ^ 2 := by
  unfold CloseAngles
  simp only [decide_eq_true_eq, gt_iff_lt, sqr]
  have h : ((((1 + ma * ma) * (1 + mb * mb) * (cosCrit * cosCrit) : ℚ)) : ℝ)
      < (((1 + ma * mb) * (1 + ma * mb) : ℚ) : ℝ) ↔
      (cosCrit : ℝ) ^ 2 * ((1 + (ma : ℝ) ^ 2) * (1 + (mb : ℝ) ^ 2))
        < (1 + (ma : ℝ) * (mb : ℝ)) ^ 2 := by
    push_cast
    constructor <;> intro h <;> nlinarith [h]
  rw [← h, Rat.cast_lt]

theorem CloseAngles_iff_cos_sq (ma mb : ℚ) :
    CloseAngles ma mb = true ↔
      Real.cos (Real.arctan (ma : ℝ) - Real.arctan (mb : ℝ)) ^ 2 > (cosCrit : ℝ) ^ 2 := by
  have hD : 0 < (1 + (ma : ℝ) ^ 2) * (1 + (mb : ℝ) ^ 2) := by positivity
  rw [CloseAngles_iff_real, cos_sq_arctan_sub, gt_iff_lt, lt_div_iff₀ hD]

theorem cos_ten_degrees_lt_cosCrit : Real.cos (Real.pi / 18) < (cosCrit : ℝ) := by
  have hpi := Real.pi_pos
  have hhalf : 1 / 2 ≤ Real.cos (Real.pi / 18) := by
    rw [← Real.cos_pi_div_three]
    apply Real.cos_le_cos_of_nonneg_of_le_pi <;> linarith
  have h3 : 4 * Real.cos (Real.pi / 18) ^ 3 - 3 * Real.cos (Real.pi / 18)
      = Real.sqrt 3 / 2 := by
    rw [← Real.cos_three_mul, ← Real.cos_pi_div_six]
    congr 1
    ring
  have hq : (cosCrit : ℝ) = 16522333 / 16777216 := by
    unfold cosCrit
    push_cast
    rfl
  have hs : Real.sqrt 3 / 2 < 4 * (cosCrit : ℝ) ^ 3 - 3 * (cosCrit : ℝ) := by
    have : Real.sqrt 3 < 2 * (4 * (cosCrit : ℝ) ^ 3 - 3 * (cosCrit : ℝ)) := by
      rw [Real.sqrt_lt' (by rw [hq]; norm_num)]
      rw [hq]
      norm_num
    linarith
  by_contra hcon
  have hge : (cosCrit : ℝ) ≤ Real.cos (Real.pi / 18) := not_lt.mp hcon
  have hqh : (1 : ℝ) / 2 ≤ (cosCrit : ℝ) := by rw [hq]; norm_num
  have : 4 * (cosCrit : ℝ) ^ 3 - 3 * (cosCrit : ℝ)
      ≤ 4 * Real.cos (Real.pi / 18) ^ 3 - 3 * Real.cos (Real.pi / 18) := by
    nlinarith [mul_nonneg (sub_nonneg.mpr hge) (sub_nonneg.mpr hqh),
      mul_nonneg (sub_nonneg.mpr hge) (sub_nonneg.mpr hhalf),
      mul_nonneg (sub_nonneg.mpr hge) (mul_self_nonneg (Real.cos (Real.pi / 18) - cosCrit)),
      mul_nonneg (sub_nonneg.mpr hqh) (sub_nonneg.mpr hhalf)]
  linarith

theorem cos_sq_le_of_between (d : ℝ) (h1 : Real.pi / 18 ≤ |d|) (h2 : |d| ≤ 17 * Real.pi / 18) :
    Real.cos d ^ 2 ≤ Real.cos (Real.pi / 18) ^ 2 := by
  have hpi := Real.pi_pos
  rw [← Real.cos_abs d]
  apply sq_le_sq'
  · have : Real.cos (Real.pi - Real.pi / 18) ≤ Real.cos |d| := by
      apply Real.cos_le_cos_of_nonneg_of_le_pi (abs_nonneg d) <;> linarith
    rw [Real.cos_pi_sub] at this
    exact this
  · apply Real.cos_le_cos_of_nonneg_of_le_pi <;> linarith

/-- C14 (as stated) fails: the slopes `-60` and `12` have `|atan m - atan m_far|` above 10
degrees (it is above 45 degrees), the cosine of the angle between `(1, -60)` and `(1, 12)` is
negative, and yet `CloseAngles(-60, 12)` is true, in exact arithmetic and in the `float`
arithmetic of the source. -/
theorem CloseAngles_steep_counterexample :
    10 * Real.pi / 180 < |Real.arctan (((-60 : ℚ)) : ℝ) - Real.arctan ((12 : ℚ) : ℝ)| ∧
    (1 + (-60 : ℚ) * 12 < 0) ∧ CloseAngles (-60) 12 = true ∧
    CloseAngles32 (.fin (-60)) (.fin 12) = true := by
  refine ⟨?_, by norm_num, by decide!, by decide!⟩
  have hpi := Real.pi_pos
  have h12 : Real.pi / 4 < Real.arctan ((12 : ℚ) : ℝ) := by
    rw [← Real.arctan_one]
    apply Real.arctan_strictMono
    norm_num
  have h60 : Real.arctan (((-60 : ℚ)) : ℝ) < 0 := by
    rw [← Real.arctan_zero]
    apply Real.arctan_strictMono
    norm_num
  have key : ∀ a b : ℝ, Real.pi / 4 < b → a < 0 → 10 * Real.pi / 180 < |a - b| := by
    intro a b hb ha
    rw [abs_of_neg (by linarith)]
    linarith
  exact key _ _ h12 h60

/-! ## The pointers of the intersection accumulator -/

theorem takeWhile_spec (p : Line2D → Bool) : ∀ (l : List Line2D),
    (∀ k b, k < (l.takeWhile p).length → l[k]? = some b → p b = true) ∧
    (∀ b, l[(l.takeWhile p).length]? = some b → p b = false) ∧
    (l.takeWhile p).length ≤ l.length := by
  intro l
  induction l with
  | nil => simp
  | cons x xs ih =>
    obtain ⟨ih1, ih2, ih3⟩ := ih
    rw [List.takeWhile_cons]
    by_cases hx : p x = true
    · rw [if_pos hx]
      refine ⟨?_, ?_, ?_⟩
      · intro k b hk hb
        cases k with
        | zero =>
          simp only [List.getElem?_cons_zero, Option.some.injEq] at hb
          rw [← hb]; exact hx
        | succ k =>
          simp only [List.getElem?_cons_succ] at hb
          exact ih1 k b (by simpa using hk) hb
      · intro b hb
        simp only [List.length_cons, List.getElem?_cons_succ] at hb
        exact ih2 b hb
      · simp only [List.length_cons]
        omega
    · rw [if_neg hx]
      refine ⟨?_, ?_, ?_⟩
      · intro k b hk
        simp at hk
      · intro b hb
        simp only [List.length_nil, List.getElem?_cons_zero, Option.some.injEq] at hb
        rw [← hb]
        simpa using hx
      · simp

theorem advanceWhile_ge (p : Line2D → Bool) (lines : List Line2D) (j : Nat) :
    j ≤ advanceWhile p lines j := by
  unfold advanceWhile
  omega

theorem advanceWhile_le_length (p : Line2D → Bool) (lines : List Line2D) (j : Nat)
    (hj : j ≤ lines.length) : advanceWhile p lines j ≤ lines.length := by
  unfold advanceWhile
  have h := (takeWhile_spec p (lines.drop j)).2.2
  rw [List.length_drop] at h
  omega

theorem advanceWhile_stop (p : Line2D → Bool) (lines : List Line2D) (j : Nat) (b : Line2D)
    (hb : lines[advanceWhile p lines j]? = some b) : p b = false := by
  unfold advanceWhile at hb
  apply (takeWhile_spec p (lines.drop j)).2.1 b
  rw [List.getElem?_drop]
  exact hb

theorem advanceWhile_passed (p : Line2D → Bool) (lines : List Line2D) (j k : Nat) (b : Line2D)
    (h1 : j ≤ k) (h2 : k < advanceWhile p lines j) (hb : lines[k]? = some b) : p b = true := by
  unfold advanceWhile at h2
  apply (takeWhile_spec p (lines.drop j)).1 (k - j) b (by omega)
  rw [List.getElem?_drop]
  have : j + (k - j) = k := by omega
  rw [this]
  exact hb

theorem foldl_rel {α σ τ : Type} (f : σ → α → σ) (g : τ → α → τ) (Rel : σ → τ → Prop)
    (hstep : ∀ s t a, Rel s t → Rel (f s a) (g t a)) :
    ∀ (L : List α) (s : σ) (t : τ), Rel s t → Rel (L.foldl f s) (L.foldl g t) := by
  intro L
  induction L with
  | nil => intro s t h; exact h
  | cons a rest ih =>
    intro s t h
    rw [List.foldl_cons, List.foldl_cons]
    exact ih _ _ (hstep s t a h)

theorem voteRow_eq_votePair (stride : Nat) (lines : List Line2D) (a : Line2D) (i : Nat)
    (hi : lines[i]? = some a) (js : List Nat) (h : HeatMap) :
    voteRow stride lines a js h = (js.map (fun j => (i, j))).foldl (votePair stride lines) h := by
  unfold voteRow
  rw [List.foldl_map]
  apply List.foldl_ext
  intro h' j _
  unfold votePair
  dsimp only
  rw [hi]
  cases lines[j]? <;> rfl

theorem voteStep_pairStep (stride : Nat) (lines : List Line2D) (hm : HeatMap)
    (s : Nat × Nat × HeatMap) (t : Nat × Nat × List (Nat × Nat)) (i : Nat)
    (h : s.1 = t.1 ∧ s.2.1 = t.2.1 ∧ s.2.2 = t.2.2.foldl (votePair stride lines) hm) :
    (voteStep stride lines s i).1 = (pairStep stride lines t i).1 ∧
    (voteStep stride lines s i).2.1 = (pairStep stride lines t i).2.1 ∧
    (voteStep stride lines s i).2.2
      = (pairStep stride lines t i).2.2.foldl (votePair stride lines) hm := by
  obtain ⟨h1, h2, h3⟩ := h
  unfold voteStep pairStep
  cases hi : lines[i]? with
  | none => exact ⟨h1, h2, h3⟩
  | some a =>
    dsimp only
    rw [h1, h2]
    refine ⟨rfl, rfl, ?_⟩
    rw [List.foldl_append, ← h3]
    exact voteRow_eq_votePair stride lines a i hi _ _

theorem MapFromLines_eq_foldl (lines : List Line2D) (hm : HeatMap) :
    MapFromLines lines hm
      = (evalPairs lines).foldl (votePair (countPts lines / kMaxPts + 1) lines) hm := by
  unfold MapFromLines evalPairs
  exact (foldl_rel (voteStep (countPts lines / kMaxPts + 1) lines)
    (pairStep (countPts lines / kMaxPts + 1) lines)
    (fun s t => s.1 = t.1 ∧ s.2.1 = t.2.1 ∧
      s.2.2 = t.2.2.foldl (votePair (countPts lines / kMaxPts + 1) lines) hm)
    (fun s t a h => voteStep_pairStep _ lines hm s t a h)
    (List.range (lines.length - 1)) (0, 0, hm) (0, 0, []) ⟨rfl, rfl, rfl⟩).2.2

theorem notClose_iff_abs (x y : ℚ) (hxy : x ≤ y) :
    CloseAngles x y = false ↔
      |1 + (x : ℝ) * (y : ℝ)|
        ≤ Real.sqrt ((cosCrit : ℝ) ^ 2 / (1 - (cosCrit : ℝ) ^ 2)) * ((y : ℝ) - (x : ℝ)) := by
  have hK1 : (cosCrit : ℝ) ^ 2 < 1 := by
    have := sqr_cosCrit_lt_one
    unfold sqr at this
    have h2 : ((cosCrit * cosCrit : ℚ) : ℝ) < ((1 : ℚ) : ℝ) := Rat.cast_lt.mpr this
    push_cast at h2
    nlinarith
  have hK0 : 0 ≤ (cosCrit : ℝ) ^ 2 := sq_nonneg _
  have hden : 0 < 1 - (cosCrit : ℝ) ^ 2 := by linarith
  have hq : 0 ≤ (cosCrit : ℝ) ^ 2 / (1 - (cosCrit : ℝ) ^ 2) := div_nonneg hK0 hden.le
  have hk2 : Real.sqrt ((cosCrit : ℝ) ^ 2 / (1 - (cosCrit : ℝ) ^ 2)) ^ 2
      = (cosCrit : ℝ) ^ 2 / (1 - (cosCrit : ℝ) ^ 2) := Real.sq_sqrt hq
  have hk0 : 0 ≤ Real.sqrt ((cosCrit : ℝ) ^ 2 / (1 - (cosCrit : ℝ) ^ 2)) := Real.sqrt_nonneg _
  have hyx : (0 : ℝ) ≤ (y : ℝ) - (x : ℝ) := by
    have : (x : ℝ) ≤ (y : ℝ) := Rat.cast_le.mpr hxy
    linarith
  have hrhs : 0 ≤ Real.sqrt ((cosCrit : ℝ) ^ 2 / (1 - (cosCrit : ℝ) ^ 2))
      * ((y : ℝ) - (x : ℝ)) := mul_nonneg hk0 hyx
  have hfalse : CloseAngles x y = false ↔
      (1 + (x : ℝ) * (y : ℝ)) ^ 2
        ≤ (cosCrit : ℝ) ^ 2 * ((1 + (x : ℝ) ^ 2) * (1 + (y : ℝ) ^ 2)) := by
    rw [← not_lt, ← CloseAngles_iff_real]
    cases CloseAngles x y <;> simp
  rw [hfalse, ← abs_of_nonneg hrhs, ← sq_le_sq, mul_pow, hk2]
  have e : (1 + (x : ℝ) ^ 2) * (1 + (y : ℝ) ^ 2)
      = (1 + (x : ℝ) * (y : ℝ)) ^ 2 + ((y : ℝ) - (x : ℝ)) ^ 2 := by ring
  rw [e, div_mul_eq_mul_div, le_div_iff₀ hden]
  constructor <;> intro h <;> nlinarith [h]

theorem chain_real (k x0 x w y : ℝ) (_hk : 0 ≤ k) (h1 : x0 ≤ x) (h2 : x ≤ w) (h3 : w ≤ y)
    (hA : |1 + x0 * y| ≤ k * (y - x0)) (hB : |1 + x * w| ≤ k * (w - x)) :
    |1 + x * y| ≤ k * (y - x) := by
  have hA2 := (abs_le.mp hA).1
  have hB2 := (abs_le.mp hB).2
  rw [abs_le]
  constructor
  · by_cases hy : k ≤ y
    · nlinarith [mul_nonneg (sub_nonneg.mpr h1) (sub_nonneg.mpr hy)]
    · have hy' : y < k := not_le.mp hy
      nlinarith [mul_nonneg (sub_nonneg.mpr (le_trans h2 h3)) (sub_nonneg.mpr hy'.le),
        mul_self_nonneg y]
  · by_cases hx : x ≤ k
    · nlinarith [mul_nonneg (sub_nonneg.mpr h3) (sub_nonneg.mpr hx)]
    · have hx' : k < x := not_le.mp hx
      exfalso
      nlinarith [mul_nonneg (sub_nonneg.mpr h2) (sub_nonneg.mpr hx'.le),
        mul_nonneg _hk (le_trans _hk hx'.le),
        mul_pos (lt_of_le_of_lt _hk hx') (lt_of_le_of_lt _hk hx')]

theorem notClose_chain (x0 x w y : ℚ) (h1 : x0 ≤ x) (h2 : x ≤ w) (h3 : w ≤ y)
    (hA : CloseAngles x0 y = false) (hB : CloseAngles x w = false) :
    CloseAngles x y = false := by
  rw [notClose_iff_abs x y (le_trans h2 h3)]
  rw [notClose_iff_abs x0 y (le_trans h1 (le_trans h2 h3))] at hA
  rw [notClose_iff_abs x w h2] at hB
  exact chain_real _ _ _ _ _ (Real.sqrt_nonneg _) (Rat.cast_le.mpr h1) (Rat.cast_le.mpr h2)
    (Rat.cast_le.mpr h3) hA hB

theorem countStep_pointers (lines : List Line2D) (n : Nat) :
    (((List.range n).foldl (countStep lines) (0, 0, 0)).1,
      ((List.range n).foldl (countStep lines) (0, 0, 0)).2.1) = pointersAfter lines n := by
  unfold pointersAfter
  have h := foldl_rel (countStep lines) (ptrStep lines)
    (fun s p => (s.1, s.2.1) = p)
    (fun s p i hsp => by
      subst hsp
      unfold countStep ptrStep
      cases lines[i]? <;> rfl)
    (List.range n) (0, 0, 0) (0, 0) rfl
  exact h

theorem voteStep_pointers (stride : Nat) (lines : List Line2D) (hm : HeatMap) (n : Nat) :
    (((List.range n).foldl (voteStep stride lines) (0, 0, hm)).1,
      ((List.range n).foldl (voteStep stride lines) (0, 0, hm)).2.1) = pointersAfter lines n := by
  unfold pointersAfter
  have h := foldl_rel (voteStep stride lines) (ptrStep lines)
    (fun s p => (s.1, s.2.1) = p)
    (fun s p i hsp => by
      subst hsp
      unfold voteStep ptrStep
      cases lines[i]? <;> rfl)
    (List.range n) (0, 0, hm) (0, 0) rfl
  exact h

theorem pairStep_pointers (stride : Nat) (lines : List Line2D) (n : Nat) :
    (((List.range n).foldl (pairStep stride lines) (0, 0, [])).1,
      ((List.range n).foldl (pairStep stride lines) (0, 0, [])).2.1) = pointersAfter lines n := by
  unfold pointersAfter
  have h := foldl_rel (pairStep stride lines) (ptrStep lines)
    (fun s p => (s.1, s.2.1) = p)
    (fun s p i hsp => by
      subst hsp
      unfold pairStep ptrStep
      cases lines[i]? <;> rfl)
    (List.range n) (0, 0, []) (0, 0) rfl
  exact h

theorem pointersAfter_succ (lines : List Line2D) (n : Nat) :
    pointersAfter lines (n + 1) = ptrStep lines (pointersAfter lines n) n := by
  unfold pointersAfter
  rw [List.range_succ, List.foldl_append]
  rfl

theorem window_spec (lines : List Line2D) (a : Line2D) (i j0 jmax : Nat)
    (hi : i + 1 < lines.length) (h0 : j0 ≤ lines.length) (h1 : jmax ≤ lines.length) :
    i < (window lines a i j0 jmax).1 ∧
    (window lines a i j0 jmax).1 ≤ (window lines a i j0 jmax).2 ∧
    (window lines a i j0 jmax).2 ≤ lines.length ∧
    j0 ≤ (window lines a i j0 jmax).1 ∧ jmax ≤ (window lines a i j0 jmax).2 := by
  unfold window
  dsimp only
  have a1 := advanceWhile_ge (fun b => CloseAngles a.m b.m) lines (max j0 (i + 1))
  have a2 := advanceWhile_le_length (fun b => CloseAngles a.m b.m) lines (max j0 (i + 1))
    (by omega)
  have b1 := advanceWhile_ge (fun b => !CloseAngles a.m b.m) lines
    (max jmax (advanceWhile (fun b => CloseAngles a.m b.m) lines (max j0 (i + 1))))
  have b2 := advanceWhile_le_length (fun b => !CloseAngles a.m b.m) lines
    (max jmax (advanceWhile (fun b => CloseAngles a.m b.m) lines (max j0 (i + 1))))
    (by omega)
  omega

theorem pointersAfter_le (lines : List Line2D) :
    ∀ n, n ≤ lines.length - 1 →
      (pointersAfter lines n).1 ≤ lines.length ∧ (pointersAfter lines n).2 ≤ lines.length := by
  intro n
  induction n with
  | zero => intro _; exact ⟨Nat.zero_le _, Nat.zero_le _⟩
  | succ n ih =>
    intro hn
    obtain ⟨h0, h1⟩ := ih (by omega)
    rw [pointersAfter_succ]
    unfold ptrStep
    cases hl : lines[n]? with
    | none => exact ⟨h0, h1⟩
    | some a =>
      dsimp only
      have := window_spec lines a n _ _ (by omega) h0 h1
      omega

theorem pointersAfter_step (lines : List Line2D) (i : Nat) (hi : i + 1 < lines.length) :
    i < (pointersAfter lines (i + 1)).1 ∧
    (pointersAfter lines (i + 1)).1 ≤ (pointersAfter lines (i + 1)).2 ∧
    (pointersAfter lines (i + 1)).2 ≤ lines.length ∧
    (pointersAfter lines i).1 ≤ (pointersAfter lines (i + 1)).1 ∧
    (pointersAfter lines i).2 ≤ (pointersAfter lines (i + 1)).2 := by
  obtain ⟨h0, h1⟩ := pointersAfter_le lines i (by omega)
  rw [pointersAfter_succ]
  unfold ptrStep
  have hlt : i < lines.length := by omega
  rw [List.getElem?_eq_getElem hlt]
  dsimp only
  exact window_spec lines _ i _ _ hi h0 h1

/-- C20: in both passes of `MapFromLines`, for every line sequence, the pointers after the
updates of iteration `i` satisfy `i < j0 ≤ jmax ≤ lines.size()`, and neither `j0` nor `jmax` is
smaller than it was after the iteration before; both start at 0, so over a whole pass each
pointer advances at most `lines.size()` steps. -/
theorem MapFromLines_pointers (stride : Nat) (lines : List Line2D) (hm : HeatMap) (i : Nat)
    (hi : i + 1 < lines.length) :
    (∀ n, (((List.range n).foldl (countStep lines) (0, 0, 0)).1,
        ((List.range n).foldl (countStep lines) (0, 0, 0)).2.1) = pointersAfter lines n) ∧
    (∀ n, (((List.range n).foldl (voteStep stride lines) (0, 0, hm)).1,
        ((List.range n).foldl (voteStep stride lines) (0, 0, hm)).2.1) = pointersAfter lines n) ∧
    pointersAfter lines 0 = (0, 0) ∧
    i < (pointersAfter lines (i + 1)).1 ∧
    (pointersAfter lines (i + 1)).1 ≤ (pointersAfter lines (i + 1)).2 ∧
    (pointersAfter lines (i + 1)).2 ≤ lines.length ∧
    (pointersAfter lines i).1 ≤ (pointersAfter lines (i + 1)).1 ∧
    (pointersAfter lines i).2 ≤ (pointersAfter lines (i + 1)).2 :=
  ⟨countStep_pointers lines, voteStep_pointers stride lines hm, rfl,
    pointersAfter_step lines i hi⟩

theorem MapFromLines_pointers_witness :
    0 + 1 < linesFan.length ∧ pointersAfter linesFan 0 = (0, 0) ∧
    pointersAfter linesFan 1 = (3, 3) ∧
    0 < (pointersAfter linesFan (0 + 1)).1 ∧
    (pointersAfter linesFan (0 + 1)).2 ≤ linesFan.length :=
  ⟨by decide!, by decide!, by decide!,
    (MapFromLines_pointers 1 linesFan hmSquare 0 (by decide!)).2.2.2.1,
    (MapFromLines_pointers 1 linesFan hmSquare 0 (by decide!)).2.2.2.2.2.1⟩

/-! ## The pairs at which intersections are evaluated -/

theorem sorted_getElem? (lines : List Line2D) (hs : List.Sorted (fun a b => a.m ≤ b.m) lines)
    (i j : Nat) (hij : i ≤ j) (a b : Line2D) (ha : lines[i]? = some a)
    (hb : lines[j]? = some b) : a.m ≤ b.m := by
  obtain ⟨hi, ea⟩ := List.getElem?_eq_some.mp ha
  obtain ⟨hj, eb⟩ := List.getElem?_eq_some.mp hb
  rcases Nat.lt_or_eq_of_le hij with h | h
  · have := List.pairwise_iff_getElem.mp hs i j hi hj h
    rw [ea, eb] at this
    exact this
  · subst h
    rw [ha] at hb
    simp only [Option.some.injEq] at hb
    rw [hb]

theorem mem_strideRange (start bound stride j : Nat) (h : j ∈ strideRange start bound stride) :
    start ≤ j ∧ j < bound := by
  unfold strideRange at h
  obtain ⟨k, hk, rfl⟩ := List.mem_map.mp h
  have hk' := List.mem_range.mp hk
  refine ⟨Nat.le_add_right _ _, ?_⟩
  rcases Nat.eq_zero_or_pos stride with h0 | hpos
  · subst h0
    simp at hk'
  · have h1 : (k + 1) * stride ≤ bound - start + stride - 1 :=
      (Nat.le_div_iff_mul_le hpos).mp hk'
    have h2 : (k + 1) * stride = k * stride + stride := by ring
    omega

theorem pairStep_of_getElem (stride : Nat) (lines : List Line2D)
    (st : Nat × Nat × List (Nat × Nat)) (i : Nat) (a : Line2D) (h : lines[i]? = some a) :
    pairStep stride lines st i
      = ((window lines a i st.1 st.2.1).1, (window lines a i st.1 st.2.1).2,
          st.2.2 ++ (strideRange (window lines a i st.1 st.2.1).1
            (window lines a i st.1 st.2.1).2 stride).map (fun j => (i, j))) := by
  unfold pairStep
  rw [h]

theorem pairStep_inv (lines : List Line2D) (hs : List.Sorted (fun a b => a.m ≤ b.m) lines)
    (stride : Nat) : ∀ n, n ≤ lines.length - 1 →
      (∀ j a b, (pointersAfter lines n).1 ≤ j → j < (pointersAfter lines n).2 →
        lines[n - 1]? = some a → lines[j]? = some b → CloseAngles a.m b.m = false) ∧
      (∀ p ∈ ((List.range n).foldl (pairStep stride lines) (0, 0, [])).2.2,
        p.1 < p.2 ∧ p.2 < lines.length ∧
        ∀ a b, lines[p.1]? = some a → lines[p.2]? = some b → CloseAngles a.m b.m = false) := by
  intro n
  induction n with
  | zero =>
    intro _
    constructor
    · intro j a b _ h
      exact absurd h (Nat.not_lt_zero j)
    · intro p hp
      simp at hp
  | succ n ih =>
    intro hn
    obtain ⟨ihb, ihc⟩ := ih (by omega)
    have hlt : n < lines.length := by omega
    have hptr := pairStep_pointers stride lines n
    obtain ⟨hl0, hl1⟩ := pointersAfter_le lines n (by omega)
    have hwin := window_spec lines lines[n] n (pointersAfter lines n).1 (pointersAfter lines n).2
      (by omega) hl0 hl1
    have hnext : pointersAfter lines (n + 1)
        = window lines lines[n] n (pointersAfter lines n).1 (pointersAfter lines n).2 := by
      rw [pointersAfter_succ]
      unfold ptrStep
      rw [List.getElem?_eq_getElem hlt]
    have hb' : ∀ j a b, (pointersAfter lines (n + 1)).1 ≤ j → j < (pointersAfter lines (n + 1)).2 →
        lines[n + 1 - 1]? = some a → lines[j]? = some b → CloseAngles a.m b.m = false := by
      intro j a b h1 h2 ha hb
      have ea : lines[n] = a := by
        have : lines[n]? = some a := by simpa using ha
        rw [List.getElem?_eq_getElem hlt] at this
        simpa using this
      rw [hnext] at h1 h2
      rw [ea] at h1 h2 hwin
      unfold window at h1 h2 hwin
      dsimp only at h1 h2 hwin
      by_cases hj : max (pointersAfter lines n).2
          (advanceWhile (fun b => CloseAngles a.m b.m) lines
            (max (pointersAfter lines n).1 (n + 1))) ≤ j
      · have := advanceWhile_passed (fun b => !CloseAngles a.m b.m) lines _ j b hj h2 hb
        simpa using this
      · have hj2 : j < (pointersAfter lines n).2 := by omega
        have hn1 : 1 ≤ n := by
          rcases Nat.eq_zero_or_pos n with h0 | h0
          · subst h0
            have : (pointersAfter lines 0).2 = 0 := rfl
            omega
          · exact h0
        have hlt0 : n - 1 < lines.length := by omega
        have hjlen : j < lines.length := by omega
        have hJ0 : advanceWhile (fun b => CloseAngles a.m b.m) lines
            (max (pointersAfter lines n).1 (n + 1)) < lines.length := by omega
        have hA := ihb j lines[n - 1] b (by omega) hj2 (List.getElem?_eq_getElem hlt0) hb
        have hB := advanceWhile_stop (fun b => CloseAngles a.m b.m) lines
          (max (pointersAfter lines n).1 (n + 1)) _ (List.getElem?_eq_getElem hJ0)
        dsimp only at hB
        have han : lines[n]? = some a := by rw [List.getElem?_eq_getElem hlt, ea]
        exact notClose_chain _ _ _ _
          (sorted_getElem? lines hs (n - 1) n (by omega) _ _ (List.getElem?_eq_getElem hlt0) han)
          (sorted_getElem? lines hs n _ (by omega) _ _ han (List.getElem?_eq_getElem hJ0))
          (sorted_getElem? lines hs _ j h1 _ _ (List.getElem?_eq_getElem hJ0) hb)
          hA hB
    refine ⟨hb', ?_⟩
    intro p hp
    rw [List.range_succ, List.foldl_append] at hp
    simp only [List.foldl_cons, List.foldl_nil] at hp
    rw [pairStep_of_getElem stride lines _ n _ (List.getElem?_eq_getElem hlt)] at hp
    dsimp only at hp
    rcases List.mem_append.mp hp with hp | hp
    · exact ihc p hp
    · obtain ⟨j, hj, rfl⟩ := List.mem_map.mp hp
      have hj' := mem_strideRange _ _ _ _ hj
      have e1 : ((List.range n).foldl (pairStep stride lines) (0, 0, [])).1
          = (pointersAfter lines n).1 := congrArg Prod.fst hptr
      have e2 : ((List.range n).foldl (pairStep stride lines) (0, 0, [])).2.1
          = (pointersAfter lines n).2 := congrArg Prod.snd hptr
      rw [e1, e2] at hj'
      rw [← hnext] at hj' hwin
      refine ⟨by dsimp only; omega, by dsimp only; omega, ?_⟩
      intro a b ha hb
      exact hb' j a b hj'.1 hj'.2 (by simpa using ha) hb

/-- C19: for every slope-sorted line sequence, every pair `(i, j)` at which `MapFromLines`
evaluates an intersection has `i < j < lines.size()` and `CloseAngles(m_i, m_j)` false, hence
`m_i ≠ m_j`, and the division `(b.c - a.c)/(a.m - b.m)` is not by zero; `MapFromLines` is the
sequence of the votes at these pairs. -/
theorem MapFromLines_pairs_not_close (lines : List Line2D)
    (hs : List.Sorted (fun a b => a.m ≤ b.m) lines) :
    (∀ hm, MapFromLines lines hm
      = (evalPairs lines).foldl (votePair (countPts lines / kMaxPts + 1) lines) hm) ∧
    ∀ p ∈ evalPairs lines, p.1 < p.2 ∧ p.2 < lines.length ∧
      ∃ a b, lines[p.1]? = some a ∧ lines[p.2]? = some b ∧ CloseAngles a.m b.m = false ∧
        a.m ≠ b.m ∧ FP.div (b.c - a.c) (a.m - b.m) = some ((b.c - a.c) / (a.m - b.m)) := by
  refine ⟨MapFromLines_eq_foldl lines, ?_⟩
  intro p hp
  obtain ⟨h1, h2, h3⟩ := (pairStep_inv lines hs _ (lines.length - 1) (le_refl _)).2 p hp
  refine ⟨h1, h2, lines[p.1], lines[p.2], List.getElem?_eq_getElem (by omega),
    List.getElem?_eq_getElem h2, ?_⟩
  have hnc := h3 _ _ (List.getElem?_eq_getElem (by omega)) (List.getElem?_eq_getElem h2)
  have hne : (lines[p.1]).m ≠ (lines[p.2]).m := by
    intro e
    rw [e, CloseAngles_refl] at hnc
    exact Bool.noConfusion hnc
  refine ⟨hnc, hne, ?_⟩
  unfold FP.div
  rw [if_neg (sub_ne_zero.mpr hne)]

theorem MapFromLines_pairs_not_close_witness :
    List.Sorted (fun a b => a.m ≤ b.m) linesCross ∧
    evalPairs linesCross = [(0, 1), (0, 2), (1, 2)] ∧
    ∀ p ∈ evalPairs linesCross, p.1 < p.2 ∧ p.2 < linesCross.length ∧
      ∃ a b, linesCross[p.1]? = some a ∧ linesCross[p.2]? = some b ∧
        CloseAngles a.m b.m = false ∧
        a.m ≠ b.m ∧ FP.div (b.c - a.c) (a.m - b.m) = some ((b.c - a.c) / (a.m - b.m)) :=
  ⟨by decide!, by decide!, (MapFromLines_pairs_not_close linesCross (by decide!)).2⟩

/-! ## The weights of the heat map -/

theorem Grows_refl (h : HeatMap) : HeatMap.Grows h h :=
  ⟨rfl, rfl, rfl, rfl, rfl, rfl, rfl, fun _ => le_refl _⟩

theorem Grows_trans (h1 h2 h3 : HeatMap) (a : HeatMap.Grows h1 h2) (b : HeatMap.Grows h2 h3) :
    HeatMap.Grows h1 h3 := by
  obtain ⟨a1, a2, a3, a4, a5, a6, a7, a8⟩ := a
  obtain ⟨b1, b2, b3, b4, b5, b6, b7, b8⟩ := b
  exact ⟨b1.trans a1, b2.trans a2, b3.trans a3, b4.trans a4, b5.trans a5, b6.trans a6,
    b7.trans a7, fun k => le_trans (a8 k) (b8 k)⟩

theorem modify_add_getElem? (map : List ℚ) (w : ℚ) (idx k : Nat) :
    (map.modify (fun v => v + w) idx)[k]?
      = if idx = k then map[k]?.map (fun v => v + w) else map[k]? := by
  rw [List.getElem?_modify]
  by_cases h : idx = k
  · simp [h]
  · simp [h]

theorem modify_add_getD (map : List ℚ) (w : ℚ) (hw : 0 ≤ w) (idx k : Nat) :
    map.getD k 0 ≤ (map.modify (fun v => v + w) idx).getD k 0 := by
  rw [List.getD_eq_getElem?_getD, List.getD_eq_getElem?_getD, modify_add_getElem?]
  by_cases h : idx = k
  · rw [if_pos h]
    cases map[k]? with
    | none => exact le_refl _
    | some v => simp only [Option.map_some', Option.getD_some]; linarith
  · rw [if_neg h]

theorem vote_cases (stride : Nat) (a b : Line2D) (hm : HeatMap) :
    vote stride a b hm = hm ∨
    ∃ z, ∃ iz ix : Nat, FP.div (b.c - a.c) (a.m - b.m) = some z ∧
      ((z < a.minz ∨ z > a.maxz) ∧ (z < b.minz ∨ z > b.maxz)) ∧
      hm.ZToBin z = (iz : Int) ∧ hm.XToBin (a.m * z + a.c) = (ix : Int) ∧
      iz < hm.Nz ∧ ix < hm.Nx ∧
      vote stride a b hm
        = { hm with map := hm.map.modify (fun w => w + (stride : ℚ)) (iz * hm.Nx + ix) } := by
  unfold vote
  cases hz : FP.div (b.c - a.c) (a.m - b.m) with
  | none => exact Or.inl rfl
  | some z =>
    dsimp only
    by_cases hout : (z < a.minz ∨ z > a.maxz) ∧ (z < b.minz ∨ z > b.maxz)
    · rw [if_pos hout]
      by_cases hin : hm.ZToBin z ≥ 0 ∧ hm.ZToBin z < hm.Nz ∧
          hm.XToBin (a.m * z + a.c) ≥ 0 ∧ hm.XToBin (a.m * z + a.c) < hm.Nx
      · rw [if_pos hin]
        right
        obtain ⟨h1, h2, h3, h4⟩ := hin
        refine ⟨z, (hm.ZToBin z).toNat, (hm.XToBin (a.m * z + a.c)).toNat, rfl, hout,
          (Int.toNat_of_nonneg h1).symm, (Int.toNat_of_nonneg h3).symm, by omega, by omega, rfl⟩
      · rw [if_neg hin]
        exact Or.inl rfl
    · rw [if_neg hout]
      exact Or.inl rfl

theorem vote_out_of_range (stride : Nat) (a b : Line2D) (hm : HeatMap) (z : ℚ)
    (hz : FP.div (b.c - a.c) (a.m - b.m) = some z)
    (hout : hm.ZToBin z < 0 ∨ hm.ZToBin z ≥ hm.Nz ∨ hm.XToBin (a.m * z + a.c) < 0 ∨
      hm.XToBin (a.m * z + a.c) ≥ hm.Nx) : vote stride a b hm = hm := by
  unfold vote
  rw [hz]
  dsimp only
  split
  · rw [if_neg]
    rintro ⟨h1, h2, h3, h4⟩
    rcases hout with h | h | h | h <;> omega
  · rfl

theorem vote_grows (stride : Nat) (a b : Line2D) (hm : HeatMap) :
    HeatMap.Grows hm (vote stride a b hm) := by
  rcases vote_cases stride a b hm with h | ⟨z, iz, ix, _, _, _, _, _, _, h⟩
  · rw [h]; exact Grows_refl hm
  · rw [h]
    exact ⟨rfl, rfl, rfl, rfl, rfl, rfl, List.length_modify _ _ _,
      fun k => modify_add_getD hm.map stride (Nat.cast_nonneg stride) _ k⟩

theorem votePair_grows (stride : Nat) (lines : List Line2D) (hm : HeatMap) (p : Nat × Nat) :
    HeatMap.Grows hm (votePair stride lines hm p) := by
  unfold votePair
  cases lines[p.1]? with
  | none => exact Grows_refl hm
  | some a =>
    cases lines[p.2]? with
    | none => exact Grows_refl hm
    | some b => exact vote_grows stride a b hm

theorem foldl_votePair_grows (stride : Nat) (lines : List Line2D) :
    ∀ (ps : List (Nat × Nat)) (hm : HeatMap),
      HeatMap.Grows hm (ps.foldl (votePair stride lines) hm) := by
  intro ps
  induction ps with
  | nil => intro hm; exact Grows_refl hm
  | cons p rest ih =>
    intro hm
    rw [List.foldl_cons]
    exact Grows_trans _ _ _ (votePair_grows stride lines hm p) (ih _)

/-! ## Degenerate inputs of the line generator -/

theorem lineCandidate_same_z (sqrt : ℚ → ℚ) (z0 x0 R : ℚ) (a b : Pt2D) (h : a.z = b.z) :
    lineCandidate sqrt z0 x0 R a b = none := by
  have hm : (Line2D.ctor a b).m = none := by
    simp only [Line2D.ctor, FP.div]
    rw [if_pos (by rw [h]; ring)]
  have hc : (Line2D.ctor a b).checked = none := by
    unfold RawLine2D.checked
    rw [hm]
  unfold lineCandidate
  rw [hc]

theorem pushLines_none (sqrt : ℚ → ℚ) (z0 x0 R : ℚ) (pts : List Pt2D)
    (h : ∀ a ∈ pts, ∀ b ∈ pts, lineCandidate sqrt z0 x0 R a b = none) :
    ∀ (ps : List (Nat × Nat)) (lines : List Line2D),
      pushLines sqrt z0 x0 R pts ps lines = lines := by
  intro ps
  induction ps with
  | nil => intro lines; rfl
  | cons p rest ih =>
    intro lines
    obtain ⟨i, j⟩ := p
    unfold pushLines
    cases hi : pts[i]? with
    | none => exact ih lines
    | some a =>
      cases hj : pts[j]? with
      | none => exact ih lines
      | some b =>
        dsimp only
        rw [h a (List.getElem?_mem hi) b (List.getElem?_mem hj)]
        exact ih lines

/-- C16: started with an empty vector, `LinesFromPoints` returns an empty sequence for an empty
list of points, for a single point, and for every list of points that all share the same `z`. -/
theorem LinesFromPoints_degenerate (sqrt : ℚ → ℚ) (pts : List Pt2D) (z0 x0 R : ℚ)
    (h : pts = [] ∨ pts.length = 1 ∨ ∀ a ∈ pts, ∀ b ∈ pts, a.z = b.z) :
    LinesFromPoints sqrt pts [] z0 x0 R = [] := by
  rcases h with h | h | h
  · exact LinesFromPoints_short sqrt pts z0 x0 R (by rw [h]; decide)
  · exact LinesFromPoints_short sqrt pts z0 x0 R (by omega)
  · unfold LinesFromPoints
    dsimp only
    rw [pushLines_none sqrt z0 x0 R pts
      (fun a ha b hb => lineCandidate_same_z sqrt z0 x0 R a b (h a ha b hb))]
    rfl

theorem LinesFromPoints_degenerate_witness :
    (∀ a ∈ ptsColumn, ∀ b ∈ ptsColumn, a.z = b.z) ∧
    LinesFromPoints sqrtQ ptsColumn [] 0 0 (-1) = [] ∧
    LinesFromPoints sqrtQ ptsColumn [] 0 0 (5 / 2) = [] ∧
    LinesFromPoints sqrtQ [] [] 0 0 (-1) = [] ∧
    LinesFromPoints sqrtQ [{ x := 1, z := 2, view := 0, energy := 1 }] [] 0 0 (-1) = [] :=
  ⟨by decide!,
    LinesFromPoints_degenerate sqrtQ ptsColumn 0 0 (-1) (Or.inr (Or.inr (by decide!))),
    LinesFromPoints_degenerate sqrtQ ptsColumn 0 0 (5 / 2) (Or.inr (Or.inr (by decide!))),
    LinesFromPoints_degenerate sqrtQ [] 0 0 (-1) (Or.inl rfl),
    LinesFromPoints_degenerate sqrtQ [{ x := 1, z := 2, view := 0, energy := 1 }] 0 0 (-1)
      (Or.inr (Or.inl rfl))⟩

/-! ## The row-maxima test of the peak finder -/

theorem rowMax_nonneg (map : List ℚ) (Nx iz : Nat) (hnn : ∀ w ∈ map, 0 ≤ w) :
    0 ≤ rowMax map Nx iz := by
  unfold rowMax
  cases hr : (map.drop (Nx * iz)).take Nx with
  | nil => exact le_refl _
  | cons v vs =>
    dsimp only
    have hv : v ∈ (map.drop (Nx * iz)).take Nx := by rw [hr]; exact List.mem_cons_self _ _
    have hv' : v ∈ map := List.mem_of_mem_drop (List.mem_of_mem_take hv)
    exact le_trans (hnn v hv') (foldl_max_ge vs v).1

theorem rowAt_le_colMax_of_nonneg (h : HeatMap) (Nx iz ix : Nat) (hiz : iz < h.Nz)
    (hix : ix < Nx) (hnn : ∀ w ∈ h.map, 0 ≤ w) :
    rowAt h Nx iz ix ≤ (colMax Nx h).getD iz 0 := by
  have hcol : (colMax Nx h).getD iz 0 = rowMax h.map Nx iz := by
    simp [colMax, List.getD_eq_getElem?_getD, List.getElem?_map, List.getElem?_range hiz]
  rw [hcol]
  by_cases hidx : Nx * iz + ix < h.map.length
  · have hrow : ((h.map.drop (Nx * iz)).take Nx)[ix]? = some (rowAt h Nx iz ix) := by
      rw [List.getElem?_take_of_lt hix, List.getElem?_drop]
      simp [rowAt, List.getD_eq_getElem?_getD, List.getElem?_eq_getElem hidx]
    have hmem : rowAt h Nx iz ix ∈ (h.map.drop (Nx * iz)).take Nx := List.getElem?_mem hrow
    unfold rowMax
    cases hr : (h.map.drop (Nx * iz)).take Nx with
    | nil => rw [hr] at hmem; simp at hmem
    | cons v vs =>
      rw [hr] at hmem
      dsimp only
      rcases List.mem_cons.mp hmem with e | hm
      · rw [e]; exact (foldl_max_ge vs v).1
      · exact (foldl_max_ge vs v).2 _ hm
  · have h0 : rowAt h Nx iz ix = 0 := by
      unfold rowAt
      rw [List.getD_eq_getElem?_getD, List.getElem?_eq_none (by omega)]
      rfl
    rw [h0]
    exact rowMax_nonneg h.map Nx iz hnn

theorem foldl_scanStep_fixed (sc : Nat → ℚ) : ∀ (L : List Nat) (st : ℚ × Option Nat),
    (∀ ix ∈ L, sc ix ≤ st.1) → L.foldl (scanStep sc) st = st := by
  intro L
  induction L with
  | nil => intro st _; rfl
  | cons j rest ih =>
    intro st h
    rw [List.foldl_cons]
    have hj : scanStep sc st j = st := by
      unfold scanStep
      rw [if_neg (not_lt.mpr (h j (List.mem_cons_self _ _)))]
    rw [hj]
    exact ih st (fun ix hix => h ix (List.mem_cons_of_mem _ hix))

theorem peakStep_eq_noPrune (hs0 hs1 hs2 : HeatMap) (Minv : Mat2) (d2 : TVector3) (iz iu : Nat)
    (st : ℚ × TVector3) (hiz : iz < hs0.Nz) (hiu : iu < hs1.Nz)
    (h0 : ∀ w ∈ hs0.map, 0 ≤ w) (h1 : ∀ w ∈ hs1.map, 0 ≤ w) (h2 : ∀ w ∈ hs2.map, 0 ≤ w) :
    peakStep hs0 hs1 hs2 Minv d2 iz st iu = peakStepNoPrune hs0 hs1 hs2 Minv d2 iz st iu := by
  unfold peakStep peakStepNoPrune
  dsimp only
  by_cases hout : hs2.ZToBin (implied hs0 hs1 Minv d2 iz iu).1 < 0 ∨
      hs2.ZToBin (implied hs0 hs1 Minv d2 iz iu).1 ≥ hs2.Nz
  · rw [if_pos hout, if_pos hout]
  · rw [if_neg hout, if_neg hout]
    by_cases hprune : (colMax hs0.Nx hs0).getD iz 0 + (colMax hs0.Nx hs1).getD iu 0
        + (colMax hs0.Nx hs2).getD (hs2.ZToBin (implied hs0 hs1 Minv d2 iz iu).1).toNat 0 < st.1
    · rw [if_pos hprune]
      have hiv : (hs2.ZToBin (implied hs0 hs1 Minv d2 iz iu).1).toNat < hs2.Nz := by
        have : ¬ hs2.ZToBin (implied hs0 hs1 Minv d2 iz iu).1 < 0 := fun h => hout (Or.inl h)
        have : ¬ hs2.ZToBin (implied hs0 hs1 Minv d2 iz iu).1 ≥ hs2.Nz :=
          fun h => hout (Or.inr h)
        omega
      have hfix := foldl_scanStep_fixed
        (score hs0 hs1 hs2 iz iu (hs2.ZToBin (implied hs0 hs1 Minv d2 iz iu).1).toNat)
        (List.range' 1 (hs0.Nx - 2)) (st.1, none) (by
          intro ix hix
          have hr := List.mem_range'_1.mp hix
          have b0 := rowAt_le_colMax_of_nonneg hs0 hs0.Nx iz ix hiz (by omega) h0
          have b1 := rowAt_le_colMax_of_nonneg hs1 hs0.Nx iu ix hiu (by omega) h1
          have b2 := rowAt_le_colMax_of_nonneg hs2 hs0.Nx _ ix hiv (by omega) h2
          unfold score
          dsimp only
          linarith)
      rw [hfix]
    · rw [if_neg hprune]

theorem peakSearch_eq_noPrune (hs0 hs1 hs2 : HeatMap) (Minv : Mat2) (d2 : TVector3)
    (h0 : ∀ w ∈ hs0.map, 0 ≤ w) (h1 : ∀ w ∈ hs1.map, 0 ≤ w) (h2 : ∀ w ∈ hs2.map, 0 ≤ w) :
    peakSearch hs0 hs1 hs2 Minv d2 = peakSearchNoPrune hs0 hs1 hs2 Minv d2 := by
  unfold peakSearch peakSearchNoPrune
  apply List.foldl_ext
  intro st iz hiz
  apply List.foldl_ext
  intro st' iu hiu
  exact peakStep_eq_noPrune hs0 hs1 hs2 Minv d2 iz iu st' (List.mem_range.mp hiz)
    (List.mem_range.mp hiu) h0 h1 h2

/-- C17: for all heat maps with non-negative weights and all directions, `FindPeak3D` returns
the same point as the same search without the row-maxima test, in which every combination
`(iz, iu)` whose view-2 bin is in range is scanned over the drift axis. -/
theorem FindPeak3D_prune_sound (hs0 hs1 hs2 : HeatMap) (d0 d1 d2 : TVector3)
    (h0 : ∀ w ∈ hs0.map, 0 ≤ w) (h1 : ∀ w ∈ hs1.map, 0 ≤ w) (h2 : ∀ w ∈ hs2.map, 0 ≤ w) :
    FindPeak3D hs0 hs1 hs2 d0 d1 d2 = FindPeak3DNoPrune hs0 hs1 hs2 d0 d1 d2 := by
  unfold FindPeak3D FindPeak3DNoPrune
  dsimp only
  rw [peakSearch_eq_noPrune hs0 hs1 hs2 _ d2 h0 h1 h2]

theorem FindPeak3D_prune_sound_witness :
    ((∀ w ∈ hsEdge0.map, (0 : ℚ) ≤ w) ∧ (∀ w ∈ hsEdge1.map, (0 : ℚ) ≤ w)) ∧
    FindPeak3DNoPrune hsEdge0 hsEdge1 hsEdge1 dirZ dirU dirV = { X := 3 / 2, Y := 1 / 6, Z := 1 / 2 } ∧
    FindPeak3D hsEdge0 hsEdge1 hsEdge1 dirZ dirU dirV
      = FindPeak3DNoPrune hsEdge0 hsEdge1 hsEdge1 dirZ dirU dirV :=
  ⟨⟨by decide!, by decide!⟩, by decide!,
    FindPeak3D_prune_sound hsEdge0 hsEdge1 hsEdge1 dirZ dirU dirV (by decide!) (by decide!)
      (by decide!)⟩

/-! ## The intersection of a line with the circle -/

theorem circleDesc_eq (m c z0 x0 R : ℚ) :
    circleDesc m c z0 x0 R = 4 * (R ^ 2 * (1 + m ^ 2) - (c + m * z0 - x0) ^ 2) := by
  unfold circleDesc sqr
  ring

theorem IntersectsCircle_eq (sqrt : ℚ → ℚ) (m c z0 x0 R : ℚ) :
    IntersectsCircle sqrt m c z0 x0 R =
      if circleDesc m c z0 x0 R < 0 then none
      else some
        ((-(2 * m * (c + (m * z0 - x0))) - sqrt (circleDesc m c z0 x0 R)) / (2 * (1 + sqr m))
            + z0,
          (-(2 * m * (c + (m * z0 - x0))) + sqrt (circleDesc m c z0 x0 R)) / (2 * (1 + sqr m))
            + z0) := by
  unfold IntersectsCircle circleDesc
  rfl

theorem circle_residual {K : Type} [LinearOrderedField K] (m c' R s t : K)
    (ht : t = (-(2 * m * c') - s) / (2 * (1 + m * m)) ∨
      t = (-(2 * m * c') + s) / (2 * (1 + m * m))) :
    t ^ 2 + (m * t + c') ^ 2 - R ^ 2
      = (s * s - ((2 * m * c') * (2 * m * c') - 4 * (1 + m * m) * (c' * c' - R * R)))
          / (4 * (1 + m * m)) := by
  have hA : (1 + m * m) ≠ 0 := by nlinarith [mul_self_nonneg m]
  rcases ht with ht | ht
  · rw [ht]
    field_simp
    ring
  · rw [ht]
    field_simp
    ring

theorem IntersectsCircleOver_isSome {K : Type} [LinearOrderedField K] (sqrt : K → K)
    (m c z0 x0 R : K) :
    (IntersectsCircleOver sqrt m c z0 x0 R).isSome = true ↔
      (c + m * z0 - x0) ^ 2 ≤ R ^ 2 * (1 + m ^ 2) := by
  have e : (2 * m * (c + (m * z0 - x0))) * (2 * m * (c + (m * z0 - x0)))
      - 4 * (1 + m * m) * ((c + (m * z0 - x0)) * (c + (m * z0 - x0)) - R * R)
      = 4 * (R ^ 2 * (1 + m ^ 2) - (c + m * z0 - x0) ^ 2) := by ring
  unfold IntersectsCircleOver
  dsimp only
  rw [e]
  split
  · next h =>
    constructor
    · intro hs
      exact absurd hs (by simp)
    · intro hle
      linarith
  · next h =>
    constructor
    · intro _
      linarith
    · intro _
      rfl

theorem IntersectsCircleOver_some {K : Type} [LinearOrderedField K] (sqrt : K → K)
    (m c z0 x0 R z1 z2 : K) (h : IntersectsCircleOver sqrt m c z0 x0 R = some (z1, z2)) :
    z1 - z0 = (-(2 * m * (c + (m * z0 - x0)))
        - sqrt ((2 * m * (c + (m * z0 - x0))) * (2 * m * (c + (m * z0 - x0)))
          - 4 * (1 + m * m) * ((c + (m * z0 - x0)) * (c + (m * z0 - x0)) - R * R)))
        / (2 * (1 + m * m)) ∧
    z2 - z0 = (-(2 * m * (c + (m * z0 - x0)))
        + sqrt ((2 * m * (c + (m * z0 - x0))) * (2 * m * (c + (m * z0 - x0)))
          - 4 * (1 + m * m) * ((c + (m * z0 - x0)) * (c + (m * z0 - x0)) - R * R)))
        / (2 * (1 + m * m)) ∧
    0 ≤ (2 * m * (c + (m * z0 - x0))) * (2 * m * (c + (m * z0 - x0)))
          - 4 * (1 + m * m) * ((c + (m * z0 - x0)) * (c + (m * z0 - x0)) - R * R) := by
  unfold IntersectsCircleOver at h
  dsimp only at h
  split at h
  · exact Option.noConfusion h
  · next hd =>
    simp only [Option.some.injEq, Prod.mk.injEq] at h
    obtain ⟨e1, e2⟩ := h
    refine ⟨?_, ?_, not_lt.mp hd⟩
    · rw [← e1]
      ring
    · rw [← e2]
      ring

theorem IntersectsCircle_eq_over (sqrt : ℚ → ℚ) (m c z0 x0 R : ℚ) :
    IntersectsCircle sqrt m c z0 x0 R = IntersectsCircleOver sqrt m c z0 x0 R := by
  unfold IntersectsCircle IntersectsCircleOver sqr
  rfl

/-- C18: in exact arithmetic, that is over the real numbers with the real square root,
`IntersectsCircle(m, c, z0, x0, R)` returns true exactly when
`(c + m*z0 - x0)^2 ≤ R^2 * (1 + m^2)`, tangency included; and when it returns true, `z1 ≤ z2` and
both points `(z1, m*z1 + c)` and `(z2, m*z2 + c)` lie on the circle of radius `R` centred at
`(z0, x0)`.  Over the rationals the function is the same code and it returns true under the same
condition for every `sqrt`; the amount by which an output point misses the circle equation is
`(sqrt(desc)^2 - desc) / (4*(1 + m^2))`, which is zero exactly when `sqrt` is exact at `desc`. -/
theorem IntersectsCircle_spec :
    (∀ (m c z0 x0 R : ℝ),
      ((IntersectsCircleOver Real.sqrt m c z0 x0 R).isSome = true ↔
        (c + m * z0 - x0) ^ 2 ≤ R ^ 2 * (1 + m ^ 2)) ∧
      ∀ z1 z2, IntersectsCircleOver Real.sqrt m c z0 x0 R = some (z1, z2) →
        z1 ≤ z2 ∧ (z1 - z0) ^ 2 + (m * z1 + c - x0) ^ 2 = R ^ 2 ∧
          (z2 - z0) ^ 2 + (m * z2 + c - x0) ^ 2 = R ^ 2) ∧
    (∀ (sqrt : ℚ → ℚ) (m c z0 x0 R : ℚ),
      IntersectsCircle sqrt m c z0 x0 R = IntersectsCircleOver sqrt m c z0 x0 R ∧
      ((IntersectsCircle sqrt m c z0 x0 R).isSome = true ↔
        (c + m * z0 - x0) ^ 2 ≤ R ^ 2 * (1 + m ^ 2)) ∧
      ∀ z1 z2, IntersectsCircle sqrt m c z0 x0 R = some (z1, z2) →
        (z1 - z0) ^ 2 + (m * z1 + c - x0) ^ 2 - R ^ 2
          = (sqrt (circleDesc m c z0 x0 R) * sqrt (circleDesc m c z0 x0 R)
              - circleDesc m c z0 x0 R) / (4 * (1 + m * m)) ∧
        (z2 - z0) ^ 2 + (m * z2 + c - x0) ^ 2 - R ^ 2
          = (sqrt (circleDesc m c z0 x0 R) * sqrt (circleDesc m c z0 x0 R)
              - circleDesc m c z0 x0 R) / (4 * (1 + m * m)) ∧
        (0 ≤ sqrt (circleDesc m c z0 x0 R) → z1 ≤ z2)) := by
  constructor
  · intro m c z0 x0 R
    refine ⟨IntersectsCircleOver_isSome Real.sqrt m c z0 x0 R, ?_⟩
    intro z1 z2 h
    obtain ⟨e1, e2, hd⟩ := IntersectsCircleOver_some Real.sqrt m c z0 x0 R z1 z2 h
    have hs := Real.mul_self_sqrt hd
    have hs0 := Real.sqrt_nonneg ((2 * m * (c + (m * z0 - x0))) * (2 * m * (c + (m * z0 - x0)))
          - 4 * (1 + m * m) * ((c + (m * z0 - x0)) * (c + (m * z0 - x0)) - R * R))
    have r1 := circle_residual m (c + (m * z0 - x0)) R _ (z1 - z0) (Or.inl e1)
    have r2 := circle_residual m (c + (m * z0 - x0)) R _ (z2 - z0) (Or.inr e2)
    rw [hs, sub_self, zero_div] at r1 r2
    have hA : (0 : ℝ) < 2 * (1 + m * m) := by nlinarith [mul_self_nonneg m]
    refine ⟨?_, ?_, ?_⟩
    · have hle : z1 - z0 ≤ z2 - z0 := by
        rw [e1, e2]
        exact div_le_div_of_nonneg_right (by linarith) hA.le
      linarith
    · linear_combination r1
    · linear_combination r2
  · intro sqrt m c z0 x0 R
    refine ⟨IntersectsCircle_eq_over sqrt m c z0 x0 R, ?_, ?_⟩
    · rw [IntersectsCircle_eq_over]
      exact IntersectsCircleOver_isSome sqrt m c z0 x0 R
    · intro z1 z2 h
      rw [IntersectsCircle_eq_over] at h
      obtain ⟨e1, e2, _⟩ := IntersectsCircleOver_some sqrt m c z0 x0 R z1 z2 h
      have r1 := circle_residual m (c + (m * z0 - x0)) R _ (z1 - z0) (Or.inl e1)
      have r2 := circle_residual m (c + (m * z0 - x0)) R _ (z2 - z0) (Or.inr e2)
      have ed : circleDesc m c z0 x0 R
          = (2 * m * (c + (m * z0 - x0))) * (2 * m * (c + (m * z0 - x0)))
            - 4 * (1 + m * m) * ((c + (m * z0 - x0)) * (c + (m * z0 - x0)) - R * R) := by
        unfold circleDesc sqr
        rfl
      rw [ed]
      have hA : (0 : ℚ) < 2 * (1 + m * m) := by nlinarith [mul_self_nonneg m]
      refine ⟨?_, ?_, ?_⟩
      · rw [← r1]
        ring
      · rw [← r2]
        ring
      · intro hs0
        have hle : z1 - z0 ≤ z2 - z0 := by
          rw [e1, e2]
          exact div_le_div_of_nonneg_right (by linarith) hA.le
        linarith

theorem IntersectsCircle_spec_witness :
    (∃ z1 z2 : ℝ, IntersectsCircleOver Real.sqrt 1 0 0 0 (5 / 2) = some (z1, z2) ∧
      z1 ≤ z2 ∧ (z1 - 0) ^ 2 + (1 * z1 + 0 - 0) ^ 2 = (5 / 2) ^ 2 ∧
      (z2 - 0) ^ 2 + (1 * z2 + 0 - 0) ^ 2 = (5 / 2) ^ 2) ∧
    IntersectsCircle sqrtQ 0 2 0 0 (5 / 2) = some (-3 / 2, 3 / 2) ∧
    circleDesc 0 2 0 0 (5 / 2) = 9 ∧ sqrtQ 9 = 3 ∧
    ((-3 / 2 : ℚ) - 0) ^ 2 + (0 * (-3 / 2) + 2 - 0) ^ 2 - (5 / 2) ^ 2
      = (sqrtQ (circleDesc 0 2 0 0 (5 / 2)) * sqrtQ (circleDesc 0 2 0 0 (5 / 2))
          - circleDesc 0 2 0 0 (5 / 2)) / (4 * (1 + 0 * 0)) ∧
    IntersectsCircle sqrtQ 1 0 0 0 (5 / 2) = some (-7 / 4, 7 / 4) ∧
    circleDesc 1 0 0 0 (5 / 2) = 50 ∧ sqrtQ 50 = 7 ∧
    ((-7 / 4 : ℚ) - 0) ^ 2 + (1 * (-7 / 4) + 0 - 0) ^ 2 - (5 / 2) ^ 2
      = (sqrtQ (circleDesc 1 0 0 0 (5 / 2)) * sqrtQ (circleDesc 1 0 0 0 (5 / 2))
          - circleDesc 1 0 0 0 (5 / 2)) / (4 * (1 + 1 * 1)) := by
  have hr := IntersectsCircle_spec.1 1 0 0 0 (5 / 2)
  have hsome : (IntersectsCircleOver Real.sqrt 1 0 0 0 (5 / 2)).isSome = true :=
    hr.1.mpr (by norm_num)
  obtain ⟨⟨z1, z2⟩, hz⟩ := Option.isSome_iff_exists.mp hsome
  exact ⟨⟨z1, z2, hz, hr.2 z1 z2 hz⟩, by decide!, by decide!, by decide!,
    ((IntersectsCircle_spec.2 sqrtQ 0 2 0 0 (5 / 2)).2.2 (-3 / 2) (3 / 2) (by decide!)).1,
    by decide!, by decide!, by decide!,
    ((IntersectsCircle_spec.2 sqrtQ 1 0 0 0 (5 / 2)).2.2 (-7 / 4) (7 / 4) (by decide!)).1⟩

/-! ## The constructor of a line -/

theorem Line2D_ctor_spec (a b : Pt2D) (h : a.z ≠ b.z) :
    ∃ l : Line2D, (Line2D.ctor a b).checked = some l ∧
      l.m * a.z + l.c = a.x ∧ l.m * b.z + l.c = b.x ∧
      l.minz = min a.z b.z ∧ l.maxz = max a.z b.z ∧ l.minz ≤ l.maxz ∧
      Line2D.ctor b a = Line2D.ctor a b := by
  have hba : b.z - a.z ≠ 0 := sub_ne_zero.mpr (Ne.symm h)
  have hab : a.z - b.z ≠ 0 := sub_ne_zero.mpr h
  refine ⟨{ m := (b.x - a.x) / (b.z - a.z), c := b.x - (b.x - a.x) / (b.z - a.z) * b.z,
            minz := min a.z b.z, maxz := max a.z b.z }, ?_, ?_, ?_, rfl, rfl, ?_, ?_⟩
  · simp [Line2D.ctor, RawLine2D.checked, FP.div, FP.mul, FP.rsub, hba]
  · show (b.x - a.x) / (b.z - a.z) * a.z + (b.x - (b.x - a.x) / (b.z - a.z) * b.z) = a.x
    field_simp
    ring
  · show (b.x - a.x) / (b.z - a.z) * b.z + (b.x - (b.x - a.x) / (b.z - a.z) * b.z) = b.x
    ring
  · exact le_trans (min_le_left _ _) (le_max_left _ _)
  · have hm : (a.x - b.x) / (a.z - b.z) = (b.x - a.x) / (b.z - a.z) := by
      rw [div_eq_div_iff hab hba]
      ring
    have hc : a.x - (b.x - a.x) / (b.z - a.z) * a.z = b.x - (b.x - a.x) / (b.z - a.z) * b.z := by
      field_simp
      ring
    simp only [Line2D.ctor, FP.div, FP.mul, FP.rsub, hba, hab, if_false, Option.map_some', hm, hc,
      min_comm b.z a.z, max_comm b.z a.z]

/-- C23: for two points `a`, `b` with `a.z ≠ b.z` the members of `Line2D(a, b)` are finite and
the line passes through both points (`m*a.z + c = a.x` and `m*b.z + c = b.x`), its range is
`minz = min(a.z, b.z) ≤ maxz = max(a.z, b.z)`, and `Line2D(b, a)` is the same line. -/
theorem Line2D_ctor_through (a b : Pt2D) (h : a.z ≠ b.z) :
    ∃ l : Line2D, (Line2D.ctor a b).checked = some l ∧
      l.m * a.z + l.c = a.x ∧ l.m * b.z + l.c = b.x ∧
      l.minz = min a.z b.z ∧ l.maxz = max a.z b.z ∧ l.minz ≤ l.maxz ∧
      Line2D.ctor b a = Line2D.ctor a b :=
  Line2D_ctor_spec a b h

theorem Line2D_ctor_through_witness :
    ptLow.z ≠ ptHigh.z ∧
    ∃ l : Line2D, (Line2D.ctor ptLow ptHigh).checked = some l ∧
      l.m * ptLow.z + l.c = ptLow.x ∧ l.m * ptHigh.z + l.c = ptHigh.x ∧
      l.minz = min ptLow.z ptHigh.z ∧ l.maxz = max ptLow.z ptHigh.z ∧ l.minz ≤ l.maxz ∧
      Line2D.ctor ptHigh ptLow = Line2D.ctor ptLow ptHigh :=
  ⟨by decide!, Line2D_ctor_through ptLow ptHigh (by decide!)⟩

/-! ## Each pair of points is visited once -/

theorem mem_strideRange_iff (start bound stride j : Nat) (hs : 1 ≤ stride) :
    j ∈ strideRange start bound stride ↔ start ≤ j ∧ j < bound ∧ (j - start) % stride = 0 := by
  constructor
  · intro h
    obtain ⟨h1, h2⟩ := mem_strideRange start bound stride j h
    refine ⟨h1, h2, ?_⟩
    unfold strideRange at h
    obtain ⟨k, _, rfl⟩ := List.mem_map.mp h
    simp
  · rintro ⟨h1, h2, h3⟩
    unfold strideRange
    refine List.mem_map.mpr ⟨(j - start) / stride, List.mem_range.mpr ?_, ?_⟩
    · rw [Nat.lt_iff_add_one_le, Nat.le_div_iff_mul_le (by omega)]
      have h4 : (j - start) / stride * stride = j - start :=
        Nat.div_mul_cancel (Nat.dvd_of_mod_eq_zero h3)
      have h5 : ((j - start) / stride + 1) * stride = (j - start) / stride * stride + stride := by
        ring
      omega
    · have h4 : (j - start) / stride * stride = j - start :=
        Nat.div_mul_cancel (Nat.dvd_of_mod_eq_zero h3)
      omega

theorem strideRange_nodup (start bound stride : Nat) (hs : 1 ≤ stride) :
    (strideRange start bound stride).Nodup := by
  unfold strideRange
  refine List.Nodup.map ?_ (List.nodup_range _)
  intro a b hab
  have h : a * stride = b * stride := by
    have h' : start + a * stride = start + b * stride := hab
    omega
  exact Nat.eq_of_mul_eq_mul_right (by omega) h

theorem mem_pairOrder_iff (N : Nat) (stride : Int) (hs : 1 ≤ stride) (p : Nat × Nat) :
    p ∈ pairOrder N stride ↔ p.1 < p.2 ∧ p.2 < N := by
  have hs' : 1 ≤ stride.toNat := by omega
  obtain ⟨i, j⟩ := p
  unfold pairOrder
  simp only [List.mem_flatMap, List.mem_range, List.mem_map, Prod.mk.injEq]
  constructor
  · rintro ⟨offset, _, i', _, j', hj', rfl, rfl⟩
    obtain ⟨h1, h2⟩ := mem_strideRange _ _ _ _ hj'
    exact ⟨by omega, h2⟩
  · rintro ⟨h1, h2⟩
    have h1' : i < j := h1
    have h2' : j < N := h2
    refine ⟨(j - i - 1) % stride.toNat, Nat.mod_lt _ (by omega), i, by omega, j, ?_, rfl, rfl⟩
    rw [mem_strideRange_iff _ _ _ _ hs']
    have hm := Nat.mod_le (j - i - 1) stride.toNat
    refine ⟨by omega, h2', ?_⟩
    have e : j - (i + (j - i - 1) % stride.toNat + 1)
        = (j - i - 1) - (j - i - 1) % stride.toNat := by omega
    rw [e]
    exact Nat.sub_mod_eq_zero_of_mod_eq (by simp)

theorem pairOrder_nodup (N : Nat) (stride : Int) (hs : 1 ≤ stride) :
    (pairOrder N stride).Nodup := by
  have hs' : 1 ≤ stride.toNat := by omega
  unfold pairOrder
  rw [List.nodup_flatMap]
  constructor
  · intro offset _
    rw [List.nodup_flatMap]
    constructor
    · intro i _
      refine List.Nodup.map ?_ (strideRange_nodup _ _ _ hs')
      intro a b hab
      exact (Prod.mk.injEq _ _ _ _ ▸ hab).2
    · refine List.Pairwise.imp ?_ (List.nodup_range N)
      intro a b hab
      rw [Function.onFun, List.disjoint_left]
      intro p hp hq
      obtain ⟨_, _, rfl⟩ := List.mem_map.mp hp
      obtain ⟨_, _, hq'⟩ := List.mem_map.mp hq
      exact hab (Prod.mk.injEq _ _ _ _ ▸ hq').1.symm
  · refine List.Pairwise.imp_of_mem ?_ (List.nodup_range stride.toNat)
    intro o1 o2 ho1 ho2 hne
    rw [Function.onFun, List.disjoint_left]
    intro p hp hq
    simp only [List.mem_flatMap, List.mem_range, List.mem_map] at hp hq
    obtain ⟨i, _, j, hj, rfl⟩ := hp
    obtain ⟨i', _, j', hj', e⟩ := hq
    obtain ⟨rfl, rfl⟩ := Prod.mk.injEq _ _ _ _ ▸ e
    obtain ⟨a1, _, a3⟩ := (mem_strideRange_iff _ _ _ _ hs').mp hj
    obtain ⟨b1, _, b3⟩ := (mem_strideRange_iff _ _ _ _ hs').mp hj'
    have ho1' := List.mem_range.mp ho1
    have ho2' := List.mem_range.mp ho2
    apply hne
    have e1 : (j' - i' - 1) % stride.toNat = o1 := by
      have : j' - i' - 1 = o1 + (j' - (i' + o1 + 1)) := by omega
      rw [this, Nat.add_mod, a3, Nat.add_zero, Nat.mod_mod, Nat.mod_eq_of_lt ho1']
    have e2 : (j' - i' - 1) % stride.toNat = o2 := by
      have : j' - i' - 1 = o2 + (j' - (i' + o2 + 1)) := by omega
      rw [this, Nat.add_mod, b3, Nat.add_zero, Nat.mod_mod, Nat.mod_eq_of_lt ho2']
    omega

theorem mem_pairsBelow (N : Nat) (p : Nat × Nat) :
    p ∈ pairsBelow N ↔ p.1 < p.2 ∧ p.2 < N := by
  obtain ⟨i, j⟩ := p
  unfold pairsBelow
  simp only [List.mem_flatMap, List.mem_range, List.mem_map, Prod.mk.injEq]
  constructor
  · rintro ⟨j', h1, i', h2, rfl, rfl⟩
    exact ⟨h2, h1⟩
  · rintro ⟨h1, h2⟩
    exact ⟨j, h2, i, h1, rfl, rfl⟩

theorem pairsBelow_nodup (N : Nat) : (pairsBelow N).Nodup := by
  unfold pairsBelow
  rw [List.nodup_flatMap]
  constructor
  · intro j _
    refine List.Nodup.map ?_ (List.nodup_range _)
    intro a b hab
    exact (Prod.mk.injEq _ _ _ _ ▸ hab).1
  · refine List.Pairwise.imp ?_ (List.nodup_range N)
    intro a b hab
    rw [Function.onFun, List.disjoint_left]
    intro p hp hq
    obtain ⟨_, _, rfl⟩ := List.mem_map.mp hp
    obtain ⟨_, _, hq'⟩ := List.mem_map.mp hq
    exact hab (Prod.mk.injEq _ _ _ _ ▸ hq').2.symm

theorem pairOrder_perm (N : Nat) (stride : Int) (hs : 1 ≤ stride) :
    List.Perm (pairOrder N stride) (pairsBelow N) :=
  (List.perm_ext_iff_of_nodup (pairOrder_nodup N stride hs) (pairsBelow_nodup N)).mpr
    (fun p => by rw [mem_pairOrder_iff N stride hs, mem_pairsBelow])

theorem lineCandidate_no_filter (sqrt : ℚ → ℚ) (z0 x0 R : ℚ) (hR : R ≤ 0) (a b : Pt2D) :
    lineCandidate sqrt z0 x0 R a b = (Line2D.ctor a b).checked := by
  unfold lineCandidate
  cases (Line2D.ctor a b).checked with
  | none => rfl
  | some l => simp only [if_neg (not_lt.mpr hR)]

theorem pairLine_of_getElem (pts : List Pt2D) (i j : Nat) (a b : Pt2D) (hi : pts[i]? = some a)
    (hj : pts[j]? = some b) : pairLine pts (i, j) = (Line2D.ctor a b).checked := by
  unfold pairLine
  simp only [hi, hj]

theorem pairLine_eq_none (pts : List Pt2D) (i j : Nat)
    (h : pts[i]? = none ∨ pts[j]? = none) : pairLine pts (i, j) = none := by
  unfold pairLine
  rcases h with h | h
  · simp only [h]
  · cases hi : pts[i]? with
    | none => rfl
    | some a => simp only [h]

theorem pushLines_eq_filterMap (sqrt : ℚ → ℚ) (z0 x0 R : ℚ) (hR : R ≤ 0) (pts : List Pt2D) :
    ∀ (ps : List (Nat × Nat)) (lines : List Line2D),
      lines.length + (ps.filterMap (pairLine pts)).length < kMaxLines →
      pushLines sqrt z0 x0 R pts ps lines = lines ++ ps.filterMap (pairLine pts) := by
  intro ps
  induction ps with
  | nil => intro lines _; simp [pushLines]
  | cons p rest ih =>
    intro lines h
    obtain ⟨i, j⟩ := p
    unfold pushLines
    rw [List.filterMap_cons] at h ⊢
    cases hi : pts[i]? with
    | none =>
      rw [pairLine_eq_none pts i j (Or.inl hi)] at h ⊢
      exact ih lines h
    | some a =>
      cases hj : pts[j]? with
      | none =>
        rw [pairLine_eq_none pts i j (Or.inr hj)] at h ⊢
        exact ih lines h
      | some b =>
        rw [pairLine_of_getElem pts i j a b hi hj] at h ⊢
        dsimp only
        rw [lineCandidate_no_filter sqrt z0 x0 R hR]
        cases hc : (Line2D.ctor a b).checked with
        | none =>
          rw [hc] at h
          exact ih lines h
        | some l =>
          rw [hc] at h
          simp only [List.length_cons] at h
          dsimp only
          rw [if_neg (by simp only [List.length_append, List.length_singleton]; omega)]
          rw [ih (lines ++ [l]) (by simp only [List.length_append, List.length_singleton]; omega)]
          simp

theorem count_eq_one_of_nodup {α : Type} [BEq α] [LawfulBEq α] (a : α) :
    ∀ l : List α, l.Nodup → a ∈ l → List.count a l = 1 := by
  intro l
  induction l with
  | nil => intro _ h; simp at h
  | cons b l ih =>
    intro hnd hm
    obtain ⟨hb, hnd'⟩ := List.nodup_cons.mp hnd
    rw [List.count_cons]
    by_cases e : b = a
    · subst e
      rw [List.count_eq_zero_of_not_mem hb]
      simp
    · have hm' : a ∈ l := by
        rcases List.mem_cons.mp hm with h | h
        · exact absurd h.symm e
        · exact h
      rw [ih hnd' hm']
      simp [e]

/-! ## The bounds of the coarse heat map of view 0 -/

theorem extentBy_fst (f : Pt2D → ℚ) : ∀ (pts : List Pt2D) (st : ℚ × ℚ),
    (extentBy f pts st).1 ≤ st.1 ∧ (∀ p ∈ pts, (extentBy f pts st).1 ≤ f p) ∧
    ((extentBy f pts st).1 = st.1 ∨ ∃ p ∈ pts, (extentBy f pts st).1 = f p) := by
  intro pts
  induction pts with
  | nil =>
    intro st
    exact ⟨le_refl _, fun p hp => by simp at hp, Or.inl rfl⟩
  | cons q rest ih =>
    intro st
    obtain ⟨h1, h2, h3⟩ := ih (min st.1 (f q), max st.2 (f q))
    have e : extentBy f (q :: rest) st = extentBy f rest (min st.1 (f q), max st.2 (f q)) := rfl
    rw [e]
    refine ⟨le_trans h1 (min_le_left _ _), ?_, ?_⟩
    · intro p hp
      rcases List.mem_cons.mp hp with rfl | hp
      · exact le_trans h1 (min_le_right _ _)
      · exact h2 p hp
    · rcases h3 with h3 | ⟨p, hp, h3⟩
      · rcases min_choice st.1 (f q) with hm | hm
        · left
          rw [h3]
          exact hm
        · right
          refine ⟨q, List.mem_cons_self _ _, ?_⟩
          rw [h3]
          exact hm
      · exact Or.inr ⟨p, List.mem_cons_of_mem _ hp, h3⟩

theorem sorted_rank (s : List ℚ) (hs : List.Sorted (fun a b => a ≤ b) s) (k : Nat) (v : ℚ)
    (hk : s[k]? = some v) :
    s.countP (fun z => decide (z < v)) ≤ k ∧ k + 1 ≤ s.countP (fun z => decide (z ≤ v)) := by
  obtain ⟨hlt, hv⟩ := List.getElem?_eq_some_iff.mp hk
  have hdec : s = s.take k ++ v :: s.drop (k + 1) := by
    conv_lhs => rw [← List.take_append_drop k s]
    rw [List.drop_eq_getElem_cons hlt, hv]
  have hlen : (s.take k).length = k := by
    rw [List.length_take]
    omega
  have hs' : List.Pairwise (fun a b => a ≤ b) (s.take k ++ v :: s.drop (k + 1)) := by
    rw [← hdec]
    exact hs
  obtain ⟨_, hright, hcross⟩ := List.pairwise_append.mp hs'
  have hafter := (List.pairwise_cons.mp hright).1
  constructor
  · rw [hdec, List.countP_append, List.countP_cons]
    have h0 : (s.drop (k + 1)).countP (fun z => decide (z < v)) = 0 := by
      rw [List.countP_eq_zero]
      intro x hx
      simpa using hafter x hx
    rw [h0]
    have h1 := List.countP_le_length (fun z => decide (z < v)) (l := s.take k)
    simp only [lt_self_iff_false, decide_False, Bool.false_eq_true, if_false]
    omega
  · rw [hdec, List.countP_append, List.countP_cons]
    have h1 : (s.take k).countP (fun z => decide (z ≤ v)) = (s.take k).length := by
      rw [List.countP_eq_length]
      intro x hx
      simpa using hcross x hx v (List.mem_cons_self _ _)
    rw [h1, hlen]
    simp only [le_refl, decide_True, if_true]
    omega

/-! ## The number of evaluated pairs -/

theorem strideRange_length (start bound stride : Nat) :
    (strideRange start bound stride).length = (bound - start + stride - 1) / stride := by
  unfold strideRange
  rw [List.length_map, List.length_range]

theorem countStep_of_getElem (lines : List Line2D) (st : Nat × Nat × Nat) (i : Nat) (a : Line2D)
    (h : lines[i]? = some a) :
    countStep lines st i
      = ((window lines a i st.1 st.2.1).1, (window lines a i st.1 st.2.1).2,
          st.2.2 + ((window lines a i st.1 st.2.1).2 - (window lines a i st.1 st.2.1).1)) := by
  unfold countStep
  rw [h]

theorem pairs_count_inv (lines : List Line2D) (s : Nat) (hs : 1 ≤ s) : ∀ n,
    ((List.range n).foldl (pairStep s lines) (0, 0, [])).2.2.length * s
        ≤ ((List.range n).foldl (countStep lines) (0, 0, 0)).2.2 + n * s ∧
    (s = 1 → ((List.range n).foldl (pairStep s lines) (0, 0, [])).2.2.length
        = ((List.range n).foldl (countStep lines) (0, 0, 0)).2.2) := by
  intro n
  induction n with
  | zero => simp
  | succ n ih =>
    have hp := pairStep_pointers s lines n
    have hc := countStep_pointers lines n
    rw [List.range_succ, List.foldl_append, List.foldl_append, List.foldl_cons, List.foldl_nil,
      List.foldl_cons, List.foldl_nil]
    generalize (List.range n).foldl (pairStep s lines) (0, 0, []) = P at ih hp ⊢
    generalize (List.range n).foldl (countStep lines) (0, 0, 0) = C at ih hc ⊢
    have hp1 : P.1 = (pointersAfter lines n).1 := congrArg Prod.fst hp
    have hp2 : P.2.1 = (pointersAfter lines n).2 := congrArg Prod.snd hp
    have hc1 : C.1 = (pointersAfter lines n).1 := congrArg Prod.fst hc
    have hc2 : C.2.1 = (pointersAfter lines n).2 := congrArg Prod.snd hc
    cases hl : lines[n]? with
    | none =>
      have e1 : pairStep s lines P n = P := by unfold pairStep; rw [hl]
      have e2 : countStep lines C n = C := by unfold countStep; rw [hl]
      rw [e1, e2]
      refine ⟨?_, ih.2⟩
      have := ih.1
      have e : (n + 1) * s = n * s + s := by ring
      omega
    | some a =>
      rw [pairStep_of_getElem s lines P n a hl, countStep_of_getElem lines C n a hl,
        hp1, hp2, hc1, hc2]
      generalize window lines a n (pointersAfter lines n).1 (pointersAfter lines n).2 = w
      dsimp only
      rw [List.length_append, List.length_map, strideRange_length]
      constructor
      · have h1 := Nat.div_mul_le_self (w.2 - w.1 + s - 1) s
        have h2 := ih.1
        have e : (n + 1) * s = n * s + s := by ring
        have e' : (P.2.2.length + (w.2 - w.1 + s - 1) / s) * s
            = P.2.2.length * s + (w.2 - w.1 + s - 1) / s * s := by ring
        omega
      · intro h1
        subst h1
        rw [ih.2 rfl]
        simp

/-- The pairs at which the second pass of `MapFromLines` evaluates an intersection number at
most `npts / stride` plus one for each iteration of the outer loop, and exactly `npts` when
`npts < kMaxPts`. -/
theorem evalPairs_length_le (lines : List Line2D) :
    (evalPairs lines).length
        ≤ countPts lines / (countPts lines / kMaxPts + 1) + (lines.length - 1) ∧
    countPts lines / (countPts lines / kMaxPts + 1) < kMaxPts ∧
    (countPts lines < kMaxPts → (evalPairs lines).length = countPts lines) := by
  have hK : 0 < kMaxPts := by decide
  have hs : 1 ≤ countPts lines / kMaxPts + 1 := Nat.le_add_left 1 _
  obtain ⟨h1, h2⟩ := pairs_count_inv lines (countPts lines / kMaxPts + 1) hs (lines.length - 1)
  refine ⟨?_, ?_, ?_⟩
  · unfold evalPairs
    have h3 : ((List.range (lines.length - 1)).foldl
        (pairStep (countPts lines / kMaxPts + 1) lines) (0, 0, [])).2.2.length
        ≤ (countPts lines + (lines.length - 1) * (countPts lines / kMaxPts + 1))
            / (countPts lines / kMaxPts + 1) := by
      rw [Nat.le_div_iff_mul_le hs]
      exact h1
    rw [Nat.add_mul_div_right _ _ hs] at h3
    exact h3
  · rw [Nat.div_lt_iff_lt_mul hs]
    exact Nat.lt_mul_div_succ _ hK
  · intro hlt
    have e : countPts lines / kMaxPts = 0 := Nat.div_eq_of_lt hlt
    unfold evalPairs
    rw [e] at h2 ⊢
    exact h2 rfl

theorem advanceWhile_eq (p : Line2D → Bool) (lines : List Line2D) (j k : Nat) (hjk : j ≤ k)
    (hk : k ≤ lines.length)
    (hpass : ∀ i b, j ≤ i → i < k → lines[i]? = some b → p b = true)
    (hstop : ∀ b, lines[k]? = some b → p b = false) : advanceWhile p lines j = k := by
  have hge := advanceWhile_ge p lines j
  have hle := advanceWhile_le_length p lines j (by omega)
  rcases lt_trichotomy (advanceWhile p lines j) k with h | h | h
  · have hlt : advanceWhile p lines j < lines.length := by omega
    have h1 := advanceWhile_stop p lines j _ (List.getElem?_eq_getElem hlt)
    have h2 := hpass _ _ hge h (List.getElem?_eq_getElem hlt)
    rw [h1] at h2
    exact absurd h2 (by decide)
  · exact h
  · have hlt : k < lines.length := by omega
    have h1 := advanceWhile_passed p lines j k _ hjk h (List.getElem?_eq_getElem hlt)
    have h2 := hstop _ (List.getElem?_eq_getElem hlt)
    rw [h1] at h2
    exact absurd h2 (by decide)

theorem linesBundle_length (a b : Nat) : (linesBundle a b).length = a + b := by
  unfold linesBundle
  simp

theorem linesBundle_left (a b i : Nat) (h : i < a) : (linesBundle a b)[i]? = some lineFlat := by
  unfold linesBundle
  rw [List.getElem?_append_left (by simpa using h), List.getElem?_replicate, if_pos h]

theorem linesBundle_right (a b i : Nat) (h : a ≤ i) (l : Line2D)
    (hl : (linesBundle a b)[i]? = some l) : l = lineDiag := by
  unfold linesBundle at hl
  rw [List.getElem?_append_right (by simpa using h), List.getElem?_replicate] at hl
  split at hl
  · exact (Option.some.inj hl).symm
  · exact Option.noConfusion hl

theorem linesBundle_window_flat (a b i j0 jmax : Nat) (hi : i < a) (h0 : j0 ≤ a)
    (h1 : jmax ≤ a + b) : window (linesBundle a b) lineFlat i j0 jmax = (a, a + b) := by
  have hlen := linesBundle_length a b
  have e0 : advanceWhile (fun l => CloseAngles lineFlat.m l.m) (linesBundle a b)
      (max j0 (i + 1)) = a := by
    refine advanceWhile_eq _ _ _ _ (by omega) (by omega) ?_ ?_
    · intro k l _ hk hl
      rw [linesBundle_left a b k hk] at hl
      rw [← Option.some.inj hl]
      decide!
    · intro l hl
      rw [linesBundle_right a b a (le_refl _) l hl]
      decide!
  have e1 : advanceWhile (fun l => !CloseAngles lineFlat.m l.m) (linesBundle a b)
      (max jmax a) = a + b := by
    refine advanceWhile_eq _ _ _ _ (by omega) (by omega) ?_ ?_
    · intro k l hk _ hl
      rw [linesBundle_right a b k (by omega) l hl]
      decide!
    · intro l hl
      rw [List.getElem?_eq_none (by omega)] at hl
      exact Option.noConfusion hl
  unfold window
  dsimp only
  rw [e0, e1]

theorem linesBundle_window_diag (a b i j0 jmax : Nat) (hi : a ≤ i) (hlt : i + 1 ≤ a + b)
    (h0 : j0 ≤ a + b) (h1 : jmax ≤ a + b) :
    window (linesBundle a b) lineDiag i j0 jmax = (a + b, a + b) := by
  have hlen := linesBundle_length a b
  have e0 : advanceWhile (fun l => CloseAngles lineDiag.m l.m) (linesBundle a b)
      (max j0 (i + 1)) = a + b := by
    refine advanceWhile_eq _ _ _ _ (by omega) (by omega) ?_ ?_
    · intro k l hk _ hl
      rw [linesBundle_right a b k (by omega) l hl]
      decide!
    · intro l hl
      rw [List.getElem?_eq_none (by omega)] at hl
      exact Option.noConfusion hl
  have e1 : advanceWhile (fun l => !CloseAngles lineDiag.m l.m) (linesBundle a b)
      (max jmax (a + b)) = a + b := by
    refine advanceWhile_eq _ _ _ _ (by omega) (by omega) ?_ ?_
    · intro k l hk hk'
      omega
    · intro l hl
      rw [List.getElem?_eq_none (by omega)] at hl
      exact Option.noConfusion hl
  unfold window
  dsimp only
  rw [e0, e1]

theorem linesBundle_pairs_flat (a b s : Nat) : ∀ n, n ≤ a →
    ((List.range n).foldl (pairStep s (linesBundle a b)) (0, 0, [])).1 ≤ a ∧
    ((List.range n).foldl (pairStep s (linesBundle a b)) (0, 0, [])).2.1 ≤ a + b ∧
    ((List.range n).foldl (pairStep s (linesBundle a b)) (0, 0, [])).2.2.length
      = n * ((b + s - 1) / s) := by
  intro n
  induction n with
  | zero => intro _; simp
  | succ n ih =>
    intro hn
    obtain ⟨i0, i1, i2⟩ := ih (by omega)
    rw [List.range_succ, List.foldl_append, List.foldl_cons, List.foldl_nil]
    generalize (List.range n).foldl (pairStep s (linesBundle a b)) (0, 0, []) = P at i0 i1 i2 ⊢
    rw [pairStep_of_getElem s _ P n lineFlat (linesBundle_left a b n (by omega)),
      linesBundle_window_flat a b n P.1 P.2.1 (by omega) i0 i1]
    dsimp only
    refine ⟨le_refl _, le_refl _, ?_⟩
    rw [List.length_append, List.length_map, strideRange_length, i2]
    have e : a + b - a = b := by omega
    rw [e]
    ring

theorem linesBundle_pairs_diag (a b s : Nat) : ∀ k, a + k + 1 ≤ a + b →
    ((List.range (a + k)).foldl (pairStep s (linesBundle a b)) (0, 0, [])).1 ≤ a + b ∧
    ((List.range (a + k)).foldl (pairStep s (linesBundle a b)) (0, 0, [])).2.1 ≤ a + b ∧
    ((List.range (a + k)).foldl (pairStep s (linesBundle a b)) (0, 0, [])).2.2.length
      = a * ((b + s - 1) / s) := by
  intro k
  induction k with
  | zero =>
    intro _
    obtain ⟨h0, h1, h2⟩ := linesBundle_pairs_flat a b s a (le_refl _)
    exact ⟨by rw [Nat.add_zero]; omega, by rw [Nat.add_zero]; exact h1,
      by rw [Nat.add_zero]; exact h2⟩
  | succ k ih =>
    intro hk
    obtain ⟨i0, i1, i2⟩ := ih (by omega)
    have e : a + (k + 1) = (a + k) + 1 := by omega
    rw [e, List.range_succ, List.foldl_append, List.foldl_cons, List.foldl_nil]
    generalize (List.range (a + k)).foldl (pairStep s (linesBundle a b)) (0, 0, []) = P
      at i0 i1 i2 ⊢
    have hlt : a + k < (linesBundle a b).length := by rw [linesBundle_length]; omega
    have hl : (linesBundle a b)[a + k]? = some lineDiag := by
      rw [List.getElem?_eq_getElem hlt]
      exact congrArg some (linesBundle_right a b (a + k) (by omega) _
        (List.getElem?_eq_getElem hlt))
    rw [pairStep_of_getElem s _ P (a + k) lineDiag hl,
      linesBundle_window_diag a b (a + k) P.1 P.2.1 (by omega) (by omega) i0 i1]
    dsimp only
    refine ⟨le_refl _, le_refl _, ?_⟩
    rw [List.length_append, List.length_map, strideRange_length, i2]
    have e0 : (a + b - (a + b) + s - 1) / s = 0 := by
      rcases Nat.eq_zero_or_pos s with h | h
      · rw [h, Nat.div_zero]
      · exact Nat.div_eq_of_lt (by omega)
    rw [e0, Nat.add_zero]

theorem linesBundle_pairs (a b s : Nat) (hb : 1 ≤ b) :
    ((List.range ((linesBundle a b).length - 1)).foldl (pairStep s (linesBundle a b))
      (0, 0, [])).2.2.length = a * ((b + s - 1) / s) := by
  have e : (linesBundle a b).length - 1 = a + (b - 1) := by rw [linesBundle_length]; omega
  rw [e]
  exact (linesBundle_pairs_diag a b s (b - 1) (by omega)).2.2

theorem linesBundle_countPts (a b : Nat) (hb : 1 ≤ b) : countPts (linesBundle a b) = a * b := by
  unfold countPts
  rw [← (pairs_count_inv (linesBundle a b) 1 (le_refl _) _).2 rfl, linesBundle_pairs a b 1 hb]
  simp

theorem linesBundle_evalPairs (a b : Nat) (hb : 1 ≤ b) :
    (evalPairs (linesBundle a b)).length
      = a * ((b + (a * b / kMaxPts + 1) - 1) / (a * b / kMaxPts + 1)) := by
  unfold evalPairs
  rw [linesBundle_countPts a b hb, linesBundle_pairs a b _ hb]

/-- C21 (amended): for every sequence of lines, the second pass of `MapFromLines` votes
at exactly the pairs of `evalPairs`; their number is at most `npts / stride`, which is below
`kMaxPts`, plus one for each iteration of the outer loop (each line strides its own window from
its start), so it is below `kMaxPts + lines.size()`; it is `npts` when `npts < kMaxPts`. -/
theorem MapFromLines_pairs_budget (lines : List Line2D) :
    (∀ hm, MapFromLines lines hm
      = (evalPairs lines).foldl (votePair (countPts lines / kMaxPts + 1) lines) hm) ∧
    (evalPairs lines).length
        ≤ countPts lines / (countPts lines / kMaxPts + 1) + (lines.length - 1) ∧
    countPts lines / (countPts lines / kMaxPts + 1) < kMaxPts ∧
    (evalPairs lines).length < kMaxPts + lines.length ∧
    (countPts lines < kMaxPts → (evalPairs lines).length = countPts lines) := by
  obtain ⟨h1, h2, h3⟩ := evalPairs_length_le lines
  exact ⟨MapFromLines_eq_foldl lines, h1, h2, by omega, h3⟩

/-- For 7,000,000 lines of slope 0 followed by 5 lines of slope 1 (fewer than `kMaxLines` lines,
in ascending order of slope) the first pass counts `npts = 35,000,000`, the stride is 4, and the
second pass evaluates two pairs for each line of slope 0: 14,000,000 pairs, more than
`kMaxPts`. -/
theorem MapFromLines_over_budget_counterexample :
    (linesBundle 7000000 5).length < kMaxLines ∧
    List.Sorted (fun a b => a.m ≤ b.m) (linesBundle 7000000 5) ∧
    countPts (linesBundle 7000000 5) = 35000000 ∧
    (evalPairs (linesBundle 7000000 5)).length = 14000000 ∧
    kMaxPts < (evalPairs (linesBundle 7000000 5)).length := by
  have h1 := linesBundle_countPts 7000000 5 (by decide)
  have h2 := linesBundle_evalPairs 7000000 5 (by decide)
  have e : 7000000 * ((5 + (7000000 * 5 / kMaxPts + 1) - 1) / (7000000 * 5 / kMaxPts + 1))
      = 14000000 := by decide
  rw [e] at h2
  refine ⟨?_, ?_, h1, h2, ?_⟩
  · rw [linesBundle_length]
    decide
  · unfold linesBundle
    rw [List.Sorted, List.pairwise_append]
    refine ⟨?_, ?_, ?_⟩
    · rw [List.pairwise_replicate]
      right
      exact le_refl _
    · rw [List.pairwise_replicate]
      right
      exact le_refl _
    · intro x hx y hy
      rw [List.eq_of_mem_replicate hx, List.eq_of_mem_replicate hy]
      decide!
  · rw [h2]
    decide

/-! ## The first maximum in scan order -/

theorem foldl_flatMap_eq {α β σ : Type} (f : σ → β → σ) (g : α → List β) :
    ∀ (l : List α) (s : σ),
      (l.flatMap g).foldl f s = l.foldl (fun acc x => (g x).foldl f acc) s := by
  intro l
  induction l with
  | nil => intro s; rfl
  | cons x xs ih =>
    intro s
    rw [List.flatMap_cons, List.foldl_append, ih]
    rfl

theorem foldl_first_max {α β : Type} (val : α → ℚ) (pt : α → β) :
    ∀ (L : List α) (b0 : ℚ) (r0 : β),
      (L.foldl (fun st c => if val c > st.1 then (val c, pt c) else st) (b0, r0) = (b0, r0) ∧
        ∀ c ∈ L, val c ≤ b0) ∨
      ∃ pre c post, L = pre ++ c :: post ∧ (∀ x ∈ pre, val x < val c) ∧ b0 < val c ∧
        (∀ x ∈ post, val x ≤ val c) ∧
        L.foldl (fun st c => if val c > st.1 then (val c, pt c) else st) (b0, r0)
          = (val c, pt c) := by
  intro L
  induction L with
  | nil =>
    intro b0 r0
    left
    exact ⟨rfl, fun c hc => by simp at hc⟩
  | cons x xs ih =>
    intro b0 r0
    rw [List.foldl_cons]
    by_cases hx : val x > b0
    · rw [if_pos hx]
      right
      rcases ih (val x) (pt x) with ⟨h1, h2⟩ | ⟨pre, c, post, h1, h2, h3, h4, h5⟩
      · exact ⟨[], x, xs, rfl, fun y hy => by simp at hy, hx, h2, h1⟩
      · refine ⟨x :: pre, c, post, by rw [h1]; rfl, ?_, lt_trans hx h3, h4, h5⟩
        intro y hy
        rcases List.mem_cons.mp hy with rfl | hy
        · exact h3
        · exact h2 y hy
    · rw [if_neg hx]
      rcases ih b0 r0 with ⟨h1, h2⟩ | ⟨pre, c, post, h1, h2, h3, h4, h5⟩
      · left
        refine ⟨h1, ?_⟩
        intro y hy
        rcases List.mem_cons.mp hy with rfl | hy
        · exact not_lt.mp hx
        · exact h2 y hy
      · right
        refine ⟨x :: pre, c, post, by rw [h1]; rfl, ?_, h3, h4, h5⟩
        intro y hy
        rcases List.mem_cons.mp hy with rfl | hy
        · exact lt_of_le_of_lt (not_lt.mp hx) h3
        · exact h2 y hy

theorem peakStepNoPrune_eq_foldl (hs0 hs1 hs2 : HeatMap) (Minv : Mat2) (d2 : TVector3)
    (iz iu : Nat) (st : ℚ × TVector3) :
    peakStepNoPrune hs0 hs1 hs2 Minv d2 iz st iu
      = (if impliedBin hs0 hs1 hs2 Minv d2 iz iu < 0
            ∨ impliedBin hs0 hs1 hs2 Minv d2 iz iu ≥ hs2.Nz then []
          else (List.range' 1 (hs0.Nx - 2)).map fun ix => (iz, iu, ix)).foldl
          (comboStep hs0 hs1 hs2 Minv d2) st := by
  unfold peakStepNoPrune
  dsimp only
  by_cases hr : impliedBin hs0 hs1 hs2 Minv d2 iz iu < 0
      ∨ impliedBin hs0 hs1 hs2 Minv d2 iz iu ≥ hs2.Nz
  · rw [if_pos hr]
    have hr' : hs2.ZToBin (implied hs0 hs1 Minv d2 iz iu).1 < 0
        ∨ hs2.ZToBin (implied hs0 hs1 Minv d2 iz iu).1 ≥ hs2.Nz := hr
    rw [if_pos hr']
    rfl
  · rw [if_neg hr]
    have hr' : ¬ (hs2.ZToBin (implied hs0 hs1 Minv d2 iz iu).1 < 0
        ∨ hs2.ZToBin (implied hs0 hs1 Minv d2 iz iu).1 ≥ hs2.Nz) := hr
    rw [if_neg hr', List.foldl_map]
    have key := foldl_rel
      (scanStep (score hs0 hs1 hs2 iz iu (hs2.ZToBin (implied hs0 hs1 Minv d2 iz iu).1).toNat))
      (fun (t : ℚ × TVector3) ix => comboStep hs0 hs1 hs2 Minv d2 t (iz, iu, ix))
      (fun s t => s.1 = t.1 ∧ t.2 = match s.2 with
        | some bestix => { X := hs0.XBinCenter bestix, Y := (implied hs0 hs1 Minv d2 iz iu).2.1,
                           Z := (implied hs0 hs1 Minv d2 iz iu).2.2 }
        | none => st.2)
      (fun s t ix hst => by
        obtain ⟨e1, e2⟩ := hst
        unfold scanStep comboStep comboScore impliedBin
        dsimp only
        rw [← e1]
        by_cases hgt : score hs0 hs1 hs2 iz iu
            (hs2.ZToBin (implied hs0 hs1 Minv d2 iz iu).1).toNat ix > s.1
        · rw [if_pos hgt, if_pos hgt]
          exact ⟨rfl, rfl⟩
        · rw [if_neg hgt, if_neg hgt]
          exact ⟨e1, e2⟩)
      (List.range' 1 (hs0.Nx - 2)) (st.1, none) st ⟨rfl, rfl⟩
    obtain ⟨k1, k2⟩ := key
    generalize (List.range' 1 (hs0.Nx - 2)).foldl
      (scanStep (score hs0 hs1 hs2 iz iu (hs2.ZToBin (implied hs0 hs1 Minv d2 iz iu).1).toNat))
      (st.1, none) = r at k1 k2 ⊢
    generalize (List.range' 1 (hs0.Nx - 2)).foldl
      (fun (t : ℚ × TVector3) ix => comboStep hs0 hs1 hs2 Minv d2 t (iz, iu, ix)) st = t
      at k1 k2 ⊢
    obtain ⟨r1, r2⟩ := r
    obtain ⟨t1, t2⟩ := t
    cases r2 with
    | none =>
      dsimp only at k1 k2 ⊢
      rw [k1, k2]
    | some bestix =>
      dsimp only at k1 k2 ⊢
      rw [k1, k2]

theorem peakSearchNoPrune_eq_foldl (hs0 hs1 hs2 : HeatMap) (Minv : Mat2) (d2 : TVector3) :
    peakSearchNoPrune hs0 hs1 hs2 Minv d2
      = (scanOrder hs0 hs1 hs2 Minv d2).foldl (comboStep hs0 hs1 hs2 Minv d2)
          (-1, { X := 0, Y := 0, Z := 0 }) := by
  unfold peakSearchNoPrune scanOrder
  rw [foldl_flatMap_eq]
  apply List.foldl_ext
  intro st iz _
  rw [foldl_flatMap_eq]
  apply List.foldl_ext
  intro st' iu _
  exact peakStepNoPrune_eq_foldl hs0 hs1 hs2 Minv d2 iz iu st'

theorem rowAt_nonneg (h : HeatMap) (Nx iz ix : Nat) (hnn : ∀ w ∈ h.map, 0 ≤ w) :
    0 ≤ rowAt h Nx iz ix := by
  unfold rowAt
  rw [List.getD_eq_getElem?_getD]
  cases hg : h.map[Nx * iz + ix]? with
  | none => exact le_refl _
  | some w => exact hnn w (List.getElem?_mem hg)

theorem comboScore_nonneg (hs0 hs1 hs2 : HeatMap) (Minv : Mat2) (d2 : TVector3)
    (h0 : ∀ w ∈ hs0.map, 0 ≤ w) (h1 : ∀ w ∈ hs1.map, 0 ≤ w) (h2 : ∀ w ∈ hs2.map, 0 ≤ w)
    (c : Nat × Nat × Nat) : 0 ≤ comboScore hs0 hs1 hs2 Minv d2 c := by
  unfold comboScore score
  have a0 := rowAt_nonneg hs0 hs0.Nx c.1 c.2.2 h0
  have a1 := rowAt_nonneg hs1 hs0.Nx c.2.1 c.2.2 h1
  have a2 := rowAt_nonneg hs2 hs0.Nx (impliedBin hs0 hs1 hs2 Minv d2 c.1 c.2.1).toNat c.2.2 h2
  linarith

theorem rowAt_zero (h : HeatMap) (Nx iz ix : Nat) (hz : ∀ w ∈ h.map, w = 0) :
    rowAt h Nx iz ix = 0 := by
  unfold rowAt
  rw [List.getD_eq_getElem?_getD]
  cases hg : h.map[Nx * iz + ix]? with
  | none => rfl
  | some w => exact hz w (List.getElem?_mem hg)

theorem mem_scanOrder (hs0 hs1 hs2 : HeatMap) (Minv : Mat2) (d2 : TVector3) (iz iu ix : Nat) :
    (iz, iu, ix) ∈ scanOrder hs0 hs1 hs2 Minv d2 ↔
      iz < hs0.Nz ∧ iu < hs1.Nz ∧ 0 ≤ impliedBin hs0 hs1 hs2 Minv d2 iz iu ∧
      impliedBin hs0 hs1 hs2 Minv d2 iz iu < hs2.Nz ∧ 1 ≤ ix ∧ ix + 1 < hs0.Nx := by
  unfold scanOrder
  simp only [List.mem_flatMap, List.mem_range]
  constructor
  · rintro ⟨iz', hz, iu', hu, hmem⟩
    split at hmem
    · simp at hmem
    · next hr =>
      obtain ⟨ix', hx, e⟩ := List.mem_map.mp hmem
      obtain ⟨rfl, rfl, rfl⟩ : iz' = iz ∧ iu' = iu ∧ ix' = ix := by
        simpa using e
      have hx' := List.mem_range'_1.mp hx
      push_neg at hr
      exact ⟨hz, hu, hr.1, hr.2, hx'.1, by omega⟩
  · rintro ⟨hz, hu, h1, h2, h3, h4⟩
    refine ⟨iz, hz, iu, hu, ?_⟩
    rw [if_neg (by push_neg; exact ⟨h1, h2⟩)]
    exact List.mem_map.mpr ⟨ix, List.mem_range'_1.mpr ⟨h3, by omega⟩, rfl⟩

theorem flatMap_head {α β : Type} (g : α → List β) :
    ∀ (l : List α) (c : β) (rest : List β), l.flatMap g = c :: rest →
      ∃ x ∈ l, ∃ r, g x = c :: r := by
  intro l
  induction l with
  | nil => intro c rest h; simp at h
  | cons x xs ih =>
    intro c rest h
    rw [List.flatMap_cons] at h
    cases hg : g x with
    | nil =>
      rw [hg, List.nil_append] at h
      obtain ⟨y, hy, r, hr⟩ := ih c rest h
      exact ⟨y, List.mem_cons_of_mem _ hy, r, hr⟩
    | cons y ys =>
      rw [hg, List.cons_append] at h
      have e : y = c := (List.cons.inj h).1
      exact ⟨x, List.mem_cons_self _ _, ys, by rw [hg, e]⟩

theorem scanOrder_head (hs0 hs1 hs2 : HeatMap) (Minv : Mat2) (d2 : TVector3)
    (c : Nat × Nat × Nat) (rest : List (Nat × Nat × Nat))
    (h : scanOrder hs0 hs1 hs2 Minv d2 = c :: rest) : c.2.2 = 1 := by
  unfold scanOrder at h
  obtain ⟨iz, _, r, hr⟩ := flatMap_head _ _ c rest h
  obtain ⟨iu, _, r', hr'⟩ := flatMap_head _ _ c r hr
  split at hr'
  · exact List.noConfusion hr'
  · cases hn : hs0.Nx - 2 with
    | zero =>
      rw [hn] at hr'
      exact List.noConfusion hr'
    | succ n =>
      rw [hn, List.range'_succ, List.map_cons] at hr'
      rw [← (List.cons.inj hr').1]

/-- C26: for non-singular directions, heat maps with non-negative weights and `Nx ≥ 3`, if
some combination `(iz, iu)` has its implied bin of view 2 in range, then `FindPeak3D` returns
the bin-centre point of the first combination `(iz, iu, ix)` in scan order that attains the
maximum score: every combination before it scores strictly less and none after it scores more.
For three maps of zero weights that is the first combination of the scan, which is at drift
bin 1. -/
theorem FindPeak3D_first_maximum (hs0 hs1 hs2 : HeatMap) (d0 d1 d2 : TVector3)
    (hdet : (dirMatrix d0 d1).m00 * (dirMatrix d0 d1).m11
      - (dirMatrix d0 d1).m10 * (dirMatrix d0 d1).m01 ≠ 0)
    (h0 : ∀ w ∈ hs0.map, 0 ≤ w) (h1 : ∀ w ∈ hs1.map, 0 ≤ w) (h2 : ∀ w ∈ hs2.map, 0 ≤ w)
    (hNx : 3 ≤ hs0.Nx)
    (hex : ∃ iz iu, iz < hs0.Nz ∧ iu < hs1.Nz ∧
      0 ≤ impliedBin hs0 hs1 hs2 (dirMatrix d0 d1).Invert d2 iz iu ∧
      impliedBin hs0 hs1 hs2 (dirMatrix d0 d1).Invert d2 iz iu < hs2.Nz) :
    (∃ pre c post, scanOrder hs0 hs1 hs2 (dirMatrix d0 d1).Invert d2 = pre ++ c :: post ∧
      (∀ x ∈ pre, comboScore hs0 hs1 hs2 (dirMatrix d0 d1).Invert d2 x
        < comboScore hs0 hs1 hs2 (dirMatrix d0 d1).Invert d2 c) ∧
      (∀ x ∈ post, comboScore hs0 hs1 hs2 (dirMatrix d0 d1).Invert d2 x
        ≤ comboScore hs0 hs1 hs2 (dirMatrix d0 d1).Invert d2 c) ∧
      FindPeak3D hs0 hs1 hs2 d0 d1 d2
        = peakPoint hs0 hs1 (dirMatrix d0 d1).Invert d2 c.1 c.2.1 c.2.2) ∧
    ((∀ w ∈ hs0.map, w = 0) → (∀ w ∈ hs1.map, w = 0) → (∀ w ∈ hs2.map, w = 0) →
      ∃ iz iu rest, scanOrder hs0 hs1 hs2 (dirMatrix d0 d1).Invert d2 = (iz, iu, 1) :: rest ∧
        FindPeak3D hs0 hs1 hs2 d0 d1 d2
          = peakPoint hs0 hs1 (dirMatrix d0 d1).Invert d2 iz iu 1) := by
  have hF : FindPeak3D hs0 hs1 hs2 d0 d1 d2
      = ((scanOrder hs0 hs1 hs2 (dirMatrix d0 d1).Invert d2).foldl
          (comboStep hs0 hs1 hs2 (dirMatrix d0 d1).Invert d2)
          (-1, { X := 0, Y := 0, Z := 0 })).2 := by
    unfold FindPeak3D
    dsimp only
    rw [if_neg hdet, peakSearch_eq_noPrune hs0 hs1 hs2 _ d2 h0 h1 h2, peakSearchNoPrune_eq_foldl]
  obtain ⟨iz, iu, hz, hu, hv0, hv1⟩ := hex
  have hmem : (iz, iu, 1) ∈ scanOrder hs0 hs1 hs2 (dirMatrix d0 d1).Invert d2 :=
    (mem_scanOrder hs0 hs1 hs2 _ d2 iz iu 1).mpr ⟨hz, hu, hv0, hv1, le_refl _, by omega⟩
  have hmain : ∃ pre c post, scanOrder hs0 hs1 hs2 (dirMatrix d0 d1).Invert d2 = pre ++ c :: post ∧
      (∀ x ∈ pre, comboScore hs0 hs1 hs2 (dirMatrix d0 d1).Invert d2 x
        < comboScore hs0 hs1 hs2 (dirMatrix d0 d1).Invert d2 c) ∧
      (∀ x ∈ post, comboScore hs0 hs1 hs2 (dirMatrix d0 d1).Invert d2 x
        ≤ comboScore hs0 hs1 hs2 (dirMatrix d0 d1).Invert d2 c) ∧
      FindPeak3D hs0 hs1 hs2 d0 d1 d2
        = peakPoint hs0 hs1 (dirMatrix d0 d1).Invert d2 c.1 c.2.1 c.2.2 := by
    rcases foldl_first_max (comboScore hs0 hs1 hs2 (dirMatrix d0 d1).Invert d2)
      (fun c => peakPoint hs0 hs1 (dirMatrix d0 d1).Invert d2 c.1 c.2.1 c.2.2)
      (scanOrder hs0 hs1 hs2 (dirMatrix d0 d1).Invert d2) (-1) { X := 0, Y := 0, Z := 0 }
      with ⟨_, hall⟩ | ⟨pre, c, post, e, hpre, _, hpost, hfold⟩
    · have := hall _ hmem
      have := comboScore_nonneg hs0 hs1 hs2 (dirMatrix d0 d1).Invert d2 h0 h1 h2 (iz, iu, 1)
      linarith
    · refine ⟨pre, c, post, e, hpre, hpost, ?_⟩
      rw [hF]
      exact congrArg Prod.snd hfold
  refine ⟨hmain, ?_⟩
  intro z0 z1 z2
  obtain ⟨pre, c, post, e, hpre, _, hc⟩ := hmain
  have hzero : ∀ x, comboScore hs0 hs1 hs2 (dirMatrix d0 d1).Invert d2 x = 0 := by
    intro x
    unfold comboScore score
    rw [rowAt_zero hs0 _ _ _ z0, rowAt_zero hs1 _ _ _ z1, rowAt_zero hs2 _ _ _ z2]
    norm_num
  have hnil : pre = [] := by
    cases pre with
    | nil => rfl
    | cons x xs =>
      have := hpre x (List.mem_cons_self _ _)
      rw [hzero x, hzero c] at this
      exact absurd this (lt_irrefl _)
  subst hnil
  obtain ⟨ciz, ciu, cix⟩ := c
  rw [List.nil_append] at e
  have hone : cix = 1 := scanOrder_head hs0 hs1 hs2 _ d2 (ciz, ciu, cix) post e
  subst hone
  exact ⟨ciz, ciu, post, e, hc⟩

theorem FindPeak3D_first_maximum_witness :
    ((dirMatrix dirZ dirU).m00 * (dirMatrix dirZ dirU).m11
      - (dirMatrix dirZ dirU).m10 * (dirMatrix dirZ dirU).m01 ≠ 0 ∧ 3 ≤ hsEdge1.Nx) ∧
    scanOrder hsEdge1 hsEdge1 hsEdge1 (dirMatrix dirZ dirU).Invert dirU = [(0, 0, 1)] ∧
    FindPeak3D hsEdge1 hsEdge1 hsEdge1 dirZ dirU dirU = { X := 3 / 2, Y := 1 / 6, Z := 1 / 2 } ∧
    ∃ iz iu rest,
      scanOrder hsEdge1 hsEdge1 hsEdge1 (dirMatrix dirZ dirU).Invert dirU = (iz, iu, 1) :: rest ∧
      FindPeak3D hsEdge1 hsEdge1 hsEdge1 dirZ dirU dirU
        = peakPoint hsEdge1 hsEdge1 (dirMatrix dirZ dirU).Invert dirU iz iu 1 :=
  ⟨⟨by decide!, by decide!⟩, by decide!, by decide!,
    (FindPeak3D_first_maximum hsEdge1 hsEdge1 hsEdge1 dirZ dirU dirU (by decide!) (by decide!)
      (by decide!) (by decide!) (by decide!) ⟨0, 0, by decide!, by decide!, by decide!, by decide!⟩).2
      (by decide!) (by decide!) (by decide!)⟩

/-! ## Independence of the order of the points -/

theorem vote_eq_voteBin (stride : Nat) (a b : Line2D) (hm : HeatMap) :
    vote stride a b hm = match voteBin a b hm with
      | none => hm
      | some k => { hm with map := hm.map.modify (fun w => w + (stride : ℚ)) k } := by
  unfold vote voteBin
  cases FP.div (b.c - a.c) (a.m - b.m) with
  | none => rfl
  | some z =>
    dsimp only
    split
    · split
      · rfl
      · rfl
    · rfl

theorem vote_of_voteBin (stride : Nat) (a b : Line2D) (hm : HeatMap) (map : List ℚ) :
    vote stride a b { hm with map := map } = match voteBin a b hm with
      | none => { hm with map := map }
      | some k => { hm with map := map.modify (fun w => w + (stride : ℚ)) k } :=
  vote_eq_voteBin stride a b { hm with map := map }

theorem modify_add_comm (map : List ℚ) (w : ℚ) (i j : Nat) :
    (map.modify (fun v => v + w) i).modify (fun v => v + w) j
      = (map.modify (fun v => v + w) j).modify (fun v => v + w) i := by
  apply List.ext_getElem?
  intro k
  rw [modify_add_getElem?, modify_add_getElem?, modify_add_getElem?, modify_add_getElem?]
  by_cases h1 : i = k <;> by_cases h2 : j = k <;> simp [h1, h2]

theorem vote_comm (stride : Nat) (a b a' b' : Line2D) (hm : HeatMap) :
    vote stride a b (vote stride a' b' hm) = vote stride a' b' (vote stride a b hm) := by
  have e1 := vote_eq_voteBin stride a' b' hm
  have e2 := vote_eq_voteBin stride a b hm
  cases h1 : voteBin a b hm with
  | none =>
    cases h2 : voteBin a' b' hm with
    | none =>
      rw [h1] at e2
      rw [h2] at e1
      dsimp only at e1 e2
      rw [e1, e2, e1]
    | some k' =>
      rw [h1] at e2
      rw [h2] at e1
      dsimp only at e1 e2
      rw [e1, e2, e1, vote_of_voteBin, h1]
  | some k =>
    cases h2 : voteBin a' b' hm with
    | none =>
      rw [h1] at e2
      rw [h2] at e1
      dsimp only at e1 e2
      rw [e1, e2, vote_of_voteBin, h2]
    | some k' =>
      rw [h1] at e2
      rw [h2] at e1
      dsimp only at e1 e2
      rw [e1, e2, vote_of_voteBin, vote_of_voteBin, h1, h2]
      dsimp only
      rw [modify_add_comm]

theorem advanceWhile_congr (q : ℚ → Bool) (L L' : List Line2D)
    (h : L.map (fun l => l.m) = L'.map (fun l => l.m)) (j : Nat) :
    advanceWhile (fun b => q b.m) L j = advanceWhile (fun b => q b.m) L' j := by
  unfold advanceWhile
  have e : ∀ T : List Line2D, ((T.drop j).takeWhile (fun b => q b.m)).length
      = (((T.map (fun l => l.m)).drop j).takeWhile q).length := by
    intro T
    rw [← List.map_drop, List.takeWhile_map, List.length_map]
    rfl
  rw [e L, e L', h]

theorem window_congr (L L' : List Line2D)
    (h : L.map (fun l => l.m) = L'.map (fun l => l.m)) (a a' : Line2D) (ha : a.m = a'.m)
    (i j0 jmax : Nat) : window L a i j0 jmax = window L' a' i j0 jmax := by
  unfold window
  dsimp only
  rw [ha, advanceWhile_congr (fun y => CloseAngles a'.m y) L L' h,
    advanceWhile_congr (fun y => !CloseAngles a'.m y) L L' h]

theorem getElem?_slopes (L L' : List Line2D)
    (h : L.map (fun l => l.m) = L'.map (fun l => l.m)) (i : Nat) :
    (L[i]?).map (fun l => l.m) = (L'[i]?).map (fun l => l.m) := by
  rw [← List.getElem?_map, ← List.getElem?_map, h]

theorem ptrStep_congr (L L' : List Line2D)
    (h : L.map (fun l => l.m) = L'.map (fun l => l.m)) (p : Nat × Nat) (i : Nat) :
    ptrStep L p i = ptrStep L' p i := by
  have hs := getElem?_slopes L L' h i
  unfold ptrStep
  cases h1 : L[i]? with
  | none =>
    cases h2 : L'[i]? with
    | none => rfl
    | some a' => rw [h1, h2] at hs; exact Option.noConfusion hs
  | some a =>
    cases h2 : L'[i]? with
    | none => rw [h1, h2] at hs; exact Option.noConfusion hs
    | some a' =>
      rw [h1, h2] at hs
      exact window_congr L L' h a a' (Option.some.inj hs) i p.1 p.2

theorem pointersAfter_congr (L L' : List Line2D)
    (h : L.map (fun l => l.m) = L'.map (fun l => l.m)) (n : Nat) :
    pointersAfter L n = pointersAfter L' n := by
  unfold pointersAfter
  have e : ptrStep L = ptrStep L' := by
    funext p i
    exact ptrStep_congr L L' h p i
  rw [e]

theorem countPts_eq_sum (lines : List Line2D) : ∀ n, n ≤ lines.length →
    ((List.range n).foldl (countStep lines) (0, 0, 0)).2.2
      = ((List.range n).map (fun i =>
          (pointersAfter lines (i + 1)).2 - (pointersAfter lines (i + 1)).1)).sum := by
  intro n
  induction n with
  | zero => intro _; rfl
  | succ n ih =>
    intro hn
    have hc := countStep_pointers lines n
    have hlt : n < lines.length := by omega
    rw [List.range_succ, List.foldl_append, List.foldl_cons, List.foldl_nil, List.map_append,
      List.sum_append, ← ih (by omega), List.map_cons, List.map_nil, List.sum_cons, List.sum_nil,
      Nat.add_zero, pointersAfter_succ]
    generalize (List.range n).foldl (countStep lines) (0, 0, 0) = C at hc ⊢
    have hc1 : C.1 = (pointersAfter lines n).1 := congrArg Prod.fst hc
    have hc2 : C.2.1 = (pointersAfter lines n).2 := congrArg Prod.snd hc
    rw [countStep_of_getElem lines C n _ (List.getElem?_eq_getElem hlt), hc1, hc2]
    unfold ptrStep
    rw [List.getElem?_eq_getElem hlt]

theorem countPts_congr (L L' : List Line2D)
    (h : L.map (fun l => l.m) = L'.map (fun l => l.m)) : countPts L = countPts L' := by
  have hlen : L.length = L'.length := by
    have := congrArg List.length h
    simpa using this
  unfold countPts
  rw [countPts_eq_sum L _ (Nat.sub_le _ _), countPts_eq_sum L' _ (Nat.sub_le _ _), hlen]
  have e : pointersAfter L = pointersAfter L' := by
    funext n
    exact pointersAfter_congr L L' h n
  rw [e]

theorem pointers_window (lines : List Line2D) (i : Nat) (a : Line2D)
    (ha : lines[i]? = some a) :
    pointersAfter lines (i + 1)
      = window lines a i (pointersAfter lines i).1 (pointersAfter lines i).2 := by
  rw [pointersAfter_succ]
  unfold ptrStep
  rw [ha]

theorem pointers_stop (lines : List Line2D) (i : Nat) (a : Line2D) (ha : lines[i]? = some a) :
    (∀ b, lines[(pointersAfter lines (i + 1)).1]? = some b → CloseAngles a.m b.m = false) ∧
    (∀ b, lines[(pointersAfter lines (i + 1)).2]? = some b → CloseAngles a.m b.m = true) := by
  rw [pointers_window lines i a ha]
  unfold window
  dsimp only
  constructor
  · intro b hb
    exact advanceWhile_stop (fun b => CloseAngles a.m b.m) lines _ b hb
  · intro b hb
    have := advanceWhile_stop (fun b => !CloseAngles a.m b.m) lines _ b hb
    simpa using this

theorem advanceWhile_boundary (q : ℚ → Bool) (lines : List Line2D) (j : Nat) :
    advanceWhile (fun b => q b.m) lines j = j ∨
    IsBoundary lines (advanceWhile (fun b => q b.m) lines j) := by
  rcases Nat.eq_or_lt_of_le (advanceWhile_ge (fun b => q b.m) lines j) with h | h
  · exact Or.inl h.symm
  · right
    intro b b' _ hb hb'
    have h1 := advanceWhile_passed (fun b => q b.m) lines j _ b (by omega) (by omega) hb
    have h2 := advanceWhile_stop (fun b => q b.m) lines j b' hb'
    intro e
    dsimp only at h1 h2
    rw [e, h2] at h1
    exact absurd h1 (by decide)

theorem pointers_boundary (lines : List Line2D) : ∀ n, n ≤ lines.length - 1 →
    IsBoundary lines (pointersAfter lines n).1 ∧ IsBoundary lines (pointersAfter lines n).2 := by
  intro n
  induction n with
  | zero =>
    intro _
    exact ⟨fun _ _ h => absurd h (lt_irrefl 0), fun _ _ h => absurd h (lt_irrefl 0)⟩
  | succ i ih =>
    intro hi
    obtain ⟨ih0, ih1⟩ := ih (by omega)
    have hlt : i < lines.length := by omega
    have ha : lines[i]? = some lines[i] := List.getElem?_eq_getElem hlt
    have hstop := (pointers_stop lines i _ ha).1
    have hw := pointers_window lines i _ ha
    have h0 : IsBoundary lines (pointersAfter lines (i + 1)).1 := by
      have e : (pointersAfter lines (i + 1)).1
          = advanceWhile (fun b => CloseAngles lines[i].m b.m) lines
              (max (pointersAfter lines i).1 (i + 1)) := by
        rw [hw]
        rfl
      rcases advanceWhile_boundary (fun y => CloseAngles lines[i].m y) lines
        (max (pointersAfter lines i).1 (i + 1)) with h | h
      · rcases le_total (i + 1) (pointersAfter lines i).1 with hc | hc
        · rw [e, h, max_eq_left hc]
          exact ih0
        · have e' : (pointersAfter lines (i + 1)).1 = i + 1 := by
            rw [e, h, max_eq_right hc]
          rw [e']
          intro b b' _ hb hb' hbb
          have hb1 : lines[i]? = some b := hb
          rw [ha] at hb1
          have := hstop b' (by rw [e']; exact hb')
          rw [Option.some.inj hb1, hbb, CloseAngles_refl] at this
          exact absurd this (by decide)
      · rw [e]
        exact h
    refine ⟨h0, ?_⟩
    have e : (pointersAfter lines (i + 1)).2
        = advanceWhile (fun b => !CloseAngles lines[i].m b.m) lines
            (max (pointersAfter lines i).2 (pointersAfter lines (i + 1)).1) := by
      rw [hw]
      rfl
    rcases advanceWhile_boundary (fun y => !CloseAngles lines[i].m y) lines
      (max (pointersAfter lines i).2 (pointersAfter lines (i + 1)).1) with h | h
    · rcases le_total (pointersAfter lines (i + 1)).1 (pointersAfter lines i).2 with hc | hc
      · rw [e, h, max_eq_left hc]
        exact ih1
      · rw [e, h, max_eq_right hc]
        exact h0
    · rw [e]
      exact h

theorem pointers_adjacent (lines : List Line2D) (i : Nat) (hi : i + 2 < lines.length)
    (a a' : Line2D) (ha : lines[i]? = some a) (ha' : lines[i + 1]? = some a')
    (hm : a.m = a'.m) : pointersAfter lines (i + 2) = pointersAfter lines (i + 1) := by
  obtain ⟨s0, s1⟩ := pointers_stop lines i a ha
  obtain ⟨p0, p1, p2, _, _⟩ := pointersAfter_step lines i (by omega)
  have hne : (pointersAfter lines (i + 1)).1 ≠ i + 1 := by
    intro e
    have := s0 a' (by rw [e]; exact ha')
    rw [hm, CloseAngles_refl] at this
    exact absurd this (by decide)
  rw [pointers_window lines (i + 1) a' ha']
  generalize pointersAfter lines (i + 1) = P at s0 s1 p0 p1 p2 hne ⊢
  have e0 : advanceWhile (fun b => CloseAngles a'.m b.m) lines (max P.1 (i + 1 + 1)) = P.1 := by
    rw [max_eq_left (by omega)]
    refine advanceWhile_eq _ lines P.1 P.1 (le_refl _) (by omega) ?_ ?_
    · intro k b h1 h2
      omega
    · intro b hb
      rw [← hm]
      exact s0 b hb
  have e1 : advanceWhile (fun b => !CloseAngles a'.m b.m) lines (max P.2 P.1) = P.2 := by
    rw [max_eq_left p1]
    refine advanceWhile_eq _ lines P.2 P.2 (le_refl _) p2 ?_ ?_
    · intro k b h1 h2
      omega
    · intro b hb
      rw [← hm, s1 b hb]
      rfl
  unfold window
  dsimp only
  rw [e0, e1]

theorem sorted_between (lines : List Line2D) (hs : List.Sorted (fun a b => a.m ≤ b.m) lines)
    (i j k : Nat) (hij : i ≤ j) (hjk : j ≤ k) (a b c : Line2D) (ha : lines[i]? = some a)
    (hb : lines[j]? = some b) (hc : lines[k]? = some c) (hac : a.m = c.m) : b.m = a.m :=
  le_antisymm (hac ▸ sorted_getElem? lines hs j k hjk b c hb hc)
    (sorted_getElem? lines hs i j hij a b ha hb)

theorem pointers_same_block (lines : List Line2D)
    (hs : List.Sorted (fun a b => a.m ≤ b.m) lines) (i : Nat) (a : Line2D)
    (ha : lines[i]? = some a) : ∀ d, i + d + 1 < lines.length →
      (∀ a', lines[i + d]? = some a' → a'.m = a.m) →
      pointersAfter lines (i + d + 1) = pointersAfter lines (i + 1) := by
  intro d
  induction d with
  | zero => intro _ _; rfl
  | succ d ih =>
    intro hd hm
    have h1 : i + d < lines.length := by omega
    have h2 : i + (d + 1) < lines.length := by omega
    have e2 := hm _ (List.getElem?_eq_getElem h2)
    have e1 : (lines[i + d]).m = a.m :=
      sorted_between lines hs i (i + d) (i + (d + 1)) (by omega) (by omega) a _ _ ha
        (List.getElem?_eq_getElem h1) (List.getElem?_eq_getElem h2) e2.symm
    have ih' := ih (by omega) (fun a' ha' => by
      rw [List.getElem?_eq_getElem h1] at ha'
      rw [← Option.some.inj ha']
      exact e1)
    rw [← ih']
    exact pointers_adjacent lines (i + d) (by omega) _ _ (List.getElem?_eq_getElem h1)
      (List.getElem?_eq_getElem h2) (by rw [e1, e2])

theorem window_blocks (lines : List Line2D) (hs : List.Sorted (fun a b => a.m ≤ b.m) lines)
    (i k i' k' : Nat) (a b a' b' : Line2D) (hi : i + 1 < lines.length)
    (ha : lines[i]? = some a) (hb : lines[k]? = some b) (ha' : lines[i']? = some a')
    (hb' : lines[k']? = some b') (hk0 : (pointersAfter lines (i + 1)).1 ≤ k)
    (hk1 : k < (pointersAfter lines (i + 1)).2) (eaa : a'.m = a.m) (ebb : b'.m = b.m) :
    i' + 1 < lines.length ∧ (pointersAfter lines (i' + 1)).1 ≤ k' ∧
      k' < (pointersAfter lines (i' + 1)).2 := by
  obtain ⟨s0, _⟩ := pointers_stop lines i a ha
  obtain ⟨p0, p1, p2, _, _⟩ := pointersAfter_step lines i hi
  obtain ⟨bd0, bd1⟩ := pointers_boundary lines (i + 1) (by omega)
  obtain ⟨hi', _⟩ := List.getElem?_eq_some.mp ha'
  obtain ⟨hk', _⟩ := List.getElem?_eq_some.mp hb'
  obtain ⟨hk, _⟩ := List.getElem?_eq_some.mp hb
  have hlt : i' < (pointersAfter lines (i + 1)).1 := by
    by_contra hcon
    have hj : (pointersAfter lines (i + 1)).1 < lines.length := by omega
    have hc := List.getElem?_eq_getElem hj
    have e := sorted_between lines hs i _ i' (by omega) (by omega) a _ a' ha hc ha' eaa.symm
    have := s0 _ hc
    rw [e, CloseAngles_refl] at this
    exact absurd this (by decide)
  have hvalid : i' + 1 < lines.length := by omega
  have hP : pointersAfter lines (i' + 1) = pointersAfter lines (i + 1) := by
    rcases le_total i i' with h | h
    · have := pointers_same_block lines hs i a ha (i' - i) (by omega) (fun x hx => by
        have e : i + (i' - i) = i' := by omega
        rw [e, ha'] at hx
        rw [← Option.some.inj hx]
        exact eaa)
      have e : i + (i' - i) + 1 = i' + 1 := by omega
      rw [e] at this
      exact this
    · have := pointers_same_block lines hs i' a' ha' (i - i') (by omega) (fun x hx => by
        have e : i' + (i - i') = i := by omega
        rw [e, ha] at hx
        rw [← Option.some.inj hx]
        exact eaa.symm)
      have e : i' + (i - i') + 1 = i + 1 := by omega
      rw [e] at this
      exact this.symm
  rw [hP]
  refine ⟨hvalid, ?_, ?_⟩
  · by_contra hcon
    have hj : (pointersAfter lines (i + 1)).1 < lines.length := by omega
    have hj' : (pointersAfter lines (i + 1)).1 - 1 < lines.length := by omega
    have c1 := List.getElem?_eq_getElem hj
    have c0 := List.getElem?_eq_getElem hj'
    have e0 := sorted_between lines hs k' _ k (by omega) (by omega) b' _ b hb' c0 hb ebb
    have e1 := sorted_between lines hs k' _ k (by omega) (by omega) b' _ b hb' c1 hb ebb
    exact bd0 _ _ (by omega) c0 c1 (by rw [e0, e1])
  · by_contra hcon
    have hj : (pointersAfter lines (i + 1)).2 < lines.length := by omega
    have hj' : (pointersAfter lines (i + 1)).2 - 1 < lines.length := by omega
    have c1 := List.getElem?_eq_getElem hj
    have c0 := List.getElem?_eq_getElem hj'
    have e0 := sorted_between lines hs k _ k' (by omega) (by omega) b _ b' hb c0 hb' ebb.symm
    have e1 := sorted_between lines hs k _ k' (by omega) (by omega) b _ b' hb c1 hb' ebb.symm
    exact bd1 _ _ (by omega) c0 c1 (by rw [e0, e1])

theorem windowRel_iff (lines : List Line2D) (x y : ℚ) :
    windowRel lines x y = true ↔
      ∃ i k a b, i + 1 < lines.length ∧ lines[i]? = some a ∧ lines[k]? = some b ∧
        a.m = x ∧ b.m = y ∧ (pointersAfter lines (i + 1)).1 ≤ k ∧
        k < (pointersAfter lines (i + 1)).2 := by
  unfold windowRel
  simp only [List.any_eq_true, List.mem_range, decide_eq_true_eq, Option.map_eq_some']
  constructor
  · rintro ⟨i, hi, k, _, ⟨a, ha, hax⟩, ⟨b, hb, hby⟩, h0, h1⟩
    exact ⟨i, k, a, b, by omega, ha, hb, hax, hby, h0, h1⟩
  · rintro ⟨i, k, a, b, hi, ha, hb, hax, hby, h0, h1⟩
    obtain ⟨hk, _⟩ := List.getElem?_eq_some.mp hb
    exact ⟨i, by omega, k, hk, ⟨a, ha, hax⟩, ⟨b, hb, hby⟩, h0, h1⟩

theorem windowRel_congr (L L' : List Line2D)
    (h : L.map (fun l => l.m) = L'.map (fun l => l.m)) : windowRel L = windowRel L' := by
  have hlen : L.length = L'.length := by
    have := congrArg List.length h
    simpa using this
  have e : pointersAfter L = pointersAfter L' := by
    funext n
    exact pointersAfter_congr L L' h n
  funext x y
  unfold windowRel
  simp only [getElem?_slopes L L' h, hlen, e]

theorem windowRel_row (lines : List Line2D) (hs : List.Sorted (fun a b => a.m ≤ b.m) lines)
    (i : Nat) (a : Line2D) (hi : i + 1 < lines.length) (ha : lines[i]? = some a) (k : Nat)
    (b : Line2D) (hb : lines[k]? = some b) :
    windowRel lines a.m b.m = true ↔
      (pointersAfter lines (i + 1)).1 ≤ k ∧ k < (pointersAfter lines (i + 1)).2 := by
  rw [windowRel_iff]
  constructor
  · rintro ⟨i0, k0, a0, b0, hi0, ha0, hb0, ea, eb, h0, h1⟩
    exact (window_blocks lines hs i0 k0 i k a0 b0 a b hi0 ha0 hb0 ha hb h0 h1 ea.symm eb.symm).2
  · rintro ⟨h0, h1⟩
    exact ⟨i, k, a, b, hi, ha, hb, rfl, rfl, h0, h1⟩

theorem windowRel_last (lines : List Line2D) (hs : List.Sorted (fun a b => a.m ≤ b.m) lines)
    (i : Nat) (a : Line2D) (hi : i + 1 = lines.length) (ha : lines[i]? = some a) (b : Line2D)
    (hb : b ∈ lines) : ¬ windowRel lines a.m b.m = true := by
  rw [windowRel_iff]
  rintro ⟨i0, k0, a0, b0, hi0, ha0, hb0, ea, eb, h0, h1⟩
  obtain ⟨k, hk⟩ := List.getElem?_of_mem hb
  have := (window_blocks lines hs i0 k0 i k a0 b0 a b hi0 ha0 hb0 ha hk h0 h1 ea.symm eb.symm).1
  omega

theorem filter_eq_drop_take {α : Type} (p : α → Bool) : ∀ (l : List α) (lo hi : Nat),
    (∀ k b, l[k]? = some b → (p b = true ↔ lo ≤ k ∧ k < hi)) →
    l.filter p = (l.drop lo).take (hi - lo) := by
  intro l
  induction l with
  | nil => intro lo hi _; simp
  | cons x xs ih =>
    intro lo hi h
    have hx := h 0 x (List.getElem?_cons_zero)
    cases lo with
    | zero =>
      cases hi with
      | zero =>
        have hall : ∀ b ∈ x :: xs, ¬ p b = true := by
          intro b hb
          obtain ⟨k, hk⟩ := List.getElem?_of_mem hb
          rw [h k b hk]
          omega
        rw [List.filter_eq_nil_iff.mpr hall]
        rfl
      | succ hi =>
        have hpx : p x = true := hx.mpr ⟨le_refl _, Nat.succ_pos _⟩
        rw [List.filter_cons_of_pos hpx, List.drop_zero, Nat.sub_zero, List.take_succ_cons]
        have := ih 0 hi (fun k b hk => by
          rw [h (k + 1) b (by simpa using hk)]
          omega)
        rw [this, List.drop_zero, Nat.sub_zero]
    | succ lo =>
      have hpx : ¬ p x = true := by
        rw [hx]
        omega
      rw [List.filter_cons_of_neg hpx, List.drop_succ_cons]
      have := ih lo (hi - 1) (fun k b hk => by
        rw [h (k + 1) b (by simpa using hk)]
        omega)
      rw [this]
      congr 1
      omega

theorem range'_filterMap_getElem? {α : Type} (l : List α) : ∀ (w j0 : Nat),
    (List.range' j0 w).filterMap (fun j => l[j]?) = (l.drop j0).take w := by
  intro w
  induction w with
  | zero => intro j0; simp
  | succ w ih =>
    intro j0
    rw [List.range'_succ, List.filterMap_cons]
    by_cases h : j0 < l.length
    · rw [List.getElem?_eq_getElem h, List.drop_eq_getElem_cons h, List.take_succ_cons, ih]
    · have hnone : l[j0]? = none := List.getElem?_eq_none (by omega)
      rw [hnone, ih, List.drop_eq_nil_of_le (by omega), List.drop_eq_nil_of_le (by omega)]
      simp

theorem strideRange_one (start bound : Nat) :
    strideRange start bound 1 = List.range' start (bound - start) := by
  unfold strideRange
  rw [List.range'_eq_map_range]
  simp

theorem voteRow_eq_foldl (stride : Nat) (lines : List Line2D) (a : Line2D) :
    ∀ (js : List Nat) (hm : HeatMap),
      voteRow stride lines a js hm
        = (js.filterMap (fun j => lines[j]?)).foldl (fun h b => vote stride a b h) hm := by
  intro js
  induction js with
  | nil => intro hm; rfl
  | cons j js ih =>
    intro hm
    unfold voteRow at ih ⊢
    rw [List.foldl_cons, List.filterMap_cons]
    cases hj : lines[j]? with
    | none => exact ih hm
    | some b =>
      dsimp only
      rw [List.foldl_cons]
      exact ih _

theorem voteStep_of_getElem (stride : Nat) (lines : List Line2D) (st : Nat × Nat × HeatMap)
    (i : Nat) (a : Line2D) (h : lines[i]? = some a) :
    voteStep stride lines st i
      = ((window lines a i st.1 st.2.1).1, (window lines a i st.1 st.2.1).2,
          voteRow stride lines a (strideRange (window lines a i st.1 st.2.1).1
            (window lines a i st.1 st.2.1).2 stride) st.2.2) := by
  unfold voteStep
  rw [h]

theorem voteFold_rows (lines : List Line2D) (hs : List.Sorted (fun a b => a.m ≤ b.m) lines)
    (hm : HeatMap) : ∀ n, n ≤ lines.length - 1 →
    ((List.range n).foldl (voteStep 1 lines) (0, 0, hm)).2.2
      = (List.range n).foldl (fun h i => match lines[i]? with
          | some a => (lines.filter (fun b => windowRel lines a.m b.m)).foldl
              (fun h b => vote 1 a b h) h
          | none => h) hm := by
  intro n
  induction n with
  | zero => intro _; rfl
  | succ n ih =>
    intro hn
    have hv := voteStep_pointers 1 lines hm n
    have hlt : n < lines.length := by omega
    have ha : lines[n]? = some lines[n] := List.getElem?_eq_getElem hlt
    rw [List.range_succ, List.foldl_append, List.foldl_cons, List.foldl_nil, List.foldl_append,
      List.foldl_cons, List.foldl_nil, ← ih (by omega)]
    generalize (List.range n).foldl (voteStep 1 lines) (0, 0, hm) = V at hv ⊢
    have hv1 : V.1 = (pointersAfter lines n).1 := congrArg Prod.fst hv
    have hv2 : V.2.1 = (pointersAfter lines n).2 := congrArg Prod.snd hv
    rw [voteStep_of_getElem 1 lines V n _ ha, hv1, hv2, ← pointers_window lines n _ ha, ha]
    dsimp only
    rw [voteRow_eq_foldl, strideRange_one, range'_filterMap_getElem?,
      filter_eq_drop_take _ lines (pointersAfter lines (n + 1)).1 (pointersAfter lines (n + 1)).2
        (fun k b hb => windowRel_row lines hs n _ (by omega) ha k b hb)]

theorem foldl_range_getElem? {α β : Type} (g : β → α → β) : ∀ (l : List α) (init : β),
    l.foldl g init = (List.range l.length).foldl (fun h i => match l[i]? with
      | some a => g h a
      | none => h) init := by
  intro l
  induction l using List.reverseRecOn with
  | nil => intro init; rfl
  | append_singleton l x ih =>
    intro init
    rw [List.length_append, List.length_singleton, List.range_succ, List.foldl_append,
      List.foldl_append, List.foldl_cons, List.foldl_nil, List.foldl_cons, List.foldl_nil, ih]
    have e : (List.range l.length).foldl (fun h i => match (l ++ [x])[i]? with
        | some a => g h a
        | none => h) init
        = (List.range l.length).foldl (fun h i => match l[i]? with
        | some a => g h a
        | none => h) init := by
      apply List.foldl_ext
      intro h i hi
      rw [List.getElem?_append_left (List.mem_range.mp hi)]
    rw [e, List.getElem?_append_right (le_refl _)]
    simp

theorem MapFromLines_eq_windowPairs (lines : List Line2D)
    (hs : List.Sorted (fun a b => a.m ≤ b.m) lines) (hn : countPts lines < kMaxPts)
    (hm : HeatMap) :
    MapFromLines lines hm
      = (windowPairs lines (windowRel lines)).foldl (fun h ab => vote 1 ab.1 ab.2 h) hm := by
  have hstride : countPts lines / kMaxPts + 1 = 1 := by
    rw [Nat.div_eq_of_lt hn]
  unfold MapFromLines windowPairs
  dsimp only
  rw [hstride, voteFold_rows lines hs hm _ (le_refl _), foldl_flatMap_eq,
    foldl_range_getElem? (fun h a => ((lines.filter (fun b => windowRel lines a.m b.m)).map
      (fun b => (a, b))).foldl (fun h ab => vote 1 ab.1 ab.2 h) h) lines hm]
  rcases Nat.eq_zero_or_pos lines.length with h0 | hpos
  · rw [h0]
    rfl
  · have e : lines.length = (lines.length - 1) + 1 := by omega
    have hlast : lines.length - 1 < lines.length := by omega
    conv_rhs => rw [e, List.range_succ, List.foldl_append, List.foldl_cons, List.foldl_nil]
    rw [List.getElem?_eq_getElem hlast]
    dsimp only
    rw [List.filter_eq_nil_iff.mpr (fun b hb => windowRel_last lines hs (lines.length - 1) _
      (by omega) (List.getElem?_eq_getElem hlast) b hb)]
    rw [List.map_nil, List.foldl_nil]
    apply List.foldl_ext
    intro h i _
    cases lines[i]? with
    | none => rfl
    | some a =>
      dsimp only
      rw [List.foldl_map]

theorem windowPairs_perm (L L' : List Line2D) (h : List.Perm L L') (rel : ℚ → ℚ → Bool) :
    List.Perm (windowPairs L rel) (windowPairs L' rel) := by
  unfold windowPairs
  refine (List.Perm.flatMap_right _ h).trans (List.Perm.flatMap_left _ ?_)
  intro a _
  exact (h.filter _).map _

theorem slopes_eq_of_perm (L L' : List Line2D) (h : List.Perm L L')
    (hs : List.Sorted (fun a b => a.m ≤ b.m) L) (hs' : List.Sorted (fun a b => a.m ≤ b.m) L') :
    L.map (fun l => l.m) = L'.map (fun l => l.m) := by
  refine List.eq_of_perm_of_sorted (r := fun (a b : ℚ) => a ≤ b) (h.map _) ?_ ?_
  · exact List.pairwise_map.mpr hs
  · exact List.pairwise_map.mpr hs'

theorem MapFromLines_perm (L L' : List Line2D) (h : List.Perm L L')
    (hs : List.Sorted (fun a b => a.m ≤ b.m) L) (hs' : List.Sorted (fun a b => a.m ≤ b.m) L')
    (hn : countPts L < kMaxPts) (hm : HeatMap) : MapFromLines L' hm = MapFromLines L hm := by
  have hsl := slopes_eq_of_perm L L' h hs hs'
  have hn' : countPts L' < kMaxPts := by
    rw [← countPts_congr L L' hsl]
    exact hn
  rw [MapFromLines_eq_windowPairs L hs hn, MapFromLines_eq_windowPairs L' hs' hn',
    ← windowRel_congr L L' hsl]
  exact (List.Perm.foldl_eq' (windowPairs_perm L L' h (windowRel L))
    (fun x _ y _ z => vote_comm 1 y.1 y.2 x.1 x.2 z) hm).symm

theorem lineCandidate_symm (sqrt : ℚ → ℚ) (z0 x0 R : ℚ) (a b : Pt2D) :
    lineCandidate sqrt z0 x0 R a b = lineCandidate sqrt z0 x0 R b a := by
  by_cases h : a.z = b.z
  · rw [lineCandidate_same_z sqrt z0 x0 R a b h, lineCandidate_same_z sqrt z0 x0 R b a h.symm]
  · obtain ⟨_, _, _, _, _, _, _, e⟩ := Line2D_ctor_spec a b h
    unfold lineCandidate
    rw [e]

theorem pairCandidate_of_getElem (sqrt : ℚ → ℚ) (z0 x0 R : ℚ) (pts : List Pt2D) (i j : Nat)
    (a b : Pt2D) (hi : pts[i]? = some a) (hj : pts[j]? = some b) :
    pairCandidate sqrt z0 x0 R pts (i, j) = lineCandidate sqrt z0 x0 R a b := by
  unfold pairCandidate
  simp only [hi, hj]

theorem pairCandidate_eq_none (sqrt : ℚ → ℚ) (z0 x0 R : ℚ) (pts : List Pt2D) (i j : Nat)
    (h : pts[i]? = none ∨ pts[j]? = none) : pairCandidate sqrt z0 x0 R pts (i, j) = none := by
  unfold pairCandidate
  rcases h with h | h
  · simp only [h]
  · cases hi : pts[i]? with
    | none => rfl
    | some a => simp only [h]

theorem pushLines_eq_candidates (sqrt : ℚ → ℚ) (z0 x0 R : ℚ) (pts : List Pt2D) :
    ∀ (ps : List (Nat × Nat)) (lines : List Line2D),
      lines.length + (ps.filterMap (pairCandidate sqrt z0 x0 R pts)).length < kMaxLines →
      pushLines sqrt z0 x0 R pts ps lines
        = lines ++ ps.filterMap (pairCandidate sqrt z0 x0 R pts) := by
  intro ps
  induction ps with
  | nil => intro lines _; simp [pushLines]
  | cons p rest ih =>
    intro lines h
    obtain ⟨i, j⟩ := p
    unfold pushLines
    rw [List.filterMap_cons] at h ⊢
    cases hi : pts[i]? with
    | none =>
      rw [pairCandidate_eq_none sqrt z0 x0 R pts i j (Or.inl hi)] at h ⊢
      exact ih lines h
    | some a =>
      cases hj : pts[j]? with
      | none =>
        rw [pairCandidate_eq_none sqrt z0 x0 R pts i j (Or.inr hj)] at h ⊢
        exact ih lines h
      | some b =>
        rw [pairCandidate_of_getElem sqrt z0 x0 R pts i j a b hi hj] at h ⊢
        dsimp only
        cases hc : lineCandidate sqrt z0 x0 R a b with
        | none =>
          rw [hc] at h
          exact ih lines h
        | some l =>
          rw [hc] at h
          simp only [List.length_cons] at h
          dsimp only
          rw [if_neg (by simp only [List.length_append, List.length_singleton]; omega)]
          rw [ih (lines ++ [l]) (by simp only [List.length_append, List.length_singleton]; omega)]
          simp

theorem pairsBelow_succ_perm (N : Nat) :
    List.Perm (pairsBelow (N + 1))
      ((List.range N).map (fun j => (0, j + 1))
        ++ (pairsBelow N).map (fun p => (p.1 + 1, p.2 + 1))) := by
  refine (List.perm_ext_iff_of_nodup (pairsBelow_nodup (N + 1)) ?_).mpr ?_
  · rw [List.nodup_append]
    refine ⟨?_, ?_, ?_⟩
    · refine List.Nodup.map ?_ (List.nodup_range N)
      intro a b hab
      have := (Prod.mk.injEq _ _ _ _ ▸ hab).2
      omega
    · refine List.Nodup.map ?_ (pairsBelow_nodup N)
      intro a b hab
      have h1 := (Prod.mk.injEq _ _ _ _ ▸ hab).1
      have h2 := (Prod.mk.injEq _ _ _ _ ▸ hab).2
      exact Prod.ext (by omega) (by omega)
    · intro p hp hq
      obtain ⟨j, _, rfl⟩ := List.mem_map.mp hp
      obtain ⟨q, _, hq'⟩ := List.mem_map.mp hq
      have := (Prod.mk.injEq _ _ _ _ ▸ hq').1
      omega
  · rintro ⟨i, j⟩
    rw [mem_pairsBelow, List.mem_append, List.mem_map, List.mem_map]
    constructor
    · rintro ⟨h1, h2⟩
      have h1' : i < j := h1
      have h2' : j < N + 1 := h2
      cases i with
      | zero =>
        left
        exact ⟨j - 1, List.mem_range.mpr (by omega), by
          rw [Prod.mk.injEq]; exact ⟨rfl, by omega⟩⟩
      | succ i =>
        right
        refine ⟨(i, j - 1), (mem_pairsBelow N _).mpr ⟨?_, ?_⟩, ?_⟩
        · show i < j - 1
          omega
        · show j - 1 < N
          omega
        · rw [Prod.mk.injEq]
          exact ⟨rfl, by show j - 1 + 1 = j; omega⟩
    · rintro (⟨k, hk, e⟩ | ⟨q, hq, e⟩)
      · have hk' := List.mem_range.mp hk
        obtain ⟨e1, e2⟩ := Prod.mk.injEq _ _ _ _ ▸ e
        constructor
        · show i < j
          omega
        · show j < N + 1
          omega
      · obtain ⟨q1, q2⟩ := (mem_pairsBelow N q).mp hq
        obtain ⟨e1, e2⟩ := Prod.mk.injEq _ _ _ _ ▸ e
        constructor
        · show i < j
          omega
        · show j < N + 1
          omega

theorem candidates_cons (sqrt : ℚ → ℚ) (z0 x0 R : ℚ) (x : Pt2D) (xs : List Pt2D) :
    List.Perm ((pairsBelow (x :: xs).length).filterMap (pairCandidate sqrt z0 x0 R (x :: xs)))
      (xs.filterMap (lineCandidate sqrt z0 x0 R x)
        ++ (pairsBelow xs.length).filterMap (pairCandidate sqrt z0 x0 R xs)) := by
  rw [List.length_cons]
  refine ((pairsBelow_succ_perm xs.length).filterMap _).trans ?_
  rw [List.filterMap_append, List.filterMap_map, List.filterMap_map]
  have e1 : (List.range xs.length).filterMap
      (pairCandidate sqrt z0 x0 R (x :: xs) ∘ fun j => (0, j + 1))
      = xs.filterMap (lineCandidate sqrt z0 x0 R x) := by
    have hx : xs = (List.range' 0 xs.length).filterMap (fun j => xs[j]?) := by
      rw [range'_filterMap_getElem?, List.drop_zero, List.take_length]
    conv_rhs => rw [hx, List.filterMap_filterMap, ← List.range_eq_range']
    apply List.filterMap_congr
    intro j _
    show pairCandidate sqrt z0 x0 R (x :: xs) (0, j + 1) = _
    cases hj : xs[j]? with
    | none =>
      rw [pairCandidate_eq_none sqrt z0 x0 R (x :: xs) 0 (j + 1)
        (Or.inr (by rw [List.getElem?_cons_succ]; exact hj))]
      rfl
    | some b =>
      rw [pairCandidate_of_getElem sqrt z0 x0 R (x :: xs) 0 (j + 1) x b
        List.getElem?_cons_zero (by rw [List.getElem?_cons_succ]; exact hj)]
      rfl
  have e2 : (pairsBelow xs.length).filterMap
      (pairCandidate sqrt z0 x0 R (x :: xs) ∘ fun p => (p.1 + 1, p.2 + 1))
      = (pairsBelow xs.length).filterMap (pairCandidate sqrt z0 x0 R xs) := by
    apply List.filterMap_congr
    intro p _
    show pairCandidate sqrt z0 x0 R (x :: xs) (p.1 + 1, p.2 + 1) = pairCandidate sqrt z0 x0 R xs p
    unfold pairCandidate
    simp only [List.getElem?_cons_succ]
  rw [e1, e2]

theorem candidates_perm (sqrt : ℚ → ℚ) (z0 x0 R : ℚ) (pts pts' : List Pt2D)
    (h : List.Perm pts pts') :
    List.Perm ((pairsBelow pts.length).filterMap (pairCandidate sqrt z0 x0 R pts))
      ((pairsBelow pts'.length).filterMap (pairCandidate sqrt z0 x0 R pts')) := by
  induction h with
  | nil => exact List.Perm.refl _
  | cons x _ ih =>
    refine (candidates_cons sqrt z0 x0 R x _).trans ?_
    refine List.Perm.trans ?_ (candidates_cons sqrt z0 x0 R x _).symm
    exact List.Perm.append (List.Perm.filterMap _ (by assumption)) ih
  | swap x y l =>
    refine (candidates_cons sqrt z0 x0 R y _).trans ?_
    refine List.Perm.trans ?_ (candidates_cons sqrt z0 x0 R x _).symm
    refine (List.Perm.append_left _ (candidates_cons sqrt z0 x0 R x l)).trans ?_
    refine List.Perm.trans ?_ (List.Perm.append_left _ (candidates_cons sqrt z0 x0 R y l)).symm
    rw [List.filterMap_cons, List.filterMap_cons, lineCandidate_symm sqrt z0 x0 R y x]
    cases lineCandidate sqrt z0 x0 R x y with
    | none =>
      dsimp only
      rw [← List.append_assoc, ← List.append_assoc]
      exact List.Perm.append_right _ List.perm_append_comm
    | some c =>
      dsimp only
      rw [List.cons_append, List.cons_append]
      refine List.Perm.cons _ ?_
      rw [← List.append_assoc, ← List.append_assoc]
      exact List.Perm.append_right _ List.perm_append_comm
  | trans _ _ ih1 ih2 => exact ih1.trans ih2

theorem LinesFromPoints_eq_sort (sqrt : ℚ → ℚ) (pts : List Pt2D) (z0 x0 R : ℚ)
    (hstride : 1 ≤ toInt32 (pairProduct pts.length / kMaxLines + 1))
    (hcap : ((pairsBelow pts.length).filterMap (pairCandidate sqrt z0 x0 R pts)).length
      < kMaxLines) :
    List.Perm (LinesFromPoints sqrt pts [] z0 x0 R)
      ((pairsBelow pts.length).filterMap (pairCandidate sqrt z0 x0 R pts)) := by
  have hperm := (pairOrder_perm pts.length _ hstride).filterMap (pairCandidate sqrt z0 x0 R pts)
  unfold LinesFromPoints
  dsimp only
  refine (List.perm_insertionSort _ _).trans ?_
  rw [pushLines_eq_candidates sqrt z0 x0 R pts _ []
    (by rw [List.length_nil, Nat.zero_add, hperm.length_eq]; exact hcap)]
  simpa using hperm

theorem LinesFromPoints_of_stride_le (sqrt : ℚ → ℚ) (pts : List Pt2D) (z0 x0 R : ℚ)
    (hstride : ¬ 1 ≤ toInt32 (pairProduct pts.length / kMaxLines + 1)) :
    LinesFromPoints sqrt pts [] z0 x0 R = [] := by
  have e : (toInt32 (pairProduct pts.length / kMaxLines + 1)).toNat = 0 := by omega
  unfold LinesFromPoints pairOrder
  dsimp only
  rw [e]
  rfl

theorem LinesFromPoints_perm (sqrt : ℚ → ℚ) (pts pts' : List Pt2D) (z0 x0 R : ℚ)
    (h : List.Perm pts' pts)
    (hcap : ((pairsBelow pts.length).filterMap (pairCandidate sqrt z0 x0 R pts)).length
      < kMaxLines) :
    List.Perm (LinesFromPoints sqrt pts [] z0 x0 R) (LinesFromPoints sqrt pts' [] z0 x0 R) := by
  have hc := candidates_perm sqrt z0 x0 R pts' pts h
  have hlen := h.length_eq
  by_cases hstride : 1 ≤ toInt32 (pairProduct pts.length / kMaxLines + 1)
  · refine (LinesFromPoints_eq_sort sqrt pts z0 x0 R hstride hcap).trans ?_
    refine hc.symm.trans (LinesFromPoints_eq_sort sqrt pts' z0 x0 R ?_ ?_).symm
    · rw [hlen]
      exact hstride
    · rw [hc.length_eq]
      exact hcap
  · rw [LinesFromPoints_of_stride_le sqrt pts z0 x0 R hstride,
      LinesFromPoints_of_stride_le sqrt pts' z0 x0 R (by rw [hlen]; exact hstride)]

theorem MapFromLines_LinesFromPoints_perm (sqrt : ℚ → ℚ) (pts pts' : List Pt2D) (z0 x0 R : ℚ)
    (hm : HeatMap) (h : List.Perm pts' pts)
    (hb : BudgetAt sqrt pts z0 x0 R) :
    MapFromLines (LinesFromPoints sqrt pts' [] z0 x0 R) hm
      = MapFromLines (LinesFromPoints sqrt pts [] z0 x0 R) hm :=
  MapFromLines_perm _ _ (LinesFromPoints_perm sqrt pts pts' z0 x0 R h hb.1)
    (LinesFromPoints_pairwise sqrt pts [] z0 x0 R) (LinesFromPoints_pairwise sqrt pts' [] z0 x0 R)
    hb.2 hm

theorem extentBy_perm (f : Pt2D → ℚ) (pts pts' : List Pt2D) (h : List.Perm pts' pts)
    (st : ℚ × ℚ) : extentBy f pts' st = extentBy f pts st := by
  unfold extentBy
  refine List.Perm.foldl_eq' h ?_ st
  intro x _ y _ s
  dsimp only
  rw [min_right_comm, max_assoc, max_comm (f x) (f y), ← max_assoc]

theorem nthElement_perm (zs zs' : List ℚ) (h : List.Perm zs' zs) (k : Nat) :
    nthElement zs' k = nthElement zs k := by
  unfold nthElement
  have e : zs'.insertionSort (fun a b => a ≤ b) = zs.insertionSort (fun a b => a ≤ b) :=
    List.eq_of_perm_of_sorted (r := fun (a b : ℚ) => a ≤ b)
      (((List.perm_insertionSort _ zs').trans h).trans (List.perm_insertionSort _ zs).symm)
      (List.sorted_insertionSort _ _) (List.sorted_insertionSort _ _)
  rw [e]

theorem isEmpty_perm {α : Type} (l l' : List α) (h : List.Perm l' l) :
    l'.isEmpty = l.isEmpty := by
  have := h.length_eq
  cases l <;> cases l' <;> simp_all

theorem coarseView_perm (sqrt : ℚ → ℚ) (mk : ℚ → ℚ → ℚ → ℚ → ℚ → ℚ → HeatMap)
    (pts pts' : List Pt2D) (minz maxz minx maxx : ℚ) (h : List.Perm pts' pts)
    (hb : BudgetAt sqrt pts 0 0 (-1)) :
    coarseView sqrt mk pts' minz maxz minx maxx = coarseView sqrt mk pts minz maxz minx maxx := by
  unfold coarseView
  dsimp only
  rw [isEmpty_perm pts pts' h,
    isEmpty_perm _ _ (LinesFromPoints_perm sqrt pts pts' 0 0 (-1) h hb.1).symm,
    MapFromLines_LinesFromPoints_perm sqrt pts pts' 0 0 (-1) _ h hb]

theorem zoomView_perm (sqrt : ℚ → ℚ) (mk : ℚ → ℚ → ℚ → ℚ → ℚ → ℚ → HeatMap)
    (pts pts' : List Pt2D) (vtx dir : TVector3) (h : List.Perm pts' pts)
    (hb : BudgetAt sqrt pts (vtx.Dot dir) vtx.X (5 / 2)) :
    zoomView sqrt mk pts' vtx dir = zoomView sqrt mk pts vtx dir := by
  unfold zoomView
  dsimp only
  rw [isEmpty_perm _ _ (LinesFromPoints_perm sqrt pts pts' _ _ (5 / 2) h hb.1).symm,
    MapFromLines_LinesFromPoints_perm sqrt pts pts' _ _ (5 / 2) _ h hb]

theorem coarseScan_perm (sqrt : ℚ → ℚ) (mk : ℚ → ℚ → ℚ → ℚ → ℚ → ℚ → HeatMap)
    (pts0 pts1 pts2 pts0' pts1' pts2' : List Pt2D)
    (h0 : List.Perm pts0' pts0) (h1 : List.Perm pts1' pts1) (h2 : List.Perm pts2' pts2)
    (c0 : BudgetAt sqrt pts0 0 0 (-1)) (c1 : BudgetAt sqrt pts1 0 0 (-1))
    (c2 : BudgetAt sqrt pts2 0 0 (-1)) :
    coarseScan sqrt mk pts0' pts1' pts2' = coarseScan sqrt mk pts0 pts1 pts2 := by
  unfold coarseScan
  dsimp only
  rw [extentBy_perm _ pts0 pts0' h0, extentBy_perm _ pts1 pts1' h1, extentBy_perm _ pts2 pts2' h2,
    extentBy_perm _ pts0 pts0' h0, extentBy_perm _ pts1 pts1' h1, extentBy_perm _ pts2 pts2' h2,
    nthElement_perm _ _ (h0.map (fun p => p.z)), List.length_map, List.length_map, h0.length_eq,
    coarseView_perm sqrt mk pts0 pts0' _ _ _ _ h0 c0,
    coarseView_perm sqrt mk pts1 pts1' _ _ _ _ h1 c1,
    coarseView_perm sqrt mk pts2 pts2' _ _ _ _ h2 c2]

theorem FindVtx_perm (sqrt : ℚ → ℚ) (mk : ℚ → ℚ → ℚ → ℚ → ℚ → ℚ → HeatMap)
    (pts0 pts1 pts2 pts0' pts1' pts2' : List Pt2D) (d0 d1 d2 : TVector3)
    (h0 : List.Perm pts0' pts0) (h1 : List.Perm pts1' pts1) (h2 : List.Perm pts2' pts2)
    (c0 : BudgetAt sqrt pts0 0 0 (-1)) (c1 : BudgetAt sqrt pts1 0 0 (-1))
    (c2 : BudgetAt sqrt pts2 0 0 (-1))
    (hz : ∀ hms, coarseScan sqrt mk pts0 pts1 pts2 = some hms →
      BudgetAt sqrt pts0 ((FindPeak3D hms.1 hms.2.1 hms.2.2 d0 d1 d2).Dot d0)
        (FindPeak3D hms.1 hms.2.1 hms.2.2 d0 d1 d2).X (5 / 2) ∧
      BudgetAt sqrt pts1 ((FindPeak3D hms.1 hms.2.1 hms.2.2 d0 d1 d2).Dot d1)
        (FindPeak3D hms.1 hms.2.1 hms.2.2 d0 d1 d2).X (5 / 2) ∧
      BudgetAt sqrt pts2 ((FindPeak3D hms.1 hms.2.1 hms.2.2 d0 d1 d2).Dot d2)
        (FindPeak3D hms.1 hms.2.1 hms.2.2 d0 d1 d2).X (5 / 2)) :
    FindVtx sqrt mk pts0' pts1' pts2' d0 d1 d2 = FindVtx sqrt mk pts0 pts1 pts2 d0 d1 d2 := by
  unfold FindVtx
  rw [coarseScan_perm sqrt mk pts0 pts1 pts2 pts0' pts1' pts2' h0 h1 h2 c0 c1 c2]
  cases hc : coarseScan sqrt mk pts0 pts1 pts2 with
  | none => rfl
  | some hms =>
    obtain ⟨z0, z1, z2⟩ := hz hms hc
    dsimp only
    unfold zoomScan
    rw [zoomView_perm sqrt mk pts0 pts0' _ d0 h0 z0,
      zoomView_perm sqrt mk pts1 pts1' _ d1 h1 z1,
      zoomView_perm sqrt mk pts2 pts2' _ d2 h2 z2]

theorem pairsBelow_length (N : Nat) : 2 * (pairsBelow N).length + N = N * N := by
  induction N with
  | zero => rfl
  | succ N ih =>
    have e : pairsBelow (N + 1) = pairsBelow N ++ (List.range N).map (fun i => (i, N)) := by
      unfold pairsBelow
      rw [List.range_succ, List.flatMap_append]
      simp
    rw [e, List.length_append, List.length_map, List.length_range]
    have e2 : (N + 1) * (N + 1) = N * N + 2 * N + 1 := by ring
    omega

theorem countPts_le (lines : List Line2D) : countPts lines ≤ lines.length * lines.length := by
  have key : ∀ n, n ≤ lines.length - 1 →
      ((List.range n).map (fun i =>
        (pointersAfter lines (i + 1)).2 - (pointersAfter lines (i + 1)).1)).sum
        ≤ n * lines.length := by
    intro n
    induction n with
    | zero => intro _; simp
    | succ n ih =>
      intro hn
      have h1 := ih (by omega)
      have h2 := (pointersAfter_step lines n (by omega)).2.2.1
      rw [List.range_succ, List.map_append, List.sum_append, List.map_cons, List.map_nil,
        List.sum_cons, List.sum_nil, Nat.add_zero]
      have e : (n + 1) * lines.length = n * lines.length + lines.length := by ring
      omega
  unfold countPts
  rw [countPts_eq_sum lines _ (Nat.sub_le _ _)]
  refine le_trans (key _ (le_refl _)) ?_
  exact Nat.mul_le_mul_right _ (Nat.sub_le _ _)

theorem budget_of_small (sqrt : ℚ → ℚ) (pts : List Pt2D) (hN : pts.length ≤ 70) :
    1 ≤ toInt32 (pairProduct pts.length / kMaxLines + 1) ∧
    ∀ z0 x0 R, BudgetAt sqrt pts z0 x0 R := by
  have hL := pairsBelow_length pts.length
  have hNN : pts.length * pts.length ≤ 70 * 70 := Nat.mul_le_mul hN hN
  have hL' : (pairsBelow pts.length).length ≤ 2450 := by omega
  have hprod : pairProduct pts.length < kMaxLines := by
    unfold pairProduct
    have h1 : pts.length * (pts.length - 1) ≤ pts.length * pts.length :=
      Nat.mul_le_mul_left _ (Nat.sub_le _ _)
    have h2 : pts.length * (pts.length - 1) / 2 ≤ pts.length * (pts.length - 1) :=
      Nat.div_le_self _ _
    have h3 : (4900 : Nat) < kMaxLines := by decide
    omega
  have hstride : 1 ≤ toInt32 (pairProduct pts.length / kMaxLines + 1) := by
    rw [Nat.div_eq_of_lt hprod]
    decide
  refine ⟨hstride, ?_⟩
  intro z0 x0 R
  have hcap : ((pairsBelow pts.length).filterMap (pairCandidate sqrt z0 x0 R pts)).length
      ≤ 2450 :=
    le_trans (List.length_filterMap_le _ _) hL'
  have h3 : (2450 : Nat) < kMaxLines := by decide
  have hcap' : ((pairsBelow pts.length).filterMap (pairCandidate sqrt z0 x0 R pts)).length
      < kMaxLines := by omega
  refine ⟨hcap', ?_⟩
  have hlen := (LinesFromPoints_eq_sort sqrt pts z0 x0 R hstride hcap').length_eq
  have hc := countPts_le (LinesFromPoints sqrt pts [] z0 x0 R)
  have hmul : (LinesFromPoints sqrt pts [] z0 x0 R).length
      * (LinesFromPoints sqrt pts [] z0 x0 R).length ≤ 2450 * 2450 :=
    Nat.mul_le_mul (by omega) (by omega)
  have h4 : (2450 * 2450 : Nat) < kMaxPts := by decide
  omega

/-- C25: the result does not depend on the order in which the shuffle leaves the points of a
view.  For every list of points, every permutation of it, every circle and every initial heat
map, when the line cap is not reached and the pair total of `MapFromLines` stays below
`kMaxPts`, `MapFromLines` applied to `LinesFromPoints` of the permuted list is the heat map
obtained for the original list.  Hence `FindVtx` returns the same result for permuted lists of
the three views, when this holds for each view in the coarse pass and in the pass around the
vertex of the coarse pass. -/
theorem FindVtx_shuffle_independent (sqrt : ℚ → ℚ) (mk : ℚ → ℚ → ℚ → ℚ → ℚ → ℚ → HeatMap)
    (pts0 pts1 pts2 pts0' pts1' pts2' : List Pt2D) (d0 d1 d2 : TVector3)
    (h0 : List.Perm pts0' pts0) (h1 : List.Perm pts1' pts1) (h2 : List.Perm pts2' pts2)
    (c0 : BudgetAt sqrt pts0 0 0 (-1)) (c1 : BudgetAt sqrt pts1 0 0 (-1))
    (c2 : BudgetAt sqrt pts2 0 0 (-1))
    (hz : ∀ hms, coarseScan sqrt mk pts0 pts1 pts2 = some hms →
      BudgetAt sqrt pts0 ((FindPeak3D hms.1 hms.2.1 hms.2.2 d0 d1 d2).Dot d0)
        (FindPeak3D hms.1 hms.2.1 hms.2.2 d0 d1 d2).X (5 / 2) ∧
      BudgetAt sqrt pts1 ((FindPeak3D hms.1 hms.2.1 hms.2.2 d0 d1 d2).Dot d1)
        (FindPeak3D hms.1 hms.2.1 hms.2.2 d0 d1 d2).X (5 / 2) ∧
      BudgetAt sqrt pts2 ((FindPeak3D hms.1 hms.2.1 hms.2.2 d0 d1 d2).Dot d2)
        (FindPeak3D hms.1 hms.2.1 hms.2.2 d0 d1 d2).X (5 / 2)) :
    (∀ (pts pts' : List Pt2D) (z0 x0 R : ℚ) (hm : HeatMap), List.Perm pts' pts →
      BudgetAt sqrt pts z0 x0 R →
      MapFromLines (LinesFromPoints sqrt pts' [] z0 x0 R) hm
        = MapFromLines (LinesFromPoints sqrt pts [] z0 x0 R) hm) ∧
    FindVtx sqrt mk pts0' pts1' pts2' d0 d1 d2 = FindVtx sqrt mk pts0 pts1 pts2 d0 d1 d2 :=
  ⟨fun pts pts' z0 x0 R hm h hb =>
      MapFromLines_LinesFromPoints_perm sqrt pts pts' z0 x0 R hm h hb,
    FindVtx_perm sqrt mk pts0 pts1 pts2 pts0' pts1' pts2' d0 d1 d2 h0 h1 h2 c0 c1 c2 hz⟩

theorem FindVtx_shuffle_independent_witness :
    List.Perm ptsFiveShuffled ptsFive ∧
    1 ≤ toInt32 (pairProduct ptsFive.length / kMaxLines + 1) ∧
    BudgetAt sqrtQ ptsFive 0 0 (-1) ∧
    LinesFromPoints sqrtQ ptsFiveShuffled [] 0 0 (-1) ≠ LinesFromPoints sqrtQ ptsFive [] 0 0 (-1) ∧
    (MapFromLines (LinesFromPoints sqrtQ ptsFive [] 0 0 (-1)) (uniformMap 4 0 4 4 0 4)).map
      = [0, 0, 0, 0, 0, 0, 0, 0, 0, 0, 1, 0, 0, 0, 0, 0] ∧
    MapFromLines (LinesFromPoints sqrtQ ptsFiveShuffled [] 0 0 (-1)) (uniformMap 4 0 4 4 0 4)
      = MapFromLines (LinesFromPoints sqrtQ ptsFive [] 0 0 (-1)) (uniformMap 4 0 4 4 0 4) ∧
    FindVtx sqrtQ uniformMap ptsFiveShuffled ptsFiveShuffled ptsFiveShuffled dirZ dirU dirV
      = FindVtx sqrtQ uniformMap ptsFive ptsFive ptsFive dirZ dirU dirV :=
  have hp : List.Perm ptsFiveShuffled ptsFive :=
    show List.Perm
      ([({ x := 4, z := 0, view := 0, energy := 1 } : Pt2D),
          { x := 3, z := 1, view := 0, energy := 1 }]
        ++ [{ x := 0, z := 0, view := 0, energy := 1 },
          { x := 1, z := 1, view := 0, energy := 1 }, { x := 2, z := 2, view := 0, energy := 1 }])
      ([({ x := 0, z := 0, view := 0, energy := 1 } : Pt2D),
          { x := 1, z := 1, view := 0, energy := 1 }, { x := 2, z := 2, view := 0, energy := 1 }]
        ++ [{ x := 4, z := 0, view := 0, energy := 1 },
          { x := 3, z := 1, view := 0, energy := 1 }])
    from List.perm_append_comm
  have hb := budget_of_small sqrtQ ptsFive (by decide)
  have hw := FindVtx_shuffle_independent sqrtQ uniformMap ptsFive ptsFive ptsFive
    ptsFiveShuffled ptsFiveShuffled ptsFiveShuffled dirZ dirU dirV hp hp hp
    (hb.2 0 0 (-1)) (hb.2 0 0 (-1)) (hb.2 0 0 (-1))
    (fun hms _ => ⟨hb.2 _ _ _, hb.2 _ _ _, hb.2 _ _ _⟩)
  ⟨hp, hb.1, hb.2 0 0 (-1), by decide!, by decide!,
    hw.1 ptsFive ptsFiveShuffled 0 0 (-1) (uniformMap 4 0 4 4 0 4) hp (hb.2 0 0 (-1)), hw.2⟩

/-! ## Rounding to a binary floating-point format -/

theorem pow2_eq (e : Int) : pow2 e = (2 : ℚ) ^ e := by
  unfold pow2
  split
  · next h =>
    rw [Nat.cast_pow, Nat.cast_ofNat]
    conv_rhs => rw [← Int.toNat_of_nonneg h]
    rw [zpow_natCast]
  · next h =>
    have h' : 0 ≤ -e := by omega
    rw [Nat.cast_pow, Nat.cast_ofNat, one_div, ← zpow_natCast, Int.toNat_of_nonneg h', zpow_neg,
      inv_inv]

theorem pow2_pos (e : Int) : 0 < pow2 e := by
  rw [pow2_eq]
  exact zpow_pos (by norm_num) e

theorem pow2_add (a b : Int) : pow2 (a + b) = pow2 a * pow2 b := by
  rw [pow2_eq, pow2_eq, pow2_eq, zpow_add₀ (by norm_num)]

theorem pow2_le_pow2 {a b : Int} (h : a ≤ b) : pow2 a ≤ pow2 b := by
  rw [pow2_eq, pow2_eq]
  exact zpow_le_zpow_right₀ (by norm_num) h

theorem abs_eq_natAbs_div (x : ℚ) : |x| = (x.num.natAbs : ℚ) / (x.den : ℚ) := by
  conv_lhs => rw [← Rat.num_div_den x]
  rw [abs_div, Nat.abs_cast, Nat.cast_natAbs, Int.cast_abs]

theorem pow2Le_iff (e : Int) (x : ℚ) : pow2Le e x = true ↔ pow2 e ≤ |x| := by
  have hd : (0 : ℚ) < x.den := by exact_mod_cast x.den_pos
  rw [abs_eq_natAbs_div, le_div_iff₀ hd]
  unfold pow2Le pow2
  split
  · rw [decide_eq_true_iff]
    constructor
    · intro h
      exact_mod_cast h
    · intro h
      exact_mod_cast h
  · rw [decide_eq_true_iff]
    have hp : (0 : ℚ) < ((2 ^ (-e).toNat : Nat) : ℚ) := by positivity
    rw [div_mul_eq_mul_div, one_mul, div_le_iff₀ hp]
    constructor
    · intro h
      exact_mod_cast h
    · intro h
      exact_mod_cast h

theorem find?_range_some (p : Nat → Bool) : ∀ (n k : Nat), (List.range n).find? p = some k →
    k < n ∧ p k = true ∧ ∀ j, j < k → p j = false := by
  intro n
  induction n with
  | zero =>
    intro k h
    simp at h
  | succ n ih =>
    intro k h
    rw [List.range_succ, List.find?_append] at h
    cases hf : (List.range n).find? p with
    | some k' =>
      rw [hf] at h
      have h : k' = k := by simpa [Option.or] using h
      subst h
      obtain ⟨h1, h2, h3⟩ := ih k' hf
      exact ⟨by omega, h2, h3⟩
    | none =>
      rw [hf] at h
      have h : List.find? p [n] = some k := by simpa [Option.or] using h
      have hk : p n = true ∧ n = k := by
        by_cases hp : p n = true
        · simp [List.find?, hp] at h
          exact ⟨hp, h⟩
        · simp [List.find?, hp] at h
      obtain ⟨hp, rfl⟩ := hk
      refine ⟨by omega, hp, ?_⟩
      intro j hj
      have := List.find?_eq_none.mp hf j (List.mem_range.mpr hj)
      simpa using this

theorem binade_ge (emin emax : Int) (x : ℚ) : emin ≤ binade emin emax x := by
  unfold binade
  cases hf : (List.range (emax - emin).toNat).find?
      (fun (k : Nat) => pow2Le (emax - (k : Int)) x) with
  | none => exact le_refl _
  | some k =>
    obtain ⟨h1, _, _⟩ := find?_range_some _ _ _ hf
    show emin ≤ emax - (k : Int)
    omega

theorem binade_le (emin emax : Int) (x : ℚ) : binade emin emax x ≤ max emin emax := by
  unfold binade
  cases hf : (List.range (emax - emin).toNat).find?
      (fun (k : Nat) => pow2Le (emax - (k : Int)) x) with
  | none => exact le_max_left _ _
  | some k =>
    show emax - (k : Int) ≤ max emin emax
    have := le_max_right emin emax
    omega

/-- The binade of `x` lies below `|x|` unless `x` is zero or subnormal. -/
theorem binade_pow2_le (emin emax : Int) (x : ℚ) (h : pow2 emin ≤ |x|) :
    pow2 (binade emin emax x) ≤ |x| := by
  unfold binade
  cases hf : (List.range (emax - emin).toNat).find?
      (fun (k : Nat) => pow2Le (emax - (k : Int)) x) with
  | none => exact h
  | some k =>
    obtain ⟨_, h2, _⟩ := find?_range_some _ _ _ hf
    exact (pow2Le_iff _ _).mp h2

/-- The binade of `x` is the largest exponent of the format below `|x|`. -/
theorem binade_max (emin emax : Int) (x : ℚ) (e : Int) (_h1 : emin ≤ e) (h2 : e ≤ emax)
    (h : pow2 e ≤ |x|) : e ≤ binade emin emax x := by
  unfold binade
  cases hf : (List.range (emax - emin).toNat).find?
      (fun (k : Nat) => pow2Le (emax - (k : Int)) x) with
  | none =>
    show e ≤ emin
    by_contra hlt
    have hm := List.find?_eq_none.mp hf (emax - e).toNat (List.mem_range.mpr (by omega))
    have he : emax - (((emax - e).toNat : Nat) : Int) = e := by omega
    simp only [he] at hm
    exact hm ((pow2Le_iff _ _).mpr h)
  | some k =>
    obtain ⟨_, _, h3⟩ := find?_range_some _ _ _ hf
    show e ≤ emax - (k : Int)
    by_contra hlt
    have hm := h3 (emax - e).toNat (by omega)
    have he : emax - (((emax - e).toNat : Nat) : Int) = e := by omega
    simp only [he] at hm
    rw [(pow2Le_iff _ _).mpr h] at hm
    exact Bool.noConfusion hm

theorem binade_neg (emin emax : Int) (x : ℚ) : binade emin emax (-x) = binade emin emax x := by
  have h : ∀ e, pow2Le e (-x) = pow2Le e x := by
    intro e
    rw [Bool.eq_iff_iff, pow2Le_iff, pow2Le_iff, abs_neg]
  unfold binade
  simp only [h]

theorem roundHalfEven_floor_le (y : ℚ) : ⌊y⌋ ≤ roundHalfEven y := by
  unfold roundHalfEven
  split
  · exact le_refl _
  · split
    · omega
    · split <;> omega

theorem roundHalfEven_le_floor (y : ℚ) : roundHalfEven y ≤ ⌊y⌋ + 1 := by
  unfold roundHalfEven
  split
  · omega
  · split
    · omega
    · split <;> omega

theorem roundHalfEven_err (y : ℚ) : |(roundHalfEven y : ℚ) - y| ≤ 1 / 2 := by
  have h1 := Int.floor_le y
  have h2 := Int.lt_floor_add_one y
  unfold roundHalfEven
  rw [abs_le]
  split
  · next h => constructor <;> linarith
  · next h =>
    split
    · next h' =>
      push_cast
      constructor <;> linarith
    · next h' =>
      have e : y - ⌊y⌋ = 1 / 2 := le_antisymm (not_lt.mp h') (not_lt.mp h)
      split
      · constructor <;> linarith
      · push_cast
        constructor <;> linarith

theorem roundHalfEven_ge_int (y : ℚ) (n : Int) (h : (n : ℚ) ≤ y) : n ≤ roundHalfEven y :=
  le_trans (Int.le_floor.mpr h) (roundHalfEven_floor_le y)

theorem roundHalfEven_le_int (y : ℚ) (n : Int) (h : y ≤ (n : ℚ)) : roundHalfEven y ≤ n := by
  rcases lt_or_eq_of_le h with hlt | heq
  · have : ⌊y⌋ < n := Int.floor_lt.mpr hlt
    have := roundHalfEven_le_floor y
    omega
  · subst heq
    unfold roundHalfEven
    rw [Int.floor_intCast]
    simp

theorem roundHalfEven_int (n : Int) : roundHalfEven (n : ℚ) = n :=
  le_antisymm (roundHalfEven_le_int _ n (le_refl _)) (roundHalfEven_ge_int _ n (le_refl _))

theorem quantum_pos (p : Nat) (emin emax : Int) (x : ℚ) : 0 < quantum p emin emax x :=
  pow2_pos _

/-- Rounding moves a value by at most half the spacing of its binade. -/
theorem roundVal_err (p : Nat) (emin emax : Int) (x : ℚ) :
    |roundVal p emin emax x - x| ≤ quantum p emin emax x / 2 := by
  have hq := quantum_pos p emin emax x
  have h := roundHalfEven_err (x / quantum p emin emax x)
  unfold roundVal
  have e : (roundHalfEven (x / quantum p emin emax x) : ℚ) * quantum p emin emax x - x
      = ((roundHalfEven (x / quantum p emin emax x) : ℚ) - x / quantum p emin emax x)
        * quantum p emin emax x := by
    field_simp
  rw [e, abs_mul, abs_of_pos hq]
  calc |(roundHalfEven (x / quantum p emin emax x) : ℚ) - x / quantum p emin emax x|
        * quantum p emin emax x ≤ 1 / 2 * quantum p emin emax x :=
          mul_le_mul_of_nonneg_right h hq.le
    _ = quantum p emin emax x / 2 := by ring

/-- A multiple of the spacing below `x` stays below the rounded value. -/
theorem roundVal_ge_multiple (p : Nat) (emin emax : Int) (x : ℚ) (n : Int)
    (h : (n : ℚ) * quantum p emin emax x ≤ x) :
    (n : ℚ) * quantum p emin emax x ≤ roundVal p emin emax x := by
  have hq := quantum_pos p emin emax x
  unfold roundVal
  have : n ≤ roundHalfEven (x / quantum p emin emax x) :=
    roundHalfEven_ge_int _ n ((le_div_iff₀ hq).mpr h)
  exact mul_le_mul_of_nonneg_right (by exact_mod_cast this) hq.le

/-- A multiple of the spacing above `x` stays above the rounded value. -/
theorem roundVal_le_multiple (p : Nat) (emin emax : Int) (x : ℚ) (n : Int)
    (h : x ≤ (n : ℚ) * quantum p emin emax x) :
    roundVal p emin emax x ≤ (n : ℚ) * quantum p emin emax x := by
  have hq := quantum_pos p emin emax x
  unfold roundVal
  have : roundHalfEven (x / quantum p emin emax x) ≤ n :=
    roundHalfEven_le_int _ n ((div_le_iff₀ hq).mpr h)
  exact mul_le_mul_of_nonneg_right (by exact_mod_cast this) hq.le

theorem roundVal_nonneg (p : Nat) (emin emax : Int) (x : ℚ) (h : 0 ≤ x) :
    0 ≤ roundVal p emin emax x := by
  have := roundVal_ge_multiple p emin emax x 0 (by simpa using h)
  simpa using this

theorem roundVal_nonpos (p : Nat) (emin emax : Int) (x : ℚ) (h : x ≤ 0) :
    roundVal p emin emax x ≤ 0 := by
  have := roundVal_le_multiple p emin emax x 0 (by simpa using h)
  simpa using this

/-- The spacing of the binade of a value that is not subnormal is at most `2^(1-p)` times the
value. -/
theorem quantum_le (p : Nat) (emin emax : Int) (x : ℚ) (h : pow2 emin ≤ |x|) :
    quantum p emin emax x ≤ |x| * pow2 (-((p : Int) - 1)) := by
  unfold quantum
  rw [sub_eq_add_neg, pow2_add]
  exact mul_le_mul_of_nonneg_right (binade_pow2_le emin emax x h) (pow2_pos _).le

/-- Rounding moves a value that is not subnormal by at most `2^(-p)` times its magnitude. -/
theorem roundVal_rel (p : Nat) (emin emax : Int) (x : ℚ) (h : pow2 emin ≤ |x|) :
    |roundVal p emin emax x - x| ≤ |x| * pow2 (-(p : Int)) := by
  have h1 := roundVal_err p emin emax x
  have h2 := quantum_le p emin emax x h
  have e : pow2 (-((p : Int) - 1)) = 2 * pow2 (-(p : Int)) := by
    have : -((p : Int) - 1) = 1 + -(p : Int) := by ring
    rw [this, pow2_add]
    congr 1
  rw [e] at h2
  linarith

theorem round32_nonneg (x : ℚ) (h : 0 ≤ x) :
    (round32 x = Fl.inf false ∧ pow2 128 ≤ roundVal 24 (-126) 127 x) ∨
    (round32 x = Fl.fin (roundVal 24 (-126) 127 x) ∧ 0 ≤ roundVal 24 (-126) 127 x ∧
      roundVal 24 (-126) 127 x < pow2 128) := by
  have h0 := roundVal_nonneg 24 (-126) 127 x h
  unfold round32 roundBin
  rw [abs_of_nonneg h0]
  have e : (127 : Int) + 1 = 128 := rfl
  rw [e]
  by_cases hc : pow2 128 ≤ roundVal 24 (-126) 127 x
  · left
    rw [if_pos hc]
    refine ⟨?_, hc⟩
    rw [decide_eq_false (not_lt.mpr h0)]
  · right
    rw [if_neg hc]
    exact ⟨rfl, h0, not_le.mp hc⟩

theorem pow2_neg24 : pow2 (-((24 : Nat) : Int)) = 1 / 16777216 := by
  rw [pow2_eq]
  norm_num

theorem pow2_neg126_le : pow2 (-126) ≤ 1 / 16 := by
  have : pow2 (-126) ≤ pow2 (-4) := pow2_le_pow2 (by decide)
  have e : pow2 (-4) = 1 / 16 := by
    rw [pow2_eq]
    norm_num
  rw [e] at this
  exact this

/-- Rounding to `float` of a value `x ≥ 1/16`: an overflow to `+inf`, or a finite value within
`x / 2^24` of `x`. -/
theorem round32_large (x : ℚ) (h : 1 / 16 ≤ x) :
    round32 x = Fl.inf false ∨
    ∃ r, round32 x = Fl.fin r ∧ r < pow2 128 ∧ x - x / 16777216 ≤ r ∧ r ≤ x + x / 16777216 := by
  have hx : 0 ≤ x := le_trans (by norm_num) h
  rcases round32_nonneg x hx with h1 | h1
  · exact Or.inl h1.1
  · right
    refine ⟨_, h1.1, h1.2.2, ?_⟩
    have hr := roundVal_rel 24 (-126) 127 x (by
      rw [abs_of_nonneg hx]
      exact le_trans pow2_neg126_le h)
    rw [pow2_neg24, abs_of_nonneg hx, abs_le] at hr
    constructor <;> linarith

theorem cosCrit_sq32 :
    Fl.mul round32 (.fin cosCrit) (.fin cosCrit) = Fl.fin (8135661 / 8388608) := by decide!

/-- The test `P > P*sqr(cosCrit)` in `float`, for a `float` `P` that is a NaN, `+inf`, or at
least `1/8`: it holds exactly when `P` is finite. -/
theorem lt_scaled32 (P : Fl)
    (hP : P = Fl.nan ∨ P = Fl.inf false ∨ ∃ pp, P = Fl.fin pp ∧ 1 / 8 ≤ pp ∧ pp < pow2 128) :
    Fl.lt (Fl.mul round32 P (Fl.mul round32 (.fin cosCrit) (.fin cosCrit))) P = true ↔
      P.isFinite = true := by
  rw [cosCrit_sq32]
  rcases hP with rfl | rfl | ⟨pp, rfl, h1, h2⟩
  · decide
  · have : Fl.mul round32 (Fl.inf false) (Fl.fin (8135661 / 8388608)) = Fl.inf false := by
      decide!
    rw [this]
    decide
  · have hx : (1 : ℚ) / 16 ≤ pp * (8135661 / 8388608) := by linarith
    have hm : Fl.mul round32 (Fl.fin pp) (Fl.fin (8135661 / 8388608))
        = round32 (pp * (8135661 / 8388608)) := rfl
    rw [hm]
    rcases round32_large _ hx with h | ⟨r, hr, _, _, hle⟩
    · exfalso
      rcases round32_nonneg (pp * (8135661 / 8388608)) (by linarith) with ⟨_, h3⟩ | ⟨h3, _, h4⟩
      · have hr := roundVal_rel 24 (-126) 127 (pp * (8135661 / 8388608)) (by
          rw [abs_of_nonneg (by linarith)]
          exact le_trans pow2_neg126_le hx)
        rw [pow2_neg24, abs_of_nonneg (by linarith : (0 : ℚ) ≤ pp * (8135661 / 8388608)),
          abs_le] at hr
        linarith [hr.2]
      · rw [h3] at h
        exact Fl.noConfusion h
    · rw [hr]
      have : r < pp := by linarith
      simp only [Fl.lt, Fl.isFinite, decide_eq_true_eq, this]

/-- The `float` value of `1 + sqr(m)` is a NaN, `+inf`, or at least `1/2`. -/
theorem one_add_sq32 (m : Fl) :
    Fl.add round32 (.fin 1) (Fl.mul round32 m m) = Fl.nan ∨
    Fl.add round32 (.fin 1) (Fl.mul round32 m m) = Fl.inf false ∨
    ∃ a, Fl.add round32 (.fin 1) (Fl.mul round32 m m) = Fl.fin a ∧ 1 / 2 ≤ a := by
  cases m with
  | nan => exact Or.inl rfl
  | inf s =>
    right
    left
    cases s <;> rfl
  | fin q =>
    have hm : Fl.mul round32 (Fl.fin q) (Fl.fin q) = round32 (q * q) := rfl
    rw [hm]
    rcases round32_nonneg (q * q) (mul_self_nonneg q) with ⟨h, _⟩ | ⟨h, h0, _⟩
    · rw [h]
      exact Or.inr (Or.inl rfl)
    · rw [h]
      have ha : Fl.add round32 (Fl.fin 1) (Fl.fin (roundVal 24 (-126) 127 (q * q)))
          = round32 (1 + roundVal 24 (-126) 127 (q * q)) := rfl
      rw [ha]
      rcases round32_large (1 + roundVal 24 (-126) 127 (q * q)) (by linarith) with
        h' | ⟨r, hr, _, hge, _⟩
      · exact Or.inr (Or.inl h')
      · exact Or.inr (Or.inr ⟨r, hr, by linarith⟩)

/-- The `float` square of a `float` that is a NaN, `+inf`, or at least `1/2` is a NaN, `+inf`,
or a finite value of at least `1/8`. -/
theorem sq32_cases (A : Fl) (hA : A = Fl.nan ∨ A = Fl.inf false ∨ ∃ a, A = Fl.fin a ∧ 1 / 2 ≤ a) :
    Fl.mul round32 A A = Fl.nan ∨ Fl.mul round32 A A = Fl.inf false ∨
    ∃ pp, Fl.mul round32 A A = Fl.fin pp ∧ 1 / 8 ≤ pp ∧ pp < pow2 128 := by
  rcases hA with rfl | rfl | ⟨a, rfl, ha⟩
  · exact Or.inl rfl
  · exact Or.inr (Or.inl rfl)
  · have hm : Fl.mul round32 (Fl.fin a) (Fl.fin a) = round32 (a * a) := rfl
    rw [hm]
    have hx : (1 : ℚ) / 4 ≤ a * a := by nlinarith
    rcases round32_large (a * a) (by linarith) with h | ⟨r, hr, hlt, hge, _⟩
    · exact Or.inr (Or.inl h)
    · exact Or.inr (Or.inr ⟨r, hr, by linarith, hlt⟩)

/-- In `float` arithmetic `CloseAngles(m, m)` is true exactly when `sqr(dot)`, the square of
`dot = 1 + m*m`, is finite. -/
theorem CloseAngles32_self_iff (m : Fl) :
    CloseAngles32 m m = true ↔
      (Fl.mul round32 (Fl.add round32 (.fin 1) (Fl.mul round32 m m))
        (Fl.add round32 (.fin 1) (Fl.mul round32 m m))).isFinite = true :=
  lt_scaled32 _ (sq32_cases _ (one_add_sq32 m))

theorem binade_eq_or (emin emax : Int) (x : ℚ) :
    binade emin emax x = emin ∨ pow2 (binade emin emax x) ≤ |x| := by
  unfold binade
  cases hf : (List.range (emax - emin).toNat).find?
      (fun (k : Nat) => pow2Le (emax - (k : Int)) x) with
  | none => exact Or.inl rfl
  | some k =>
    obtain ⟨_, h2, _⟩ := find?_range_some _ _ _ hf
    exact Or.inr ((pow2Le_iff _ _).mp h2)

/-- Rounding moves a value by at most `2^(-p)` times its magnitude, or by half the spacing
`2^(emin-p+1)` of the subnormal numbers. -/
theorem roundVal_abs_err (p : Nat) (emin emax : Int) (x : ℚ) :
    |roundVal p emin emax x - x| ≤ |x| * pow2 (-(p : Int)) + pow2 (emin - (p : Int)) := by
  have h1 := roundVal_err p emin emax x
  have hp := pow2_pos (emin - (p : Int))
  have hx : 0 ≤ |x| * pow2 (-(p : Int)) := mul_nonneg (abs_nonneg x) (pow2_pos _).le
  rcases binade_eq_or emin emax x with h | h
  · have e : quantum p emin emax x = 2 * pow2 (emin - (p : Int)) := by
      unfold quantum
      rw [h]
      have : emin - ((p : Int) - 1) = 1 + (emin - (p : Int)) := by ring
      rw [this, pow2_add]
      congr 1
    rw [e] at h1
    linarith
  · have e : quantum p emin emax x = pow2 (binade emin emax x) * (2 * pow2 (-(p : Int))) := by
      unfold quantum
      have : binade emin emax x - ((p : Int) - 1) = binade emin emax x + (1 + -(p : Int)) := by
        ring
      rw [this, pow2_add, pow2_add]
      congr 2
    rw [e] at h1
    have := mul_le_mul_of_nonneg_right h (pow2_pos (-(p : Int))).le
    linarith

theorem pow2_128 : pow2 128 = 340282366920938463463374607431768211456 := by
  rw [pow2_eq]
  norm_num

theorem pow2_neg150_le : pow2 (-126 - ((24 : Nat) : Int)) ≤ 1 := by
  have : pow2 (-126 - ((24 : Nat) : Int)) ≤ pow2 0 := pow2_le_pow2 (by decide)
  have e : pow2 0 = 1 := by
    rw [pow2_eq]
    norm_num
  rw [e] at this
  exact this

/-- Rounding to `float` of a value `0 ≤ x` with `x + x / 2^24 + 1 < 2^128` gives a finite value
`r ≥ 0` with `r ≤ x + x / 2^24 + 1`. -/
theorem round32_fin (x : ℚ) (h0 : 0 ≤ x)
    (h : x + x / 16777216 + 1 < 340282366920938463463374607431768211456) :
    ∃ r, round32 x = Fl.fin r ∧ 0 ≤ r ∧ r ≤ x + x / 16777216 + 1 := by
  have hr := roundVal_abs_err 24 (-126) 127 x
  rw [pow2_neg24, abs_of_nonneg h0, abs_le] at hr
  have h150 := pow2_neg150_le
  have hle : roundVal 24 (-126) 127 x ≤ x + x / 16777216 + 1 := by
    obtain ⟨_, hr2⟩ := hr
    generalize pow2 (-126 - ((24 : Nat) : Int)) = t at hr2 h150
    generalize roundVal 24 (-126) 127 x = r at hr2
    linarith
  rcases round32_nonneg x h0 with ⟨_, h3⟩ | ⟨h3, h4, _⟩
  · rw [pow2_128] at h3
    linarith
  · exact ⟨_, h3, h4, hle⟩

/-- In `float` arithmetic `CloseAngles(m, m)` is true for every slope with `|m| ≤ 2^31`. -/
theorem CloseAngles32_self_of_le (m : ℚ) (hm : |m| ≤ 2147483648) :
    CloseAngles32 (.fin m) (.fin m) = true := by
  rw [CloseAngles32_self_iff]
  have hsq : m * m ≤ 4611686018427387904 := by
    have := abs_le.mp hm
    nlinarith
  have e1 : Fl.mul round32 (Fl.fin m) (Fl.fin m) = round32 (m * m) := rfl
  rw [e1]
  obtain ⟨s, hs, hs0, hsle⟩ := round32_fin (m * m) (mul_self_nonneg m) (by linarith)
  rw [hs]
  have e2 : Fl.add round32 (Fl.fin 1) (Fl.fin s) = round32 (1 + s) := rfl
  rw [e2]
  obtain ⟨a, ha, ha0, hale⟩ := round32_fin (1 + s) (by linarith) (by linarith)
  rw [ha]
  have e3 : Fl.mul round32 (Fl.fin a) (Fl.fin a) = round32 (a * a) := rfl
  rw [e3]
  have ha1 : a ≤ 9223372036854775808 := by linarith
  have haa : a * a ≤ 9223372036854775808 * 9223372036854775808 := by nlinarith
  obtain ⟨pp, hpp, _, _⟩ := round32_fin (a * a) (mul_self_nonneg a) (by linarith)
  rw [hpp]
  rfl

theorem roundHalfEven_neg (y : ℚ) : roundHalfEven (-y) = -roundHalfEven y := by
  by_cases hint : ((⌊y⌋ : Int) : ℚ) = y
  · rw [← hint, ← Int.cast_neg, roundHalfEven_int, roundHalfEven_int]
  · have h1 := Int.floor_le y
    have h2 := Int.lt_floor_add_one y
    have h3 : ((⌊y⌋ : Int) : ℚ) < y := lt_of_le_of_ne h1 hint
    have hf : ⌊-y⌋ = -⌊y⌋ - 1 := by
      rw [Int.floor_eq_iff]
      push_cast
      constructor <;> linarith
    unfold roundHalfEven
    rw [hf]
    push_cast
    by_cases c1 : y - ⌊y⌋ < 1 / 2
    · rw [if_pos c1, if_neg (by linarith), if_pos (by linarith)]
      omega
    · by_cases c2 : 1 / 2 < y - ⌊y⌋
      · rw [if_neg c1, if_pos c2, if_pos (by linarith)]
        omega
      · have e : y - ⌊y⌋ = 1 / 2 := le_antisymm (not_lt.mp c2) (not_lt.mp c1)
        rw [if_neg c1, if_neg c2, if_neg (by linarith), if_neg (by linarith)]
        by_cases c3 : ⌊y⌋ % 2 = 0
        · rw [if_pos c3, if_neg (by omega)]
          omega
        · rw [if_neg c3, if_pos (by omega)]
          omega

theorem roundHalfEven_mono {a b : ℚ} (h : a ≤ b) : roundHalfEven a ≤ roundHalfEven b := by
  have hfl : ⌊a⌋ ≤ ⌊b⌋ := Int.floor_le_floor h
  rcases lt_or_eq_of_le hfl with hlt | heq
  · have := roundHalfEven_le_floor a
    have := roundHalfEven_floor_le b
    omega
  · unfold roundHalfEven
    rw [heq]
    split_ifs <;> first | omega | (exfalso; linarith)

theorem pow2_natCast (n : Nat) : pow2 (n : Int) = (((2 : Int) ^ n : Int) : ℚ) := by
  rw [pow2_eq, zpow_natCast]
  push_cast
  rfl

theorem pow2_lt_pow2 {a b : Int} (h : a < b) : pow2 a < pow2 b := by
  rw [pow2_eq, pow2_eq]
  exact zpow_lt_zpow_right₀ (by norm_num) h

theorem binade_le_emax (emin emax : Int) (hE : emin ≤ emax) (x : ℚ) :
    binade emin emax x ≤ emax := by
  have := binade_le emin emax x
  rwa [max_eq_right hE] at this

theorem binade_mono (emin emax : Int) (hE : emin ≤ emax) (x y : ℚ) (h : |x| ≤ |y|) :
    binade emin emax x ≤ binade emin emax y := by
  rcases binade_eq_or emin emax x with h1 | h1
  · rw [h1]
    exact binade_ge emin emax y
  · exact binade_max emin emax y _ (binade_ge emin emax x) (binade_le_emax emin emax hE x)
      (le_trans h1 h)

theorem abs_lt_pow2_succ (emin emax : Int) (x : ℚ) (hlt : binade emin emax x < emax) :
    |x| < pow2 (binade emin emax x + 1) := by
  by_contra hc
  have h1 := binade_ge emin emax x
  have := binade_max emin emax x (binade emin emax x + 1) (by omega) (by omega) (not_lt.mp hc)
  omega

/-- The power `2^(e+1)` above the binade of `x` is `2^p` times the spacing. -/
theorem pow2_succ_eq (p : Nat) (emin emax : Int) (x : ℚ) :
    pow2 (binade emin emax x + 1) = (((2 : Int) ^ p : Int) : ℚ) * quantum p emin emax x := by
  unfold quantum
  rw [← pow2_natCast, ← pow2_add]
  congr 1
  ring

/-- The power `2^e` of the binade of `x` is `2^(p-1)` times the spacing. -/
theorem pow2_binade_eq (p : Nat) (hp : 1 ≤ p) (emin emax : Int) (x : ℚ) :
    pow2 (binade emin emax x) = (((2 : Int) ^ (p - 1) : Int) : ℚ) * quantum p emin emax x := by
  unfold quantum
  rw [← pow2_natCast, ← pow2_add]
  congr 1
  have : ((p - 1 : Nat) : Int) = (p : Int) - 1 := by omega
  rw [this]
  ring

theorem pow2_binade_le (emin emax : Int) (x : ℚ) (h : emin < binade emin emax x) :
    pow2 (binade emin emax x) ≤ |x| := by
  rcases binade_eq_or emin emax x with h' | h'
  · omega
  · exact h'

theorem roundVal_mono_nonneg (p : Nat) (hp : 1 ≤ p) (emin emax : Int) (hE : emin ≤ emax)
    (x y : ℚ) (hx : 0 ≤ x) (h : x ≤ y) : roundVal p emin emax x ≤ roundVal p emin emax y := by
  have hy : 0 ≤ y := le_trans hx h
  have hb := binade_mono emin emax hE x y (by rw [abs_of_nonneg hx, abs_of_nonneg hy]; exact h)
  rcases lt_or_eq_of_le hb with hlt | heq
  · have hxlt := abs_lt_pow2_succ emin emax x
      (lt_of_lt_of_le hlt (binade_le_emax emin emax hE y))
    rw [abs_of_nonneg hx] at hxlt
    have h1 := roundVal_le_multiple p emin emax x (2 ^ p)
      (by rw [← pow2_succ_eq]; exact hxlt.le)
    have hylow := pow2_binade_le emin emax y (by have := binade_ge emin emax x; omega)
    rw [abs_of_nonneg hy] at hylow
    have h2 := roundVal_ge_multiple p emin emax y (2 ^ (p - 1))
      (by rw [← pow2_binade_eq p hp]; exact hylow)
    have h3 : pow2 (binade emin emax x + 1) ≤ pow2 (binade emin emax y) :=
      pow2_le_pow2 (by omega)
    rw [← pow2_succ_eq] at h1
    rw [← pow2_binade_eq p hp] at h2
    linarith
  · have hq : quantum p emin emax x = quantum p emin emax y := by
      unfold quantum
      rw [heq]
    unfold roundVal
    rw [hq]
    have := roundHalfEven_mono
      (div_le_div_of_nonneg_right h (quantum_pos p emin emax y).le)
    exact mul_le_mul_of_nonneg_right (by exact_mod_cast this) (quantum_pos p emin emax y).le

theorem quantum_neg (p : Nat) (emin emax : Int) (x : ℚ) :
    quantum p emin emax (-x) = quantum p emin emax x := by
  unfold quantum
  rw [binade_neg]

theorem roundVal_neg (p : Nat) (emin emax : Int) (x : ℚ) :
    roundVal p emin emax (-x) = -roundVal p emin emax x := by
  unfold roundVal
  rw [quantum_neg, neg_div, roundHalfEven_neg]
  push_cast
  ring

/-- Rounding is monotone. -/
theorem roundVal_mono (p : Nat) (hp : 1 ≤ p) (emin emax : Int) (hE : emin ≤ emax)
    (x y : ℚ) (h : x ≤ y) : roundVal p emin emax x ≤ roundVal p emin emax y := by
  by_cases hx : 0 ≤ x
  · exact roundVal_mono_nonneg p hp emin emax hE x y hx h
  · by_cases hy : y ≤ 0
    · have := roundVal_mono_nonneg p hp emin emax hE (-y) (-x) (by linarith) (by linarith)
      rw [roundVal_neg, roundVal_neg] at this
      linarith
    · have h1 := roundVal_nonpos p emin emax x (by linarith)
      have h2 := roundVal_nonneg p emin emax y (by linarith)
      linarith

theorem roundVal_def (p : Nat) (emin emax : Int) (x : ℚ) :
    roundVal p emin emax x
      = (roundHalfEven (x / quantum p emin emax x) : ℚ) * quantum p emin emax x := rfl

theorem roundVal_idem_nonneg (p : Nat) (hp : 1 ≤ p) (emin emax : Int) (hE : emin ≤ emax)
    (x : ℚ) (hx : 0 ≤ x) (hfin : roundVal p emin emax x < pow2 (emax + 1)) :
    roundVal p emin emax (roundVal p emin emax x) = roundVal p emin emax x := by
  have hr0 := roundVal_nonneg p emin emax x hx
  have hbx1 := binade_ge emin emax x
  have hbx2 := binade_le_emax emin emax hE x
  have hbr1 := binade_ge emin emax (roundVal p emin emax x)
  have hbr2 := binade_le_emax emin emax hE (roundVal p emin emax x)
  -- the binade of the rounded value is not below the binade of `x`
  have c1 : binade emin emax x ≤ binade emin emax (roundVal p emin emax x) := by
    rcases binade_eq_or emin emax x with h | h
    · rw [h]
      exact hbr1
    · rw [abs_of_nonneg hx] at h
      have h2 := roundVal_ge_multiple p emin emax x (2 ^ (p - 1))
        (by rw [← pow2_binade_eq p hp]; exact h)
      rw [← pow2_binade_eq p hp] at h2
      exact binade_max emin emax _ _ hbx1 hbx2 (by rw [abs_of_nonneg hr0]; exact h2)
  -- the rounded value is at most the next power of two
  have c2 : roundVal p emin emax x ≤ pow2 (binade emin emax x + 1) := by
    rcases lt_or_eq_of_le hbx2 with hlt | heq
    · have hxlt := abs_lt_pow2_succ emin emax x hlt
      rw [abs_of_nonneg hx] at hxlt
      have h1 := roundVal_le_multiple p emin emax x (2 ^ p)
        (by rw [← pow2_succ_eq]; exact hxlt.le)
      rw [← pow2_succ_eq] at h1
      exact h1
    · rw [heq]
      exact hfin.le
  have c3 : binade emin emax (roundVal p emin emax x) ≤ binade emin emax x + 1 := by
    by_contra hc
    have h1 := pow2_binade_le emin emax (roundVal p emin emax x) (by omega)
    rw [abs_of_nonneg hr0] at h1
    have h2 : pow2 (binade emin emax x + 1) < pow2 (binade emin emax (roundVal p emin emax x)) :=
      pow2_lt_pow2 (by omega)
    linarith
  have hq := quantum_pos p emin emax (roundVal p emin emax x)
  rcases lt_or_eq_of_le c1 with hlt | heq
  · -- the rounded value is the power of two that starts the next binade
    have hb : binade emin emax (roundVal p emin emax x) = binade emin emax x + 1 := by omega
    have h1 := pow2_binade_le emin emax (roundVal p emin emax x) (by omega)
    rw [abs_of_nonneg hr0, hb] at h1
    have e : roundVal p emin emax x = pow2 (binade emin emax (roundVal p emin emax x)) := by
      rw [hb]
      exact le_antisymm c2 h1
    have e2 := pow2_binade_eq p hp emin emax (roundVal p emin emax x)
    rw [← e] at e2
    rw [roundVal_def p emin emax (roundVal p emin emax x)]
    have e3 : roundVal p emin emax x / quantum p emin emax (roundVal p emin emax x)
        = (((2 : Int) ^ (p - 1) : Int) : ℚ) := by
      rw [div_eq_iff hq.ne']
      exact e2
    rw [e3, roundHalfEven_int]
    exact e2.symm
  · have hqq : quantum p emin emax (roundVal p emin emax x) = quantum p emin emax x := by
      unfold quantum
      rw [← heq]
    rw [roundVal_def p emin emax (roundVal p emin emax x), hqq]
    have e3 : roundVal p emin emax x / quantum p emin emax x
        = ((roundHalfEven (x / quantum p emin emax x) : Int) : ℚ) := by
      rw [div_eq_iff (quantum_pos p emin emax x).ne']
      rfl
    rw [e3, roundHalfEven_int]
    rfl

/-- Rounding a rounded value that did not overflow changes nothing. -/
theorem roundVal_idem (p : Nat) (hp : 1 ≤ p) (emin emax : Int) (hE : emin ≤ emax)
    (x : ℚ) (hfin : |roundVal p emin emax x| < pow2 (emax + 1)) :
    roundVal p emin emax (roundVal p emin emax x) = roundVal p emin emax x := by
  by_cases hx : 0 ≤ x
  · exact roundVal_idem_nonneg p hp emin emax hE x hx (lt_of_le_of_lt (le_abs_self _) hfin)
  · have h := roundVal_idem_nonneg p hp emin emax hE (-x) (by linarith) (by
      rw [roundVal_neg]
      exact lt_of_le_of_lt (neg_le_abs _) hfin)
    rw [roundVal_neg, roundVal_neg] at h
    exact neg_injective h

/-! ## The source in floating-point arithmetic -/

theorem MapFromLines_eq_with (lines : List Line2D) (hm : HeatMap) :
    MapFromLines lines hm = MapFromLinesWith CloseAngles vote lines hm := rfl

/-- A property of the state that every execution of the loop body keeps holds after
`MapFromLines`. -/
theorem MapFromLinesWith_inv {σ : Type} (close : ℚ → ℚ → Bool)
    (body : Nat → Line2D → Line2D → σ → σ) (P : σ → Prop)
    (h : ∀ stride a b s, P s → P (body stride a b s)) (lines : List Line2D) (s : σ) (hs : P s) :
    P (MapFromLinesWith close body lines s) := by
  unfold MapFromLinesWith
  refine foldl_inv _ (fun st : Nat × Nat × σ => P st.2.2) _ ?_ _ hs
  intro st i _ hst
  unfold voteStepWith
  cases lines[i]? with
  | none => exact hst
  | some a =>
    dsimp only
    unfold voteRowWith
    refine foldl_inv _ P _ ?_ _ hst
    intro s' j _ hs'
    cases lines[j]? with
    | none => exact hs'
    | some b => exact h _ a b s' hs'

theorem round32_eq (x : ℚ) :
    round32 x = if pow2 128 ≤ |roundVal 24 (-126) 127 x|
      then Fl.inf (decide (roundVal 24 (-126) 127 x < 0))
      else Fl.fin (roundVal 24 (-126) 127 x) := rfl

/-- A finite result of rounding to `float` is a `float`: rounding it again changes nothing. -/
theorem round32_idem (x r : ℚ) (h : round32 x = Fl.fin r) : round32 r = Fl.fin r := by
  rw [round32_eq] at h
  split at h
  · exact Fl.noConfusion h
  · next hlt =>
    have e : roundVal 24 (-126) 127 x = r := Fl.fin.inj h
    have hid := roundVal_idem 24 (by decide) (-126) 127 (by decide) x (not_le.mp hlt)
    rw [e] at hid hlt
    rw [round32_eq, hid, if_neg hlt]

/-- Rounding to `float` is monotone. -/
theorem round32_mono (x y : ℚ) (h : x ≤ y) : Fl.le (round32 x) (round32 y) = true := by
  have hm := roundVal_mono 24 (by decide) (-126) 127 (by decide) x y h
  have hp := pow2_pos 128
  rw [round32_eq, round32_eq]
  generalize roundVal 24 (-126) 127 x = rx at hm
  generalize roundVal 24 (-126) 127 y = ry at hm
  by_cases hx : pow2 128 ≤ |rx|
  · by_cases hy : pow2 128 ≤ |ry|
    · rw [if_pos hx, if_pos hy]
      simp only [Fl.le, Fl.lt, Bool.not_eq_true', Bool.and_eq_false_imp, decide_eq_true_eq,
        Bool.not_eq_false', decide_eq_true_eq]
      intro h1
      linarith
    · rw [if_pos hx, if_neg hy]
      simp only [Fl.le, Fl.lt, Bool.not_eq_true', Bool.not_eq_false', decide_eq_true_eq]
      by_contra hc
      have h0 : 0 ≤ rx := not_lt.mp hc
      rw [abs_of_nonneg h0] at hx
      have : |ry| < pow2 128 := not_le.mp hy
      rw [abs_of_nonneg (le_trans h0 hm)] at this
      linarith
  · by_cases hy : pow2 128 ≤ |ry|
    · rw [if_neg hx, if_pos hy]
      simp only [Fl.le, Fl.lt, Bool.not_eq_true', decide_eq_false_iff_not, not_lt]
      by_contra hc
      have h0 : ry < 0 := not_le.mp hc
      rw [abs_of_neg h0] at hy
      have : |rx| < pow2 128 := not_le.mp hx
      rw [abs_of_neg (lt_of_le_of_lt hm h0)] at this
      linarith
    · rw [if_neg hx, if_neg hy]
      simp only [Fl.le, Fl.lt, Bool.not_eq_true', decide_eq_false_iff_not, not_lt]
      exact hm

theorem round32_natCast (n : Nat) :
    round32 (n : ℚ) = Fl.inf false ∨ ∃ s, round32 (n : ℚ) = Fl.fin s ∧ 0 ≤ s := by
  rcases round32_nonneg (n : ℚ) (Nat.cast_nonneg n) with ⟨h, _⟩ | ⟨h, h0, _⟩
  · exact Or.inl h
  · exact Or.inr ⟨_, h, h0⟩

/-- The update `w += stride` of a `float` weight: the new weight is again a `float` or `+inf`,
and it is not below the old one. -/
theorem weight_step (w : Fl) (hw : w.IsWeight) (stride : Nat) :
    (Fl.add round32 w (round32 stride)).IsWeight ∧
      Fl.le w (Fl.add round32 w (round32 stride)) = true := by
  cases w with
  | nan => exact absurd hw (by simp [Fl.IsWeight])
  | inf s =>
    have hs : s = false := hw
    subst hs
    rcases round32_natCast stride with h | ⟨t, h, _⟩
    · rw [h]
      exact ⟨rfl, rfl⟩
    · rw [h]
      exact ⟨rfl, rfl⟩
  | fin q =>
    have hq : round32 q = Fl.fin q := hw
    rcases round32_natCast stride with h | ⟨t, h, h0⟩
    · rw [h]
      exact ⟨rfl, rfl⟩
    · rw [h]
      have e : Fl.add round32 (Fl.fin q) (Fl.fin t) = round32 (q + t) := rfl
      rw [e]
      constructor
      · cases hr : round32 (q + t) with
        | nan =>
          rw [round32_eq] at hr
          split at hr <;> exact Fl.noConfusion hr
        | fin r => exact round32_idem _ _ hr
        | inf s =>
          rw [round32_eq] at hr
          split at hr
          · next hov =>
            have hs : decide (roundVal 24 (-126) 127 (q + t) < 0) = s := Fl.inf.inj hr
            show s = false
            rw [← hs, decide_eq_false_iff_not, not_lt]
            -- the sum is not below `q`, whose rounding is finite
            have hm := roundVal_mono 24 (by decide) (-126) 127 (by decide) q (q + t)
              (by linarith)
            rw [round32_eq] at hq
            split at hq
            · exact Fl.noConfusion hq
            · next hfin =>
              have hfin' := not_le.mp hfin
              by_contra hneg
              have hneg' := not_le.mp hneg
              rw [abs_of_neg hneg'] at hov
              have := neg_abs_le (roundVal 24 (-126) 127 q)
              linarith
          · exact Fl.noConfusion hr
      · have := round32_mono q (q + t) (by linarith)
        rw [hq] at this
        exact this

theorem Fl.le_trans_of_weight (a b c : Fl) (hb : b.IsWeight) (h1 : Fl.le a b = true)
    (h2 : Fl.le b c = true) : Fl.le a c = true := by
  cases b with
  | nan => exact absurd hb (by simp [Fl.IsWeight])
  | inf s =>
    have hs : s = false := hb
    subst hs
    cases c with
    | nan => rfl
    | inf t =>
      cases t with
      | false => cases a <;> simp [Fl.le, Fl.lt]
      | true => simp [Fl.le, Fl.lt] at h2
    | fin r => simp [Fl.le, Fl.lt] at h2
  | fin q =>
    cases a with
    | nan => cases c <;> rfl
    | inf s =>
      cases s with
      | true => cases c <;> simp [Fl.le, Fl.lt]
      | false => simp [Fl.le, Fl.lt] at h1
    | fin p =>
      cases c with
      | nan => rfl
      | inf t =>
        cases t with
        | false => simp [Fl.le, Fl.lt]
        | true => simp [Fl.le, Fl.lt] at h2
      | fin r =>
        simp only [Fl.le, Fl.lt, Bool.not_eq_true', decide_eq_false_iff_not, not_lt] at h1 h2 ⊢
        exact le_trans h1 h2

theorem Fl.le_refl_of_weight (a : Fl) (ha : a.IsWeight) : Fl.le a a = true := by
  cases a with
  | nan => exact absurd ha (by simp [Fl.IsWeight])
  | inf s => cases s <;> rfl
  | fin q => simp [Fl.le, Fl.lt]

/-- A vote in `float` arithmetic changes nothing, or it replaces the weight `w` of one bin
`(iz, ix)` in range, at index `iz*Nx + ix`, by the `float` sum of `w` and `stride`. -/
theorem vote32_cases (stride : Nat) (a b : Line2D) (hm : HeatMap) (ws : List Fl) :
    vote32 stride a b hm ws = ws ∨
    ∃ iz ix : Nat, iz < hm.Nz ∧ ix < hm.Nx ∧
      vote32 stride a b hm ws
        = ws.modify (fun w => Fl.add round32 w (round32 stride)) (iz * hm.Nx + ix) := by
  unfold vote32
  dsimp only
  split
  · split
    · next zq xq _ _ =>
      split
      · next hin =>
        right
        obtain ⟨h1, h2, h3, h4⟩ := hin
        exact ⟨(hm.ZToBin zq).toNat, (hm.XToBin xq).toNat, by omega, by omega, rfl⟩
      · exact Or.inl rfl
    · exact Or.inl rfl
  · exact Or.inl rfl

theorem weights_grows_refl (ws : List Fl) (h : ∀ w ∈ ws, w.IsWeight) : Weights.Grows ws ws := by
  refine ⟨rfl, h, ?_⟩
  intro k w w' h1 h2
  rw [h1] at h2
  cases h2
  exact Fl.le_refl_of_weight w (h w (List.mem_iff_getElem?.mpr ⟨k, h1⟩))

theorem modify_getElem?_eq (f : Fl → Fl) (ws : List Fl) (idx k : Nat) :
    (ws.modify f idx)[k]? = if idx = k then ws[k]?.map f else ws[k]? := by
  rw [List.getElem?_modify]
  by_cases h : idx = k
  · simp [h]
  · simp [h]

theorem weights_grows_modify (ws0 ws : List Fl) (h : Weights.Grows ws0 ws) (stride idx : Nat) :
    Weights.Grows ws0 (ws.modify (fun w => Fl.add round32 w (round32 stride)) idx) := by
  obtain ⟨h1, h2, h3⟩ := h
  refine ⟨by rw [List.length_modify]; exact h1, ?_, ?_⟩
  · intro w hw
    obtain ⟨k, hk⟩ := List.mem_iff_getElem?.mp hw
    rw [modify_getElem?_eq] at hk
    cases hv : ws[k]? with
    | none =>
      rw [hv] at hk
      simp at hk
    | some v =>
      rw [hv] at hk
      have hv' := h2 v (List.mem_iff_getElem?.mpr ⟨k, hv⟩)
      by_cases e : idx = k
      · rw [if_pos e, Option.map_some', Option.some.injEq] at hk
        rw [← hk]
        exact (weight_step v hv' stride).1
      · rw [if_neg e, Option.some.injEq] at hk
        rw [← hk]
        exact hv'
  · intro k w w' hw hw'
    rw [modify_getElem?_eq] at hw'
    cases hv : ws[k]? with
    | none =>
      rw [hv] at hw'
      simp at hw'
    | some v =>
      rw [hv] at hw'
      have hv' := h2 v (List.mem_iff_getElem?.mpr ⟨k, hv⟩)
      have hwv := h3 k w v hw hv
      by_cases e : idx = k
      · rw [if_pos e, Option.map_some', Option.some.injEq] at hw'
        rw [← hw']
        exact Fl.le_trans_of_weight w v _ hv' hwv (weight_step v hv' stride).2
      · rw [if_neg e, Option.some.injEq] at hw'
        rw [← hw']
        exact hwv

/-- In `float` arithmetic `MapFromLines` keeps the number of weights and decreases none of
them, from weights that are `float` values or `+inf`. -/
theorem MapFromLines32_grows (lines : List Line2D) (hm : HeatMap) (ws : List Fl)
    (h : ∀ w ∈ ws, w.IsWeight) : Weights.Grows ws (MapFromLines32 lines hm ws) := by
  unfold MapFromLines32
  refine MapFromLinesWith_inv _ _ (fun s => Weights.Grows ws s) ?_ lines ws
    (weights_grows_refl ws h)
  intro stride a b s hs
  rcases vote32_cases stride a b hm s with e | ⟨iz, ix, _, _, e⟩
  · rw [e]
    exact hs
  · rw [e]
    exact weights_grows_modify ws s hs stride _

theorem pow2_neg (e : Int) : pow2 (-e) = 1 / pow2 e := by
  rw [pow2_eq, pow2_eq, zpow_neg, one_div]

theorem roundVal_of_multiple (p : Nat) (emin emax : Int) (x : ℚ) (n : Int)
    (h : x = (n : ℚ) * quantum p emin emax x) : roundVal p emin emax x = x := by
  have hq := quantum_pos p emin emax x
  have e : x / quantum p emin emax x = (n : ℚ) := by
    rw [div_eq_iff hq.ne']
    exact h
  rw [roundVal_def, e, roundHalfEven_int]
  exact h.symm

/-- Every integer up to `2^24` is a `float`. -/
theorem round32_nat (n : Nat) (h : n ≤ 16777216) : round32 (n : ℚ) = Fl.fin (n : ℚ) := by
  have hn0 : (0 : ℚ) ≤ (n : ℚ) := Nat.cast_nonneg n
  have hnq : (n : ℚ) ≤ 16777216 := by exact_mod_cast h
  have key : roundVal 24 (-126) 127 (n : ℚ) = (n : ℚ) := by
    rcases Nat.eq_zero_or_pos n with h0 | hpos
    · subst h0
      exact roundVal_of_multiple 24 (-126) 127 _ 0 (by simp)
    · have h1 : (1 : ℚ) ≤ (n : ℚ) := by exact_mod_cast hpos
      have hb0 : 0 ≤ binade (-126) 127 (n : ℚ) := by
        apply binade_max (-126) 127 (n : ℚ) 0 (by decide) (by decide)
        rw [abs_of_nonneg hn0, pow2_eq]
        simpa using h1
      have hble := pow2_binade_le (-126) 127 (n : ℚ) (by omega)
      rw [abs_of_nonneg hn0] at hble
      have hb24 : binade (-126) 127 (n : ℚ) ≤ 24 := by
        by_contra hc
        have h25 : pow2 25 ≤ pow2 (binade (-126) 127 (n : ℚ)) := pow2_le_pow2 (by omega)
        have e25 : pow2 25 = 33554432 := by
          rw [pow2_eq]
          norm_num
        rw [e25] at h25
        linarith
      rcases lt_or_eq_of_le hb24 with hlt | heq
      · -- the spacing is `2^(-k)` for a natural number `k`
        have hk : binade (-126) 127 (n : ℚ) - (((24 : Nat) : Int) - 1)
            = -(((23 - binade (-126) 127 (n : ℚ)).toNat : Nat) : Int) := by
          have : ((24 : Nat) : Int) = 24 := rfl
          omega
        apply roundVal_of_multiple 24 (-126) 127 _
          ((n : Int) * 2 ^ (23 - binade (-126) 127 (n : ℚ)).toNat)
        unfold quantum
        rw [hk, pow2_neg, pow2_natCast]
        have hpos2 :
            (0 : ℚ) < (((2 : Int) ^ (23 - binade (-126) 127 (n : ℚ)).toNat : Int) : ℚ) := by
          positivity
        push_cast
        field_simp
      · have e24 : pow2 24 = 16777216 := by
          rw [pow2_eq]
          norm_num
        rw [heq, e24] at hble
        have hn : (n : ℚ) = 16777216 := le_antisymm hnq hble
        apply roundVal_of_multiple 24 (-126) 127 _ 8388608
        unfold quantum
        rw [heq]
        have e1 : (24 : Int) - (((24 : Nat) : Int) - 1) = 1 := rfl
        rw [e1, pow2_eq, hn]
        norm_num
  rw [round32_eq, key, if_neg]
  rw [abs_of_nonneg hn0, pow2_128]
  intro hc
  linarith

/-- In `float` arithmetic `w += stride` adds exactly `stride` to an integer weight as long as the
sum does not exceed `2^24`. -/
theorem weight_step_exact (w stride : Nat) (h : w + stride ≤ 16777216) :
    Fl.add round32 (Fl.fin (w : ℚ)) (round32 (stride : ℚ)) = Fl.fin ((w : ℚ) + (stride : ℚ)) := by
  rw [round32_nat stride (by omega)]
  have e : Fl.add round32 (Fl.fin (w : ℚ)) (Fl.fin (stride : ℚ))
      = round32 ((w : ℚ) + (stride : ℚ)) := rfl
  rw [e]
  have := round32_nat (w + stride) h
  push_cast at this
  exact this

theorem vote_adds (stride : Nat) (a b : Line2D) (hm : HeatMap) (z : ℚ) (idx : Nat)
    (hz : FP.div (b.c - a.c) (a.m - b.m) = some z)
    (hbox : (z < a.minz ∨ z > a.maxz) ∧ (z < b.minz ∨ z > b.maxz))
    (hin : hm.ZToBin z ≥ 0 ∧ hm.ZToBin z < hm.Nz ∧
      hm.XToBin (a.m * z + a.c) ≥ 0 ∧ hm.XToBin (a.m * z + a.c) < hm.Nx)
    (hidx : idx = (hm.ZToBin z).toNat * hm.Nx + (hm.XToBin (a.m * z + a.c)).toNat) :
    vote stride a b hm = { hm with map := hm.map.modify (fun w => w + (stride : ℚ)) idx } := by
  unfold vote
  rw [hz]
  dsimp only
  rw [if_pos hbox, if_pos hin, hidx]

/-- A vote in `float` arithmetic whose `z` and `x` are finite, outside the ranges of both lines
and in a bin in range replaces the weight of that bin. -/
theorem vote32_adds (stride : Nat) (a b : Line2D) (hm : HeatMap) (ws : List Fl) (z x : ℚ)
    (hz : Fl.div round32 (Fl.sub round32 (.fin b.c) (.fin a.c))
      (Fl.sub round32 (.fin a.m) (.fin b.m)) = Fl.fin z)
    (hx : Fl.add round32 (Fl.mul round32 (.fin a.m) (.fin z)) (.fin a.c) = Fl.fin x)
    (hbox : (z < a.minz ∨ a.maxz < z) ∧ (z < b.minz ∨ b.maxz < z))
    (hin : hm.ZToBin z ≥ 0 ∧ hm.ZToBin z < hm.Nz ∧ hm.XToBin x ≥ 0 ∧ hm.XToBin x < hm.Nx) :
    vote32 stride a b hm ws = ws.modify (fun w => Fl.add round32 w (round32 stride))
      ((hm.ZToBin z).toNat * hm.Nx + (hm.XToBin x).toNat) := by
  unfold vote32
  dsimp only
  rw [hz, hx]
  have hg : ((Fl.lt (Fl.fin z) (Fl.fin a.minz) || Fl.lt (Fl.fin a.maxz) (Fl.fin z))
      && (Fl.lt (Fl.fin z) (Fl.fin b.minz) || Fl.lt (Fl.fin b.maxz) (Fl.fin z))) = true := by
    simp only [Fl.lt, Bool.and_eq_true, Bool.or_eq_true, decide_eq_true_eq]
    exact hbox
  rw [if_pos hg]
  dsimp only
  rw [if_pos hin]

theorem min32_fin (a b : ℚ) : Fl.min (Fl.fin a) (Fl.fin b) = Fl.fin (min a b) := by
  unfold Fl.min
  simp only [Fl.lt]
  by_cases h : b < a
  · simp [h, min_eq_right h.le]
  · simp [h, min_eq_left (not_lt.mp h)]

theorem sub32_fin (a b : ℚ) : Fl.sub round32 (Fl.fin a) (Fl.fin b) = round32 (a - b) := by
  unfold Fl.sub Fl.neg Fl.add
  rw [sub_eq_add_neg]

theorem fin_toRat_of_isFinite (x : Fl) (h : x.isFinite = true) : Fl.fin x.toRat = x := by
  cases x with
  | fin q => rfl
  | inf s => exact Bool.noConfusion h
  | nan => exact Bool.noConfusion h

theorem foldl_min32 : ∀ (pts : List Pt2D) (s : ℚ),
    (∀ p ∈ pts, (round32 p.z).isFinite = true) →
    pts.foldl (fun s p => Fl.min s (round32 p.z)) (Fl.fin s)
      = Fl.fin ((extentBy (fun p => (round32 p.z).toRat) pts (s, s)).1) := by
  intro pts
  have gen : ∀ (pts : List Pt2D) (s t : ℚ),
      (∀ p ∈ pts, (round32 p.z).isFinite = true) →
      pts.foldl (fun s p => Fl.min s (round32 p.z)) (Fl.fin s)
        = Fl.fin ((extentBy (fun p => (round32 p.z).toRat) pts (s, t)).1) := by
    intro pts
    induction pts with
    | nil => intro s t _; rfl
    | cons q rest ih =>
      intro s t h
      have hq := h q (List.mem_cons_self _ _)
      rw [List.foldl_cons, ← fin_toRat_of_isFinite _ hq, min32_fin,
        ih _ (max t (round32 q.z).toRat) (fun p hp => h p (List.mem_cons_of_mem _ hp))]
      rfl
  intro s h
  exact gen pts s s h

theorem orderedInsert_map_fin (a : ℚ) : ∀ l : List ℚ,
    List.orderedInsert (fun x y : Fl => (!Fl.lt y x) = true) (Fl.fin a) (l.map Fl.fin)
      = (List.orderedInsert (fun x y : ℚ => x ≤ y) a l).map Fl.fin := by
  intro l
  induction l with
  | nil => rfl
  | cons b rest ih =>
    rw [List.map_cons, List.orderedInsert, List.orderedInsert]
    by_cases h : a ≤ b
    · have h' : (!Fl.lt (Fl.fin b) (Fl.fin a)) = true := by
        simp only [Fl.lt, Bool.not_eq_true', decide_eq_false_iff_not, not_lt]
        exact h
      rw [if_pos h, if_pos h']
      rfl
    · have h' : ¬ ((!Fl.lt (Fl.fin b) (Fl.fin a)) = true) := by
        simp only [Fl.lt, Bool.not_eq_true', decide_eq_false_iff_not, not_lt]
        exact h
      rw [if_neg h, if_neg h', ih]
      rfl

theorem insertionSort_map_fin : ∀ l : List ℚ,
    (l.map Fl.fin).insertionSort (fun x y : Fl => (!Fl.lt y x) = true)
      = (l.insertionSort (fun x y : ℚ => x ≤ y)).map Fl.fin := by
  intro l
  induction l with
  | nil => rfl
  | cons b rest ih =>
    rw [List.map_cons, List.insertionSort, List.insertionSort, ih, orderedInsert_map_fin]

theorem map_round32_eq (pts : List Pt2D) (h : ∀ p ∈ pts, (round32 p.z).isFinite = true) :
    pts.map (fun p => round32 p.z) = (pts.map (fun p => (round32 p.z).toRat)).map Fl.fin := by
  rw [List.map_map]
  apply List.map_congr_left
  intro p hp
  exact (fin_toRat_of_isFinite _ (h p hp)).symm

/-- The conversion to `float` keeps the order of values with finite conversions. -/
theorem toRat_round32_mono (x y : ℚ) (hx : (round32 x).isFinite = true)
    (hy : (round32 y).isFinite = true) (h : x ≤ y) :
    (round32 x).toRat ≤ (round32 y).toRat := by
  have hm := round32_mono x y h
  rw [← fin_toRat_of_isFinite _ hx, ← fin_toRat_of_isFinite _ hy] at hm
  simpa [Fl.le, Fl.lt] using hm

theorem sorted_map_of_mono (f : ℚ → ℚ) : ∀ (l : List ℚ),
    (∀ x ∈ l, ∀ y ∈ l, x ≤ y → f x ≤ f y) → List.Sorted (fun a b => a ≤ b) l →
    List.Sorted (fun a b => a ≤ b) (l.map f) := by
  intro l hmono hs
  unfold List.Sorted at hs ⊢
  rw [List.pairwise_map]
  exact List.Pairwise.imp_of_mem (fun ha hb hab => hmono _ ha _ hb hab) hs

/-- The sorted `float` values are the `float` values of the sorted exact values. -/
theorem insertionSort_map_round32 (zs : List ℚ) (h : ∀ z ∈ zs, (round32 z).isFinite = true) :
    (zs.map (fun z => (round32 z).toRat)).insertionSort (fun a b => a ≤ b)
      = (zs.insertionSort (fun a b => a ≤ b)).map (fun z => (round32 z).toRat) := by
  have hperm := List.perm_insertionSort (fun a b : ℚ => a ≤ b) zs
  apply List.eq_of_perm_of_sorted (r := fun a b : ℚ => a ≤ b)
  · exact (List.perm_insertionSort _ _).trans (hperm.map _).symm
  · exact List.sorted_insertionSort _ _
  · apply sorted_map_of_mono
    · intro x hx y hy hxy
      exact toRat_round32_mono x y (h x (hperm.mem_iff.mp hx)) (h y (hperm.mem_iff.mp hy)) hxy
    · exact List.sorted_insertionSort _ _

theorem rank_facts (zq : List ℚ) (k : Nat) (hk : k < zq.length) :
    ∃ hi, (zq.insertionSort (fun a b => a ≤ b))[k]? = some hi ∧
      zq.countP (fun z => decide (z < hi)) ≤ k ∧ k + 1 ≤ zq.countP (fun z => decide (z ≤ hi)) := by
  have hperm := List.perm_insertionSort (fun a b : ℚ => a ≤ b) zq
  have hlen : (zq.insertionSort (fun a b => a ≤ b)).length = zq.length := hperm.length_eq
  obtain ⟨hi, hhi⟩ : ∃ hi, (zq.insertionSort (fun a b => a ≤ b))[k]? = some hi :=
    ⟨_, List.getElem?_eq_getElem (by rw [hlen]; exact hk)⟩
  have hrank := sorted_rank _ (List.sorted_insertionSort (fun a b : ℚ => a ≤ b) zq) _ _ hhi
  rw [hperm.countP_eq, hperm.countP_eq] at hrank
  exact ⟨hi, hhi, hrank⟩

theorem pairLine32_of_getElem (pts : List Pt2D) (i j : Nat) (a b : Pt2D) (hi : pts[i]? = some a)
    (hj : pts[j]? = some b) :
    pairLine32 pts (i, j)
      = if (Line2D.ctor32 a b).skipped then none else some (Line2D.ctor32 a b) := by
  unfold pairLine32
  simp only [hi, hj]

theorem pairLine32_eq_none (pts : List Pt2D) (i j : Nat)
    (h : pts[i]? = none ∨ pts[j]? = none) : pairLine32 pts (i, j) = none := by
  unfold pairLine32
  rcases h with h | h
  · simp only [h]
  · cases hi : pts[i]? with
    | none => rfl
    | some a => simp only [h]

theorem pushLines32_eq_filterMap (pts : List Pt2D) :
    ∀ (ps : List (Nat × Nat)) (lines : List RawLine32),
      lines.length + (ps.filterMap (pairLine32 pts)).length < kMaxLines →
      pushLines32 pts ps lines = lines ++ ps.filterMap (pairLine32 pts) := by
  intro ps
  induction ps with
  | nil => intro lines _; simp [pushLines32]
  | cons p rest ih =>
    intro lines h
    obtain ⟨i, j⟩ := p
    unfold pushLines32
    rw [List.filterMap_cons] at h ⊢
    cases hi : pts[i]? with
    | none =>
      rw [pairLine32_eq_none pts i j (Or.inl hi)] at h ⊢
      exact ih lines h
    | some a =>
      cases hj : pts[j]? with
      | none =>
        rw [pairLine32_eq_none pts i j (Or.inr hj)] at h ⊢
        exact ih lines h
      | some b =>
        rw [pairLine32_of_getElem pts i j a b hi hj] at h ⊢
        dsimp only
        cases hs : (Line2D.ctor32 a b).skipped with
        | true =>
          rw [hs] at h
          simp only [if_true] at h ⊢
          exact ih lines h
        | false =>
          rw [hs] at h
          simp only [Bool.false_eq_true, if_false, List.length_cons] at h ⊢
          rw [if_neg (by simp only [List.length_append, List.length_singleton]; omega)]
          rw [ih (lines ++ [Line2D.ctor32 a b])
            (by simp only [List.length_append, List.length_singleton]; omega)]
          simp

theorem round64_zero : round64 0 = Fl.fin 0 := by decide!

theorem round64_ne_nan (x : ℚ) : round64 x ≠ Fl.nan := by
  unfold round64 roundBin
  split <;> exact fun h => Fl.noConfusion h

/-- Two points with the same `z` give no line in the arithmetic of the source either: the
slope is an infinity or a NaN. -/
theorem ctor32_same_z (a b : Pt2D) (h : a.z = b.z) : (Line2D.ctor32 a b).skipped = true := by
  have hz : Fl.sub round64 (Fl.fin b.z) (Fl.fin a.z) = Fl.fin 0 := by
    have e : Fl.sub round64 (Fl.fin b.z) (Fl.fin a.z) = round64 (b.z + -a.z) := rfl
    rw [e, h, add_neg_cancel, round64_zero]
  have hx : Fl.sub round64 (Fl.fin b.x) (Fl.fin a.x) = round64 (b.x + -a.x) := rfl
  have hm : (Line2D.ctor32 a b).m.isFinite = false := by
    show (Fl.conv round32 (Fl.div round64 (Fl.sub round64 (Fl.fin b.x) (Fl.fin a.x))
      (Fl.sub round64 (Fl.fin b.z) (Fl.fin a.z)))).isFinite = false
    rw [hz, hx]
    cases hr : round64 (b.x + -a.x) with
    | nan => rfl
    | inf s => rfl
    | fin q =>
      by_cases hq : q = 0
      · simp [Fl.div, Fl.conv, Fl.isFinite, hq]
      · simp [Fl.div, Fl.conv, Fl.isFinite, hq]
  unfold RawLine32.skipped
  rw [hm]
  rfl

/-! ## Statements in exact and in floating-point arithmetic -/

/-- C13 (amended): in exact arithmetic `CloseAngles(m, m)` is true for every slope `m`.  In the
`float` arithmetic of the source it is true exactly when `sqr(dot)`, the square of
`dot = 1 + m*m`, is finite (no overflow, no NaN); this is so for every slope with
`|m| ≤ 2^31`. -/
theorem CloseAngles_self :
    (∀ m : ℚ, CloseAngles m m = true) ∧
    (∀ m : Fl, CloseAngles32 m m = true ↔
      (Fl.mul round32 (Fl.add round32 (.fin 1) (Fl.mul round32 m m))
        (Fl.add round32 (.fin 1) (Fl.mul round32 m m))).isFinite = true) ∧
    (∀ m : ℚ, |m| ≤ 2147483648 → CloseAngles32 (.fin m) (.fin m) = true) :=
  ⟨CloseAngles_refl, CloseAngles32_self_iff, CloseAngles32_self_of_le⟩

theorem CloseAngles_self_witness :
    |(3 : ℚ)| ≤ 2147483648 ∧ CloseAngles32 (.fin 3) (.fin 3) = true ∧ CloseAngles 3 3 = true :=
  ⟨by norm_num, CloseAngles_self.2.2 3 (by norm_num), CloseAngles_self.1 3⟩

/-- C13 (as stated) fails in the `float` arithmetic of the source: the slope `1e10` is a `float`,
`dot = 1 + m*m` is `1e20` as a `float` and its square overflows to `+inf`, so does the right-hand
side, and `CloseAngles(1e10, 1e10)` is `inf > inf`, which is false. -/
theorem CloseAngles_overflow_counterexample :
    round32 10000000000 = Fl.fin 10000000000 ∧
    Fl.mul round32
      (Fl.add round32 (.fin 1) (Fl.mul round32 (.fin 10000000000) (.fin 10000000000)))
      (Fl.add round32 (.fin 1) (Fl.mul round32 (.fin 10000000000) (.fin 10000000000)))
      = Fl.inf false ∧
    CloseAngles32 (.fin 10000000000) (.fin 10000000000) = false := by decide!

/-- C15 (amended): in exact arithmetic `MapFromLines` keeps the bin counts `Nz`, `Nx`, the
conversions and the number of weights of the heat map and decreases no weight, for every line
sequence and every initial map.  It is the sequence of the votes at the evaluated pairs, each
with the weight `stride ≥ 1`; a vote either changes nothing or adds `stride` to the weight of one
bin `(iz, ix)` in range, at index `iz*Nx + ix`, and leaves every other weight as it is; it adds
`stride` whenever `z` is finite and outside the ranges of both lines and the bin of `(z, x)` is in
range; a vote whose `(z, x)` is out of range changes nothing.  In the `float` arithmetic of the
source `MapFromLines` is the same loop with the `float` angular test and the `float` vote; it
keeps the number of weights and decreases none, from weights that are `float` values or `+inf`;
a vote either changes nothing or replaces the weight `w` of one bin in range by the `float` sum
of `w` and `stride`, which is not below `w` and is exactly `w + stride` for an integer weight
with `w + stride ≤ 2^24`. -/
theorem MapFromLines_additive :
    (∀ (lines : List Line2D) (hm : HeatMap), HeatMap.Grows hm (MapFromLines lines hm)) ∧
    (∀ (lines : List Line2D) (hm : HeatMap),
      MapFromLines lines hm
        = (evalPairs lines).foldl (votePair (countPts lines / kMaxPts + 1) lines) hm ∧
      1 ≤ countPts lines / kMaxPts + 1) ∧
    (∀ (stride : Nat) (a b : Line2D) (hm : HeatMap),
      vote stride a b hm = hm ∨
      ∃ z, ∃ iz ix : Nat, FP.div (b.c - a.c) (a.m - b.m) = some z ∧
        hm.ZToBin z = (iz : Int) ∧ hm.XToBin (a.m * z + a.c) = (ix : Int) ∧
        iz < hm.Nz ∧ ix < hm.Nx ∧
        (∀ k, k ≠ iz * hm.Nx + ix → (vote stride a b hm).map[k]? = hm.map[k]?) ∧
        (∀ v, hm.map[iz * hm.Nx + ix]? = some v →
          (vote stride a b hm).map[iz * hm.Nx + ix]? = some (v + (stride : ℚ)))) ∧
    (∀ (stride : Nat) (a b : Line2D) (hm : HeatMap) (z : ℚ) (idx : Nat),
      FP.div (b.c - a.c) (a.m - b.m) = some z →
      (z < a.minz ∨ z > a.maxz) ∧ (z < b.minz ∨ z > b.maxz) →
      hm.ZToBin z ≥ 0 ∧ hm.ZToBin z < hm.Nz ∧
        hm.XToBin (a.m * z + a.c) ≥ 0 ∧ hm.XToBin (a.m * z + a.c) < hm.Nx →
      idx = (hm.ZToBin z).toNat * hm.Nx + (hm.XToBin (a.m * z + a.c)).toNat →
      vote stride a b hm = { hm with map := hm.map.modify (fun w => w + (stride : ℚ)) idx } ∧
      ∀ v, hm.map[idx]? = some v → (vote stride a b hm).map[idx]? = some (v + (stride : ℚ))) ∧
    (∀ (stride : Nat) (a b : Line2D) (hm : HeatMap) (z : ℚ),
      FP.div (b.c - a.c) (a.m - b.m) = some z →
      hm.ZToBin z < 0 ∨ hm.ZToBin z ≥ hm.Nz ∨ hm.XToBin (a.m * z + a.c) < 0 ∨
        hm.XToBin (a.m * z + a.c) ≥ hm.Nx →
      vote stride a b hm = hm) ∧
    (∀ (lines : List Line2D) (hm : HeatMap),
      MapFromLines lines hm = MapFromLinesWith CloseAngles vote lines hm) ∧
    (∀ (lines : List Line2D) (hm : HeatMap) (ws : List Fl), (∀ w ∈ ws, w.IsWeight) →
      Weights.Grows ws (MapFromLines32 lines hm ws)) ∧
    (∀ (stride : Nat) (a b : Line2D) (hm : HeatMap) (ws : List Fl),
      vote32 stride a b hm ws = ws ∨
      ∃ iz ix : Nat, iz < hm.Nz ∧ ix < hm.Nx ∧
        (∀ k, k ≠ iz * hm.Nx + ix → (vote32 stride a b hm ws)[k]? = ws[k]?) ∧
        (∀ w, ws[iz * hm.Nx + ix]? = some w →
          (vote32 stride a b hm ws)[iz * hm.Nx + ix]?
            = some (Fl.add round32 w (round32 stride)))) ∧
    (∀ (stride : Nat) (a b : Line2D) (hm : HeatMap) (ws : List Fl) (z x : ℚ),
      Fl.div round32 (Fl.sub round32 (.fin b.c) (.fin a.c))
        (Fl.sub round32 (.fin a.m) (.fin b.m)) = Fl.fin z →
      Fl.add round32 (Fl.mul round32 (.fin a.m) (.fin z)) (.fin a.c) = Fl.fin x →
      (z < a.minz ∨ a.maxz < z) ∧ (z < b.minz ∨ b.maxz < z) →
      hm.ZToBin z ≥ 0 ∧ hm.ZToBin z < hm.Nz ∧ hm.XToBin x ≥ 0 ∧ hm.XToBin x < hm.Nx →
      vote32 stride a b hm ws = ws.modify (fun w => Fl.add round32 w (round32 stride))
        ((hm.ZToBin z).toNat * hm.Nx + (hm.XToBin x).toNat)) ∧
    (∀ (w : Fl) (stride : Nat), w.IsWeight →
      (Fl.add round32 w (round32 stride)).IsWeight ∧
        Fl.le w (Fl.add round32 w (round32 stride)) = true) ∧
    (∀ w stride : Nat, w + stride ≤ 16777216 →
      Fl.add round32 (Fl.fin (w : ℚ)) (round32 (stride : ℚ))
        = Fl.fin ((w : ℚ) + (stride : ℚ))) := by
  refine ⟨?_, ?_, ?_, ?_, vote_out_of_range, MapFromLines_eq_with, MapFromLines32_grows, ?_,
    vote32_adds, fun w stride hw => weight_step w hw stride, weight_step_exact⟩
  · intro lines hm
    rw [MapFromLines_eq_foldl]
    exact foldl_votePair_grows _ lines _ hm
  · intro lines hm
    exact ⟨MapFromLines_eq_foldl lines hm, Nat.le_add_left 1 _⟩
  · intro stride a b hm
    rcases vote_cases stride a b hm with h | ⟨z, iz, ix, hz, _, h1, h2, h3, h4, h⟩
    · exact Or.inl h
    · right
      refine ⟨z, iz, ix, hz, h1, h2, h3, h4, ?_, ?_⟩
      · intro k hk
        rw [h]
        dsimp only
        rw [modify_add_getElem?, if_neg (fun e => hk e.symm)]
      · intro v hv
        rw [h]
        dsimp only
        rw [modify_add_getElem?, if_pos rfl, hv]
        rfl
  · intro stride a b hm z idx hz hbox hin hidx
    have h := vote_adds stride a b hm z idx hz hbox hin hidx
    refine ⟨h, ?_⟩
    intro v hv
    rw [h]
    dsimp only
    rw [modify_add_getElem?, if_pos rfl, hv]
    rfl
  · intro stride a b hm ws
    rcases vote32_cases stride a b hm ws with h | ⟨iz, ix, h1, h2, h⟩
    · exact Or.inl h
    · right
      refine ⟨iz, ix, h1, h2, ?_, ?_⟩
      · intro k hk
        rw [h, modify_getElem?_eq, if_neg (fun e => hk e.symm)]
      · intro w hw
        rw [h, modify_getElem?_eq, if_pos rfl, hw]
        rfl

theorem MapFromLines_additive_witness :
    (5 + 1 ≤ 16777216 ∧
      Fl.add round32 (Fl.fin ((5 : Nat) : ℚ)) (round32 ((1 : Nat) : ℚ))
        = Fl.fin (((5 : Nat) : ℚ) + ((1 : Nat) : ℚ))) ∧
    vote32 1 lineFlat lineDiag hmSquare [.fin 0, .fin 0, .fin 0, .fin 5]
      = [.fin 0, .fin 0, .fin 0, .fin 6] ∧
    Weights.Grows [.fin 0, .fin 0, .fin 0, .fin 5]
      (MapFromLines32 [lineFlat, lineDiag] hmSquare [.fin 0, .fin 0, .fin 0, .fin 5]) ∧
    MapFromLines32 [lineFlat, lineDiag] hmSquare [.fin 0, .fin 0, .fin 0, .fin 5]
      = [.fin 0, .fin 0, .fin 0, .fin 6] ∧
    (MapFromLines [lineFlat, lineDiag] { hmSquare with map := [0, 0, 0, 5] }).map
      = [0, 0, 0, 6] := by
  refine ⟨⟨by decide, MapFromLines_additive.2.2.2.2.2.2.2.2.2.2 5 1 (by decide)⟩, by decide!,
    MapFromLines_additive.2.2.2.2.2.2.1 _ _ _ ?_, by decide!, by decide!⟩
  intro w hw
  simp only [List.mem_cons, List.mem_singleton, List.not_mem_nil, or_false] at hw
  rcases hw with rfl | rfl | rfl | rfl
  · exact round32_nat 0 (by decide)
  · exact round32_nat 0 (by decide)
  · exact round32_nat 0 (by decide)
  · exact round32_nat 5 (by decide)

/-- C15 (as stated) fails in the `float` arithmetic of the source: the vote of the lines `x = 0`
and `x = z`, with weight `stride = 1`, falls into bin `(1, 1)` of the heat map (in exact
arithmetic it raises the weight `16777216` of that bin to `16777217`, and in `float` arithmetic
it raises a weight `5` to `6`), but a `float` weight of `2^24 = 16777216` stays as it is:
`16777217` is not a `float`, and the sum rounds back to `16777216`. -/
theorem vote32_saturates_counterexample :
    round32 16777216 = Fl.fin 16777216 ∧
    vote32 1 lineFlat lineDiag hmSquare [.fin 0, .fin 0, .fin 0, .fin 16777216]
      = [.fin 0, .fin 0, .fin 0, .fin 16777216] ∧
    vote32 1 lineFlat lineDiag hmSquare [.fin 0, .fin 0, .fin 0, .fin 5]
      = [.fin 0, .fin 0, .fin 0, .fin 6] ∧
    (vote 1 lineFlat lineDiag { hmSquare with map := [0, 0, 0, 16777216] }).map
      = [0, 0, 0, 16777217] := by decide!

/-- C22 (amended): for every number `N` of points and every `stride ≥ 1` the three nested loops
of `LinesFromPoints` visit each index pair `(i, j)` with `i < j < N` exactly once and no other
pair.  Hence, when `stride` is the stride of the function, no circle is given and the cap
`kMaxLines` is not reached, the output holds exactly one line for each pair of points that is not
skipped: it is a rearrangement of the lines of the pairs `i < j`.  In exact arithmetic the pairs
that give no line are those with the same `z`.  In the arithmetic of the source a pair gives no
line exactly when its `float` slope or intercept is not finite: always when the two points have
the same `z`, and also when the slope or the intercept overflows. -/
theorem pairOrder_each_pair_once (N : Nat) (stride : Int) (hs : 1 ≤ stride) :
    (∀ i j, List.count (i, j) (pairOrder N stride) = if i < j ∧ j < N then 1 else 0) ∧
    (∀ (sqrt : ℚ → ℚ) (pts : List Pt2D) (z0 x0 R : ℚ), pts.length = N →
      toInt32 (pairProduct N / kMaxLines + 1) = stride → R ≤ 0 →
      ((pairsBelow N).filterMap (pairLine pts)).length < kMaxLines →
      List.Perm (LinesFromPoints sqrt pts [] z0 x0 R) ((pairsBelow N).filterMap (pairLine pts)) ∧
      ∀ i j a b, pts[i]? = some a → pts[j]? = some b →
        (pairLine pts (i, j) = none ↔ a.z = b.z)) ∧
    (∀ (pts : List Pt2D), pts.length = N →
      toInt32 (pairProduct N / kMaxLines + 1) = stride →
      ((pairsBelow N).filterMap (pairLine32 pts)).length < kMaxLines →
      List.Perm (LinesFromPoints32 pts []) ((pairsBelow N).filterMap (pairLine32 pts)) ∧
      ∀ i j a b, pts[i]? = some a → pts[j]? = some b →
        (pairLine32 pts (i, j) = none ↔
          ((Line2D.ctor32 a b).m.isFinite = false ∨ (Line2D.ctor32 a b).c.isFinite = false)) ∧
        (pairLine32 pts (i, j) ≠ none → pairLine32 pts (i, j) = some (Line2D.ctor32 a b)) ∧
        (a.z = b.z → pairLine32 pts (i, j) = none)) := by
  refine ⟨?_, ?_, ?_⟩
  · intro i j
    by_cases h : i < j ∧ j < N
    · rw [if_pos h]
      exact count_eq_one_of_nodup _ _ (pairOrder_nodup N stride hs)
        ((mem_pairOrder_iff N stride hs (i, j)).mpr h)
    · rw [if_neg h]
      exact List.count_eq_zero_of_not_mem
        (fun hm => h ((mem_pairOrder_iff N stride hs (i, j)).mp hm))
  · intro sqrt pts z0 x0 R hN hstride hR hcap
    subst hN
    have hperm : List.Perm ((pairOrder pts.length stride).filterMap (pairLine pts))
        ((pairsBelow pts.length).filterMap (pairLine pts)) :=
      (pairOrder_perm pts.length stride hs).filterMap _
    constructor
    · unfold LinesFromPoints
      dsimp only
      rw [hstride]
      refine (List.perm_insertionSort _ _).trans ?_
      rw [pushLines_eq_filterMap sqrt z0 x0 R hR pts _ []
        (by rw [List.length_nil, Nat.zero_add, hperm.length_eq]; exact hcap)]
      simpa using hperm
    · intro i j a b hi hj
      rw [pairLine_of_getElem pts i j a b hi hj]
      constructor
      · intro hnone
        by_contra hz
        obtain ⟨l, hl, _⟩ := Line2D_ctor_spec a b hz
        rw [hl] at hnone
        exact Option.noConfusion hnone
      · intro hz
        have hm : (Line2D.ctor a b).m = none := by
          simp only [Line2D.ctor, FP.div]
          rw [if_pos (by rw [hz]; ring)]
        unfold RawLine2D.checked
        rw [hm]
  · intro pts hN hstride hcap
    subst hN
    have hperm : List.Perm ((pairOrder pts.length stride).filterMap (pairLine32 pts))
        ((pairsBelow pts.length).filterMap (pairLine32 pts)) :=
      (pairOrder_perm pts.length stride hs).filterMap _
    constructor
    · unfold LinesFromPoints32
      dsimp only
      rw [hstride]
      refine (List.perm_insertionSort _ _).trans ?_
      rw [pushLines32_eq_filterMap pts _ []
        (by rw [List.length_nil, Nat.zero_add, hperm.length_eq]; exact hcap)]
      simpa using hperm
    · intro i j a b hi hj
      rw [pairLine32_of_getElem pts i j a b hi hj]
      refine ⟨?_, ?_, ?_⟩
      · unfold RawLine32.skipped
        cases (Line2D.ctor32 a b).m.isFinite <;> cases (Line2D.ctor32 a b).c.isFinite <;> simp
      · intro hne
        cases hsk : (Line2D.ctor32 a b).skipped with
        | true =>
          rw [hsk] at hne
          exact absurd rfl hne
        | false => rfl
      · intro hz
        rw [ctor32_same_z a b hz]
        rfl

theorem pairOrder_each_pair_once_witness :
    (1 : Int) ≤ 1 ∧ (1 : Int) ≤ 2 ∧
    (∀ i j, List.count (i, j) (pairOrder 4 2) = if i < j ∧ j < 4 then 1 else 0) ∧
    List.Perm (LinesFromPoints sqrtQ ptsTriangle [] 0 0 (-1))
      ((pairsBelow 3).filterMap (pairLine ptsTriangle)) ∧
    List.Perm (LinesFromPoints32 ptsTriangle [])
      ((pairsBelow 3).filterMap (pairLine32 ptsTriangle)) ∧
    ((pairsBelow 3).filterMap (pairLine32 ptsTriangle)).length = 3 :=
  ⟨by decide, by decide, (pairOrder_each_pair_once 4 2 (by decide)).1,
    ((pairOrder_each_pair_once 3 1 (by decide)).2.1 sqrtQ ptsTriangle 0 0 (-1) rfl (by decide)
      (by decide!) (by decide!)).1,
    ((pairOrder_each_pair_once 3 1 (by decide)).2.2 ptsTriangle rfl (by decide)
      (by decide!)).1, by decide!⟩

/-- C22 (as stated) fails in the arithmetic of the source: the points `(x, z) = (0, 0)` and
`(2^128, 1)` have distinct `z`, the cap is not reached and no circle is given, but the slope
`2^128` is `+inf` as a `float`, the pair is skipped and the output is empty; in exact arithmetic
the pair gives a line. -/
theorem LinesFromPoints32_steep_counterexample :
    ptLow.z ≠ ptSteep.z ∧ (Line2D.ctor32 ptLow ptSteep).m = Fl.inf false ∧
    (Line2D.ctor32 ptLow ptSteep).skipped = true ∧
    LinesFromPoints32 [ptLow, ptSteep] [] = [] ∧
    (LinesFromPoints sqrtQ [ptLow, ptSteep] [] 0 0 (-1)).length = 1 := by decide!

/-- C24 (amended): for a non-empty list of `N` points of view 0 whose `z` are finite as `float`,
the upper bound of the coarse heat map of view 0 is the element of rank `N/4` (from 0) of the
`float` values of `z` in ascending order, with no padding; it is the `float` value of the `z` of
that rank; at most `N/4` of the `float` values lie strictly below it and at least `N/4 + 1` at or
below it.  The lower bound is the `float` nearest to `lo - 100`, where `lo` is the smaller of
`1e9` and the least `float` value of `z`. -/
theorem view0Bounds_spec (pts0 : List Pt2D) (hne : pts0 ≠ [])
    (hfin : ∀ p ∈ pts0, (round32 p.z).isFinite = true) :
    ∃ lo hi : ℚ, view0Bounds32 pts0 = (round32 (lo - 100), Fl.fin hi) ∧
      ((pts0.map (fun p => (round32 p.z).toRat)).insertionSort (fun a b => a ≤ b))[
          pts0.length / 4]? = some hi ∧
      (∃ z, ((pts0.map (fun p => p.z)).insertionSort (fun a b => a ≤ b))[pts0.length / 4]?
          = some z ∧ round32 z = Fl.fin hi) ∧
      (pts0.map (fun p => (round32 p.z).toRat)).countP (fun z => decide (z < hi))
          ≤ pts0.length / 4 ∧
      pts0.length / 4 + 1
          ≤ (pts0.map (fun p => (round32 p.z).toRat)).countP (fun z => decide (z ≤ hi)) ∧
      lo ≤ 1000000000 ∧ (∀ p ∈ pts0, lo ≤ (round32 p.z).toRat) ∧
      (lo = 1000000000 ∨ ∃ p ∈ pts0, lo = (round32 p.z).toRat) := by
  have hpos : 0 < pts0.length := List.length_pos.mpr hne
  have hlt : pts0.length / 4 < pts0.length := Nat.div_lt_self hpos (by decide)
  obtain ⟨hi, hhi, hr1, hr2⟩ := rank_facts (pts0.map (fun p => (round32 p.z).toRat))
    (pts0.length / 4) (by rw [List.length_map]; exact hlt)
  obtain ⟨h1, h2, h3⟩ := extentBy_fst (fun p => (round32 p.z).toRat) pts0
    (1000000000, 1000000000)
  refine ⟨(extentBy (fun p => (round32 p.z).toRat) pts0 (1000000000, 1000000000)).1, hi,
    ?_, hhi, ?_, hr1, hr2, h1, h2, h3⟩
  · unfold view0Bounds32
    dsimp only
    rw [foldl_min32 pts0 1000000000 hfin, List.length_map, if_pos hlt]
    rw [sub32_fin]
    have hn : nthElement32 (pts0.map (fun p => round32 p.z)) (pts0.length / 4) = Fl.fin hi := by
      unfold nthElement32
      rw [map_round32_eq pts0 hfin, insertionSort_map_fin, List.getD_eq_getElem?_getD,
        List.getElem?_map, hhi]
      rfl
    rw [hn]
  · have hz : ∀ z ∈ pts0.map (fun p => p.z), (round32 z).isFinite = true := by
      intro z hz
      obtain ⟨p, hp, rfl⟩ := List.mem_map.mp hz
      exact hfin p hp
    have e := insertionSort_map_round32 (pts0.map (fun p => p.z)) hz
    rw [List.map_map] at e
    have e' : (fun z => (round32 z).toRat) ∘ (fun p : Pt2D => p.z)
        = fun p => (round32 p.z).toRat := rfl
    rw [e'] at e
    rw [e, List.getElem?_map] at hhi
    cases hz' : ((pts0.map (fun p => p.z)).insertionSort (fun a b => a ≤ b))[pts0.length / 4]?
      with
    | none =>
      rw [hz'] at hhi
      exact Option.noConfusion hhi
    | some z =>
      rw [hz'] at hhi
      refine ⟨z, rfl, ?_⟩
      have hzm : z ∈ pts0.map (fun p => p.z) :=
        (List.perm_insertionSort (fun a b : ℚ => a ≤ b) _).mem_iff.mp
          (List.mem_iff_getElem?.mpr ⟨_, hz'⟩)
      have := fin_toRat_of_isFinite _ (hz z hzm)
      rw [← this]
      congr 1
      exact Option.some.inj hhi

theorem view0Bounds_spec_witness :
    ptsTriangle ≠ [] ∧ (∀ p ∈ ptsTriangle, (round32 p.z).isFinite = true) ∧
    view0Bounds32 ptsTriangle = (Fl.fin (-100), Fl.fin 0) ∧
    ∃ lo hi : ℚ, view0Bounds32 ptsTriangle = (round32 (lo - 100), Fl.fin hi) ∧
      ((ptsTriangle.map (fun p => (round32 p.z).toRat)).insertionSort (fun a b => a ≤ b))[
          ptsTriangle.length / 4]? = some hi ∧
      (∃ z, ((ptsTriangle.map (fun p => p.z)).insertionSort (fun a b => a ≤ b))[
          ptsTriangle.length / 4]? = some z ∧ round32 z = Fl.fin hi) ∧
      (ptsTriangle.map (fun p => (round32 p.z).toRat)).countP (fun z => decide (z < hi))
          ≤ ptsTriangle.length / 4 ∧
      ptsTriangle.length / 4 + 1
          ≤ (ptsTriangle.map (fun p => (round32 p.z).toRat)).countP (fun z => decide (z ≤ hi)) ∧
      lo ≤ 1000000000 ∧ (∀ p ∈ ptsTriangle, lo ≤ (round32 p.z).toRat) ∧
      (lo = 1000000000 ∨ ∃ p ∈ ptsTriangle, lo = (round32 p.z).toRat) :=
  ⟨by decide, by decide!, by decide!, view0Bounds_spec ptsTriangle (by decide) (by decide!)⟩

/-- C24 (as stated) fails in the `float` arithmetic of the source.  For the single point with
`z = 0.1` (as a `double`) the upper bound is the `float` nearest to `0.1`, which is above `z`:
one point lies strictly below the bound, where the claim allows `N/4 = 0`; and the lower bound
is the `float` nearest to `float(z) - 100`, not `z - 100`.  For the single point with `z = 2e9`
the lower bound is `999999872`, the `float` nearest to `1e9 - 100`, and not `z - 100`. -/
theorem view0Bounds_float_counterexample :
    view0Bounds32 [ptTenth] = (Fl.fin (-13094093 / 131072), Fl.fin (13421773 / 134217728)) ∧
    ptTenth.z < 13421773 / 134217728 ∧ [ptTenth].length / 4 = 0 ∧
    (-13094093 / 131072 : ℚ) ≠ ptTenth.z - 100 ∧
    (view0Bounds32 [ptDistant]).1 = Fl.fin 999999872 ∧
    (999999872 : ℚ) ≠ ptDistant.z - 100 := by decide!

/-- Near the threshold the `float` test and the exact test differ: for the slopes `1` and
`0x1.6d9b1ep+0`, whose angles are a little more than 10 degrees apart, `CloseAngles` is true in
the `float` arithmetic of the source and false in exact arithmetic. -/
theorem CloseAngles32_threshold_example :
    round32 (11980175 / 8388608) = Fl.fin (11980175 / 8388608) ∧
    CloseAngles32 (.fin 1) (.fin (11980175 / 8388608)) = true ∧
    CloseAngles 1 (11980175 / 8388608) = false := by decide!

/-! ## The angular test in floating-point arithmetic -/

theorem pow2_neg150 : pow2 (-126 - ((24 : Nat) : Int))
    = 1 / 1427247692705959881058285969449495136382746624 := by
  rw [pow2_eq]
  norm_num

/-- Rounding to `float` of a value of magnitude at most `2^127`: the result is finite and within
`|x| / 2^24 + 2^(-150)` of `x`. -/
theorem round32_err (x : ℚ) (hx : |x| ≤ 170141183460469231731687303715884105728) :
    ∃ r, round32 x = Fl.fin r ∧
      |r - x| ≤ |x| / 16777216 + 1 / 1427247692705959881058285969449495136382746624 := by
  have hr := roundVal_abs_err 24 (-126) 127 x
  rw [pow2_neg24, pow2_neg150] at hr
  refine ⟨roundVal 24 (-126) 127 x, ?_, by linarith⟩
  rw [round32_eq, if_neg]
  rw [pow2_128, not_le]
  have h1 : |roundVal 24 (-126) 127 x| ≤ |roundVal 24 (-126) 127 x - x| + |x| := by
    have := abs_add (roundVal 24 (-126) 127 x - x) x
    simpa using this
  have h0 := abs_nonneg x
  linarith

theorem abs_mul_le_mul {x y a b : ℚ} (hx : |x| ≤ a) (hy : |y| ≤ b) : |x * y| ≤ a * b := by
  rw [abs_mul]
  exact mul_le_mul hx hy (abs_nonneg y) (le_trans (abs_nonneg x) hx)

/-- The `float` value of `1 + sqr(m)` for `|m| ≤ 2^30`: finite and within `3 * 2^(-24)` of the
exact value, relatively. -/
theorem one_add_sq32_err (m : ℚ) (hm : |m| ≤ 1073741824) :
    ∃ a, Fl.add round32 (.fin 1) (Fl.mul round32 (.fin m) (.fin m)) = Fl.fin a ∧
      |a - (1 + m * m)| ≤ 3 / 16777216 * (1 + m * m) := by
  have hq0 : 0 ≤ m * m := mul_self_nonneg m
  have hq : m * m ≤ 1152921504606846976 := by
    have := abs_mul_le_mul hm hm
    rw [abs_of_nonneg hq0] at this
    norm_num at this
    exact this
  obtain ⟨s, hs, hse⟩ := round32_err (m * m) (by rw [abs_of_nonneg hq0]; linarith)
  rw [abs_of_nonneg hq0] at hse
  have e1 : Fl.mul round32 (.fin m) (.fin m) = round32 (m * m) := rfl
  rw [e1, hs]
  have e2 : Fl.add round32 (.fin 1) (.fin s) = round32 (1 + s) := rfl
  rw [e2]
  obtain ⟨hs1, hs2⟩ := abs_le.mp hse
  have h1s : |1 + s| ≤ 1 + m * m + (m * m / 16777216
      + 1 / 1427247692705959881058285969449495136382746624) := by
    rw [abs_le]
    constructor <;> linarith
  obtain ⟨a, ha, hae⟩ := round32_err (1 + s) (by linarith)
  refine ⟨a, ha, ?_⟩
  obtain ⟨ha1, ha2⟩ := abs_le.mp hae
  rw [abs_le]
  constructor <;> linarith

/-- The `float` value of `dot = 1 + ma*mb` for `|ma|, |mb| ≤ 2^30`: finite and within
`3 * 2^(-24) * (1 + |ma*mb|)` of the exact value. -/
theorem dot32_err (ma mb : ℚ) (ha : |ma| ≤ 1073741824) (hb : |mb| ≤ 1073741824) :
    ∃ d, Fl.add round32 (.fin 1) (Fl.mul round32 (.fin ma) (.fin mb)) = Fl.fin d ∧
      |d - (1 + ma * mb)| ≤ 3 / 16777216 * (1 + |ma * mb|) := by
  have hX0 : 0 ≤ |ma * mb| := abs_nonneg _
  have hX : |ma * mb| ≤ 1152921504606846976 := by
    have := abs_mul_le_mul ha hb
    norm_num at this
    exact this
  obtain ⟨t, ht, hte⟩ := round32_err (ma * mb) (by linarith)
  have e1 : Fl.mul round32 (.fin ma) (.fin mb) = round32 (ma * mb) := rfl
  rw [e1, ht]
  have e2 : Fl.add round32 (.fin 1) (.fin t) = round32 (1 + t) := rfl
  rw [e2]
  obtain ⟨ht1, ht2⟩ := abs_le.mp hte
  obtain ⟨hp1, hp2⟩ := abs_le.mp (le_refl |ma * mb|)
  have h1t : |1 + t| ≤ 1 + |ma * mb| + (|ma * mb| / 16777216
      + 1 / 1427247692705959881058285969449495136382746624) := by
    rw [abs_le]
    constructor <;> linarith
  obtain ⟨d, hd, hde⟩ := round32_err (1 + t) (by linarith)
  refine ⟨d, hd, ?_⟩
  obtain ⟨hd1, hd2⟩ := abs_le.mp hde
  rw [abs_le]
  constructor <;> linarith

/-- The `float` square of an approximation `d` of `D`: within `9 * 2^(-24) * N` of `D^2`, when
`|D| ≤ Y`, `Y^2 ≤ N` and `d` is within `3 * 2^(-24) * Y` of `D`. -/
theorem sq32_err (d D Y N : ℚ) (hY1 : 1 ≤ Y) (hD : |D| ≤ Y) (hYN : Y * Y ≤ N)
    (hN : N ≤ 21267647932558653966460912964485513216)
    (hd : |d - D| ≤ 3 / 16777216 * Y) :
    ∃ l, Fl.mul round32 (.fin d) (.fin d) = Fl.fin l ∧ |l - D * D| ≤ 9 / 16777216 * N := by
  have hN1 : 1 ≤ N := by nlinarith
  have hsum : |d + D| ≤ (3 / 16777216 + 2) * Y := by
    have h1 : d + D = (d - D) + 2 * D := by ring
    rw [h1]
    have h2 := abs_add (d - D) (2 * D)
    have h3 : |2 * D| = 2 * |D| := by rw [abs_mul, abs_of_pos (by norm_num : (0 : ℚ) < 2)]
    rw [h3] at h2
    linarith
  have hprod := abs_mul_le_mul hd hsum
  have e : (d - D) * (d + D) = d * d - D * D := by ring
  rw [e] at hprod
  have hb : 3 / 16777216 * Y * ((3 / 16777216 + 2) * Y) ≤ 7 / 16777216 * N := by
    have : 3 / 16777216 * Y * ((3 / 16777216 + 2) * Y)
        = (3 / 16777216 * (3 / 16777216 + 2)) * (Y * Y) := by ring
    rw [this]
    have h0 : 0 ≤ Y * Y := mul_self_nonneg Y
    nlinarith
  have hDD : D * D ≤ N := by
    have h1 : D * D = |D| * |D| := (abs_mul_abs_self D).symm
    have h2 : |D| * |D| ≤ Y * Y := mul_le_mul hD hD (abs_nonneg D) (by linarith)
    linarith
  obtain ⟨hp1, hp2⟩ := abs_le.mp (le_trans hprod hb)
  have hdd0 : 0 ≤ d * d := mul_self_nonneg d
  have hddN : d * d ≤ (1 + 7 / 16777216) * N := by linarith
  obtain ⟨l, hl, hle⟩ := round32_err (d * d) (by rw [abs_of_nonneg hdd0]; linarith)
  rw [abs_of_nonneg hdd0] at hle
  have e1 : Fl.mul round32 (.fin d) (.fin d) = round32 (d * d) := rfl
  rw [e1]
  refine ⟨l, hl, ?_⟩
  obtain ⟨hl1, hl2⟩ := abs_le.mp hle
  rw [abs_le]
  constructor <;> linarith

/-- The `float` value of `(1+sqr(ma))*(1+sqr(mb))*sqr(cosCrit)` from approximations of the two
factors: within `11 * 2^(-24) * A * B` of `A * B * c2`, where `c2` is the `float` value of
`sqr(cosCrit)`. -/
theorem rhs32_err (a1 a2 A B : ℚ) (hA1 : 1 ≤ A) (hB1 : 1 ≤ B)
    (hAB : A * B ≤ 21267647932558653966460912964485513216)
    (h1 : |a1 - A| ≤ 3 / 16777216 * A) (h2 : |a2 - B| ≤ 3 / 16777216 * B) :
    ∃ r, Fl.mul round32 (Fl.mul round32 (.fin a1) (.fin a2)) (.fin (8135661 / 8388608))
        = Fl.fin r ∧
      |r - A * B * (8135661 / 8388608)| ≤ 11 / 16777216 * (A * B) := by
  have hN1 : 1 ≤ A * B := by nlinarith
  have ha2 : |a2| ≤ (1 + 3 / 16777216) * B := by
    have h3 : a2 = (a2 - B) + B := by ring
    have h4 := abs_add (a2 - B) B
    rw [← h3, abs_of_nonneg (by linarith : (0 : ℚ) ≤ B)] at h4
    linarith
  have hp1 := abs_mul_le_mul h1 ha2
  have hp2 : |A * (a2 - B)| ≤ A * (3 / 16777216 * B) := by
    rw [abs_mul, abs_of_nonneg (by linarith : (0 : ℚ) ≤ A)]
    exact mul_le_mul_of_nonneg_left h2 (by linarith)
  have e : a1 * a2 - A * B = (a1 - A) * a2 + A * (a2 - B) := by ring
  have hdiff : |a1 * a2 - A * B| ≤ 7 / 16777216 * (A * B) := by
    rw [e]
    have h5 := abs_add ((a1 - A) * a2) (A * (a2 - B))
    have h6 : 3 / 16777216 * A * ((1 + 3 / 16777216) * B) + A * (3 / 16777216 * B)
        ≤ 7 / 16777216 * (A * B) := by
      have : 3 / 16777216 * A * ((1 + 3 / 16777216) * B) + A * (3 / 16777216 * B)
          = (3 / 16777216 * (1 + 3 / 16777216) + 3 / 16777216) * (A * B) := by ring
      rw [this]
      nlinarith
    linarith
  obtain ⟨hd1, hd2⟩ := abs_le.mp hdiff
  have hprod : |a1 * a2| ≤ (1 + 7 / 16777216) * (A * B) := by
    rw [abs_le]
    constructor <;> linarith
  obtain ⟨ab, hab, habe⟩ := round32_err (a1 * a2) (by linarith)
  have e1 : Fl.mul round32 (.fin a1) (.fin a2) = round32 (a1 * a2) := rfl
  rw [e1, hab]
  obtain ⟨hab1, hab2⟩ := abs_le.mp habe
  have habs : |ab - A * B| ≤ 9 / 16777216 * (A * B) := by
    rw [abs_le]
    constructor <;> linarith
  obtain ⟨hq1, hq2⟩ := abs_le.mp habs
  have habc : |ab * (8135661 / 8388608)| ≤ (1 + 9 / 16777216) * (A * B) := by
    rw [abs_mul, abs_of_pos (by norm_num : (0 : ℚ) < 8135661 / 8388608)]
    have : |ab| ≤ (1 + 9 / 16777216) * (A * B) := by
      rw [abs_le]
      constructor <;> linarith
    nlinarith [abs_nonneg ab]
  obtain ⟨r, hr, hre⟩ := round32_err (ab * (8135661 / 8388608)) (by linarith)
  have e2 : Fl.mul round32 (.fin ab) (.fin (8135661 / 8388608))
      = round32 (ab * (8135661 / 8388608)) := rfl
  rw [e2]
  refine ⟨r, hr, ?_⟩
  obtain ⟨hr1, hr2⟩ := abs_le.mp hre
  rw [abs_le]
  constructor <;> linarith

/-- In the `float` arithmetic of the source, for slopes with `|m| ≤ 2^30`, the verdict of
`CloseAngles` agrees with the exact comparison of `(1 + ma*mb)^2` with
`cosCrit^2 * (1 + ma^2) * (1 + mb^2)` up to a relative tolerance of `1/500000` of the
right-hand side. -/
theorem CloseAngles32_near (ma mb : ℚ) (ha : |ma| ≤ 1073741824) (hb : |mb| ≤ 1073741824) :
    (CloseAngles32 (.fin ma) (.fin mb) = true →
      (cosCrit ^ 2 - 1 / 500000) * ((1 + ma ^ 2) * (1 + mb ^ 2)) < (1 + ma * mb) ^ 2) ∧
    (CloseAngles32 (.fin ma) (.fin mb) = false →
      (1 + ma * mb) ^ 2 ≤ (cosCrit ^ 2 + 1 / 500000) * ((1 + ma ^ 2) * (1 + mb ^ 2))) := by
  have hqa0 : 0 ≤ ma * ma := mul_self_nonneg ma
  have hqb0 : 0 ≤ mb * mb := mul_self_nonneg mb
  have hqa : ma * ma ≤ 1152921504606846976 := by
    have := abs_mul_le_mul ha ha
    rw [abs_of_nonneg hqa0] at this
    norm_num at this
    exact this
  have hqb : mb * mb ≤ 1152921504606846976 := by
    have := abs_mul_le_mul hb hb
    rw [abs_of_nonneg hqb0] at this
    norm_num at this
    exact this
  have hAB : (1 + ma * ma) * (1 + mb * mb) ≤ 21267647932558653966460912964485513216 := by
    have h1 : (1 + ma * ma) * (1 + mb * mb)
        ≤ (1 + 1152921504606846976) * (1 + 1152921504606846976) :=
      mul_le_mul (by linarith) (by linarith) (by linarith) (by linarith)
    have h2 : ((1 : ℚ) + 1152921504606846976) * (1 + 1152921504606846976)
        ≤ 21267647932558653966460912964485513216 := by norm_num
    linarith
  -- |ma*mb| ≤ (ma^2 + mb^2)/2, so (1 + |ma*mb|)^2 ≤ (1 + ma^2) * (1 + mb^2)
  have hX0 : 0 ≤ |ma * mb| := abs_nonneg _
  have hXX : |ma * mb| * |ma * mb| = (ma * ma) * (mb * mb) := by
    rw [abs_mul_abs_self]
    ring
  have hX2 : 2 * |ma * mb| ≤ ma * ma + mb * mb := by
    rw [abs_mul]
    nlinarith [sq_nonneg (|ma| - |mb|), abs_mul_abs_self ma, abs_mul_abs_self mb]
  have hYN : (1 + |ma * mb|) * (1 + |ma * mb|) ≤ (1 + ma * ma) * (1 + mb * mb) := by
    nlinarith
  have hD : |1 + ma * mb| ≤ 1 + |ma * mb| := by
    have := abs_add 1 (ma * mb)
    rwa [abs_one] at this
  obtain ⟨d, hd, hde⟩ := dot32_err ma mb ha hb
  obtain ⟨l, hl, hle⟩ := sq32_err d (1 + ma * mb) (1 + |ma * mb|)
    ((1 + ma * ma) * (1 + mb * mb)) (by linarith) hD hYN hAB hde
  obtain ⟨a1, ha1, ha1e⟩ := one_add_sq32_err ma ha
  obtain ⟨a2, ha2, ha2e⟩ := one_add_sq32_err mb hb
  obtain ⟨r, hr, hre⟩ := rhs32_err a1 a2 (1 + ma * ma) (1 + mb * mb) (by linarith) (by linarith)
    hAB ha1e ha2e
  have hval : CloseAngles32 (.fin ma) (.fin mb) = decide (r < l) := by
    unfold CloseAngles32
    dsimp only
    rw [hd, hl, ha1, ha2, cosCrit_sq32, hr]
    rfl
  rw [hval]
  obtain ⟨hl1, hl2⟩ := abs_le.mp hle
  obtain ⟨hr1, hr2⟩ := abs_le.mp hre
  have hN1 : 1 ≤ (1 + ma * ma) * (1 + mb * mb) := by nlinarith
  have hc : cosCrit ^ 2 = 272987487762889 / 281474976710656 := by
    unfold cosCrit
    norm_num
  have e1 : (1 + ma * mb) ^ 2 = (1 + ma * mb) * (1 + ma * mb) := by ring
  have e2 : (1 + ma ^ 2) * (1 + mb ^ 2) = (1 + ma * ma) * (1 + mb * mb) := by ring
  rw [hc, e1, e2]
  generalize (1 + ma * ma) * (1 + mb * mb) = N at hl1 hl2 hr1 hr2 hN1 ⊢
  generalize (1 + ma * mb) * (1 + ma * mb) = DD at hl1 hl2 ⊢
  constructor
  · intro h
    have hlt : r < l := of_decide_eq_true h
    linarith
  · intro h
    have hge : l ≤ r := not_lt.mp (of_decide_eq_false h)
    linarith

theorem CloseAngles32_near_cos (ma mb : ℚ) (ha : |ma| ≤ 1073741824) (hb : |mb| ≤ 1073741824) :
    (CloseAngles32 (.fin ma) (.fin mb) = true →
      Real.cos (Real.arctan (ma : ℝ) - Real.arctan (mb : ℝ)) ^ 2
        > (cosCrit : ℝ) ^ 2 - 1 / 500000) ∧
    (CloseAngles32 (.fin ma) (.fin mb) = false →
      Real.cos (Real.arctan (ma : ℝ) - Real.arctan (mb : ℝ)) ^ 2
        ≤ (cosCrit : ℝ) ^ 2 + 1 / 500000) := by
  have hN : 0 < (1 + (ma : ℝ) ^ 2) * (1 + (mb : ℝ) ^ 2) := by positivity
  obtain ⟨h1, h2⟩ := CloseAngles32_near ma mb ha hb
  rw [cos_sq_arctan_sub]
  constructor
  · intro h
    have := h1 h
    have hr : (((cosCrit ^ 2 - 1 / 500000) * ((1 + ma ^ 2) * (1 + mb ^ 2)) : ℚ) : ℝ)
        < (((1 + ma * mb) ^ 2 : ℚ) : ℝ) := Rat.cast_lt.mpr this
    push_cast at hr
    rw [gt_iff_lt, lt_div_iff₀ hN]
    exact hr
  · intro h
    have := h2 h
    have hr : (((1 + ma * mb) ^ 2 : ℚ) : ℝ)
        ≤ (((cosCrit ^ 2 + 1 / 500000) * ((1 + ma ^ 2) * (1 + mb ^ 2)) : ℚ) : ℝ) :=
      Rat.cast_le.mpr this
    push_cast at hr
    rw [div_le_iff₀ hN]
    exact hr

theorem cos_sq_le_of_fifteen (d : ℝ) (h1 : Real.pi / 12 ≤ |d|) (h2 : |d| ≤ 11 * Real.pi / 12) :
    Real.cos d ^ 2 ≤ 1 / 2 + Real.sqrt 3 / 4 := by
  have hpi := Real.pi_pos
  have hc : Real.cos (2 * |d|) ≤ Real.sqrt 3 / 2 := by
    rw [← Real.cos_pi_div_six]
    by_cases ht : 2 * |d| ≤ Real.pi
    · apply Real.cos_le_cos_of_nonneg_of_le_pi <;> linarith
    · have e : Real.cos (2 * |d|) = Real.cos (2 * Real.pi - 2 * |d|) :=
        (Real.cos_two_pi_sub _).symm
      rw [e]
      apply Real.cos_le_cos_of_nonneg_of_le_pi <;> linarith
  rw [← Real.cos_abs d, Real.cos_sq]
  linarith

theorem sqrt_three_lt : Real.sqrt 3 < 1733 / 1000 := by
  rw [Real.sqrt_lt' (by norm_num)]
  norm_num

/-- C14 (amended): `CloseAngles(m, m_far)` is true exactly when the square of the cosine of the
angle between the direction vectors `(1, m)` and `(1, m_far)`, which is
`cos(atan m - atan m_far)^2`, exceeds `cosCrit^2`: this holds in exact arithmetic, where
`CloseAngles` is therefore false for all slopes with `10° ≤ |atan m - atan m_far| ≤ 170°`
(beyond 170 degrees the two lines are close again), and it holds in the `float` arithmetic of
the source up to a tolerance of `1/500000` on the squared cosine, for slopes with
`|m| ≤ 2^30`: there a true verdict gives `cos^2 > cosCrit^2 - 1/500000`, a false verdict gives
`cos^2 ≤ cosCrit^2 + 1/500000`, and `CloseAngles` is false for all slopes with
`15° ≤ |atan m - atan m_far| ≤ 165°`. -/
theorem CloseAngles_angle (ma mb : ℚ) :
    (CloseAngles ma mb = true ↔
      Real.cos (Real.arctan (ma : ℝ) - Real.arctan (mb : ℝ)) ^ 2 > (cosCrit : ℝ) ^ 2) ∧
    (10 * Real.pi / 180 ≤ |Real.arctan (ma : ℝ) - Real.arctan (mb : ℝ)| →
      |Real.arctan (ma : ℝ) - Real.arctan (mb : ℝ)| ≤ 170 * Real.pi / 180 →
      CloseAngles ma mb = false) ∧
    (|ma| ≤ 1073741824 → |mb| ≤ 1073741824 →
      (CloseAngles32 (.fin ma) (.fin mb) = true →
        Real.cos (Real.arctan (ma : ℝ) - Real.arctan (mb : ℝ)) ^ 2
          > (cosCrit : ℝ) ^ 2 - 1 / 500000) ∧
      (CloseAngles32 (.fin ma) (.fin mb) = false →
        Real.cos (Real.arctan (ma : ℝ) - Real.arctan (mb : ℝ)) ^ 2
          ≤ (cosCrit : ℝ) ^ 2 + 1 / 500000) ∧
      (15 * Real.pi / 180 ≤ |Real.arctan (ma : ℝ) - Real.arctan (mb : ℝ)| →
        |Real.arctan (ma : ℝ) - Real.arctan (mb : ℝ)| ≤ 165 * Real.pi / 180 →
        CloseAngles32 (.fin ma) (.fin mb) = false)) := by
  refine ⟨CloseAngles_iff_cos_sq ma mb, ?_, ?_⟩
  · intro h1 h2
    have hle := cos_sq_le_of_between (Real.arctan (ma : ℝ) - Real.arctan (mb : ℝ))
      (by linarith) (by linarith)
    have hlt : Real.cos (Real.pi / 18) ^ 2 < (cosCrit : ℝ) ^ 2 := by
      have h0 : 0 ≤ Real.cos (Real.pi / 18) := by
        apply Real.cos_nonneg_of_neg_pi_div_two_le_of_le <;> linarith [Real.pi_pos]
      have := cos_ten_degrees_lt_cosCrit
      nlinarith
    cases hc : CloseAngles ma mb with
    | false => rfl
    | true =>
      have := (CloseAngles_iff_cos_sq ma mb).mp hc
      linarith
  · intro ha hb
    obtain ⟨h1, h2⟩ := CloseAngles32_near_cos ma mb ha hb
    refine ⟨h1, h2, ?_⟩
    intro h15 h165
    have hle := cos_sq_le_of_fifteen (Real.arctan (ma : ℝ) - Real.arctan (mb : ℝ))
      (by linarith) (by linarith)
    have hs := sqrt_three_lt
    have hq : (cosCrit : ℝ) = 16522333 / 16777216 := by
      unfold cosCrit
      push_cast
      rfl
    cases hc : CloseAngles32 (.fin ma) (.fin mb) with
    | false => rfl
    | true =>
      have := h1 hc
      rw [hq] at this
      norm_num at this
      linarith

theorem CloseAngles_angle_witness :
    (10 * Real.pi / 180 ≤ |Real.arctan ((0 : ℚ) : ℝ) - Real.arctan ((1 : ℚ) : ℝ)| ∧
      |Real.arctan ((0 : ℚ) : ℝ) - Real.arctan ((1 : ℚ) : ℝ)| ≤ 170 * Real.pi / 180) ∧
    CloseAngles 0 1 = false ∧
    (|(0 : ℚ)| ≤ 1073741824 ∧ |(1 : ℚ)| ≤ 1073741824) ∧
    CloseAngles32 (.fin 0) (.fin 1) = false := by
  have e : |Real.arctan ((0 : ℚ) : ℝ) - Real.arctan ((1 : ℚ) : ℝ)| = Real.pi / 4 := by
    rw [Rat.cast_zero, Rat.cast_one, Real.arctan_zero, Real.arctan_one, zero_sub, abs_neg,
      abs_of_pos (by linarith [Real.pi_pos])]
  have h1 : 10 * Real.pi / 180 ≤ |Real.arctan ((0 : ℚ) : ℝ) - Real.arctan ((1 : ℚ) : ℝ)| := by
    rw [e]; linarith [Real.pi_pos]
  have h2 : |Real.arctan ((0 : ℚ) : ℝ) - Real.arctan ((1 : ℚ) : ℝ)| ≤ 170 * Real.pi / 180 := by
    rw [e]; linarith [Real.pi_pos]
  have h3 : 15 * Real.pi / 180 ≤ |Real.arctan ((0 : ℚ) : ℝ) - Real.arctan ((1 : ℚ) : ℝ)| := by
    rw [e]; linarith [Real.pi_pos]
  have h4 : |Real.arctan ((0 : ℚ) : ℝ) - Real.arctan ((1 : ℚ) : ℝ)| ≤ 165 * Real.pi / 180 := by
    rw [e]; linarith [Real.pi_pos]
  have ha : |(0 : ℚ)| ≤ 1073741824 := by norm_num
  have hb : |(1 : ℚ)| ≤ 1073741824 := by norm_num
  exact ⟨⟨h1, h2⟩, (CloseAngles_angle 0 1).2.1 h1 h2, ⟨ha, hb⟩,
    ((CloseAngles_angle 0 1).2.2 ha hb).2.2 h3 h4⟩

end quad
